import Mathlib

/-!
# Dungeon adventure: item references, name rendering and the transactional move

A shallow embedding of `dungeon.cc`.

Conventions of the embedding.

* `std::string` is `String`; the regular expressions of the source are
  written out as functions on `List Char`.  They follow the ECMAScript
  grammar as `std::regex` runs it: alternatives are tried in order,
  quantifiers are greedy unless marked lazy, `.` matches every character
  except the line terminators `\n` and `\r`, `^` and `$` match only at the
  two ends of the input, and `\b` separates a word character (an ASCII
  letter, digit or `_`) from a non-word character or an end of the input.
* `long` and `std::size_t` values are `Int` and `Nat`; `std::stol` is
  modelled with its range check.  Signed overflow is undefined in the source.
  The one place of `move` where a sum can leave the range of `long`, the
  addition to a money count of the target, is modelled twice: with the count
  as an integer (`Eq.move`), and in the arithmetic of `long`, wrapping around
  as the compiled program does (`Eq.moveLong`); the two are the same function
  as long as the counts of both containers together fit a `long`.
* `float chest` is a rational number (every finite float is one); the float
  literals `0.35f` and `0.75f` are given by their exact values.
* `std::deque` is `List`: `push_back` appends, `push_front` conses.
* The three attribute indices of an item are natural numbers; a table
  lookup outside the table (undefined in the source) yields an empty entry.
* The formatter of `printf.hh` is read as `printf`: `%s` inserts a string
  and `%d`, `%u`, `%ld` insert a decimal number.
* The tables hold the decimal constants as the source writes them.  The
  weight and the value of an item are computed in `float` as in the source:
  every constant and every product is rounded to the nearest `float`, a tie
  going to the even significand.
* The global stream `rnd` and the global `maze` are passed along: a function
  that draws or generates takes the state before and returns the state
  after.  The generator and the distributions of the standard library are a
  parameter (`RandomStream`); a draw of `frand()` is a rational number, and
  the `double` and `float` literals that a draw is compared with are given
  by their exact values.
* The map `rooms` of the maze is a function from the two coordinates to the
  room stored there, if any.
-/

namespace Dungeon

/-! ## Characters and small regular-expression building blocks -/

/-- Line terminators: the characters that `.` refuses to match. -/
def isLineEnd (c : Char) : Bool := c == '\n' || c == '\r'

/-- Word characters of the escape `\b` and of the class `\w`. -/
def isWordChar (c : Char) : Bool := c.isAlphanum || c == '_'

/-- Decimal digits, the class `[0-9]`. -/
def isDigitChar (c : Char) : Bool := c.isDigit

/-- The rest of `s` after the literal `lit`, when `s` begins with `lit`. -/
def after : List Char → List Char → Option (List Char)
  | [], s => some s
  | _ :: _, [] => none
  | a :: lit, c :: s => if a = c then after lit s else none

/-- Whether `s` begins with the literal `lit`. -/
def startsWith (lit s : List Char) : Bool := (after lit s).isSome

/-- The pattern `\b` right after a word character: the input ends or goes on
with a non-word character. -/
def wordEnds : List Char → Bool
  | [] => true
  | c :: _ => !isWordChar c

/-- The pattern `lit\b` at the start of `s`, for a literal that ends in a
word character. -/
def startsWithWord (lit s : List Char) : Bool :=
  match after lit s with
  | some r => wordEnds r
  | none => false

/-- Drop the spaces at the start, the greedy pattern ` *`. -/
def dropSpaces : List Char → List Char
  | [] => []
  | c :: s => if c = ' ' then dropSpaces s else c :: s

/-- The pattern `lit +` at the start of `s`: the literal, then one or more
spaces; gives what follows the spaces. -/
def afterWordSpaces (lit s : List Char) : Option (List Char) :=
  match after lit s with
  | some (' ' :: r) => some (dropSpaces r)
  | _ => none

/-- Whether the literal `lit` occurs somewhere in `s` (`regex_search` with a
literal pattern). -/
def occurs (lit : List Char) : List Char → Bool
  | [] => startsWith lit []
  | c :: s => startsWith lit (c :: s) || occurs lit s

/-- The function `regex_replace` for a pattern that is an ordered choice of
non-empty literals: at every position, from left to right, the first literal
of `lits` that matches is replaced by `by_` and the scan goes on after it. -/
def replaceLits (lits : List (List Char)) (by_ : List Char) : Nat → List Char → List Char
  | 0, s => s
  | _, [] => []
  | fuel + 1, c :: s =>
    match lits.findSome? (fun l => after l (c :: s)) with
    | some r => by_ ++ replaceLits lits by_ fuel r
    | none => c :: replaceLits lits by_ fuel s

/-! ## English language word manipulations -/

/-- The function `RemoveArticle`: `regex_replace(s, "^(?:a|an|the) +", "")`. -/
def RemoveArticle (s : String) : String :=
  match afterWordSpaces ['a'] s.data with
  | some r => ⟨r⟩
  | none =>
    match afterWordSpaces ['a', 'n'] s.data with
    | some r => ⟨r⟩
    | none =>
      match afterWordSpaces ['t', 'h', 'e'] s.data with
      | some r => ⟨r⟩
      | none => s

/-- The head of the optional second group of the pattern of `Pluralize`:
a space followed by `(`, by `of\b` or by `made of\b`. -/
def clauseStarts : List Char → Bool
  | ' ' :: r =>
    startsWith ['('] r || startsWithWord ['o', 'f'] r
      || startsWithWord ['m', 'a', 'd', 'e', ' ', 'o', 'f'] r
  | _ => false

/-- The lazy first group of the pattern of `Pluralize` followed by the
placeholder: the placeholder goes before the first clause, or at the end. -/
def insertPlaceholder : List Char → List Char
  | [] => ['\x01']
  | c :: s => if clauseStarts (c :: s) then '\x01' :: c :: s else c :: insertPlaceholder s

/-- The first `regex_replace` of `Pluralize`, with the pattern
`^(.*?)( (?:\(|of\b|made of\b).*)?$` and the format `$1\001$2`.  The pattern
has to reach the end of the input through `.`, so an input with a line
terminator has no match and is returned as it is. -/
def placeholderForm (s : List Char) : List Char :=
  if s.any isLineEnd then s else insertPlaceholder s

/-- The function `Pluralize`. -/
def Pluralize (s : String) : String :=
  let temp := placeholderForm s.data
  let n := temp.length
  if occurs ['s', '\x01'] temp then ⟨temp⟩
  else if occurs ['y', '\x01'] temp then
    ⟨replaceLits [['y', '\x01']] ['i', 'e', 's'] n temp⟩
  else if occurs ['o', '\x01'] temp || occurs ['s', 'h', '\x01'] temp
      || occurs ['s', 's', '\x01'] temp then
    ⟨replaceLits [['\x01']] ['e', 's'] n temp⟩
  else if occurs ['f', '\x01'] temp then
    ⟨replaceLits [['f', 'f', '\x01'], ['f', '\x01']] ['v', 'e', 's'] n temp⟩
  else ⟨replaceLits [['\x01']] ['s'] n temp⟩

/-- The pattern `^[aeiou]`. -/
def startsWithVowel : List Char → Bool
  | c :: _ => c == 'a' || c == 'e' || c == 'i' || c == 'o' || c == 'u'
  | [] => false

/-- The function `AddArticle`. -/
def AddArticle (s : String) (definite : Bool := false) : String :=
  let p := RemoveArticle s
  if definite then "the " ++ p
  else if p = Pluralize p then p
  else (if startsWithVowel p.data then "an " else "a ") ++ p

/-- The table `Numerals1to12`. -/
def Numerals1to12 : List String :=
  ["one", "two", "three", "four", "five", "six", "seven",
   "eight", "nine", "ten", "eleven", "twelve"]

/-! ## The attribute tables -/

/-- The record `GenericData`: a name, a worth and a weight.  The two float
fields are given by the decimal value written in the source; `floatLit`
gives the `float` that the field holds. -/
structure GenericData where
  name : String
  worth : ℚ
  weight : ℚ

instance : Inhabited GenericData := ⟨⟨"", 0, 0⟩⟩

/-- The table `MoneyTypes`. -/
def MoneyTypes : List GenericData :=
  [⟨"platinum", 10, mkRat 1 100⟩, ⟨"gold", 1, mkRat 1 100⟩, ⟨"silver", mkRat 6 10, mkRat 1 100⟩,
   ⟨"bronze", mkRat 4 10, mkRat 1 100⟩, ⟨"copper", mkRat 2 10, mkRat 1 100⟩,
   ⟨"wood", mkRat 1 100, mkRat 1 100⟩]

/-- The table `CondTypes`. -/
def CondTypes : List GenericData :=
  [⟨"awesome", mkRat 12 10, 0⟩, ⟨"excellent", 1, 0⟩, ⟨"good", mkRat 9 10, 0⟩,
   ⟨"average", mkRat 75 100, 0⟩, ⟨"poor", mkRat 5 10, 0⟩, ⟨"bad", mkRat 6 10, 0⟩,
   ⟨"thrashed", mkRat 4 10, 0⟩]

/-- The table `BuildTypes`. -/
def BuildTypes : List GenericData :=
  [⟨"iron", mkRat 4 10, 3⟩, ⟨"fur", mkRat 1 100, mkRat 2 10⟩, ⟨"gold", 1, mkRat 35 10⟩,
   ⟨"bronze", mkRat 1 10, mkRat 27 10⟩, ⟨"pewter", mkRat 5 100, 2⟩, ⟨"chromium", mkRat 9 10, 2⟩,
   ⟨"platinum", 2, 4⟩, ⟨"bamboo", mkRat 1 100, 1⟩, ⟨"leather", mkRat 9 100, mkRat 5 10⟩,
   ⟨"silk", mkRat 3 100, mkRat 1 10⟩, ⟨"steel", mkRat 7 10, 3⟩, ⟨"glass", mkRat 4 100, 2⟩]

/-- The table `ItemTypes`. -/
def ItemTypes : List GenericData :=
  [⟨"shirt", 1, 1⟩, ⟨"shoe", mkRat 4 10, 1⟩, ⟨"bracelet", mkRat 2 10, mkRat 2 10⟩,
   ⟨"tie", mkRat 25 100, mkRat 25 100⟩, ⟨"sceptre", 4, mkRat 25 10⟩, ⟨"crown", 3, mkRat 6 10⟩,
   ⟨"leggings", mkRat 8 10, mkRat 5 10⟩, ⟨"dagger", mkRat 1 10, mkRat 15 10⟩,
   ⟨"cap", mkRat 6 10, mkRat 5 10⟩, ⟨"battlesuit", 10, 5⟩, ⟨"hammer", mkRat 4 10, 3⟩,
   ⟨"cape", mkRat 7 10, 1⟩, ⟨"overalls", 4, 4⟩]

/-- A table lookup `table[i].name`. -/
def nameAt (table : List GenericData) (i : Nat) : String := (table.getD i default).name

/-! ## Items and containers -/

/-- The fields of `struct ItemType`, over the type `E` of what a cart holds. -/
structure ItemTypeOf (E : Type) where
  type : Nat := 0
  build : Nat := 0
  condition : Nat := 0
  chest : ℚ := 0
  cart : Option E := none

/-- The container `struct Eq`: the items in order and the six money counts. -/
inductive Eq where
  | mk (Items : List (ItemTypeOf Eq)) (Money : Fin 6 → Int)

/-- The item `struct ItemType`; its cart, when it has one, is a container. -/
abbrev ItemType := ItemTypeOf Eq

instance : Inhabited ItemType := ⟨{}⟩

/-- The member `Items`. -/
def Eq.Items : Eq → List ItemType
  | .mk items _ => items

/-- The member `Money`. -/
def Eq.Money : Eq → Fin 6 → Int
  | .mk _ money => money

/-- The function `Eq::count_items`. -/
def Eq.count_items (e : Eq) : Nat :=
  e.Items.length + ((List.finRange 6).filter (fun d => e.Money d ≠ 0)).length

/-- The float literal `0.35f`. -/
def f035 : ℚ := mkRat 11744051 33554432

/-- The float literal `0.75f`. -/
def f075 : ℚ := mkRat 3 4

/-- The function `ItemType::immovable`. -/
def ItemTypeOf.immovable (i : ItemType) : Bool := decide (i.chest > 0) || i.cart.isSome

/-- The function `ItemType::GetType`. -/
def ItemTypeOf.GetType (i : ItemType) : String :=
  if i.cart.isSome then "cart"
  else if i.chest > 0 then "chest"
  else nameAt ItemTypes i.type

/-- The function `ItemType::GetMaterial`. -/
def ItemTypeOf.GetMaterial (i : ItemType) : String :=
  if i.cart.isSome then ""
  else if i.chest > 0 then ""
  else nameAt BuildTypes i.build

/-- The function `ItemType::GetCondition`. -/
def ItemTypeOf.GetCondition (i : ItemType) : String :=
  match i.cart with
  | some c =>
    let n := c.count_items
    if n = 0 then "empty"
    else if n = 1 then "1 item"
    else toString n ++ " items"
  | none =>
    if i.chest > 0 ∧ i.chest < f035 then "battered"
    else if i.chest > 0 ∧ i.chest < f075 then "dented"
    else if i.chest > 0 then "good"
    else nameAt CondTypes i.condition

/-- The function `ItemType::name`. -/
def ItemTypeOf.name (i : ItemType) (cond : Nat := 0) (mat : Nat := 0) : String :=
  let cond := if i.chest > 0 then (if cond = 0 ∧ i.GetCondition ≠ "good" then 2 else 0) else cond
  let cond := if i.cart.isSome then (if cond = 0 then 2 else 0) else cond
  let mat := if i.cart.isSome ∨ i.chest > 0 then 0 else mat
  let result := i.GetType
  let m := i.GetMaterial
  let result := if mat = 1 then (if m = "wood" then "wooden" else m) ++ " " ++ result else result
  let result := if cond = 1 then i.GetCondition ++ " " ++ result else result
  let result := if cond = 2 then result ++ " (" ++ i.GetCondition ++ ")" else result
  let result := if mat = 2 then result ++ " made of " ++ m else result
  result

/-! ## References -/

/-- The record `ItemReference::SingleReference`. -/
structure SingleReference where
  what : String := ""
  amount : Int := 0
  index : Int := 1
  deriving DecidableEq, Repr

/-- The record `ItemReference`. -/
structure ItemReference where
  everything : Bool := false
  original : String := ""
  refs : List SingleReference := []
  except : List SingleReference := []
  deriving DecidableEq, Repr

/-! ## Parsing a request -/

/-- The pattern `(.*?)(?: except (.+))?` of the constructor, matched against
the whole input: the groups 1 and 2, when there is a match. -/
def splitExcept : List Char → Option (List Char × List Char)
  | [] => some ([], [])
  | c :: s =>
    let further := if isLineEnd c then none else (splitExcept s).map (fun p => (c :: p.1, p.2))
    match after " except ".data (c :: s) with
    | some (t :: ts) => if (t :: ts).any isLineEnd then further else some ([], t :: ts)
    | _ => further

/-- The lookahead ` *,| and | *$` of the pattern of `ParseReferences`. -/
def partStops (s : List Char) : Bool :=
  startsWith [','] (dropSpaces s) || startsWith " and ".data s || (dropSpaces s).isEmpty

/-- The group `((?:(?! *,| and | *$).)+)` of the pattern of
`ParseReferences`, greedy: what it takes and what is left. -/
def takePart : List Char → List Char × List Char
  | [] => ([], [])
  | c :: s =>
    if partStops (c :: s) || isLineEnd c then ([], c :: s)
    else ((c :: (takePart s).1), (takePart s).2)

/-- The tail `(?:[ ,]|and )*` of the pattern of `ParseReferences`: what is
left after it. -/
def dropSeparators : List Char → List Char
  | ' ' :: s => dropSeparators s
  | ',' :: s => dropSeparators s
  | 'a' :: 'n' :: 'd' :: ' ' :: s => dropSeparators s
  | s => s

/-- The loop of `ParseReferences`: the texts `res[1]` of the successive
matches of ` *((?:(?! *,| and | *$).)+)(?:[ ,]|and )*`, each search starting
where the previous match ended.  A match cannot start before a comma or a
line terminator that follows the leading spaces, nor when only spaces are
left; before a line terminator the last of the leading spaces is itself
taken as the text. -/
def partsOf : Nat → List Char → List (List Char)
  | 0, _ => []
  | fuel + 1, s =>
    match dropSpaces s with
    | [] => []
    | c :: r =>
      if c = ',' then partsOf fuel r
      else if isLineEnd c then
        if startsWith [' '] s then [' '] :: partsOf fuel r else partsOf fuel r
      else (takePart (c :: r)).1 :: partsOf fuel (dropSeparators (takePart (c :: r)).2)

/-- One step of the first loop of `ParseSingleReference`: the numeral `a`
at the start of the word, as a whole word, becomes the number `a`. -/
def replaceNumeral (word : List Char) (a : Nat) : List Char :=
  match after (Numerals1to12.getD (a - 1) "").data word with
  | some r => if wordEnds r then (toString a).data ++ r else word
  | none => word

/-- The digits `[0-9]+` at the start of `s`, greedy: the digits and the rest. -/
def takeDigits : List Char → List Char × List Char
  | [] => ([], [])
  | c :: s => if isDigitChar c then (c :: (takeDigits s).1, (takeDigits s).2) else ([], c :: s)

/-- The pattern `^((all|[0-9]+) +)? *(.*)` of `ParseSingleReference`, matched
against the whole word: the groups 2 and 3.  A word with a line terminator
has no match and leaves both groups empty. -/
def splitCount (word : List Char) : List Char × List Char :=
  if word.any isLineEnd then ([], [])
  else
    match afterWordSpaces "all".data word with
    | some r => ("all".data, r)
    | none =>
      match takeDigits word with
      | (d :: ds, ' ' :: r) => (d :: ds, dropSpaces r)
      | _ => ([], dropSpaces word)

/-- The group `(?: +([0-9]+))?$` at the start of `s`: the digits, when `s`
is one or more spaces followed by one or more digits and nothing else. -/
def indexSuffix : List Char → Option (List Char)
  | ' ' :: s =>
    match takeDigits (dropSpaces s) with
    | (d :: ds, []) => some (d :: ds)
    | _ => none
  | _ => none

/-- The pattern `^(.*?)(?: +([0-9]+))?$` of `ParseSingleReference`, matched
against a text without line terminators: the groups 1 and 2. -/
def splitIndex : List Char → List Char × List Char
  | [] => ([], [])
  | c :: s =>
    match indexSuffix (c :: s) with
    | some d => ([], d)
    | none => (c :: (splitIndex s).1, (splitIndex s).2)

/-- The value of a string of decimal digits. -/
def digitsValue (s : List Char) : Nat :=
  s.foldl (fun n c => 10 * n + (c.toNat - '0'.toNat)) 0

/-- The function `std::stol` on a string of decimal digits; `none` is the
exception `std::out_of_range`. -/
def stol (s : List Char) : Option Int :=
  if digitsValue s ≤ 2 ^ 63 - 1 then some (digitsValue s) else none

/-- The function `ItemReference::ParseSingleReference`; `none` is an
exception thrown by `std::stol`. -/
def ParseSingleReference (part : String) : Option SingleReference :=
  let word := (List.range' 1 12).foldl replaceNumeral part.data
  let res := splitCount word
  if res.1 = "all".data then some { what := ⟨res.2⟩, amount := 0, index := 0 }
  else if res.1 ≠ [] then
    (stol res.1).map (fun n => { what := ⟨res.2⟩, amount := n, index := 1 })
  else
    let res2 := splitIndex res.2
    if res2.2 ≠ [] then
      (stol res2.2).map (fun n => { what := ⟨res2.1⟩, amount := 0, index := n })
    else some { what := ⟨res2.1⟩, amount := 0, index := 1 }

/-- The function `ItemReference::ParseReferences`: the list with the parsed
parts of `what` appended; `none` is an exception thrown by `std::stol`. -/
def ParseReferences (list : List SingleReference) (what : String) :
    Option (List SingleReference) :=
  ((partsOf (what.length + 1) what.data).mapM (fun p => ParseSingleReference ⟨p⟩)).map
    (fun l => list ++ l)

/-- The constructor `ItemReference::ItemReference(const std::string&)`;
`none` is an exception thrown by `std::stol`. -/
def ItemReference.ofString (what : String) : Option ItemReference :=
  let res := (splitExcept what.data).getD ([], [])
  let original : String := ⟨res.1⟩
  let everything : Bool := original = "all" || original = "everything"
  let refs : Option (List SingleReference) :=
    if everything then some [{ what := "", amount := 0, index := 0 }]
    else if original ≠ "" then ParseReferences [] original
    else some []
  let except : Option (List SingleReference) :=
    if res.2 ≠ [] then ParseReferences [] ⟨res.2⟩ else some []
  match refs, except with
  | some refs, some except =>
    some { everything := everything, original := original, refs := refs, except := except }
  | _, _ => none

/-! ## Matching -/

/-- The phrases that the pattern `|money|coins?|%s( coins?)?` of `find_money`
matches in full, for the denomination called `n`. -/
def moneyPhrases (n : String) : List String :=
  ["", "money", "coin", "coins", n, n ++ " coin", n ++ " coins"]

/-- The condition of the loop body of `find_money` at the denomination `m`. -/
def moneyMatches (e : Eq) (w : SingleReference) (m : Fin 6) : Bool :=
  decide (e.Money m > 0) && decide (w.what ∈ moneyPhrases (nameAt MoneyTypes m))

/-- The loop of `find_money`: the first denomination from `first` on that
is held and matches, if there is one. -/
def Eq.findMoney? (e : Eq) (w : SingleReference) (first : Nat) : Option (Fin 6) :=
  (List.finRange 6).find? (fun m => decide (first ≤ m.val) && moneyMatches e w m)

/-- The function `Eq::find_money`; the result `-1` is no money found. -/
def Eq.find_money (e : Eq) (w : SingleReference) (first : Nat := 0) : Int :=
  match e.findMoney? w first with
  | some m => m.val
  | none => -1

/-- The string `n` that `find_item` compares with the phrase at one `level`. -/
def levelName (i : ItemType) (level : Nat) : String :=
  let n := i.name ((level / 3) % 2) (level % 3)
  let n := if level / 6 = 1 then AddArticle n false else n
  let n := if level / 6 = 2 then AddArticle n true else n
  let n := if level / 6 = 3 then Pluralize n else n
  n

/-- The levels in the order of the inner loop of `find_item`: 23 down to 0. -/
def levels : List Nat := (List.range 24).reverse

/-- Whether the inner loop of `find_item` reaches its `if` body for the item:
the phrase is empty or equal to the name of some level. -/
def itemMatches (w : SingleReference) (i : ItemType) : Bool :=
  levels.any (fun level => w.what.isEmpty || w.what == levelName i level)

/-- The outer loop of `find_item` from the position `a` on, where `items` is
what is left of `Items` from `a` and `occurrences` is the counter. -/
def find_item_from (w : SingleReference) (first : Nat) :
    List ItemType → Nat → Int → Int
  | [], _, _ => -1
  | i :: items, a, occurrences =>
    if itemMatches w i then
      if w.index ≠ 0 ∧ w.amount = 0 then
        if occurrences + 1 ≠ w.index then find_item_from w first items (a + 1) (occurrences + 1)
        else if a < first then find_item_from w first items (a + 1) (occurrences + 1)
        else a
      else if a < first then find_item_from w first items (a + 1) occurrences
      else a
    else find_item_from w first items (a + 1) occurrences

/-- The function `Eq::find_item`; the result `-1` is no item found. -/
def Eq.find_item (e : Eq) (w : SingleReference) (first : Nat := 0) : Int :=
  find_item_from w first e.Items 0 0

/-! ## Moving items -/

/-- The record `Eq::moveresult`. -/
structure moveresult where
  moved : List String := []
  notfound : List String := []
  immovable : List String := []
  deriving DecidableEq, Repr

/-- What `Eq::move` works on: the container itself (`*this`), the target and
the result so far. -/
structure MoveState where
  me : Eq
  target : Eq
  result : moveresult

/-- The name under which `move` reports an item: `AddArticle(name(0,1))`. -/
def shownName (i : ItemType) : String := AddArticle (i.name 0 1)

/-- The body of the item loop of `move` in the second round, for the item
found at `item_id`: the new state and the new value of `item_id`. -/
def takeItem (st : MoveState) (item_id : Nat) : MoveState × Nat :=
  let i := st.me.Items.getD item_id default
  if i.immovable then
    ({ st with result := { st.result with immovable := st.result.immovable ++ [shownName i] } },
      item_id + 1)
  else
    ({ me := .mk (st.me.Items.eraseIdx item_id) st.me.Money
       target := .mk (i :: st.target.Items) st.target.Money
       result := { st.result with moved := st.result.moved ++ [shownName i] } },
      item_id)

/-- The item loop of `move`,
`for(long item_id=0; (item_id = find_item(w, item_id)) >= 0; )`, in the round
`round`; `fuel` bounds the number of iterations.  Gives the state,
`remaining_items` and `found_item`. -/
def itemLoop (w : SingleReference) (round : Nat) :
    Nat → MoveState → Nat → Int → Bool → MoveState × Int × Bool
  | 0, st, _, remaining_items, found_item => (st, remaining_items, found_item)
  | fuel + 1, st, item_id, remaining_items, found_item =>
    match st.me.find_item w item_id with
    | Int.negSucc _ => (st, remaining_items, found_item)
    | Int.ofNat item_id =>
      let next := if round = 2 then takeItem st item_id else (st, item_id + 1)
      if w.index = 0 then itemLoop w round fuel next.1 next.2 remaining_items true
      else if remaining_items - 1 ≤ 0 then (next.1, remaining_items - 1, true)
      else itemLoop w round fuel next.1 next.2 (remaining_items - 1) true

/-- The two rounds over the items of `move` for one sub-request: the state
and `found_item`. -/
def moveItems (w : SingleReference) (st : MoveState) : MoveState × Bool :=
  let remaining_items : Int := if w.amount ≠ 0 then w.amount else 1
  let fuel := st.me.Items.length + 1
  let r1 := itemLoop w 1 fuel st 0 remaining_items false
  if r1.2.2 = true ∧ w.index ≠ 0 ∧ r1.2.1 > 0 then (r1.1, false)
  else
    let r2 := itemLoop w 2 fuel r1.1 0 remaining_items r1.2.2
    (r2.1, r2.2.2)

/-- The text `"%ld %s %s"` that `move` reports for coins. -/
def shownMoney (get_money : Int) (money_id : Fin 6) : String :=
  toString get_money ++ " " ++ nameAt MoneyTypes money_id ++ " "
    ++ (if get_money = 1 then "coin" else "coins")

/-- The body of the money loop of `move` in the second round.  A count is
taken for an integer without a bound here; `takeMoneyLong` is the same body
with the counts in the arithmetic of `long`, and `moveLong_eq` shows that
`move` is the same function either way as long as, for every denomination,
the counts of the container and the target together fit a `long`. -/
def takeMoney (st : MoveState) (money_id : Fin 6) (get_money : Int) : MoveState :=
  { me := .mk st.me.Items (Function.update st.me.Money money_id (st.me.Money money_id - get_money))
    target := .mk st.target.Items
      (Function.update st.target.Money money_id (st.target.Money money_id + get_money))
    result := { st.result with moved := st.result.moved ++ [shownMoney get_money money_id] } }

/-- The money loop of `move`,
`for(long money_id=0; (money_id = find_money(w, money_id)) >= 0; )`, in the
round `round`; `fuel` bounds the number of iterations and `findMoney?` is
the result of `find_money` as a denomination.  Gives the state,
`remaining_money` and `found_money`. -/
def moneyLoop (w : SingleReference) (round : Nat) :
    Nat → MoveState → Nat → Int → Bool → MoveState × Int × Bool
  | 0, st, _, remaining_money, found_money => (st, remaining_money, found_money)
  | fuel + 1, st, money_id, remaining_money, found_money =>
    match st.me.findMoney? w money_id with
    | none => (st, remaining_money, found_money)
    | some m =>
      let get_money := min remaining_money (st.me.Money m)
      if get_money ≤ 0 then (st, remaining_money, found_money)
      else
        let st1 := if round = 2 then takeMoney st m get_money else st
        let next := if round = 2 then m.val else m.val + 1
        if w.index ≠ 0 ∧ (w.amount = 0 ∨ remaining_money - get_money ≤ 0) then
          (st1, remaining_money - get_money, true)
        else moneyLoop w round fuel st1 next (remaining_money - get_money) true

/-- The two rounds over the money of `move` for one sub-request: the state
and `found_money`. -/
def moveMoney (w : SingleReference) (st : MoveState) : MoveState × Bool :=
  let remaining_money : Int := if w.amount ≠ 0 then w.amount else 0x7FFFFFFF
  let r1 := moneyLoop w 1 7 st 0 remaining_money false
  if r1.2.2 = true ∧ w.amount ≠ 0 ∧ w.index ≠ 0 ∧ r1.2.1 > 0 then (r1.1, false)
  else
    let r2 := moneyLoop w 2 7 r1.1 0 remaining_money r1.2.2
    (r2.1, r2.2.2)

/-- The body of the loop `for(const auto& w: what.refs)` of `move`. -/
def moveOne (everything : Bool) (st : MoveState) (w : SingleReference) : MoveState :=
  let items := moveItems w st
  let money := moveMoney w items.1
  if !items.2 && !money.2 && !everything then
    { money.1 with
      result := { money.1.result with notfound := money.1.result.notfound ++ [w.what] } }
  else money.1

/-- The request `ItemReference takeback("")` of `move` after
`takeback.refs = what.except`. -/
def takeback (what : ItemReference) : ItemReference :=
  { everything := false, original := "", refs := what.except, except := [] }

/-- The last lines of `move`: clear `moved` when something was not found,
and restore both backups when `moved` is empty. -/
def finishMove (me target : Eq) (st : MoveState) : moveresult × Eq × Eq :=
  let result : moveresult :=
    if st.result.notfound ≠ [] then { st.result with moved := [] } else st.result
  if result.moved = [] then (result, me, target) else (result, st.me, st.target)

/-- The function `Eq::move` with a bound `depth` on the nesting of the
recursive call; the result is the `moveresult`, the container itself after
the call and the target after the call. -/
def moveDepth : Nat → Eq → Eq → ItemReference → moveresult × Eq × Eq
  | depth, me, target, what =>
    let st := what.refs.foldl (moveOne what.everything) ⟨me, target, {}⟩
    let st :=
      if what.except ≠ [] then
        match depth with
        | 0 => st
        | depth + 1 =>
          let r := moveDepth depth st.target st.me (takeback what)
          { me := r.2.2
            target := r.2.1
            result :=
              { moved := st.result.moved.filter (fun s => !(r.1.moved.contains s))
                notfound := st.result.notfound ++ r.1.notfound
                immovable := st.result.immovable.filter (fun s => !(r.1.immovable.contains s)) } }
      else st
    finishMove me target st

/-- The function `Eq::move`.  The recursive call is made with a request
whose `except` list is empty, so one level of nesting is all there is. -/
def Eq.move (me target : Eq) (what : ItemReference) : moveresult × Eq × Eq :=
  moveDepth 1 me target what

/-! ## Notions used to state the properties -/

/-- The 24 renderings of an item: the name as it is, with the indefinite
article, with the definite article and in the plural, for each condition
flag 0 or 1 and each material style 0, 1 or 2. -/
def renderings (i : ItemType) : List String :=
  [0, 1].flatMap fun cond => [0, 1, 2].flatMap fun mat =>
    [i.name cond mat, AddArticle (i.name cond mat) false, AddArticle (i.name cond mat) true,
     Pluralize (i.name cond mat)]

/-- The phrase is empty or equal to one of the renderings of the item. -/
def phraseFits (phrase : String) (i : ItemType) : Bool :=
  phrase == "" || (renderings i).contains phrase

/-- The positions of the items that the phrase fits, in the order of the
container, when the first item of the list is at the position `a`. -/
def positionsFrom (phrase : String) : List ItemType → Nat → List Nat
  | [], _ => []
  | i :: items, a =>
    if phraseFits phrase i then a :: positionsFrom phrase items (a + 1)
    else positionsFrom phrase items (a + 1)

/-- The positions in the container of the items that the phrase fits. -/
def matchPositions (phrase : String) (e : Eq) : List Nat := positionsFrom phrase e.Items 0

/-- Repeated calls of `find_item`, each one starting right after the position
that the previous one returned, until `-1` is returned: the positions
returned.  This is the loop
`for(long no=0; (no = find_item(w,no)) >= 0; ) ++no`, with `fuel` a bound on
the number of calls. -/
def findAll (e : Eq) (w : SingleReference) : Nat → Nat → List Nat
  | 0, _ => []
  | fuel + 1, first =>
    match e.find_item w first with
    | Int.ofNat a => a :: findAll e w fuel (a + 1)
    | Int.negSucc _ => []

/-- The immovable items of a list, in order. -/
def immovables (l : List ItemType) : List ItemType := l.filter (fun i => i.immovable)

/-- What one round of the item loop of `move` does with the items from some
position on: the items that stay in the container (all of them, in order),
the items moved (in the order of moving), the immovable items reported, and
the final values of `remaining_items` and `found_item`. -/
structure Sweep where
  kept : List ItemType
  moved : List ItemType
  stuck : List ItemType
  remaining : Int
  found : Bool

/-- Account for the item `i` that the loop has just dealt with in the round
`round`, in front of the sweep `s` of the items after it. -/
def Sweep.push (round : Nat) (i : ItemType) (s : Sweep) : Sweep :=
  if round = 2 then
    if i.immovable then { s with kept := i :: s.kept, stuck := i :: s.stuck }
    else { s with moved := i :: s.moved }
  else { s with kept := i :: s.kept }

/-- The item loop of `move` for a reference that `find_item` treats greedily
(index 0 or a non-zero amount), written as one pass over the items `rest`
from the current position on. -/
def itemSweep (w : SingleReference) (round : Nat) : List ItemType → Int → Bool → Sweep
  | [], rem, found => ⟨[], [], [], rem, found⟩
  | i :: rest, rem, found =>
    if itemMatches w i then
      if w.index = 0 then (itemSweep w round rest rem true).push round i
      else if rem - 1 ≤ 0 then Sweep.push round i ⟨rest, [], [], rem - 1, true⟩
      else (itemSweep w round rest (rem - 1) true).push round i
    else
      let s := itemSweep w round rest rem found
      { s with kept := i :: s.kept }

/-- The state after a sweep of the items that follow `pre`. -/
def applySweep (st : MoveState) (pre : List ItemType) (s : Sweep) : MoveState :=
  { me := .mk (pre ++ s.kept) st.me.Money
    target := .mk (s.moved.reverse ++ st.target.Items) st.target.Money
    result :=
      { st.result with
        moved := st.result.moved ++ s.moved.map shownName
        immovable := st.result.immovable ++ s.stuck.map shownName } }

/-- Two states hold the same immovable items, on each side. -/
def SameStuck (st st' : MoveState) : Prop :=
  immovables st'.me.Items = immovables st.me.Items
    ∧ immovables st'.target.Items = immovables st.target.Items

/-! ## Sample items and containers -/

/-- An awesome gold shirt. -/
def goldShirt : ItemType := { type := 0, build := 2, condition := 0 }

/-- Average fur leggings. -/
def furLeggings : ItemType := { type := 6, build := 1, condition := 3 }

/-- A chest in good shape. -/
def goodChest : ItemType := { chest := 1 }

/-- A dented chest. -/
def dentedChest : ItemType := { chest := mkRat 1 2 }

/-- A floor with three shirts, a pair of leggings, a chest, five gold coins
and seven bronze coins. -/
def sampleFloor : Eq :=
  .mk [goldShirt, goodChest, furLeggings, goldShirt, goldShirt]
    (fun d => if d = 1 then 5 else if d = 3 then 7 else 0)

/-- A pocket with two gold coins. -/
def samplePocket : Eq := .mk [] (fun d => if d = 1 then 2 else 0)

/-- The denominations from the index `k` on, in table order. -/
def denomsFrom (k : Nat) : List (Fin 6) := (List.finRange 6).filter (fun m => decide (k ≤ m.val))

/-- The money loop of `move` written as one pass over the denominations `ds`
in table order. -/
def moneyScan (w : SingleReference) (round : Nat) :
    List (Fin 6) → MoveState → Int → Bool → MoveState × Int × Bool
  | [], st, rem, found => (st, rem, found)
  | m :: ds, st, rem, found =>
    if moneyMatches st.me w m then
      if min rem (st.me.Money m) ≤ 0 then (st, rem, found)
      else if w.index ≠ 0 ∧ (w.amount = 0 ∨ rem - min rem (st.me.Money m) ≤ 0) then
        (if round = 2 then takeMoney st m (min rem (st.me.Money m)) else st,
          rem - min rem (st.me.Money m), true)
      else
        moneyScan w round ds (if round = 2 then takeMoney st m (min rem (st.me.Money m)) else st)
          (rem - min rem (st.me.Money m)) true
    else moneyScan w round ds st rem found

/-- The number of coins in a container, all denominations together. -/
def Eq.coins (e : Eq) : Int := ((List.finRange 6).map e.Money).sum

/-- The list `l` is split, keeping the order on both sides, into the items
`kept` and the items `taken`: `kept` is `l` with exactly the items `taken`
deleted, and `taken` lists the deleted items in the order of their positions
in `l`. -/
inductive Interleave : List ItemType → List ItemType → List ItemType → Prop
  | nil : Interleave [] [] []
  | keep (x : ItemType) {l kept taken : List ItemType} :
      Interleave l kept taken → Interleave (x :: l) (x :: kept) taken
  | take (x : ItemType) {l kept taken : List ItemType} :
      Interleave l kept taken → Interleave (x :: l) kept (x :: taken)

/-- A word that can begin a name without being taken for an article: it has
no space and is none of "a", "an", "the". -/
def plainWord (W : String) : Bool :=
  !W.data.contains ' ' && W != "a" && W != "an" && W != "the"

/-- The rule table of the plural, as the specification words it, for a word
that does not end in "s": the first rule that applies decides. -/
def pluralRule (w : List Char) : List Char :=
  if "y".data <:+ w then w.dropLast ++ "ies".data
  else if "o".data <:+ w ∨ "sh".data <:+ w then w ++ "es".data
  else if "ff".data <:+ w then w.dropLast.dropLast ++ "ves".data
  else if "f".data <:+ w then w.dropLast ++ "ves".data
  else w ++ "s".data

/-- A list of parts written out with a separator before every part but the
first. -/
def joinParts (p : List Char) : List (List Char × List Char) → List Char
  | [] => p
  | (sep, q) :: rest => p ++ sep ++ joinParts q rest

/-- Whether a part begins with a count: one of the number words "one" to
"twelve" as a whole word, or decimal digits followed by a space. -/
def beginsWithCount (part : List Char) : Bool :=
  (List.range' 1 12).any (fun a => startsWithWord (Numerals1to12.getD (a - 1) "").data part)
    || (match takeDigits part with
        | (_ :: _, ' ' :: _) => true
        | _ => false)

/-- The conditions on a part that are kept by every non-empty tail of it:
no comma, no " and " inside, no space and no " and" at the end, no line
terminator. -/
abbrev partBody (s : List Char) : Prop :=
  ',' ∉ s ∧ ¬ " and ".data <:+: s ∧ s.getLast? ≠ some ' ' ∧ ¬ " and".data <:+ s
    ∧ s.any isLineEnd = false

/-- A part of a list of references: not empty, the conditions of `partBody`,
no space and no "and " at the start, and not the word "and" itself. -/
abbrev goodPart (p : List Char) : Prop :=
  p ≠ [] ∧ partBody p ∧ p.head? ≠ some ' ' ∧ ¬ "and ".data <+: p ∧ p ≠ "and".data

/-- What follows a part in a list of references: nothing, a comma, or the
separator " and ". -/
abbrev partTail (t : List Char) : Prop :=
  t = [] ∨ (∃ r, t = ',' :: r) ∨ ∃ r, t = " and ".data ++ r

/-- The text after the first part of `joinParts`. -/
def tailOf : List (List Char × List Char) → List Char
  | [] => []
  | (sep, q) :: rest => sep ++ joinParts q rest

/-- The plural of the part of a name before its first clause: a part that
ends in "s" keeps the placeholder character, any other part follows
`pluralRule`. -/
def pluralWord (pre : List Char) : List Char :=
  if "s".data <:+ pre then pre ++ ['\x01'] else pluralRule pre

/-- A character that can stand in a name: neither a line terminator nor the
placeholder of `Pluralize`. -/
def plainChar (c : Char) : Bool := !isLineEnd c && c != '\x01'

/-- The words that `GetType` can give. -/
def typeWords : List String := "cart" :: "chest" :: "" :: ItemTypes.map (fun d => d.name)

/-- The words that can stand for the material in a name. -/
def materialWords : List String := "wooden" :: "" :: BuildTypes.map (fun d => d.name)

/-- The words that `GetCondition` can give for a treasure. -/
def conditionWords : List String := "" :: CondTypes.map (fun d => d.name)

/-- A string of characters that can stand in a name. -/
abbrev plainString (s : String) : Prop := ∀ c ∈ s.data, plainChar c = true

/-- The last five lines of `ItemType::name`: the name put together from the
type `T`, the material `M` and the condition `C`, for the flags `cond` and
`mat` as the first three lines left them. -/
def composeName (T M C : String) (cond mat : Nat) : String :=
  let result := T
  let result := if mat = 1 then (if M = "wood" then "wooden" else M) ++ " " ++ result else result
  let result := if cond = 1 then C ++ " " ++ result else result
  let result := if cond = 2 then result ++ " (" ++ C ++ ")" else result
  let result := if mat = 2 then result ++ " made of " ++ M else result
  result

/-- The flag `cond` of `ItemType::name` after its first three lines. -/
def shownCond (i : ItemType) (cond : Nat) : Nat :=
  let cond := if i.chest > 0 then (if cond = 0 ∧ i.GetCondition ≠ "good" then 2 else 0) else cond
  if i.cart.isSome then (if cond = 0 then 2 else 0) else cond

/-- The flag `mat` of `ItemType::name` after its first three lines. -/
def shownMat (i : ItemType) (mat : Nat) : Nat :=
  if i.cart.isSome ∨ i.chest > 0 then 0 else mat

/-- What `move` can report as moved: the name of a movable item, or a pile
of coins. -/
def MovedEntry (s : String) : Prop :=
  (∃ j : ItemType, j.immovable = false ∧ s = shownName j)
    ∨ ∃ (g : Int) (d : Fin 6), 0 < g ∧ s = shownMoney g d

/-- From the state `st` to the later state `st'` the list of immovable items
reported only grows, and the entries reported as moved stay entries of
`MovedEntry`. -/
def Reports (st st' : MoveState) : Prop :=
  (∀ s ∈ st.result.immovable, s ∈ st'.result.immovable)
    ∧ ((∀ s ∈ st.result.moved, MovedEntry s) → ∀ s ∈ st'.result.moved, MovedEntry s)

/-! ## Numbers of the types `float` and `double`

A `float` or `double` is a rational number.  An arithmetic operation gives the
number of the format that is nearest to the exact result, a tie going to the
number with the even significand (the rounding of IEEE 754, as the program is
compiled for x86-64).  The exponent is not limited here: every number that
the functions below deal with is far inside the range of the normal numbers
of both formats. -/

/-- The power `2^k` for an integer `k`. -/
def pow2 (k : Int) : ℚ :=
  if 0 ≤ k then ((2 ^ k.toNat : Nat) : ℚ) else 1 / ((2 ^ (-k).toNat : Nat) : ℚ)

/-- The number of times that `n` can be halved before it is below 2, for
`n ≤ fuel`: the position of the highest bit of `n`. -/
def log2Fuel : Nat → Nat → Nat
  | 0, _ => 0
  | fuel + 1, n => if n < 2 then 0 else log2Fuel fuel (n / 2) + 1

/-- The binary exponent of `q ≠ 0`: the `e` with `2^e ≤ |q| < 2^(e+1)`.  The
difference of the highest bits of numerator and denominator is `e` or
`e + 1`. -/
def binExp (q : ℚ) : Int :=
  let e0 : Int := (log2Fuel q.num.natAbs q.num.natAbs : Int) - (log2Fuel q.den q.den : Int)
  if pow2 e0 ≤ |q| then e0 else e0 - 1

/-- The integer nearest to `q`, a tie going to the even one. -/
def roundHalfEven (q : ℚ) : Int :=
  let f := q.floor
  if q - f < 1 / 2 then f
  else if 1 / 2 < q - f then f + 1
  else if f % 2 = 0 then f else f + 1

/-- The number with a significand of `p` bits that is nearest to `q`, a tie
going to the even significand. -/
def roundBits (p : Nat) (q : ℚ) : ℚ :=
  if q = 0 then 0
  else
    let ulp := pow2 (binExp q - (p - 1 : Nat))
    (roundHalfEven (q / ulp) : ℚ) * ulp

/-- The conversion to `float`, and the rounding of a `float` operation: 24
bits. -/
def toFloat (q : ℚ) : ℚ := roundBits 24 q

/-- The conversion to `double`: 53 bits. -/
def toDouble (q : ℚ) : ℚ := roundBits 53 q

/-- The value of a `float` field of a table that is initialised with a
decimal literal such as `0.4`: the literal is a `double`, which is converted
to `float`. -/
def floatLit (q : ℚ) : ℚ := toFloat (toDouble q)

/-! ## Weight and value of an item -/

/-- The function `ItemType::weight`: `999.f` for a chest or a cart, and the
`float` product of the two `float` fields otherwise. -/
def ItemTypeOf.weight (i : ItemType) : ℚ :=
  if i.chest > 0 ∨ i.cart.isSome then 999
  else toFloat (floatLit (BuildTypes.getD i.build default).weight
    * floatLit (ItemTypes.getD i.type default).weight)

/-- The function `ItemType::value`: `0.f` for a chest or a cart, and the
product `constant * worth * worth * worth` otherwise, taken from left to
right in `float`; `constant` is a `float`. -/
def ItemTypeOf.value (i : ItemType) (constant : ℚ := 300) : ℚ :=
  if i.chest > 0 ∨ i.cart.isSome then 0
  else toFloat (toFloat (toFloat (constant * floatLit (BuildTypes.getD i.build default).worth)
    * floatLit (ItemTypes.getD i.type default).worth)
    * floatLit (CondTypes.getD i.condition default).worth)

/-- The weight of a treasure as the specification words it: the product of
the two table constants, read as the exact decimal numbers that the source
writes. -/
def exactWeight (i : ItemType) : ℚ :=
  (BuildTypes.getD i.build default).weight * (ItemTypes.getD i.type default).weight

/-- The value of a treasure as the specification words it: 300 times the
product of the three table constants, read as the exact decimal numbers that
the source writes. -/
def exactValue (i : ItemType) : ℚ :=
  300 * (BuildTypes.getD i.build default).worth * (ItemTypes.getD i.type default).worth
    * (CondTypes.getD i.condition default).worth

/-- An awesome fur shirt. -/
def furShirt : ItemType := { type := 0, build := 1, condition := 0 }

/-! ## The random stream

The generator `std::mt19937` and the two distributions of the standard
library are not part of the program.  The embedding is over any generator:
the type of its states, the state that `rnd.seed(value)` sets (it depends on
the value only), and the two draws, each giving the number drawn and the
state after the draw. -/

/-- The random stream `rnd` with the macros `frand()` and `rand(size)`.
`frand` draws a `double`, which is a rational number; `rand size` draws an
integer from `0` to `size - 1`. -/
structure RandomStream where
  State : Type
  seed : Nat → State
  frand : State → ℚ × State
  rand : Nat → State → Nat × State

/-- The `double` literal `0.95`. -/
def d095 : ℚ := mkRat 4278419646001971 4503599627370496

/-- The `double` literal `0.9`. -/
def d09 : ℚ := mkRat 8106479329266893 9007199254740992

/-- The `double` literal `0.8`. -/
def d08 : ℚ := mkRat 3602879701896397 4503599627370496

/-- The `double` literal `0.4`. -/
def d04 : ℚ := mkRat 3602879701896397 9007199254740992

/-- The `double` literal `0.1`. -/
def d01 : ℚ := mkRat 3602879701896397 36028797018963968

/-- The `float` literal `0.005f`. -/
def f0005 : ℚ := mkRat 5368709 1073741824

/-- The bound of the test `chestrand < 0.1f`.  The draw is stored in a
`float` first; the `float` literal `0.1f` is 13421773 / 2^27, and a `double`
rounds to a `float` below it exactly when it is at most the midpoint between
that value and the `float` before it (the tie goes to the even one, which is
the lower). -/
def chestLimit : ℚ := mkRat 26843545 268435456

/-- The number of items of a new room, `unsigned(std::pow(u, 40.0) * 8.5)`,
the power and the product read as exact. -/
def itemCount (u : ℚ) : Nat := (u ^ 40 * mkRat 17 2).floor.toNat

/-- The table `EnvTypes`. -/
def EnvTypes : List GenericData :=
  [⟨"dark", 0, 0⟩, ⟨"tall", 0, 0⟩, ⟨"humid", 0, 0⟩, ⟨"beautiful", 0, 0⟩, ⟨"narrow", 0, 0⟩]

/-- The default member initialisers of `ItemType`: for each of the three
attributes a draw that decides between the whole table and its most common
entries, and the draw of the index. -/
def newItem (G : RandomStream) (rnd : G.State) : ItemType × G.State :=
  let u1 := G.frand rnd
  let type := if u1.1 > d04 then G.rand ItemTypes.length u1.2 else G.rand 4 u1.2
  let u2 := G.frand type.2
  let build := if u2.1 > d04 then G.rand BuildTypes.length u2.2 else G.rand 2 u2.2
  let u3 := G.frand build.2
  let condition := if u3.1 > d08 then G.rand CondTypes.length u3.2 else G.rand 3 u3.2
  ({ type := type.1, build := build.1, condition := condition.1 }, condition.2)

/-- The new items that `Items.resize` appends: `n` items made one after the
other by the default constructor. -/
def newItems (G : RandomStream) : Nat → G.State → List ItemType × G.State
  | 0, rnd => ([], rnd)
  | n + 1, rnd =>
    let i := newItem G rnd
    let rest := newItems G n i.2
    (i.1 :: rest.1, rest.2)

/-- The function `Eq::clear`: `Items.resize(n)` keeps the first `n` items and
fills up with new ones; all money is set to zero. -/
def Eq.clear (G : RandomStream) (e : Eq) (n : Nat) (rnd : G.State) : Eq × G.State :=
  let fresh := newItems G (n - e.Items.length) rnd
  (.mk (e.Items.take n ++ fresh.1) (fun _ => 0), fresh.2)

/-! ## Rooms and the maze -/

/-- The record `struct Room`. -/
structure Room where
  Wall : Nat := 0
  Env : Nat := 0
  seed : Nat := 0
  items : Eq := .mk [] (fun _ => 0)

/-- The model room `defaultroom`. -/
def defaultroom : Room := {}

/-- The maze `struct Maze`: the map `rooms` from the two coordinates to the
room stored there, if any.  A row of the map without a room in it, as
`rooms[x]` makes it, is not told apart from an absent row; no function of the
program tells them apart. -/
structure Maze where
  rooms : Int → Int → Option Room

/-- The value `y*0xc70f6907UL + x*2166136261UL` that seeds the stream, in
the arithmetic of a 64-bit `unsigned long`. -/
def roomSeed (x y : Int) : Nat := ((y * 0xc70f6907 + x * 2166136261) % 2 ^ 64).toNat

/-- The body of `if(insres.second)` in `GenerateRoom`: what becomes of the
copy of `model` that was inserted, with the stream as it is after seeding. -/
def fillRoom (G : RandomStream) (model : Room) (seed : Nat) (rnd : G.State) :
    Room × G.State :=
  let room := model
  let cleared := room.items.clear G 0 rnd
  let room := { room with items := cleared.1 }
  let chestrand := G.frand cleared.2
  let u := G.frand chestrand.2
  let turn := if u.1 > d095 then G.rand 4 u.2 else (0, u.2)
  let room := { room with seed := (seed + turn.1) % 4 }
  let u := G.frand turn.2
  let env := if u.1 > d09 then G.rand EnvTypes.length u.2 else (room.Env, u.2)
  let room := { room with Env := env.1 }
  let u := G.frand env.2
  let wall :=
    if u.1 > (if seed = model.seed then d095 else d01) then
      let v := G.frand u.2
      ((if v.1 < d04 then 2 else 0), v.2)
    else (room.Wall, u.2)
  let room := { room with Wall := wall.1 }
  let u := G.frand wall.2
  let filled := room.items.clear G (itemCount u.1) u.2
  let room := { room with items := filled.1 }
  let chest :=
    if chestrand.1 ≤ chestLimit then
      let i := newItem G filled.2
      (Eq.mk ({ i.1 with chest := 1 } :: room.items.Items) room.items.Money, i.2)
    else (room.items, filled.2)
  let room := { room with items := chest.1 }
  let u := G.frand chest.2
  let cart :=
    if u.1 < f0005 then
      let i := newItem G u.2
      (Eq.mk ({ i.1 with cart := some (.mk [] (fun _ => 0)) } :: room.items.Items)
        room.items.Money, i.2)
    else (room.items, u.2)
  ({ room with items := cart.1 }, cart.2)

/-- The function `Maze::GenerateRoom`.  The stream is seeded from the
coordinates, whatever its state `_rnd` was; a room that exists is returned as
it is, and a new room is a copy of `model` changed by `fillRoom`.  The result
is the room, the maze and the stream after the call. -/
def Maze.GenerateRoom (G : RandomStream) (maze : Maze) (x y : Int) (model : Room) (seed : Nat)
    (_rnd : G.State) : Room × Maze × G.State :=
  let rnd := G.seed (roomSeed x y)
  match maze.rooms x y with
  | some room => (room, maze, rnd)
  | none =>
    let made := fillRoom G model seed rnd
    (made.1, ⟨fun a b => if a = x ∧ b = y then some made.1 else maze.rooms a b⟩, made.2)

/-- The function `CanMoveTo`, for the maze and the stream given: whether the
room is free of a wall, with the maze and the stream after the call. -/
def CanMoveTo (G : RandomStream) (maze : Maze) (wherex wherey : Int) (model : Room)
    (rnd : G.State) : Bool × Maze × G.State :=
  let r := maze.GenerateRoom G wherex wherey model 0 rnd
  (r.1.Wall == 0, r.2)

/-- The loop `Spawn4rooms(x, y)` of `SpawnRooms`: for `p` in 1, 3, 5, 7 the
room at `(x + p%3 - 1, y + p/3 - 1)` is generated with the model `room` and
the seed `(p + 1) / 2`. -/
def Spawn4rooms (G : RandomStream) (room : Room) (x y : Int) (st : Maze × G.State) :
    Maze × G.State :=
  ([1, 3, 5, 7] : List Int).foldl
    (fun st p =>
      (st.1.GenerateRoom G (x + p % 3 - 1) (y + p / 3 - 1) room ((p + 1) / 2).toNat st.2).2)
    st

/-- One arm of `SpawnRooms`, the loop
`for(o = 1; o < limit && CanMoveTo(x + o*dx, y + o*dy, room); ++o) Spawn4rooms(x + o*dx, y + o*dy)`
from the value `o` on, with `steps` values of `o` left below the limit. -/
def spawnArm (G : RandomStream) (room : Room) (wherex wherey dx dy : Int) :
    Nat → Int → Maze × G.State → Maze × G.State
  | 0, _, st => st
  | steps + 1, o, st =>
    let can := CanMoveTo G st.1 (wherex + o * dx) (wherey + o * dy) room st.2
    if can.1 then
      spawnArm G room wherex wherey dx dy steps (o + 1)
        (Spawn4rooms G room (wherex + o * dx) (wherey + o * dy) can.2)
    else can.2

/-- The function `SpawnRooms`: the room, the four rooms around it, and the
four arms: `wherey + o` and `wherey - o` for `o` below 5, `wherex - o` and
`wherex + o` for `o` below 6. -/
def SpawnRooms (G : RandomStream) (maze : Maze) (wherex wherey : Int) (model : Room)
    (rnd : G.State) : Room × Maze × G.State :=
  let r := maze.GenerateRoom G wherex wherey model 0 rnd
  let room := r.1
  let st := Spawn4rooms G room wherex wherey r.2
  let st := spawnArm G room wherex wherey 0 1 4 1 st
  let st := spawnArm G room wherex wherey 0 (-1) 4 1 st
  let st := spawnArm G room wherex wherey (-1) 0 5 1 st
  let st := spawnArm G room wherex wherey 1 0 5 1 st
  (room, st)

/-- A stream for examples: every draw gives zero. -/
def quietStream : RandomStream :=
  { State := Unit, seed := fun _ => (), frand := fun _ => (0, ()), rand := fun _ _ => (0, ()) }

/-- A cart with nothing in it, as `GenerateRoom` makes it when every draw
gives zero. -/
def emptyCart : ItemType := { cart := some (.mk [] (fun _ => 0)) }

/-- A maze without rooms. -/
def emptyMaze : Maze := ⟨fun _ _ => none⟩

/-- A maze for examples: the room at (0, 0) has the environment 1, the room
at (0, 1) has the environment 3, and there is no other room. -/
def twoRooms : Maze :=
  ⟨fun a b => if a = 0 ∧ b = 0 then some { Env := 1 }
    else if a = 0 ∧ b = 1 then some { Env := 3 } else none⟩

/-- Every room that the maze `m'` holds at a place other than `(x, y)` where
the maze `m` held none is what `fillRoom` makes of the model `room`, for a
comparison seed of at most 4 and the stream seeded from the place. -/
def FilledFrom (G : RandomStream) (room : Room) (x y : Int) (m m' : Maze) : Prop :=
  ∀ a b, m.rooms a b = none → (a, b) ≠ (x, y) → ∀ r, m'.rooms a b = some r →
    ∃ k, k ≤ 4 ∧ r = (fillRoom G room k (G.seed (roomSeed a b))).1

/-- The maze `m'` holds every room of the maze `m`, unchanged. -/
def KeepsRooms (m m' : Maze) : Prop :=
  ∀ a b r, m.rooms a b = some r → m'.rooms a b = some r

/-! ## What a move conserves -/

/-- From the state `st` to the later state `st'` things have gone one way,
from the container to the target, and nothing was lost or made: the items of
the container are a subsequence of what they were, the items of the target
end with what they were, the items of both together are the same up to
order; no money count of the container has grown, none of the target has
shrunk, their sum is the same for every denomination, and a count of the
container that was not negative is not negative. -/
def Transfer (st st' : MoveState) : Prop :=
  st'.me.Items.Sublist st.me.Items
    ∧ st.target.Items <:+ st'.target.Items
    ∧ (st'.me.Items ++ st'.target.Items).Perm (st.me.Items ++ st.target.Items)
    ∧ (∀ d, st'.me.Money d ≤ st.me.Money d)
    ∧ (∀ d, st.target.Money d ≤ st'.target.Money d)
    ∧ (∀ d, st'.me.Money d + st'.target.Money d = st.me.Money d + st.target.Money d)
    ∧ (∀ d, 0 ≤ st.me.Money d → 0 ≤ st'.me.Money d)

/-- Between the containers `me` and `target` before and `me'` and `target'`
after, nothing was lost or made: the items of both together are the same up
to order, the two counts of every denomination have the same sum, and where
both counts were not negative both are not negative. -/
def Conserved (me target me' target' : Eq) : Prop :=
  (me'.Items ++ target'.Items).Perm (me.Items ++ target.Items)
    ∧ (∀ d, me'.Money d + target'.Money d = me.Money d + target.Money d)
    ∧ (∀ d, 0 ≤ me.Money d → 0 ≤ target.Money d → 0 ≤ me'.Money d ∧ 0 ≤ target'.Money d)

/-! ## The loops of `move` with every bound made explicit

The functions `itemLoop` and `moneyLoop` carry a bound on the number of
iterations and give the state reached when the bound is used up.  The
functions below run the same loops and the recursive call of `move` for at
most `fuel` steps and give `none` when a loop has not come to its end by
then. -/

/-- The item loop of `move` run for at most `fuel` iterations. -/
def itemLoopRun (w : SingleReference) (round : Nat) :
    Nat → MoveState → Nat → Int → Bool → Option (MoveState × Int × Bool)
  | 0, _, _, _, _ => none
  | fuel + 1, st, item_id, remaining_items, found_item =>
    match st.me.find_item w item_id with
    | Int.negSucc _ => some (st, remaining_items, found_item)
    | Int.ofNat item_id =>
      let next := if round = 2 then takeItem st item_id else (st, item_id + 1)
      if w.index = 0 then itemLoopRun w round fuel next.1 next.2 remaining_items true
      else if remaining_items - 1 ≤ 0 then some (next.1, remaining_items - 1, true)
      else itemLoopRun w round fuel next.1 next.2 (remaining_items - 1) true

/-- The money loop of `move` run for at most `fuel` iterations. -/
def moneyLoopRun (w : SingleReference) (round : Nat) :
    Nat → MoveState → Nat → Int → Bool → Option (MoveState × Int × Bool)
  | 0, _, _, _, _ => none
  | fuel + 1, st, money_id, remaining_money, found_money =>
    match st.me.findMoney? w money_id with
    | none => some (st, remaining_money, found_money)
    | some m =>
      let get_money := min remaining_money (st.me.Money m)
      if get_money ≤ 0 then some (st, remaining_money, found_money)
      else
        let st1 := if round = 2 then takeMoney st m get_money else st
        let next := if round = 2 then m.val else m.val + 1
        if w.index ≠ 0 ∧ (w.amount = 0 ∨ remaining_money - get_money ≤ 0) then
          some (st1, remaining_money - get_money, true)
        else moneyLoopRun w round fuel st1 next (remaining_money - get_money) true

/-- The two rounds over the items, each loop run for at most `fuel`
iterations. -/
def moveItemsRun (fuel : Nat) (w : SingleReference) (st : MoveState) :
    Option (MoveState × Bool) :=
  let remaining_items : Int := if w.amount ≠ 0 then w.amount else 1
  match itemLoopRun w 1 fuel st 0 remaining_items false with
  | none => none
  | some r1 =>
    if r1.2.2 = true ∧ w.index ≠ 0 ∧ r1.2.1 > 0 then some (r1.1, false)
    else
      match itemLoopRun w 2 fuel r1.1 0 remaining_items r1.2.2 with
      | none => none
      | some r2 => some (r2.1, r2.2.2)

/-- The two rounds over the money, each loop run for at most `fuel`
iterations. -/
def moveMoneyRun (fuel : Nat) (w : SingleReference) (st : MoveState) :
    Option (MoveState × Bool) :=
  let remaining_money : Int := if w.amount ≠ 0 then w.amount else 0x7FFFFFFF
  match moneyLoopRun w 1 fuel st 0 remaining_money false with
  | none => none
  | some r1 =>
    if r1.2.2 = true ∧ w.amount ≠ 0 ∧ w.index ≠ 0 ∧ r1.2.1 > 0 then some (r1.1, false)
    else
      match moneyLoopRun w 2 fuel r1.1 0 remaining_money r1.2.2 with
      | none => none
      | some r2 => some (r2.1, r2.2.2)

/-- The body of the loop over the sub-requests, its loops run for at most
`fuel` iterations. -/
def moveOneRun (fuel : Nat) (everything : Bool) (st : MoveState) (w : SingleReference) :
    Option MoveState :=
  match moveItemsRun fuel w st with
  | none => none
  | some items =>
    match moveMoneyRun fuel w items.1 with
    | none => none
    | some money =>
      some (if !items.2 && !money.2 && !everything then
        { money.1 with
          result := { money.1.result with notfound := money.1.result.notfound ++ [w.what] } }
      else money.1)

/-- The loop `for(const auto& w: what.refs)` of `move`, the loops inside run
for at most `fuel` iterations. -/
def moveAllRun (fuel : Nat) (everything : Bool) :
    List SingleReference → MoveState → Option MoveState
  | [], st => some st
  | w :: refs, st =>
    match moveOneRun fuel everything st w with
    | none => none
    | some st1 => moveAllRun fuel everything refs st1

/-- The function `Eq::move` with every loop run for at most `fuel`
iterations and the recursive call nested at most `fuel` deep. -/
def moveRun : Nat → Eq → Eq → ItemReference → Option (moveresult × Eq × Eq)
  | 0, _, _, _ => none
  | fuel + 1, me, target, what =>
    match moveAllRun (fuel + 1) what.everything what.refs ⟨me, target, {}⟩ with
    | none => none
    | some st =>
      if what.except ≠ [] then
        match moveRun fuel st.target st.me (takeback what) with
        | none => none
        | some r =>
          some (finishMove me target
            { me := r.2.2
              target := r.2.1
              result :=
                { moved := st.result.moved.filter (fun s => !(r.1.moved.contains s))
                  notfound := st.result.notfound ++ r.1.notfound
                  immovable :=
                    st.result.immovable.filter (fun s => !(r.1.immovable.contains s)) } })
      else some (finishMove me target st)

/-! ## Notions for the rooms that `SpawnRooms` makes -/

/-- Every room of the maze has a seed of two bits. -/
def SeedsTwoBit (m : Maze) : Prop := ∀ a b r, m.rooms a b = some r → r.seed < 4

/-- The stream of `GenerateRoom` right before the draw that decides whether
the wall flag of a new room is drawn again: after the draw `chestrand`, the
draws for the seed and the draws for the environment. -/
def wallStream (G : RandomStream) (rnd : G.State) : G.State :=
  let chestrand := G.frand rnd
  let u := G.frand chestrand.2
  let turn := if u.1 > d095 then (G.rand 4 u.2).2 else u.2
  let u := G.frand turn
  if u.1 > d09 then (G.rand EnvTypes.length u.2).2 else u.2

/-- The maze has a room without a wall at `(a, b)`. -/
def FreeAt (m : Maze) (a b : Int) : Prop := ∃ r, m.rooms a b = some r ∧ r.Wall = 0

/-- The maze has a room with a wall at `(a, b)`. -/
def WallAt (m : Maze) (a b : Int) : Prop := ∃ r, m.rooms a b = some r ∧ r.Wall ≠ 0

/-- The place `(a, b)` is one of the four places next to `(c, d)`. -/
def NextTo (c d a b : Int) : Prop :=
  (a = c ∧ b = d - 1) ∨ (a = c - 1 ∧ b = d) ∨ (a = c + 1 ∧ b = d) ∨ (a = c ∧ b = d + 1)

/-- The four arms of `SpawnRooms`, in the order of the source: the step in
`x`, the step in `y`, and the number of steps. -/
def arms : List (Int × Int × Nat) := [(0, 1, 4), (0, -1, 4), (-1, 0, 5), (1, 0, 5)]

/-! ## The implement that is damaged and the chest that bursts -/

/-- The three indices of the item are indices of the three tables. -/
def ItemTypeOf.InBounds (i : ItemType) : Prop :=
  i.type < ItemTypes.length ∧ i.build < BuildTypes.length ∧ i.condition < CondTypes.length

instance (i : ItemType) : Decidable i.InBounds := by
  unfold ItemTypeOf.InBounds
  exact inferInstance

/-- Every item of the container has its indices in the tables. -/
def Eq.AllInBounds (e : Eq) : Prop := ∀ i ∈ e.Items, i.InBounds

/-- The three draws of `newItem` that decide between a whole table and its
first entries, in the order in which they are drawn: for the type, the build
and the condition. -/
def biasDraws (G : RandomStream) (rnd : G.State) : ℚ × ℚ × ℚ :=
  let u1 := G.frand rnd
  let type := if u1.1 > d04 then G.rand ItemTypes.length u1.2 else G.rand 4 u1.2
  let u2 := G.frand type.2
  let build := if u2.1 > d04 then G.rand BuildTypes.length u2.2 else G.rand 2 u2.2
  let u3 := G.frand build.2
  (u1.1, u2.1, u3.1)

/-- The damage that `Open` does to the implement `eq.Items[item_no]`:
`++item.condition` in the arithmetic of `std::size_t`, and the item is erased
when the index is no index of `CondTypes` any more.  The index `item_no` is
one that `find_item` gave; for an index without an item the container is left
as it is. -/
def damageItem (eq : Eq) (item_no : Nat) : Eq :=
  match eq.Items[item_no]? with
  | none => eq
  | some item =>
    let condition := (item.condition + 1) % 2 ^ 64
    if condition ≥ CondTypes.length then .mk (eq.Items.eraseIdx item_no) eq.Money
    else .mk (eq.Items.set item_no { item with condition := condition }) eq.Money

/-- The `double` literal `0.96`. -/
def d096 : ℚ := mkRat 1080863910568919 1125899906842624

/-- The `double` literal `0.3`. -/
def d03 : ℚ := mkRat 5404319552844595 18014398509481984

/-- The size of the draw `rand(1600/MoneyTypes[moneytype].worth)`: the macro
draws a number from 0 to `(size) - 1`, and this bound is cut to an `int`. -/
def burstSize (moneytype : Nat) : Nat :=
  ((1600 / (MoneyTypes.getD moneytype default).worth - 1).floor + 1).toNat

/-- The index `unsigned moneytype((1.0 - std::pow(v, 4)) * (count(MoneyTypes) - 1))`,
the power and the product read as exact. -/
def burstMoneyType (v : ℚ) : Nat := ((1 - v ^ 4) * ((MoneyTypes.length - 1 : Nat) : ℚ)).floor.toNat

/-- The body of the loop that draws the contents of a chest: coins of one
kind when the draw is above 0.96, a new item at the front otherwise.  The
index `moneytype` is below 6 for every draw from 0 to 1; for another index
the money is left as it is. -/
def burstStep (G : RandomStream) (items : Eq) (rnd : G.State) : Eq × G.State :=
  let u := G.frand rnd
  if u.1 > d096 then
    let v := G.frand u.2
    let moneytype := burstMoneyType v.1
    let n := G.rand (burstSize moneytype) v.2
    (if h : moneytype < 6 then
        .mk items.Items
          (Function.update items.Money ⟨moneytype, h⟩ (items.Money ⟨moneytype, h⟩ + n.1))
      else items, n.2)
  else
    let i := newItem G u.2
    (.mk (i.1 :: items.Items) items.Money, i.2)

/-- The loop `do ... while(frand() > 0.3)` that draws the contents of a chest,
for at most `fuel` rounds; `none` when the rounds do not suffice. -/
def burstLoop (G : RandomStream) : Nat → Eq → G.State → Option (Eq × G.State)
  | 0, _, _ => none
  | fuel + 1, items, rnd =>
    let step := burstStep G items rnd
    let w := G.frand step.2
    if w.1 > d03 then burstLoop G fuel step.1 w.2 else some (step.1, w.2)

/-- The end of `Open` for a chest that did not resist: the chest is erased
from the items of the room, and its contents are drawn into the room. -/
def burst (G : RandomStream) (fuel : Nat) (items : Eq) (chest_no : Nat) (rnd : G.State) :
    Option (Eq × G.State) :=
  burstLoop G fuel (.mk (items.Items.eraseIdx chest_no) items.Money) rnd

/-- A stream for examples: `seed n` sets the list `script n` of the draws of
`frand` to come, after which every draw gives zero; every draw of `rand`
gives zero. -/
def scriptStream (script : Nat → List ℚ) : RandomStream :=
  { State := List ℚ, seed := script, frand := fun s => (s.headD 0, s.tail),
    rand := fun _ s => (0, s) }

/-- A script for examples: the room at (0, 2) draws a wall, every other draw
gives zero. -/
def wallAtTwo (n : Nat) : List ℚ :=
  if n = roomSeed 0 2 then [mkRat 1 2, 0, 0, mkRat 99 100, 0] else []

/-- The draws of a chest that holds nothing: coins are chosen, the kind of
the coins is drawn, and the loop ends. -/
def emptyBurst : List ℚ := [mkRat 97 100, mkRat 1 2, 0]

/-! ## The money counts in the arithmetic of `long`

The member `Money` is an array of `long`.  The functions `takeMoney` to
`Eq.move` above take a count for an integer without a bound; the functions
below are the same functions with the two assignments
`target.Money[money_id] += get_money` and `Money[money_id] -= get_money` in
the arithmetic of `long`.  The other `long` variables of `move`, the amounts
that remain and the positions, stay in the range of `long` for every amount
from 0 to `2^63 - 1`, which is what the parser gives. -/

/-- The `long` that an addition or subtraction of `long` numbers leaves when
the exact result is `n`: the number from `-2^63` to `2^63 - 1` that differs
from `n` by a multiple of `2^64`.  For a result outside this range the
standard leaves the behaviour open; the program as compiled wraps around. -/
def wrapLong (n : Int) : Int := (n + 2 ^ 63) % 2 ^ 64 - 2 ^ 63

/-- The body of the money loop of `move` in the second round, the counts in
the arithmetic of `long`. -/
def takeMoneyLong (st : MoveState) (money_id : Fin 6) (get_money : Int) : MoveState :=
  { me := .mk st.me.Items
      (Function.update st.me.Money money_id (wrapLong (st.me.Money money_id - get_money)))
    target := .mk st.target.Items
      (Function.update st.target.Money money_id
        (wrapLong (st.target.Money money_id + get_money)))
    result := { st.result with moved := st.result.moved ++ [shownMoney get_money money_id] } }

/-- The money loop of `move`, as `moneyLoop`, the counts in the arithmetic of
`long`. -/
def moneyLoopLong (w : SingleReference) (round : Nat) :
    Nat → MoveState → Nat → Int → Bool → MoveState × Int × Bool
  | 0, st, _, remaining_money, found_money => (st, remaining_money, found_money)
  | fuel + 1, st, money_id, remaining_money, found_money =>
    match st.me.findMoney? w money_id with
    | none => (st, remaining_money, found_money)
    | some m =>
      let get_money := min remaining_money (st.me.Money m)
      if get_money ≤ 0 then (st, remaining_money, found_money)
      else
        let st1 := if round = 2 then takeMoneyLong st m get_money else st
        let next := if round = 2 then m.val else m.val + 1
        if w.index ≠ 0 ∧ (w.amount = 0 ∨ remaining_money - get_money ≤ 0) then
          (st1, remaining_money - get_money, true)
        else moneyLoopLong w round fuel st1 next (remaining_money - get_money) true

/-- The two rounds over the money of `move` for one sub-request, as
`moveMoney`, the counts in the arithmetic of `long`. -/
def moveMoneyLong (w : SingleReference) (st : MoveState) : MoveState × Bool :=
  let remaining_money : Int := if w.amount ≠ 0 then w.amount else 0x7FFFFFFF
  let r1 := moneyLoopLong w 1 7 st 0 remaining_money false
  if r1.2.2 = true ∧ w.amount ≠ 0 ∧ w.index ≠ 0 ∧ r1.2.1 > 0 then (r1.1, false)
  else
    let r2 := moneyLoopLong w 2 7 r1.1 0 remaining_money r1.2.2
    (r2.1, r2.2.2)

/-- The body of the loop `for(const auto& w: what.refs)` of `move`, as
`moveOne`, the counts in the arithmetic of `long`. -/
def moveOneLong (everything : Bool) (st : MoveState) (w : SingleReference) : MoveState :=
  let items := moveItems w st
  let money := moveMoneyLong w items.1
  if !items.2 && !money.2 && !everything then
    { money.1 with
      result := { money.1.result with notfound := money.1.result.notfound ++ [w.what] } }
  else money.1

/-- The function `Eq::move` with a bound `depth` on the nesting of the
recursive call, as `moveDepth`, the counts in the arithmetic of `long`. -/
def moveDepthLong : Nat → Eq → Eq → ItemReference → moveresult × Eq × Eq
  | depth, me, target, what =>
    let st := what.refs.foldl (moveOneLong what.everything) ⟨me, target, {}⟩
    let st :=
      if what.except ≠ [] then
        match depth with
        | 0 => st
        | depth + 1 =>
          let r := moveDepthLong depth st.target st.me (takeback what)
          { me := r.2.2
            target := r.2.1
            result :=
              { moved := st.result.moved.filter (fun s => !(r.1.moved.contains s))
                notfound := st.result.notfound ++ r.1.notfound
                immovable := st.result.immovable.filter (fun s => !(r.1.immovable.contains s)) } }
      else st
    finishMove me target st

/-- The function `Eq::move`, the counts in the arithmetic of `long`. -/
def Eq.moveLong (me target : Eq) (what : ItemReference) : moveresult × Eq × Eq :=
  moveDepthLong 1 me target what

/-- Every money count of the container is a number of the type `long`. -/
def Eq.InLong (e : Eq) : Prop := ∀ d, -2 ^ 63 ≤ e.Money d ∧ e.Money d ≤ 2 ^ 63 - 1

/-- The money counts of both containers are numbers of the type `long`, and
for no denomination the two counts together are more than a `long` holds. -/
def FitsLong (me target : Eq) : Prop :=
  me.InLong ∧ target.InLong ∧ ∀ d, me.Money d + target.Money d ≤ 2 ^ 63 - 1

/-! ## Basic facts about containers -/

@[simp] theorem Eq.Items_mk (items : List ItemType) (money : Fin 6 → Int) :
    (Eq.mk items money).Items = items := rfl

@[simp] theorem Eq.Money_mk (items : List ItemType) (money : Fin 6 → Int) :
    (Eq.mk items money).Money = money := rfl

theorem Eq.eq_of_parts {a b : Eq} (hi : a.Items = b.Items) (hm : a.Money = b.Money) : a = b := by
  cases a; cases b; simp at hi hm; simp [hi, hm]

/-! ## The last lines of `move` -/

theorem finishMove_rollback (me target : Eq) (st : MoveState)
    (h : (finishMove me target st).1.notfound ≠ []) :
    (finishMove me target st).2.1 = me ∧ (finishMove me target st).2.2 = target
      ∧ (finishMove me target st).1.moved = [] := by
  unfold finishMove at h ⊢
  by_cases hn : st.result.notfound = []
  · simp [hn] at h ⊢
    by_cases hm : st.result.moved = []
    · simp [hm] at h ⊢
    · simp [hm] at h
      exact absurd hn h
  · simp [hn]

theorem moveDepth_eq_finish (depth : Nat) (me target : Eq) (what : ItemReference) :
    ∃ st, moveDepth depth me target what = finishMove me target st := by
  cases depth <;> exact ⟨_, by rw [moveDepth]⟩

/-! ## Facts about `find_item` -/

theorem find_item_from_cases (w : SingleReference) (first : Nat) :
    ∀ (items : List ItemType) (a : Nat) (occ : Int),
      find_item_from w first items a occ = -1
        ∨ ∃ k : Nat, find_item_from w first items a occ = (k : Int) ∧ a ≤ k ∧ first ≤ k
            ∧ ∃ i, items.get? (k - a) = some i ∧ itemMatches w i = true := by
  intro items
  induction items with
  | nil => intro a occ; left; rfl
  | cons i items ih =>
    intro a occ
    have step : ∀ occ', (find_item_from w first items (a + 1) occ' = -1
        ∨ ∃ k : Nat, find_item_from w first items (a + 1) occ' = (k : Int) ∧ a ≤ k ∧ first ≤ k
            ∧ ∃ j, (i :: items).get? (k - a) = some j ∧ itemMatches w j = true) := by
      intro occ'
      rcases ih (a + 1) occ' with h | ⟨k, h1, h2, h3, j, h4, h5⟩
      · left; exact h
      · right
        refine ⟨k, h1, by omega, h3, j, ?_, h5⟩
        have : k - a = (k - (a + 1)) + 1 := by omega
        rw [this]; simpa using h4
    unfold find_item_from
    by_cases hm : itemMatches w i = true
    · simp only [hm, if_true]
      by_cases hp : w.index ≠ 0 ∧ w.amount = 0
      · simp only [hp, and_self, if_true, ne_eq, not_false_eq_true]
        by_cases ho : occ + 1 ≠ w.index
        · simp only [ho, ne_eq, not_false_eq_true, if_true]; exact step _
        · simp only [ho, if_false]
          by_cases hf : a < first
          · simp only [hf, if_true]; exact step _
          · simp only [hf, if_false]
            right; exact ⟨a, rfl, le_refl _, by omega, i, by simp, hm⟩
      · simp only [hp, if_false]
        by_cases hf : a < first
        · simp only [hf, if_true]; exact step _
        · simp only [hf, if_false]
          right; exact ⟨a, rfl, le_refl _, by omega, i, by simp, hm⟩
    · simp only [hm, if_false]; exact step _

theorem find_item_from_append_nomatch (w : SingleReference) (first : Nat) :
    ∀ (pre rest : List ItemType) (a : Nat) (occ : Int),
      (∀ x ∈ pre, itemMatches w x = false) →
      find_item_from w first (pre ++ rest) a occ
        = find_item_from w first rest (a + pre.length) occ := by
  intro pre
  induction pre with
  | nil => intro rest a occ _; simp
  | cons x pre ih =>
    intro rest a occ h
    have hx : itemMatches w x = false := h x (by simp)
    have := ih rest (a + 1) occ (fun y hy => h y (by simp [hy]))
    have e : a + 1 + pre.length = a + (pre.length + 1) := by omega
    rw [List.cons_append, find_item_from]
    simp only [hx, Bool.false_eq_true, if_false]
    rw [this, List.length_cons, e]

theorem find_item_from_append_below (w : SingleReference) (first : Nat)
    (hg : w.index = 0 ∨ w.amount ≠ 0) :
    ∀ (pre rest : List ItemType) (a : Nat) (occ : Int),
      a + pre.length ≤ first →
      find_item_from w first (pre ++ rest) a occ
        = find_item_from w first rest (a + pre.length) occ := by
  have hp : ¬ (w.index ≠ 0 ∧ w.amount = 0) := by
    rintro ⟨h1, h2⟩; rcases hg with h | h
    · exact h1 h
    · exact h h2
  intro pre
  induction pre with
  | nil => intro rest a occ _; simp
  | cons x pre ih =>
    intro rest a occ h
    have hlt : a < first := by simp at h; omega
    have := ih rest (a + 1) occ (by simp at h ⊢; omega)
    have e : a + 1 + pre.length = a + (pre.length + 1) := by omega
    rw [List.cons_append, find_item_from]
    simp only [hp, if_false, hlt, if_true, ite_self]
    rw [this, List.length_cons, e]

theorem find_item_from_hit (w : SingleReference) (first : Nat)
    (hg : w.index = 0 ∨ w.amount ≠ 0) (i : ItemType) (rest : List ItemType) (a : Nat) (occ : Int)
    (hm : itemMatches w i = true) (hf : first ≤ a) :
    find_item_from w first (i :: rest) a occ = (a : Int) := by
  have hp : ¬ (w.index ≠ 0 ∧ w.amount = 0) := by
    rintro ⟨h1, h2⟩; rcases hg with h | h
    · exact h1 h
    · exact h h2
  have hlt : ¬ a < first := by omega
  simp only [find_item_from, hm, if_true, hp, if_false, hlt]

/-- With a greedy reference, `find_item` from the position `pre.length` looks
only at what follows `pre`. -/
theorem find_item_greedy_drop (w : SingleReference) (hg : w.index = 0 ∨ w.amount ≠ 0)
    (e : Eq) (pre rest : List ItemType) (h : e.Items = pre ++ rest) :
    e.find_item w pre.length = find_item_from w pre.length rest pre.length 0 := by
  unfold Eq.find_item
  rw [h, find_item_from_append_below w _ hg pre rest 0 0 (by simp)]
  simp

theorem find_item_from_none (w : SingleReference) (first : Nat) (items : List ItemType)
    (a : Nat) (occ : Int) (h : ∀ x ∈ items, itemMatches w x = false) :
    find_item_from w first items a occ = -1 := by
  have := find_item_from_append_nomatch w first items [] a occ h
  simpa [find_item_from] using this

theorem levels_eq : levels = [23, 22, 21, 20, 19, 18, 17, 16, 15, 14, 13, 12, 11, 10, 9, 8, 7, 6,
    5, 4, 3, 2, 1, 0] := by decide

/-- The levels of `find_item` are the 24 renderings. -/
theorem itemMatches_eq_phraseFits (w : SingleReference) (i : ItemType) :
    itemMatches w i = phraseFits w.what i := by
  rw [Bool.eq_iff_iff]
  unfold itemMatches phraseFits renderings
  rw [levels_eq]
  by_cases he : w.what = ""
  · simp [he, String.isEmpty_iff]
  · simp [he, String.isEmpty_iff, levelName, List.flatMap]
    apply Iff.of_eq
    ac_rfl

theorem find_item_from_first_irrelevant (w : SingleReference) (first first' : Nat) :
    ∀ (items : List ItemType) (a : Nat) (occ : Int), first ≤ a → first' ≤ a →
      find_item_from w first items a occ = find_item_from w first' items a occ := by
  intro items
  induction items with
  | nil => intro a occ _ _; rfl
  | cons i items ih =>
    intro a occ h1 h2
    have n1 : ¬ a < first := by omega
    have n2 : ¬ a < first' := by omega
    rw [find_item_from, find_item_from]
    simp only [n1, n2, if_false, ih (a + 1) _ (by omega) (by omega)]

theorem find_item_greedy_hit (w : SingleReference) (hg : w.index = 0 ∨ w.amount ≠ 0)
    (e : Eq) (pre : List ItemType) (i : ItemType) (rest : List ItemType)
    (h : e.Items = pre ++ i :: rest) (hm : itemMatches w i = true) :
    e.find_item w pre.length = (pre.length : Int) := by
  rw [find_item_greedy_drop w hg e pre (i :: rest) h]
  exact find_item_from_hit w _ hg i rest _ _ hm (le_refl _)

theorem find_item_greedy_skip (w : SingleReference) (hg : w.index = 0 ∨ w.amount ≠ 0)
    (e : Eq) (pre : List ItemType) (i : ItemType) (rest : List ItemType)
    (h : e.Items = pre ++ i :: rest) (hm : itemMatches w i = false) :
    e.find_item w pre.length = e.find_item w (pre.length + 1) := by
  rw [find_item_greedy_drop w hg e pre (i :: rest) h]
  have h' : e.Items = (pre ++ [i]) ++ rest := by simp [h]
  have := find_item_greedy_drop w hg e (pre ++ [i]) rest h'
  simp only [List.length_append, List.length_singleton] at this
  rw [this, find_item_from]
  simp only [hm, Bool.false_eq_true, if_false]
  exact find_item_from_first_irrelevant w _ _ rest _ _ (by omega) (le_refl _)

theorem find_item_greedy_end (w : SingleReference) (hg : w.index = 0 ∨ w.amount ≠ 0)
    (e : Eq) (pre : List ItemType) (h : e.Items = pre) :
    e.find_item w pre.length = -1 := by
  rw [find_item_greedy_drop w hg e pre [] (by simp [h])]
  rfl

theorem find_item_from_greedy_least (w : SingleReference) (first : Nat)
    (hg : w.index = 0 ∨ w.amount ≠ 0) :
    ∀ (items : List ItemType) (a : Nat) (occ : Int),
      (find_item_from w first items a occ = -1
        ∧ ∀ j i, first ≤ a + j → items[j]? = some i → itemMatches w i = false)
      ∨ (∃ j i, find_item_from w first items a occ = ((a + j : Nat) : Int) ∧ first ≤ a + j
          ∧ items[j]? = some i ∧ itemMatches w i = true
          ∧ ∀ j' i', j' < j → first ≤ a + j' → items[j']? = some i' →
              itemMatches w i' = false) := by
  have hp : ¬ (w.index ≠ 0 ∧ w.amount = 0) := by
    rintro ⟨h1, h2⟩; rcases hg with h | h
    · exact h1 h
    · exact h h2
  intro items
  induction items with
  | nil =>
    intro a occ; left
    exact ⟨rfl, by intro j i _ h; simp at h⟩
  | cons x items ih =>
    intro a occ
    by_cases hx : itemMatches w x = true ∧ first ≤ a
    · right
      refine ⟨0, x, ?_, by simpa using hx.2, by simp, hx.1, ?_⟩
      · simpa using find_item_from_hit w first hg x items a occ hx.1 hx.2
      · intro j' i' hj; omega
    · have hstep : find_item_from w first (x :: items) a occ
          = find_item_from w first items (a + 1) occ := by
        rw [find_item_from]
        by_cases hm : itemMatches w x = true
        · have : a < first := by
            by_contra hc; exact hx ⟨hm, by omega⟩
          simp only [hm, if_true, hp, if_false, this]
        · simp only [hm, Bool.false_eq_true, if_false]
      rw [hstep]
      rcases ih (a + 1) occ with ⟨h1, h2⟩ | ⟨j, i, h1, h2, h3, h4, h5⟩
      · left
        refine ⟨h1, ?_⟩
        intro j i hj hi
        cases j with
        | zero =>
          simp at hi; subst hi
          by_contra hc
          exact hx ⟨by simpa using hc, by simpa using hj⟩
        | succ j => exact h2 j i (by omega) (by simpa using hi)
      · right
        refine ⟨j + 1, i, ?_, by omega, by simpa using h3, h4, ?_⟩
        · rw [h1]; congr 1; omega
        · intro j' i' hj hf hi
          cases j' with
          | zero =>
            simp at hi; subst hi
            by_contra hc
            exact hx ⟨by simpa using hc, by simpa using hf⟩
          | succ j' => exact h5 j' i' (by omega) (by omega) (by simpa using hi)

theorem positionsFrom_eq_of_matches (w : SingleReference) :
    ∀ (items : List ItemType) (a : Nat),
      positionsFrom w.what items a
        = match items with
          | [] => []
          | i :: rest =>
            if itemMatches w i then a :: positionsFrom w.what rest (a + 1)
            else positionsFrom w.what rest (a + 1) := by
  intro items a
  cases items with
  | nil => rfl
  | cons i rest => simp only [positionsFrom, itemMatches_eq_phraseFits]

theorem findAll_greedy (w : SingleReference) (hg : w.index = 0 ∨ w.amount ≠ 0) (e : Eq) :
    ∀ (rest pre : List ItemType) (fuel : Nat), e.Items = pre ++ rest → rest.length < fuel →
      findAll e w fuel pre.length = positionsFrom w.what rest pre.length := by
  intro rest
  induction rest with
  | nil =>
    intro pre fuel h hf
    obtain ⟨fuel, rfl⟩ : ∃ f, fuel = f + 1 := ⟨fuel - 1, by omega⟩
    rw [findAll, find_item_greedy_end w hg e pre (by simpa using h)]
    rfl
  | cons i rest ih =>
    intro pre fuel h hf
    obtain ⟨fuel, rfl⟩ : ∃ f, fuel = f + 1 := ⟨fuel - 1, by omega⟩
    have h' : e.Items = (pre ++ [i]) ++ rest := by simp [h]
    have hlen : (pre ++ [i]).length = pre.length + 1 := by simp
    rw [positionsFrom_eq_of_matches]
    by_cases hm : itemMatches w i = true
    · rw [findAll, find_item_greedy_hit w hg e pre i rest h hm]
      have := ih (pre ++ [i]) fuel h' (by simp at hf; omega)
      rw [hlen] at this
      simp only [hm, if_true]
      show pre.length :: findAll e w fuel (pre.length + 1) = _
      rw [this]
    · simp only [Bool.not_eq_true] at hm
      have := ih (pre ++ [i]) (fuel + 1) h' (by simp at hf; omega)
      rw [hlen] at this
      rw [findAll, find_item_greedy_skip w hg e pre i rest h hm]
      rw [findAll] at this
      simp only [hm, Bool.false_eq_true, if_false]
      exact this

theorem find_item_from_past (phrase : String) (first N : Nat) (hN : 1 ≤ N) :
    ∀ (items : List ItemType) (a : Nat) (occ : Int), (N : Int) ≤ occ →
      find_item_from { what := phrase, amount := 0, index := (N : Int) } first items a occ
        = -1 := by
  intro items
  induction items with
  | nil => intro a occ _; rfl
  | cons i items ih =>
    intro a occ h
    rw [find_item_from]
    have ho : occ + 1 ≠ (N : Int) := by omega
    have hidx : ((N : Int) ≠ 0 ∧ (0 : Int) = 0) := ⟨by omega, rfl⟩
    simp only [ho, hidx, and_self, ne_eq, not_false_eq_true, if_true,
      ih (a + 1) (occ + 1) (by omega), ih (a + 1) occ h, ite_self]

theorem find_item_from_positional (phrase : String) (first N : Nat) (hN : 1 ≤ N) :
    ∀ (items : List ItemType) (a occ : Nat), occ < N →
      find_item_from { what := phrase, amount := 0, index := (N : Int) } first items a (occ : Int)
        = match (positionsFrom phrase items a)[N - 1 - occ]? with
          | some p => if first ≤ p then (p : Int) else -1
          | none => -1 := by
  intro items
  induction items with
  | nil => intro a occ _; rfl
  | cons i items ih =>
    intro a occ h
    have hidx : ((N : Int) ≠ 0 ∧ (0 : Int) = 0) := ⟨by omega, rfl⟩
    rw [find_item_from, positionsFrom_eq_of_matches
      { what := phrase, amount := 0, index := (N : Int) }]
    by_cases hm : itemMatches { what := phrase, amount := 0, index := (N : Int) } i = true
    · simp only [hm, if_true, hidx, and_self, ne_eq, not_false_eq_true]
      by_cases ho : occ + 1 = N
      · have ho' : ¬ ((occ : Int) + 1 ≠ (N : Int)) := by omega
        have hz : N - 1 - occ = 0 := by omega
        simp only [ho', if_false, hz, List.getElem?_cons_zero]
        by_cases hf : a < first
        · have hf' : ¬ first ≤ a := by omega
          simp only [hf, if_true, hf', if_false]
          exact find_item_from_past phrase first N hN items (a + 1) _ (by omega)
        · have hf' : first ≤ a := by omega
          simp only [hf, if_false, hf', if_true]
      · have ho' : (occ : Int) + 1 ≠ (N : Int) := by omega
        have hz : N - 1 - occ = (N - 1 - (occ + 1)) + 1 := by omega
        simp only [ho', ne_eq, not_false_eq_true, if_true]
        rw [hz, List.getElem?_cons_succ]
        have := ih (a + 1) (occ + 1) (by omega)
        simpa using this
    · simp only [hm, if_false, Bool.false_eq_true]
      exact ih (a + 1) occ h

/-- C9 (positional reference): with amount 0 and index `N ≥ 1`, `find_item`
returns the position of the `N`-th item that the phrase fits, counted from the
beginning of the container whatever `first` is, when that item exists and its
position is at least `first`, and `-1` otherwise. -/
theorem find_item_positional (e : Eq) (phrase : String) (first N : Nat) (hN : 1 ≤ N) :
    e.find_item { what := phrase, amount := 0, index := (N : Int) } first
      = match (matchPositions phrase e)[N - 1]? with
        | some p => if first ≤ p then (p : Int) else -1
        | none => -1 := by
  have := find_item_from_positional phrase first N hN e.Items 0 0 (by omega)
  simpa [Eq.find_item, matchPositions] using this

/-- C10 (greedy and wildcard matching): with index 0 or a non-zero amount,
`find_item` returns the least position from `first` on whose item the phrase
fits (the phrase is empty or one of the 24 renderings), and `-1` when there
is none; an empty phrase finds the position `first` itself, and repeated
calls, each starting after the previous result, return exactly the positions
of the fitting items in the order of the container. -/
theorem find_item_greedy (e : Eq) (w : SingleReference) (first : Nat)
    (h : w.index = 0 ∨ w.amount ≠ 0) :
    ((e.find_item w first = -1
        ∧ ∀ (a : Nat) (i : ItemType), first ≤ a → e.Items[a]? = some i → phraseFits w.what i = false)
      ∨ ∃ (a : Nat) (i : ItemType), e.find_item w first = (a : Int) ∧ first ≤ a ∧ e.Items[a]? = some i
          ∧ phraseFits w.what i = true
          ∧ ∀ (b : Nat) (j : ItemType), first ≤ b → b < a → e.Items[b]? = some j → phraseFits w.what j = false)
    ∧ (∀ i, (renderings i).length = 24)
    ∧ (w.what = "" → first < e.Items.length → e.find_item w first = (first : Int))
    ∧ findAll e w (e.Items.length + 1) 0 = matchPositions w.what e := by
  have main : (e.find_item w first = -1
        ∧ ∀ (a : Nat) (i : ItemType), first ≤ a → e.Items[a]? = some i → phraseFits w.what i = false)
      ∨ ∃ (a : Nat) (i : ItemType), e.find_item w first = (a : Int) ∧ first ≤ a ∧ e.Items[a]? = some i
          ∧ phraseFits w.what i = true
          ∧ ∀ (b : Nat) (j : ItemType), first ≤ b → b < a → e.Items[b]? = some j → phraseFits w.what j = false := by
    rcases find_item_from_greedy_least w first h e.Items 0 0 with ⟨h1, h2⟩ | ⟨j, i, h1, h2, h3, h4, h5⟩
    · left
      refine ⟨h1, ?_⟩
      intro a i ha hi
      rw [← itemMatches_eq_phraseFits]
      exact h2 a i (by omega) hi
    · right
      refine ⟨j, i, by simpa [Eq.find_item] using h1, by omega, h3, ?_, ?_⟩
      · rw [← itemMatches_eq_phraseFits]; exact h4
      · intro b k hb hlt hk
        rw [← itemMatches_eq_phraseFits]
        exact h5 b k hlt (by omega) hk
  refine ⟨main, ?_, ?_, ?_⟩
  · intro i; rfl
  · intro hw hlt
    have hfit : ∀ i, phraseFits w.what i = true := by intro i; simp [phraseFits, hw]
    obtain ⟨x, hx⟩ : ∃ x, e.Items[first]? = some x := ⟨e.Items[first], by simp [hlt]⟩
    rcases main with ⟨_, h2⟩ | ⟨a, i, h1, h2, _, _, h5⟩
    · have := h2 first x (le_refl _) hx
      rw [hfit] at this; exact absurd this (by simp)
    · by_cases ha : a = first
      · rw [h1, ha]
      · have := h5 first x (le_refl _) (by omega) hx
        rw [hfit] at this; exact absurd this (by simp)
  · have := findAll_greedy w h e e.Items [] (e.Items.length + 1) (by simp) (by omega)
    simpa [matchPositions] using this

/-! ## Immovable items stay where they are -/

theorem immovables_eraseIdx (l : List ItemType) :
    ∀ (n : Nat), (l.getD n default).immovable = false →
      immovables (l.eraseIdx n) = immovables l := by
  induction l with
  | nil => intro n _; rfl
  | cons x l ih =>
    intro n h
    cases n with
    | zero =>
      simp only [List.getD_cons_zero] at h
      simp [immovables, List.filter_cons, h]
    | succ n =>
      simp only [List.getD_cons_succ] at h
      have := ih n h
      simp only [immovables] at this
      simp [immovables, List.filter_cons, this]

theorem SameStuck.refl (st : MoveState) : SameStuck st st := ⟨rfl, rfl⟩

theorem SameStuck.trans {a b c : MoveState} (h1 : SameStuck a b) (h2 : SameStuck b c) :
    SameStuck a c := ⟨h2.1.trans h1.1, h2.2.trans h1.2⟩

theorem takeItem_sameStuck (st : MoveState) (n : Nat) : SameStuck st (takeItem st n).1 := by
  unfold takeItem
  by_cases h : (st.me.Items.getD n default).immovable = true
  · simp only [h, if_true]; exact SameStuck.refl st
  · simp only [h, if_false, Bool.false_eq_true]
    simp only [Bool.not_eq_true] at h
    refine ⟨?_, ?_⟩
    · exact immovables_eraseIdx st.me.Items n h
    · show immovables (st.me.Items.getD n default :: st.target.Items) = _
      unfold immovables
      rw [List.filter_cons_of_neg (by rw [h]; simp)]

theorem itemLoop_sameStuck (w : SingleReference) (round : Nat) :
    ∀ (fuel : Nat) (st : MoveState) (item_id : Nat) (rem : Int) (found : Bool),
      SameStuck st (itemLoop w round fuel st item_id rem found).1 := by
  intro fuel
  induction fuel with
  | zero => intro st _ _ _; exact SameStuck.refl st
  | succ fuel ih =>
    intro st item_id rem found
    rw [itemLoop]
    cases hfi : st.me.find_item w item_id with
    | negSucc _ => exact SameStuck.refl st
    | ofNat n =>
      have hnext : SameStuck st (if round = 2 then takeItem st n else (st, n + 1)).1 := by
        by_cases hr : round = 2
        · simp only [hr, if_true]; exact takeItem_sameStuck st n
        · simp only [hr, if_false]; exact SameStuck.refl st
      simp only []
      by_cases h0 : w.index = 0
      · simp only [h0, if_true]
        exact hnext.trans (ih _ _ _ _)
      · simp only [h0, if_false]
        by_cases hr : rem - 1 ≤ 0
        · simp only [hr, if_true]; exact hnext
        · simp only [hr, if_false]
          exact hnext.trans (ih _ _ _ _)

theorem moneyLoop_items (w : SingleReference) (round : Nat) :
    ∀ (fuel : Nat) (st : MoveState) (money_id : Nat) (rem : Int) (found : Bool),
      (moneyLoop w round fuel st money_id rem found).1.me.Items = st.me.Items
        ∧ (moneyLoop w round fuel st money_id rem found).1.target.Items = st.target.Items := by
  intro fuel
  induction fuel with
  | zero => intro st _ _ _; exact ⟨rfl, rfl⟩
  | succ fuel ih =>
    intro st money_id rem found
    rw [moneyLoop]
    cases hfm : st.me.findMoney? w money_id with
    | none => exact ⟨rfl, rfl⟩
    | some m =>
      dsimp only
      by_cases hg : min rem (st.me.Money m) ≤ 0
      · rw [if_pos hg]; exact ⟨rfl, rfl⟩
      · rw [if_neg hg]
        have hst1 : (if round = 2 then takeMoney st m (min rem (st.me.Money m)) else st).me.Items
              = st.me.Items
            ∧ (if round = 2 then takeMoney st m (min rem (st.me.Money m)) else st).target.Items
              = st.target.Items := by
          by_cases hr : round = 2
          · simp [hr, takeMoney]
          · simp [hr]
        split
        · exact hst1
        · have := ih (if round = 2 then takeMoney st m (min rem (st.me.Money m)) else st)
            (if round = 2 then m.val else m.val + 1) (rem - min rem (st.me.Money m)) true
          exact ⟨this.1.trans hst1.1, this.2.trans hst1.2⟩

theorem moveItems_sameStuck (w : SingleReference) (st : MoveState) :
    SameStuck st (moveItems w st).1 := by
  unfold moveItems
  dsimp only
  generalize (if w.amount ≠ 0 then w.amount else 1) = rem
  split
  · exact itemLoop_sameStuck w 1 _ st 0 _ _
  · exact (itemLoop_sameStuck w 1 _ st 0 _ _).trans (itemLoop_sameStuck w 2 _ _ 0 _ _)

theorem moveMoney_items (w : SingleReference) (st : MoveState) :
    (moveMoney w st).1.me.Items = st.me.Items
      ∧ (moveMoney w st).1.target.Items = st.target.Items := by
  unfold moveMoney
  dsimp only
  generalize (if w.amount ≠ 0 then w.amount else 0x7FFFFFFF) = rem
  have h1 := moneyLoop_items w 1 7 st 0 rem false
  split
  · exact h1
  · have h2 := moneyLoop_items w 2 7 (moneyLoop w 1 7 st 0 rem false).1 0 rem
      (moneyLoop w 1 7 st 0 rem false).2.2
    exact ⟨h2.1.trans h1.1, h2.2.trans h1.2⟩

theorem moveOne_sameStuck (everything : Bool) (st : MoveState) (w : SingleReference) :
    SameStuck st (moveOne everything st w) := by
  have h1 := moveItems_sameStuck w st
  have h2 := moveMoney_items w (moveItems w st).1
  have h3 : SameStuck (moveItems w st).1 (moveMoney w (moveItems w st).1).1 :=
    ⟨by rw [h2.1], by rw [h2.2]⟩
  unfold moveOne
  dsimp only
  split
  · exact h1.trans h3
  · exact h1.trans h3

theorem foldl_moveOne_sameStuck (everything : Bool) (refs : List SingleReference) :
    ∀ st : MoveState, SameStuck st (refs.foldl (moveOne everything) st) := by
  induction refs with
  | nil => intro st; exact SameStuck.refl st
  | cons w refs ih =>
    intro st
    exact (moveOne_sameStuck everything st w).trans (ih _)

theorem finishMove_cases (me target : Eq) (st : MoveState) :
    ((finishMove me target st).2.1 = me ∧ (finishMove me target st).2.2 = target)
      ∨ ((finishMove me target st).2.1 = st.me ∧ (finishMove me target st).2.2 = st.target) := by
  unfold finishMove
  dsimp only
  by_cases h : (if st.result.notfound ≠ [] then ({ st.result with moved := [] } : moveresult)
      else st.result).moved = []
  · left; rw [if_pos h]; exact ⟨rfl, rfl⟩
  · right; rw [if_neg h]; exact ⟨rfl, rfl⟩

theorem moveDepth_sameStuck :
    ∀ (depth : Nat) (me target : Eq) (what : ItemReference),
      ∃ st, moveDepth depth me target what = finishMove me target st
        ∧ SameStuck ⟨me, target, {}⟩ st := by
  intro depth
  induction depth with
  | zero =>
    intro me target what
    have h := foldl_moveOne_sameStuck what.everything what.refs ⟨me, target, {}⟩
    rw [moveDepth]
    refine ⟨_, rfl, ?_⟩
    by_cases he : what.except ≠ []
    · rw [if_pos he]; exact h
    · rw [if_neg he]; exact h
  | succ depth ih =>
    intro me target what
    have h := foldl_moveOne_sameStuck what.everything what.refs ⟨me, target, {}⟩
    rw [moveDepth]
    refine ⟨_, rfl, ?_⟩
    by_cases he : what.except ≠ []
    · rw [if_pos he]
      obtain ⟨st', hst', hs⟩ := ih (what.refs.foldl (moveOne what.everything) ⟨me, target, {}⟩).target
        (what.refs.foldl (moveOne what.everything) ⟨me, target, {}⟩).me (takeback what)
      dsimp only
      rw [hst']
      rcases finishMove_cases (what.refs.foldl (moveOne what.everything) ⟨me, target, {}⟩).target
        (what.refs.foldl (moveOne what.everything) ⟨me, target, {}⟩).me st' with ⟨h1, h2⟩ | ⟨h1, h2⟩
      · exact ⟨by rw [h2]; exact h.1, by rw [h1]; exact h.2⟩
      · refine ⟨?_, ?_⟩
        · show immovables (finishMove _ _ st').2.2.Items = _
          rw [h2]; exact hs.2.trans h.1
        · show immovables (finishMove _ _ st').2.1.Items = _
          rw [h1]; exact hs.1.trans h.2
    · rw [if_neg he]; exact h

theorem moveDepth_immovables (depth : Nat) (me target : Eq) (what : ItemReference) :
    immovables (moveDepth depth me target what).2.1.Items = immovables me.Items
      ∧ immovables (moveDepth depth me target what).2.2.Items = immovables target.Items := by
  obtain ⟨st, hst, hs⟩ := moveDepth_sameStuck depth me target what
  rw [hst]
  rcases finishMove_cases me target st with ⟨h1, h2⟩ | ⟨h1, h2⟩
  · rw [h1, h2]; exact ⟨rfl, rfl⟩
  · rw [h1, h2]; exact hs

/-- C1 (move atomicity): when the result of `move` names something as not
found, the container and the target are both as they were before the call
(the items in order and every money count), and nothing is reported as
moved. -/
theorem move_atomic (me target : Eq) (what : ItemReference)
    (h : (me.move target what).1.notfound ≠ []) :
    (me.move target what).2.1 = me ∧ (me.move target what).2.2 = target
      ∧ (me.move target what).1.moved = [] := by
  obtain ⟨st, hst⟩ := moveDepth_eq_finish 1 me target what
  unfold Eq.move at h ⊢
  rw [hst] at h ⊢
  exact finishMove_rollback me target st h

/-- C3 (immovable items are never relocated): the immovable items of the
container, in order, are the same before and after `move`, and so are those
of the target; hence no immovable item appears in a container that did not
hold it before. -/
theorem move_keeps_immovables (me target : Eq) (what : ItemReference) :
    immovables (me.move target what).2.1.Items = immovables me.Items
      ∧ immovables (me.move target what).2.2.Items = immovables target.Items
      ∧ (∀ i ∈ (me.move target what).2.1.Items, i.immovable = true → i ∈ me.Items)
      ∧ (∀ i ∈ (me.move target what).2.2.Items, i.immovable = true → i ∈ target.Items) := by
  have h := moveDepth_immovables 1 me target what
  refine ⟨h.1, h.2, ?_, ?_⟩
  · intro i hi him
    have : i ∈ immovables (me.move target what).2.1.Items := by
      simp [immovables, hi, him]
    rw [Eq.move, h.1] at this
    simp [immovables] at this
    exact this.1
  · intro i hi him
    have : i ∈ immovables (me.move target what).2.2.Items := by
      simp [immovables, hi, him]
    rw [Eq.move, h.2] at this
    simp [immovables] at this
    exact this.1

/-! ## The item loop as a sweep -/

theorem itemLoop_notfound (w : SingleReference) (round fuel : Nat) (st : MoveState)
    (item_id : Nat) (rem : Int) (found : Bool) (h : st.me.find_item w item_id = -1) :
    itemLoop w round (fuel + 1) st item_id rem found = (st, rem, found) := by
  rw [itemLoop, h]; rfl

theorem itemLoop_found (w : SingleReference) (round fuel : Nat) (st : MoveState)
    (item_id : Nat) (rem : Int) (found : Bool) (n : Nat)
    (h : st.me.find_item w item_id = (n : Int)) :
    itemLoop w round (fuel + 1) st item_id rem found
      = if w.index = 0 then
          itemLoop w round fuel (if round = 2 then takeItem st n else (st, n + 1)).1
            (if round = 2 then takeItem st n else (st, n + 1)).2 rem true
        else if rem - 1 ≤ 0 then
          ((if round = 2 then takeItem st n else (st, n + 1)).1, rem - 1, true)
        else
          itemLoop w round fuel (if round = 2 then takeItem st n else (st, n + 1)).1
            (if round = 2 then takeItem st n else (st, n + 1)).2 (rem - 1) true := by
  rw [itemLoop, h]

theorem getD_length_append (pre : List ItemType) (i : ItemType) (rest : List ItemType)
    (d : ItemType) : (pre ++ i :: rest).getD pre.length d = i := by
  induction pre with
  | nil => rfl
  | cons x pre ih => simpa [List.getD_cons_succ] using ih

theorem eraseIdx_length_append (pre : List ItemType) (i : ItemType) (rest : List ItemType) :
    (pre ++ i :: rest).eraseIdx pre.length = pre ++ rest := by
  induction pre with
  | nil => rfl
  | cons x pre ih => simp [ih]

theorem applySweep_rest (st : MoveState) (pre rest : List ItemType) (rem : Int) (found : Bool)
    (h : st.me.Items = pre ++ rest) : applySweep st pre ⟨rest, [], [], rem, found⟩ = st := by
  obtain ⟨me, target, result⟩ := st
  cases me; cases target
  simp only [Eq.Items_mk] at h
  simp [applySweep, h]

theorem applySweep_keep (st : MoveState) (pre : List ItemType) (i : ItemType) (s : Sweep) :
    applySweep st pre { s with kept := i :: s.kept } = applySweep st (pre ++ [i]) s := by
  simp [applySweep]

theorem Sweep.push_remaining (round : Nat) (i : ItemType) (s : Sweep) :
    (s.push round i).remaining = s.remaining := by
  unfold Sweep.push
  by_cases hr : round = 2
  · by_cases hi : i.immovable = true
    · simp [hr, hi]
    · simp [hr, hi]
  · simp [hr]

theorem Sweep.push_found (round : Nat) (i : ItemType) (s : Sweep) :
    (s.push round i).found = s.found := by
  unfold Sweep.push
  by_cases hr : round = 2
  · by_cases hi : i.immovable = true
    · simp [hr, hi]
    · simp [hr, hi]
  · simp [hr]

/-- The state and position after the loop body has dealt with the item `i`
at the position `pre.length`: the items before the new position are `pre`,
with `i` after them unless it was moved. -/
theorem next_state (round : Nat) (st : MoveState) (pre : List ItemType) (i : ItemType)
    (rest : List ItemType) (h : st.me.Items = pre ++ i :: rest) :
    ∃ pre', (if round = 2 then takeItem st pre.length else (st, pre.length + 1)).1.me.Items
          = pre' ++ rest
      ∧ (if round = 2 then takeItem st pre.length else (st, pre.length + 1)).2 = pre'.length
      ∧ ∀ s : Sweep, applySweep st pre (s.push round i)
          = applySweep (if round = 2 then takeItem st pre.length else (st, pre.length + 1)).1
              pre' s := by
  have hget : st.me.Items.getD pre.length default = i := by
    rw [h]; exact getD_length_append pre i rest default
  have herase : st.me.Items.eraseIdx pre.length = pre ++ rest := by
    rw [h]; exact eraseIdx_length_append pre i rest
  by_cases hr : round = 2
  · by_cases hi : i.immovable = true
    · have ht : takeItem st pre.length
          = ({ st with
                result := { st.result with immovable := st.result.immovable ++ [shownName i] } },
              pre.length + 1) := by
        simp only [takeItem, hget, hi, if_true]
      rw [if_pos hr, ht]
      refine ⟨pre ++ [i], by simp [h], by simp, ?_⟩
      intro s
      simp [hr, hi, Sweep.push, applySweep]
    · have ht : takeItem st pre.length
          = ({ me := .mk (pre ++ rest) st.me.Money
               target := .mk (i :: st.target.Items) st.target.Money
               result := { st.result with moved := st.result.moved ++ [shownName i] } },
              pre.length) := by
        simp only [takeItem, hget, hi, if_false, herase, Bool.false_eq_true]
      simp only [Bool.not_eq_true] at hi
      rw [if_pos hr, ht]
      refine ⟨pre, by simp, by simp, ?_⟩
      intro s
      simp [hr, hi, Sweep.push, applySweep]
  · rw [if_neg hr]
    refine ⟨pre ++ [i], by simp [h], by simp, ?_⟩
    intro s
    simp [hr, Sweep.push, applySweep]

theorem itemLoop_eq_sweep (w : SingleReference) (hg : w.index = 0 ∨ w.amount ≠ 0)
    (round : Nat) :
    ∀ (rest : List ItemType) (fuel : Nat) (st : MoveState) (pre : List ItemType) (rem : Int)
      (found : Bool), st.me.Items = pre ++ rest → rest.length < fuel →
      itemLoop w round fuel st pre.length rem found
        = (applySweep st pre (itemSweep w round rest rem found),
            (itemSweep w round rest rem found).remaining,
            (itemSweep w round rest rem found).found) := by
  intro rest
  induction rest with
  | nil =>
    intro fuel st pre rem found h hf
    obtain ⟨fuel, rfl⟩ : ∃ f, fuel = f + 1 := ⟨fuel - 1, by omega⟩
    rw [itemLoop_notfound _ _ _ _ _ _ _ (find_item_greedy_end w hg st.me pre (by simpa using h))]
    simp only [itemSweep]
    rw [applySweep_rest st pre [] rem found h]
  | cons i rest ih =>
    intro fuel st pre rem found h hf
    obtain ⟨fuel, rfl⟩ : ∃ f, fuel = f + 1 := ⟨fuel - 1, by omega⟩
    have hf' : rest.length < fuel := by simp at hf; omega
    by_cases hm : itemMatches w i = true
    · rw [itemLoop_found _ _ _ _ _ _ _ _ (find_item_greedy_hit w hg st.me pre i rest h hm)]
      obtain ⟨pre', hitems, hpos, hpush⟩ := next_state round st pre i rest h
      generalize (if round = 2 then takeItem st pre.length else (st, pre.length + 1)) = nx
        at hitems hpos hpush ⊢
      rw [itemSweep]
      simp only [hm, if_true]
      by_cases h0 : w.index = 0
      · simp only [h0, if_true]
        rw [hpos, ih fuel nx.1 pre' rem true hitems hf', hpush, Sweep.push_remaining,
          Sweep.push_found]
      · simp only [h0, if_false]
        by_cases hr : rem - 1 ≤ 0
        · simp only [hr, if_true]
          rw [hpush, Sweep.push_remaining, Sweep.push_found,
            applySweep_rest nx.1 pre' rest _ _ hitems]
        · simp only [hr, if_false]
          rw [hpos, ih fuel nx.1 pre' (rem - 1) true hitems hf', hpush, Sweep.push_remaining,
            Sweep.push_found]
    · simp only [Bool.not_eq_true] at hm
      have h' : st.me.Items = (pre ++ [i]) ++ rest := by simp [h]
      have hskip : itemLoop w round (fuel + 1) st pre.length rem found
          = itemLoop w round (fuel + 1) st (pre ++ [i]).length rem found := by
        rw [itemLoop, itemLoop, find_item_greedy_skip w hg st.me pre i rest h hm]
        simp
      rw [hskip, ih (fuel + 1) st (pre ++ [i]) rem found h' (by omega), itemSweep]
      simp only [hm, Bool.false_eq_true, if_false, applySweep_keep]

theorem itemSweep_round1 (w : SingleReference) :
    ∀ (rest : List ItemType) (rem : Int) (found : Bool),
      (itemSweep w 1 rest rem found).kept = rest ∧ (itemSweep w 1 rest rem found).moved = []
        ∧ (itemSweep w 1 rest rem found).stuck = [] := by
  intro rest
  induction rest with
  | nil => intro rem found; exact ⟨rfl, rfl, rfl⟩
  | cons i rest ih =>
    intro rem found
    rw [itemSweep]
    by_cases hm : itemMatches w i = true
    · simp only [hm, if_true]
      by_cases h0 : w.index = 0
      · have := ih rem true
        simp [h0, Sweep.push, this]
      · by_cases hr : rem - 1 ≤ 0
        · simp [h0, hr, Sweep.push]
        · have := ih (rem - 1) true
          simp [h0, hr, Sweep.push, this]
    · have := ih rem found
      simp [hm, this]

/-- The first round of the item loop leaves the state as it is. -/
theorem itemLoop_round1 (w : SingleReference) (hg : w.index = 0 ∨ w.amount ≠ 0)
    (st : MoveState) (rem : Int) (found : Bool) :
    itemLoop w 1 (st.me.Items.length + 1) st 0 rem found
      = (st, (itemSweep w 1 st.me.Items rem found).remaining,
          (itemSweep w 1 st.me.Items rem found).found) := by
  have := itemLoop_eq_sweep w hg 1 st.me.Items (st.me.Items.length + 1) st [] rem found
    (by simp) (by omega)
  simp only [List.length_nil] at this
  rw [this]
  obtain ⟨h1, h2, h3⟩ := itemSweep_round1 w st.me.Items rem found
  have : applySweep st [] (itemSweep w 1 st.me.Items rem found) = st := by
    generalize itemSweep w 1 st.me.Items rem found = s at h1 h2 h3
    obtain ⟨kept, moved, stuck, r, f⟩ := s
    simp only at h1 h2 h3
    subst h1 h2 h3
    exact applySweep_rest st [] st.me.Items r f (by simp)
  rw [this]

theorem itemSweep_count (w : SingleReference) (round : Nat) (h0 : w.index ≠ 0) :
    ∀ (rest : List ItemType) (rem : Int) (found : Bool),
      (rest.countP (itemMatches w) = 0 →
          (itemSweep w round rest rem found).remaining = rem
            ∧ (itemSweep w round rest rem found).found = found)
      ∧ (1 ≤ rest.countP (itemMatches w) → (rest.countP (itemMatches w) : Int) < rem →
          (itemSweep w round rest rem found).remaining = rem - rest.countP (itemMatches w)
            ∧ (itemSweep w round rest rem found).found = true)
      ∧ (1 ≤ rest.countP (itemMatches w) → rem ≤ rest.countP (itemMatches w) →
          (itemSweep w round rest rem found).remaining ≤ 0
            ∧ (itemSweep w round rest rem found).found = true) := by
  intro rest
  induction rest with
  | nil =>
    intro rem found
    refine ⟨fun _ => ⟨rfl, rfl⟩, fun h => ?_, fun h => ?_⟩ <;> simp at h
  | cons i rest ih =>
    intro rem found
    rw [itemSweep]
    by_cases hm : itemMatches w i = true
    · have hc : (i :: rest).countP (itemMatches w) = rest.countP (itemMatches w) + 1 := by
        simp [List.countP_cons, hm]
      simp only [hm, if_true, h0, if_false, hc]
      by_cases hr : rem - 1 ≤ 0
      · rw [if_pos hr]
        simp only [Sweep.push_remaining, Sweep.push_found]
        refine ⟨fun h => by omega, fun _ h => by omega, fun _ _ => ⟨hr, trivial⟩⟩
      · rw [if_neg hr]
        simp only [Sweep.push_remaining, Sweep.push_found]
        obtain ⟨ih1, ih2, ih3⟩ := ih (rem - 1) true
        refine ⟨fun h => by omega, fun _ h => ?_, fun _ h => ?_⟩
        · by_cases hz : rest.countP (itemMatches w) = 0
          · have := ih1 hz
            rw [this.1, this.2, hz]; simp
          · have := ih2 (by omega) (by push_cast at h; omega)
            rw [this.1, this.2]; push_cast; exact ⟨by ring, rfl⟩
        · by_cases hz : rest.countP (itemMatches w) = 0
          · rw [hz] at h; simp at h; omega
          · exact ih3 (by omega) (by push_cast at h; omega)
    · have hc : (i :: rest).countP (itemMatches w) = rest.countP (itemMatches w) := by
        simp [List.countP_cons, hm]
      simp only [hm, if_false, hc, Bool.false_eq_true]
      exact ih rem found

theorem countP_itemMatches (w : SingleReference) (l : List ItemType) :
    l.countP (itemMatches w) = (l.filter (phraseFits w.what)).length := by
  rw [List.countP_eq_length_filter]
  congr 2
  funext i
  exact itemMatches_eq_phraseFits w i

theorem moveItems_shortfall (w : SingleReference) (st : MoveState)
    (hidx : w.index ≠ 0) (hamount : w.amount ≠ 0)
    (hsome : 1 ≤ st.me.Items.countP (itemMatches w))
    (hfew : (st.me.Items.countP (itemMatches w) : Int) < w.amount) :
    moveItems w st = (st, false) := by
  unfold moveItems
  dsimp only
  rw [if_pos hamount, itemLoop_round1 w (Or.inr hamount)]
  obtain ⟨h1, h2⟩ := (itemSweep_count w 1 hidx st.me.Items w.amount false).2.1 hsome hfew
  rw [h1, h2]
  dsimp only
  rw [if_pos ⟨rfl, hidx, by omega⟩]

theorem findMoney_none_of_find_money (e : Eq) (w : SingleReference) (first : Nat)
    (h : e.find_money w first = -1) : e.findMoney? w first = none := by
  unfold Eq.find_money at h
  cases hf : e.findMoney? w first with
  | none => rfl
  | some m => rw [hf] at h; simp at h

theorem moneyLoop_none (w : SingleReference) (round fuel : Nat) (st : MoveState)
    (money_id : Nat) (rem : Int) (found : Bool) (h : st.me.findMoney? w money_id = none) :
    moneyLoop w round fuel st money_id rem found = (st, rem, found) := by
  cases fuel with
  | zero => rfl
  | succ fuel => rw [moneyLoop, h]

theorem moveMoney_none (w : SingleReference) (st : MoveState)
    (h : st.me.findMoney? w 0 = none) : moveMoney w st = (st, false) := by
  unfold moveMoney
  dsimp only
  rw [moneyLoop_none w 1 7 st 0 _ false h]
  dsimp only
  rw [if_neg (by simp), moneyLoop_none w 2 7 st 0 _ false h]

theorem finishMove_notfound (me target : Eq) (st : MoveState) (h : st.result.notfound ≠ []) :
    finishMove me target st = ({ st.result with moved := [] }, me, target) := by
  unfold finishMove
  dsimp only
  rw [if_pos h, if_pos rfl]

theorem moveDepth_no_except (depth : Nat) (me target : Eq) (what : ItemReference)
    (h : what.except = []) :
    moveDepth depth me target what
      = finishMove me target (what.refs.foldl (moveOne what.everything) ⟨me, target, {}⟩) := by
  cases depth <;> rw [moveDepth, if_neg (by simp [h])]

/-- C5 (insufficient count takes nothing): a single reference with an
explicit amount `N ≥ 2` (and a non-zero index, as every counted reference
has) that is matched by at least one but fewer than `N` items of the
container and by no money moves nothing: the result names the phrase as not
found, reports nothing as moved, and the container and the target are
unchanged. -/
theorem move_insufficient (me target : Eq) (w : SingleReference) (original : String)
    (hN : 2 ≤ w.amount) (hidx : w.index ≠ 0)
    (hsome : 1 ≤ (me.Items.filter (phraseFits w.what)).length)
    (hfew : ((me.Items.filter (phraseFits w.what)).length : Int) < w.amount)
    (hmoney : me.find_money w 0 = -1) :
    me.move target { everything := false, original := original, refs := [w], except := [] }
      = ({ moved := [], notfound := [w.what], immovable := [] }, me, target) := by
  have hamount : w.amount ≠ 0 := by omega
  rw [← countP_itemMatches] at hsome hfew
  have h1 : moveItems w ⟨me, target, {}⟩ = (⟨me, target, {}⟩, false) :=
    moveItems_shortfall w _ hidx hamount hsome hfew
  have h2 : moveMoney w ⟨me, target, {}⟩ = (⟨me, target, {}⟩, false) :=
    moveMoney_none w _ (findMoney_none_of_find_money me w 0 hmoney)
  have h3 : moveOne false ⟨me, target, {}⟩ w
      = ⟨me, target, { moved := [], notfound := [w.what], immovable := [] }⟩ := by
    unfold moveOne
    dsimp only
    rw [h1]
    dsimp only
    rw [h2]
    simp
  rw [Eq.move, moveDepth_no_except 1 me target _ rfl]
  simp only [List.foldl_cons, List.foldl_nil, h3]
  rw [finishMove_notfound _ _ _ (by simp)]

/-! ## The money loop as a scan over the denominations -/

theorem finRange_six : List.finRange 6 = [0, 1, 2, 3, 4, 5] := by decide

theorem denomsFrom_succ (m : Fin 6) : denomsFrom m.val = m :: denomsFrom (m.val + 1) := by
  fin_cases m <;> decide

theorem denomsFrom_six (k : Nat) (h : 6 ≤ k) : denomsFrom k = [] := by
  unfold denomsFrom
  rw [List.filter_eq_nil_iff]
  intro m _
  have := m.isLt
  simp; omega

theorem findMoney_end (e : Eq) (w : SingleReference) (k : Nat) (h : 6 ≤ k) :
    e.findMoney? w k = none := by
  unfold Eq.findMoney?
  rw [List.find?_eq_none]
  intro m _
  have := m.isLt
  simp; omega

theorem val_three : ((3 : Fin 6) : Nat) = 3 := rfl

theorem val_four : ((4 : Fin 6) : Nat) = 4 := rfl

theorem val_five : ((5 : Fin 6) : Nat) = 5 := rfl

theorem findMoney_hit (e : Eq) (w : SingleReference) (m : Fin 6)
    (hm : moneyMatches e w m = true) : e.findMoney? w m.val = some m := by
  unfold Eq.findMoney?
  rw [finRange_six]
  fin_cases m <;> simp [List.find?, val_three, val_four, val_five] at hm ⊢ <;> simp [hm]

theorem findMoney_skip (e : Eq) (w : SingleReference) (m : Fin 6)
    (hm : moneyMatches e w m = false) : e.findMoney? w m.val = e.findMoney? w (m.val + 1) := by
  unfold Eq.findMoney?
  rw [finRange_six]
  fin_cases m <;> simp [List.find?, val_three, val_four, val_five] at hm ⊢ <;> simp [hm]

theorem moneyLoop_skip (w : SingleReference) (round fuel : Nat) (st : MoveState) (m : Fin 6)
    (rem : Int) (found : Bool) (hm : moneyMatches st.me w m = false) :
    moneyLoop w round fuel st m.val rem found = moneyLoop w round fuel st (m.val + 1) rem found := by
  cases fuel with
  | zero => rfl
  | succ fuel => rw [moneyLoop, moneyLoop, findMoney_skip st.me w m hm]

theorem moneyScan_spent (w : SingleReference) (round : Nat) :
    ∀ (ds : List (Fin 6)) (st : MoveState) (rem : Int) (found : Bool), rem ≤ 0 →
      moneyScan w round ds st rem found = (st, rem, found) := by
  intro ds
  induction ds with
  | nil => intro st rem found _; rfl
  | cons m ds ih =>
    intro st rem found h
    rw [moneyScan]
    by_cases hm : moneyMatches st.me w m = true
    · rw [if_pos hm, if_pos (le_trans (min_le_left _ _) h)]
    · rw [if_neg hm]; exact ih st rem found h

theorem moneyLoop_eq_scan (w : SingleReference) (round : Nat) :
    ∀ (n k : Nat), k + n = 6 → ∀ (fuel : Nat), n < fuel →
      ∀ (st : MoveState) (rem : Int) (found : Bool),
        moneyLoop w round fuel st k rem found = moneyScan w round (denomsFrom k) st rem found := by
  intro n
  induction n with
  | zero =>
    intro k hk fuel hf st rem found
    rw [denomsFrom_six k (by omega), moneyLoop_none w round fuel st k rem found
      (findMoney_end st.me w k (by omega))]
    rfl
  | succ n ih =>
    intro k hk fuel hf st rem found
    have hk6 : k < 6 := by omega
    obtain ⟨m, rfl⟩ : ∃ m : Fin 6, k = m.val := ⟨⟨k, hk6⟩, rfl⟩
    rw [denomsFrom_succ m, moneyScan]
    by_cases hm : moneyMatches st.me w m = true
    · obtain ⟨fuel, rfl⟩ : ∃ f, fuel = f + 1 := ⟨fuel - 1, by omega⟩
      rw [if_pos hm, moneyLoop, findMoney_hit st.me w m hm]
      dsimp only
      by_cases hg : min rem (st.me.Money m) ≤ 0
      · rw [if_pos hg, if_pos hg]
      · rw [if_neg hg, if_neg hg]
        by_cases hb : w.index ≠ 0 ∧ (w.amount = 0 ∨ rem - min rem (st.me.Money m) ≤ 0)
        · rw [if_pos hb, if_pos hb]
        · rw [if_neg hb, if_neg hb]
          by_cases hr : round = 2
          · subst hr
            simp only [if_true]
            by_cases hall : st.me.Money m ≤ rem
            · have hget : min rem (st.me.Money m) = st.me.Money m := min_eq_right hall
              have hno : moneyMatches (takeMoney st m (st.me.Money m)).me w m = false := by
                simp [moneyMatches, takeMoney]
              rw [hget, moneyLoop_skip w 2 fuel _ m _ _ hno]
              exact ih (m.val + 1) (by omega) fuel (by omega) _ _ _
            · have hget : min rem (st.me.Money m) = rem := min_eq_left (by omega)
              have hyes : moneyMatches (takeMoney st m rem).me w m = true := by
                simp only [moneyMatches, Bool.and_eq_true, decide_eq_true_eq] at hm ⊢
                refine ⟨?_, hm.2⟩
                simp [takeMoney]; omega
              obtain ⟨fuel, rfl⟩ : ∃ f, fuel = f + 1 := ⟨fuel - 1, by omega⟩
              rw [hget, moneyScan_spent w 2 _ _ _ _ (by omega), moneyLoop,
                findMoney_hit _ w m hyes]
              dsimp only
              rw [if_pos (by rw [sub_self]; exact min_le_left _ _)]
          · simp only [hr, if_false]
            exact ih (m.val + 1) (by omega) fuel (by omega) _ _ _
    · simp only [Bool.not_eq_true] at hm
      rw [if_neg (by simp [hm]), moneyLoop_skip w round fuel st m rem found hm]
      exact ih (m.val + 1) (by omega) fuel (by omega) _ _ _

theorem takeMoney_me_Money (st : MoveState) (m : Fin 6) (g : Int) (d : Fin 6) :
    (takeMoney st m g).me.Money d = if d = m then st.me.Money m - g else st.me.Money d := by
  simp [takeMoney, Function.update_apply]

theorem takeMoney_target_Money (st : MoveState) (m : Fin 6) (g : Int) (d : Fin 6) :
    (takeMoney st m g).target.Money d
      = if d = m then st.target.Money m + g else st.target.Money d := by
  simp [takeMoney, Function.update_apply]

theorem mem_denoms (d : Fin 6) : d ∈ ([0, 1, 2, 3, 4, 5] : List (Fin 6)) := by
  fin_cases d <;> decide

theorem Interleave.all_kept : ∀ l : List ItemType, Interleave l l []
  | [] => Interleave.nil
  | x :: l => Interleave.keep x (Interleave.all_kept l)

theorem Interleave.keep_front (p : List ItemType) {l kept taken : List ItemType}
    (h : Interleave l kept taken) : Interleave (p ++ l) (p ++ kept) taken := by
  induction p with
  | nil => exact h
  | cons x p ih => exact Interleave.keep x ih

theorem split_at_index : ∀ (l : List ItemType) (j : Nat) (x : ItemType), l[j]? = some x →
    ∃ a b, l = a ++ x :: b ∧ a.length = j := by
  intro l
  induction l with
  | nil => intro j x h; simp at h
  | cons y l ih =>
    intro j x h
    cases j with
    | zero =>
      simp at h; subst h
      exact ⟨[], l, rfl, rfl⟩
    | succ j =>
      obtain ⟨a, b, hab, hlen⟩ := ih j x (by simpa using h)
      exact ⟨y :: a, b, by simp [hab], by simp [hlen]⟩

theorem applySweep_front (st : MoveState) (pre r1 : List ItemType) (s : Sweep) :
    applySweep st (pre ++ r1) s = applySweep st pre { s with kept := r1 ++ s.kept } := by
  simp [applySweep]

theorem Sweep.push_interleave (round : Nat) (i : ItemType) (s : Sweep) {l : List ItemType}
    (h : Interleave l s.kept s.moved) :
    Interleave (i :: l) (s.push round i).kept (s.push round i).moved := by
  unfold Sweep.push
  by_cases hr : round = 2
  · by_cases hi : i.immovable = true
    · simp only [hr, hi, if_true]; exact Interleave.keep i h
    · simp only [hr, hi, if_true, if_false, Bool.false_eq_true]; exact Interleave.take i h
  · simp only [hr, if_false]; exact Interleave.keep i h

theorem itemLoop_interleave (w : SingleReference) (round : Nat) :
    ∀ (fuel : Nat) (st : MoveState) (pre rest : List ItemType) (rem : Int) (found : Bool),
      st.me.Items = pre ++ rest →
      ∃ s : Sweep, Interleave rest s.kept s.moved
        ∧ (itemLoop w round fuel st pre.length rem found).1 = applySweep st pre s := by
  intro fuel
  induction fuel with
  | zero =>
    intro st pre rest rem found h
    exact ⟨⟨rest, [], [], rem, found⟩, Interleave.all_kept rest,
      (applySweep_rest st pre rest rem found h).symm⟩
  | succ fuel ih =>
    intro st pre rest rem found h
    rcases find_item_from_cases w pre.length st.me.Items 0 0 with hnone | ⟨n, hn, _, hge, i, hi, _⟩
    · rw [itemLoop_notfound w round fuel st pre.length rem found hnone]
      exact ⟨⟨rest, [], [], rem, found⟩, Interleave.all_kept rest,
        (applySweep_rest st pre rest rem found h).symm⟩
    · have hi' : rest[n - pre.length]? = some i := by
        have : st.me.Items[n]? = some i := by simpa using hi
        rw [h, List.getElem?_append_right hge] at this
        exact this
      obtain ⟨r1, r2, hrest, hlen⟩ := split_at_index rest (n - pre.length) i hi'
      have hitems : st.me.Items = (pre ++ r1) ++ i :: r2 := by rw [h, hrest]; simp
      have hn' : n = (pre ++ r1).length := by simp [hlen]; omega
      rw [itemLoop_found w round fuel st pre.length rem found n hn, hn']
      obtain ⟨pre', hnx, hpos, hpush⟩ := next_state round st (pre ++ r1) i r2 hitems
      generalize (if round = 2 then takeItem st (pre ++ r1).length
        else (st, (pre ++ r1).length + 1)) = nx at hnx hpos hpush ⊢
      have wrap : ∀ s' : Sweep, Interleave r2 s'.kept s'.moved →
          ∃ s : Sweep, Interleave rest s.kept s.moved
            ∧ applySweep nx.1 pre' s' = applySweep st pre s := by
        intro s' hs'
        refine ⟨{ (s'.push round i) with kept := r1 ++ (s'.push round i).kept }, ?_, ?_⟩
        · rw [hrest]
          exact Interleave.keep_front r1 (Sweep.push_interleave round i s' hs')
        · rw [← hpush s', applySweep_front]
      by_cases h0 : w.index = 0
      · rw [if_pos h0, hpos]
        obtain ⟨s', hs', heq⟩ := ih nx.1 pre' r2 rem true hnx
        rw [heq]
        exact wrap s' hs'
      · rw [if_neg h0]
        by_cases hr : rem - 1 ≤ 0
        · rw [if_pos hr]
          have := wrap ⟨r2, [], [], rem, found⟩ (Interleave.all_kept r2)
          rw [applySweep_rest nx.1 pre' r2 rem found hnx] at this
          exact this
        · rw [if_neg hr, hpos]
          obtain ⟨s', hs', heq⟩ := ih nx.1 pre' r2 (rem - 1) true hnx
          rw [heq]
          exact wrap s' hs'

theorem itemLoop_round1_state (w : SingleReference) :
    ∀ (fuel : Nat) (st : MoveState) (item_id : Nat) (rem : Int) (found : Bool),
      (itemLoop w 1 fuel st item_id rem found).1 = st := by
  intro fuel
  induction fuel with
  | zero => intro st _ _ _; rfl
  | succ fuel ih =>
    intro st item_id rem found
    rw [itemLoop]
    cases st.me.find_item w item_id with
    | negSucc _ => rfl
    | ofNat n =>
      dsimp only
      simp only [show ¬ ((1 : Nat) = 2) by decide, if_false]
      split
      · exact ih _ _ _ _
      · split
        · rfl
        · exact ih _ _ _ _

theorem moveItems_interleave (w : SingleReference) (st : MoveState) :
    ∃ s : Sweep, Interleave st.me.Items s.kept s.moved
      ∧ (moveItems w st).1 = applySweep st [] s := by
  unfold moveItems
  dsimp only
  generalize (if w.amount ≠ 0 then w.amount else 1) = rem
  have h1 := itemLoop_round1_state w (st.me.Items.length + 1) st 0 rem false
  by_cases hc : (itemLoop w 1 (st.me.Items.length + 1) st 0 rem false).2.2 = true ∧ w.index ≠ 0
      ∧ (itemLoop w 1 (st.me.Items.length + 1) st 0 rem false).2.1 > 0
  · rw [if_pos hc]
    exact ⟨⟨st.me.Items, [], [], rem, false⟩, Interleave.all_kept _,
      by rw [h1]; exact (applySweep_rest st [] st.me.Items rem false (by simp)).symm⟩
  · rw [if_neg hc]
    dsimp only
    rw [h1]
    exact itemLoop_interleave w 2 (st.me.Items.length + 1) st [] st.me.Items rem _ (by simp)

theorem moneyLoop_result (w : SingleReference) (round : Nat) :
    ∀ (fuel : Nat) (st : MoveState) (money_id : Nat) (rem : Int) (found : Bool),
      (∃ coins, (moneyLoop w round fuel st money_id rem found).1.result.moved
          = st.result.moved ++ coins)
        ∧ (moneyLoop w round fuel st money_id rem found).1.result.notfound = st.result.notfound
        ∧ (moneyLoop w round fuel st money_id rem found).1.result.immovable
          = st.result.immovable := by
  intro fuel
  induction fuel with
  | zero => intro st _ _ _; exact ⟨⟨[], by simp [moneyLoop]⟩, rfl, rfl⟩
  | succ fuel ih =>
    intro st money_id rem found
    rw [moneyLoop]
    cases st.me.findMoney? w money_id with
    | none => exact ⟨⟨[], by simp⟩, rfl, rfl⟩
    | some m =>
      dsimp only
      have hst1 : (∃ coins, (if round = 2 then takeMoney st m (min rem (st.me.Money m))
            else st).result.moved = st.result.moved ++ coins)
          ∧ (if round = 2 then takeMoney st m (min rem (st.me.Money m)) else st).result.notfound
            = st.result.notfound
          ∧ (if round = 2 then takeMoney st m (min rem (st.me.Money m)) else st).result.immovable
            = st.result.immovable := by
        by_cases hr : round = 2
        · rw [if_pos hr]; exact ⟨⟨_, rfl⟩, rfl, rfl⟩
        · rw [if_neg hr]; exact ⟨⟨[], by simp⟩, rfl, rfl⟩
      by_cases hg : min rem (st.me.Money m) ≤ 0
      · rw [if_pos hg]; exact ⟨⟨[], by simp⟩, rfl, rfl⟩
      · rw [if_neg hg]
        split
        · exact hst1
        · obtain ⟨⟨c1, hc1⟩, hn1, hi1⟩ := hst1
          obtain ⟨⟨c2, hc2⟩, hn2, hi2⟩ := ih
            (if round = 2 then takeMoney st m (min rem (st.me.Money m)) else st)
            (if round = 2 then m.val else m.val + 1) (rem - min rem (st.me.Money m)) true
          exact ⟨⟨c1 ++ c2, by rw [hc2, hc1, List.append_assoc]⟩, hn2.trans hn1, hi2.trans hi1⟩

theorem moveMoney_result (w : SingleReference) (st : MoveState) :
    (∃ coins, (moveMoney w st).1.result.moved = st.result.moved ++ coins)
      ∧ (moveMoney w st).1.result.notfound = st.result.notfound
      ∧ (moveMoney w st).1.result.immovable = st.result.immovable := by
  unfold moveMoney
  dsimp only
  generalize (if w.amount ≠ 0 then w.amount else 0x7FFFFFFF) = rem
  have h1 := moneyLoop_result w 1 7 st 0 rem false
  split
  · exact h1
  · obtain ⟨⟨c1, hc1⟩, hn1, hi1⟩ := h1
    obtain ⟨⟨c2, hc2⟩, hn2, hi2⟩ := moneyLoop_result w 2 7 (moneyLoop w 1 7 st 0 rem false).1 0
      rem (moneyLoop w 1 7 st 0 rem false).2.2
    exact ⟨⟨c1 ++ c2, by rw [hc2, hc1, List.append_assoc]⟩, hn2.trans hn1, hi2.trans hi1⟩

/-! ## Facts about the word manipulations -/

theorem after_eq_some (lit : List Char) :
    ∀ (s r : List Char), after lit s = some r → s = lit ++ r := by
  induction lit with
  | nil => intro s r h; simp [after] at h; simp [h]
  | cons a lit ih =>
    intro s r h
    cases s with
    | nil => simp [after] at h
    | cons c s =>
      by_cases hac : a = c
      · subst hac
        simp only [after, if_true] at h
        rw [ih s r h]; rfl
      · simp [after, hac] at h

theorem after_append_space (lit : List Char) (hlit : ' ' ∉ lit) :
    ∀ (W rest r : List Char), ' ' ∉ W → after lit (W ++ ' ' :: rest) = some (' ' :: r) →
      lit = W := by
  induction lit with
  | nil =>
    intro W rest r hW h
    simp only [after, Option.some.injEq] at h
    cases W with
    | nil => rfl
    | cons b W =>
      simp only [List.cons_append, List.cons.injEq] at h
      exact absurd h.1 (by intro hb; exact hW (by simp [hb]))
  | cons a lit ih =>
    intro W rest r hW h
    have ha : a ≠ ' ' := by intro h'; exact hlit (by simp [h'])
    have hlit' : ' ' ∉ lit := by intro h'; exact hlit (by simp [h'])
    cases W with
    | nil => simp [after, ha] at h
    | cons b W =>
      by_cases hab : a = b
      · subst hab
        simp only [List.cons_append, after, if_true] at h
        rw [ih hlit' W rest r (by intro h'; exact hW (by simp [h'])) h]
      · simp [after, hab] at h

theorem afterWordSpaces_word (lit : List Char) (hlit : ' ' ∉ lit) (W rest : List Char)
    (hW : ' ' ∉ W) (hne : W ≠ lit) : afterWordSpaces lit (W ++ ' ' :: rest) = none := by
  unfold afterWordSpaces
  cases h : after lit (W ++ ' ' :: rest) with
  | none => rfl
  | some r =>
    cases r with
    | nil => rfl
    | cons c r =>
      by_cases hc : c = ' '
      · subst hc
        exact absurd (after_append_space lit hlit W rest r hW h).symm hne
      · simp [hc]

theorem afterWordSpaces_nospace (lit : List Char) (s : List Char) (hs : ' ' ∉ s) :
    afterWordSpaces lit s = none := by
  unfold afterWordSpaces
  cases h : after lit s with
  | none => rfl
  | some r =>
    cases r with
    | nil => rfl
    | cons c r =>
      by_cases hc : c = ' '
      · subst hc
        have := after_eq_some lit s _ h
        exact absurd (by rw [this]; simp) hs
      · simp [hc]

theorem RemoveArticle_word (W : String) (hW : plainWord W = true) (rest : List Char) :
    RemoveArticle ⟨W.data ++ ' ' :: rest⟩ = ⟨W.data ++ ' ' :: rest⟩ := by
  simp only [plainWord, Bool.and_eq_true, Bool.not_eq_true', bne_iff_ne, ne_eq] at hW
  obtain ⟨⟨⟨h0, h1⟩, h2⟩, h3⟩ := hW
  have hsp : ' ' ∉ W.data := by simpa using h0
  have ne : ∀ lit : String, W ≠ lit → W.data ≠ lit.data := by
    intro lit h hd; exact h (String.ext hd)
  unfold RemoveArticle
  rw [afterWordSpaces_word ['a'] (by decide) W.data rest hsp (ne "a" h1),
    afterWordSpaces_word ['a', 'n'] (by decide) W.data rest hsp (ne "an" h2),
    afterWordSpaces_word ['t', 'h', 'e'] (by decide) W.data rest hsp (ne "the" h3)]

theorem RemoveArticle_nospace (s : String) (hs : ' ' ∉ s.data) : RemoveArticle s = s := by
  unfold RemoveArticle
  rw [afterWordSpaces_nospace _ _ hs, afterWordSpaces_nospace _ _ hs,
    afterWordSpaces_nospace _ _ hs]

theorem AddArticle_true_data (s : String) :
    (AddArticle s true).data = 't' :: 'h' :: 'e' :: ' ' :: (RemoveArticle s).data := by
  simp [AddArticle]

theorem itemMatches_congr (w1 w2 : SingleReference) (h : w1.what = w2.what) (i : ItemType) :
    itemMatches w1 i = itemMatches w2 i := by
  unfold itemMatches
  rw [h]

theorem find_item_from_congr (w1 w2 : SingleReference) (first : Nat)
    (hwhat : w1.what = w2.what) (hindex : w1.index = w2.index)
    (hamount : w1.amount = 0 ↔ w2.amount = 0) :
    ∀ (items : List ItemType) (a : Nat) (occ : Int),
      find_item_from w1 first items a occ = find_item_from w2 first items a occ := by
  intro items
  induction items with
  | nil => intro a occ; rfl
  | cons i items ih =>
    intro a occ
    rw [find_item_from, find_item_from, itemMatches_congr w1 w2 hwhat i, hindex]
    have hc : (w2.index ≠ 0 ∧ w1.amount = 0) ↔ (w2.index ≠ 0 ∧ w2.amount = 0) := by
      rw [hamount]
    simp only [hc, ih]

/-- C11, as amended: `find_item` depends on the amount only through whether
it is zero: two references with the same phrase and the same index whose
amounts are both zero or both non-zero get the same result. -/
theorem find_item_amount (e : Eq) (w1 w2 : SingleReference) (first : Nat)
    (hwhat : w1.what = w2.what) (hindex : w1.index = w2.index)
    (hamount : w1.amount = 0 ↔ w2.amount = 0) :
    e.find_item w1 first = e.find_item w2 first :=
  find_item_from_congr w1 w2 first hwhat hindex hamount e.Items 0 0

/-- C11 fails as stated: the references `shirt 2` with amount 0 and with
amount 1 differ only in the amount, and `find_item` returns the second shirt
for the first and the first shirt for the second. -/
theorem find_item_amount_matters :
    sampleFloor.find_item { what := "shirt", amount := 0, index := 2 } 0 = 3
      ∧ sampleFloor.find_item { what := "shirt", amount := 1, index := 2 } 0 = 0 := by
  decide

theorem find_item_amount_witness :
    sampleFloor.find_item { what := "shirt", amount := 3, index := 2 } 1
      = sampleFloor.find_item { what := "shirt", amount := 1, index := 2 } 1 :=
  find_item_amount sampleFloor { what := "shirt", amount := 3, index := 2 }
    { what := "shirt", amount := 1, index := 2 } 1 rfl rfl (by decide)

theorem denoms_sorted : ([0, 1, 2, 3, 4, 5] : List (Fin 6)).Pairwise (· < ·) := by decide

/-- C12 (money matching): `find_money` returns the least denomination from
`first` on that is held and whose name the phrase addresses (the phrase is
empty, "money", "coin", "coins", the name, or the name followed by " coin" or
" coins"), and `-1` when there is none; the result is the same for every
amount and index. -/
theorem find_money_least (e : Eq) (w : SingleReference) (first : Nat) :
    ((e.find_money w first = -1
        ∧ ∀ m : Fin 6, first ≤ m.val →
            ¬ (e.Money m > 0
              ∧ w.what ∈ ["", "money", "coin", "coins", nameAt MoneyTypes m,
                  nameAt MoneyTypes m ++ " coin", nameAt MoneyTypes m ++ " coins"]))
      ∨ ∃ m : Fin 6, e.find_money w first = (m.val : Int) ∧ first ≤ m.val ∧ e.Money m > 0
          ∧ w.what ∈ ["", "money", "coin", "coins", nameAt MoneyTypes m,
              nameAt MoneyTypes m ++ " coin", nameAt MoneyTypes m ++ " coins"]
          ∧ ∀ m' : Fin 6, first ≤ m'.val → m' < m →
              ¬ (e.Money m' > 0
                ∧ w.what ∈ ["", "money", "coin", "coins", nameAt MoneyTypes m',
                    nameAt MoneyTypes m' ++ " coin", nameAt MoneyTypes m' ++ " coins"]))
    ∧ ∀ w' : SingleReference, w'.what = w.what → e.find_money w' first = e.find_money w first := by
  have hP : ∀ m : Fin 6, (decide (first ≤ m.val) && moneyMatches e w m) = true
      ↔ first ≤ m.val ∧ e.Money m > 0
        ∧ w.what ∈ ["", "money", "coin", "coins", nameAt MoneyTypes m,
            nameAt MoneyTypes m ++ " coin", nameAt MoneyTypes m ++ " coins"] := by
    intro m
    simp only [moneyMatches, moneyPhrases, Bool.and_eq_true, decide_eq_true_eq]
  refine ⟨?_, ?_⟩
  · unfold Eq.find_money Eq.findMoney?
    rw [finRange_six]
    cases hf : ([0, 1, 2, 3, 4, 5] : List (Fin 6)).find?
        (fun m => decide (first ≤ m.val) && moneyMatches e w m) with
    | none =>
      left
      refine ⟨rfl, ?_⟩
      intro m hm hc
      rw [List.find?_eq_none] at hf
      exact hf m (mem_denoms m) ((hP m).mpr ⟨hm, hc⟩)
    | some m =>
      right
      rw [List.find?_eq_some] at hf
      obtain ⟨hpm, as, bs, hl, has⟩ := hf
      obtain ⟨h1, h2, h3⟩ := (hP m).mp hpm
      refine ⟨m, rfl, h1, h2, h3, ?_⟩
      intro m' hm' hlt hc
      have hsorted := denoms_sorted
      rw [hl] at hsorted
      have hmem : m' ∈ as ++ m :: bs := by rw [← hl]; exact mem_denoms m'
      rcases List.mem_append.mp hmem with hin | hin
      · have := has m' hin
        rw [(hP m').mpr ⟨hm', hc⟩] at this
        exact absurd this (by simp)
      · rcases List.mem_cons.mp hin with rfl | hin'
        · exact absurd hlt (lt_irrefl _)
        · have := (List.pairwise_cons.mp (List.pairwise_append.mp hsorted).2.1).1 m' hin'
          exact absurd hlt (not_lt.mpr (le_of_lt this))
  · intro w' hw'
    unfold Eq.find_money Eq.findMoney?
    have : (fun m => decide (first ≤ m.val) && moneyMatches e w' m)
        = (fun m => decide (first ≤ m.val) && moneyMatches e w m) := by
      funext m
      simp only [moneyMatches, hw']
    rw [this]

/-- C13 fails on the code: a count beyond the range of `long` makes
`std::stol` throw, and nothing catches the exception, so the constructor
does not return a request. -/
theorem ofString_throws : ItemReference.ofString "99999999999999999999 shirts" = none := by
  decide

/-- C14 (everything form): "all" and "everything" give `everything = true`
with the single wildcard reference and no exception; the empty string gives
`everything = false` and no reference at all. -/
theorem ofString_everything_form :
    ItemReference.ofString "all"
        = some { everything := true, original := "all",
                 refs := [{ what := "", amount := 0, index := 0 }], except := [] }
      ∧ ItemReference.ofString "everything"
        = some { everything := true, original := "everything",
                 refs := [{ what := "", amount := 0, index := 0 }], except := [] }
      ∧ ItemReference.ofString ""
        = some { everything := false, original := "", refs := [], except := [] } := by
  decide

/-- C15 fails as stated: the constructor compares the text with "all" and
"everything" as it is, so "the everything" is not an everything form. -/
theorem ofString_article_everything :
    (ItemReference.ofString "the everything").map (fun r => r.everything) = some false := by
  decide

/-- C15, as amended: a leading article is not stripped by the parser: an
article followed by "all" or "everything" is parsed as one literal reference
with the whole text as its phrase, amount 0 and index 1, and `everything` is
false. -/
theorem ofString_article_kept :
    ∀ article ∈ ["a", "an", "the"], ∀ word ∈ ["all", "everything"],
      ItemReference.ofString (article ++ " " ++ word)
        = some { everything := false, original := article ++ " " ++ word,
                 refs := [{ what := article ++ " " ++ word, amount := 0, index := 1 }],
                 except := [] } := by
  decide

/-! ## The plural of a single word -/

theorem after_marker (m : Char) :
    ∀ (p r : List Char), m ∉ r →
      after (p ++ [m]) (r ++ [m]) = if p = r then some [] else none := by
  intro p
  induction p with
  | nil =>
    intro r hr
    cases r with
    | nil => simp [after]
    | cons c r =>
      have hc : m ≠ c := by intro h; exact hr (by simp [h])
      simp [after, hc]
  | cons a p ih =>
    intro r hr
    cases r with
    | nil =>
      by_cases ham : a = m
      · subst ham
        cases p <;> simp [after]
      · simp [after, ham]
    | cons c r =>
      have hr' : m ∉ r := by intro h; exact hr (by simp [h])
      by_cases hac : a = c
      · subst hac
        rw [List.cons_append, List.cons_append, after, if_pos rfl, ih r hr']
        simp only [List.cons.injEq, true_and]
      · simp [after, hac]

theorem occurs_marker (m : Char) (p : List Char) :
    ∀ d : List Char, m ∉ d → (occurs (p ++ [m]) (d ++ [m]) = true ↔ p <:+ d) := by
  intro d
  induction d with
  | nil =>
    intro _
    have h := after_marker m p [] (by simp)
    simp only [List.nil_append] at h
    cases p with
    | nil => simp [occurs, startsWith, after]
    | cons a p =>
      simp only [List.nil_append, occurs, startsWith, h]
      simp [after]
  | cons c d ih =>
    intro hd
    have hd' : m ∉ d := by intro h; exact hd (by simp [h])
    have h := after_marker m p (c :: d) hd
    rw [List.cons_append] at h ⊢
    simp only [occurs, startsWith, h, Bool.or_eq_true, ih hd', List.suffix_cons_iff]
    by_cases hp : p = c :: d <;> simp [hp]

theorem findSome_marker (m : Char) (r : List Char) (hr : m ∉ r) :
    ∀ lits : List (List Char),
      (lits.map (fun l => l ++ [m])).findSome? (fun l => after l (r ++ [m]))
        = if r ∈ lits then some [] else none := by
  intro lits
  induction lits with
  | nil => simp
  | cons l lits ih =>
    rw [List.map_cons, List.findSome?_cons, after_marker m l r hr, ih]
    by_cases hl : l = r
    · simp [hl]
    · have hl' : ¬ r = l := fun h => hl h.symm
      simp [hl, hl']

theorem replaceLits_nil (lits : List (List Char)) (by_ : List Char) (fuel : Nat) :
    replaceLits lits by_ fuel [] = [] := by
  cases fuel <;> rfl

theorem replaceLits_marker (m : Char) (lits : List (List Char)) (by_ p : List Char)
    (hp : p ∈ lits) (hmp : m ∉ p) :
    ∀ (h : List Char) (fuel : Nat), m ∉ h →
      (∀ h1 r, h ++ p = h1 ++ r → r ∈ lits → r.length ≤ p.length) →
      h.length + p.length + 1 ≤ fuel →
      replaceLits (lits.map (fun l => l ++ [m])) by_ fuel (h ++ p ++ [m]) = h ++ by_ := by
  intro h
  induction h with
  | nil =>
    intro fuel _ _ hfuel
    obtain ⟨f, rfl⟩ : ∃ f, fuel = f + 1 := ⟨fuel - 1, by omega⟩
    obtain ⟨c, s, hcs⟩ : ∃ c s, p ++ [m] = c :: s := by
      cases p with
      | nil => exact ⟨m, [], rfl⟩
      | cons c p => exact ⟨c, p ++ [m], rfl⟩
    have hfind := findSome_marker m p hmp lits
    rw [if_pos hp, hcs] at hfind
    rw [List.nil_append, hcs, replaceLits]
    simp only [hfind, replaceLits_nil, List.append_nil, List.nil_append]
  | cons c h ih =>
    intro fuel hmh hlong hfuel
    obtain ⟨f, rfl⟩ : ∃ f, fuel = f + 1 := ⟨fuel - 1, by omega⟩
    have hm' : m ∉ c :: (h ++ p) := by
      intro hin
      rcases List.mem_cons.mp hin with h1 | h1
      · exact hmh (by simp [h1])
      · rcases List.mem_append.mp h1 with h2 | h2
        · exact hmh (by simp [h2])
        · exact hmp h2
    have hnot : ¬ (c :: (h ++ p)) ∈ lits := by
      intro hin
      have := hlong [] (c :: (h ++ p)) (by simp) hin
      simp at this
      omega
    have hfind := findSome_marker m (c :: (h ++ p)) hm' lits
    rw [if_neg hnot, List.cons_append] at hfind
    rw [List.cons_append, List.cons_append, replaceLits]
    simp only [hfind]
    rw [ih f (by intro hin; exact hmh (by simp [hin]))
      (by
        intro h1 r heq hr
        exact hlong (c :: h1) r (by simp [heq]) hr)
      (by simp at hfuel; omega)]
    rfl

theorem clauseStarts_nospace (c : Char) (s : List Char) (hc : c ≠ ' ') :
    clauseStarts (c :: s) = false := by
  unfold clauseStarts
  split
  · rename_i heq
    simp only [List.cons.injEq] at heq
    exact absurd heq.1 hc
  · rfl

theorem insertPlaceholder_nospace :
    ∀ d : List Char, ' ' ∉ d → insertPlaceholder d = d ++ ['\x01'] := by
  intro d
  induction d with
  | nil => intro _; rfl
  | cons c d ih =>
    intro hd
    have hc : c ≠ ' ' := by intro h; exact hd (by simp [h])
    rw [insertPlaceholder, clauseStarts_nospace c d hc,
      ih (by intro h; exact hd (by simp [h]))]
    simp

theorem occurs_marker_decide (p d : List Char) (hm : '\x01' ∉ d) :
    occurs (p ++ ['\x01']) (d ++ ['\x01']) = decide (p <:+ d) := by
  rw [Bool.eq_iff_iff, occurs_marker '\x01' p d hm]
  simp

theorem Pluralize_nospace (d : List Char) (hsp : ' ' ∉ d) (hnl : d.any isLineEnd = false)
    (hm : '\x01' ∉ d) (hs : ¬ ['s'] <:+ d) : Pluralize ⟨d⟩ = ⟨pluralRule d⟩ := by
  have os : occurs ['s', '\x01'] (d ++ ['\x01']) = false := by
    rw [show ['s', '\x01'] = ['s'] ++ ['\x01'] from rfl, occurs_marker_decide _ d hm]
    simpa using hs
  have oss : occurs ['s', 's', '\x01'] (d ++ ['\x01']) = false := by
    rw [show ['s', 's', '\x01'] = ['s', 's'] ++ ['\x01'] from rfl, occurs_marker_decide _ d hm]
    simp only [decide_eq_false_iff_not]
    rintro ⟨t, ht⟩
    exact hs ⟨t ++ ['s'], by rw [← ht]; simp⟩
  have oy : occurs ['y', '\x01'] (d ++ ['\x01']) = decide (['y'] <:+ d) :=
    occurs_marker_decide ['y'] d hm
  have oo : occurs ['o', '\x01'] (d ++ ['\x01']) = decide (['o'] <:+ d) :=
    occurs_marker_decide ['o'] d hm
  have osh : occurs ['s', 'h', '\x01'] (d ++ ['\x01']) = decide (['s', 'h'] <:+ d) :=
    occurs_marker_decide ['s', 'h'] d hm
  have of_ : occurs ['f', '\x01'] (d ++ ['\x01']) = decide (['f'] <:+ d) :=
    occurs_marker_decide ['f'] d hm
  have hlen : (d ++ ['\x01']).length = d.length + 1 := by simp
  unfold Pluralize pluralRule
  simp only [placeholderForm, hnl, insertPlaceholder_nospace d hsp, Bool.false_eq_true,
    if_false, os, oss, Bool.or_false, hlen, oy, oo, osh, of_]
  simp only [Bool.or_eq_true, decide_eq_true_eq]
  by_cases hy : ['y'] <:+ d
  · rw [if_pos hy, if_pos hy]
    obtain ⟨h, rfl⟩ := hy
    have := replaceLits_marker '\x01' [['y']] "ies".data ['y'] (by simp) (by simp) h
      ((h ++ ['y']).length + 1) (by intro hin; exact hm (by simp [hin]))
      (by intro h1 r _ hr; simp at hr; simp [hr]) (by simp)
    simp only [List.map_cons, List.map_nil, List.cons_append, List.nil_append] at this
    rw [this, List.dropLast_concat]
  rw [if_neg hy, if_neg hy]
  by_cases ho : ['o'] <:+ d ∨ ['s', 'h'] <:+ d
  · rw [if_pos ho, if_pos ho]
    have := replaceLits_marker '\x01' [[]] "es".data [] (by simp) (by simp) d
      (d.length + 1) hm (by intro h1 r _ hr; simp at hr; simp [hr]) (by simp)
    simp only [List.map_cons, List.map_nil, List.append_nil, List.nil_append] at this
    rw [this]
  rw [if_neg ho, if_neg ho]
  by_cases hff : ['f', 'f'] <:+ d
  · have hf : ['f'] <:+ d := by
      obtain ⟨t, ht⟩ := hff
      exact ⟨t ++ ['f'], by rw [← ht]; simp⟩
    rw [if_pos hf, if_pos hff]
    obtain ⟨h, rfl⟩ := hff
    have := replaceLits_marker '\x01' [['f', 'f'], ['f']] "ves".data ['f', 'f'] (by simp)
      (by simp) h ((h ++ ['f', 'f']).length + 1) (by intro hin; exact hm (by simp [hin]))
      (by
        intro h1 r _ hr
        simp only [List.mem_cons, List.mem_singleton, List.not_mem_nil, or_false] at hr
        rcases hr with hr | hr <;> simp [hr]) (by simp)
    simp only [List.map_cons, List.map_nil, List.cons_append, List.nil_append] at this
    rw [this]
    have e : h ++ ['f', 'f'] = (h ++ ['f']) ++ ['f'] := by simp
    rw [e, List.dropLast_concat, List.dropLast_concat]
  rw [if_neg hff]
  by_cases hf : ['f'] <:+ d
  · rw [if_pos hf, if_pos hf]
    obtain ⟨h, rfl⟩ := hf
    have := replaceLits_marker '\x01' [['f', 'f'], ['f']] "ves".data ['f'] (by simp)
      (by simp) h ((h ++ ['f']).length + 1) (by intro hin; exact hm (by simp [hin]))
      (by
        intro h1 r heq hr
        simp only [List.mem_cons, List.mem_singleton, List.not_mem_nil, or_false] at hr
        rcases hr with hr | hr
        · exfalso
          apply hff
          exact ⟨h1, by rw [heq, hr]⟩
        · simp [hr]) (by simp)
    simp only [List.map_cons, List.map_nil, List.cons_append, List.nil_append] at this
    rw [this, List.dropLast_concat]
  rw [if_neg hf, if_neg hf]
  have := replaceLits_marker '\x01' [[]] "s".data [] (by simp) (by simp) d
    (d.length + 1) hm (by intro h1 r _ hr; simp at hr; simp [hr]) (by simp)
  simp only [List.map_cons, List.map_nil, List.append_nil, List.nil_append] at this
  rw [this]

/-- C20 (pluralization rules): for a word without spaces (and without line
terminators or the internal placeholder character) that does not end in "s",
`Pluralize` follows the rule table: final "y" becomes "ies"; else "es" is
added after a final "o" or "sh"; else a final "ff", or else a final "f",
becomes "ves"; else "s" is added.  In particular the plurals of "berry",
"dish", "wolf" and "shirt" are "berries", "dishes", "wolves" and "shirts". -/
theorem Pluralize_rules (w : String)
    (hchars : ∀ c ∈ w.data, c ≠ ' ' ∧ c ≠ '\n' ∧ c ≠ '\r' ∧ c ≠ '\x01')
    (hs : ¬ "s".data <:+ w.data) :
    Pluralize w = ⟨pluralRule w.data⟩
      ∧ Pluralize "berry" = "berries" ∧ Pluralize "dish" = "dishes"
      ∧ Pluralize "wolf" = "wolves" ∧ Pluralize "shirt" = "shirts" := by
  refine ⟨?_, by decide, by decide, by decide, by decide⟩
  have hnl : w.data.any isLineEnd = false := by
    rw [Bool.eq_false_iff]
    intro h
    obtain ⟨c, hc, hl⟩ := List.any_eq_true.mp h
    have := hchars c hc
    simp only [isLineEnd, Bool.or_eq_true, beq_iff_eq] at hl
    rcases hl with hl | hl
    · exact this.2.1 hl
    · exact this.2.2.1 hl
  exact Pluralize_nospace w.data (fun h => (hchars _ h).1 rfl) hnl
    (fun h => (hchars _ h).2.2.2 rfl) hs

/-! ## Counts at the start of a part -/

theorem after_append_tail (lit : List Char) (hlit : ' ' ∉ lit) :
    ∀ (p t : List Char),
      after lit (p ++ ' ' :: t) = (after lit p).map (fun r => r ++ ' ' :: t) := by
  induction lit with
  | nil => intro p t; simp [after]
  | cons a lit ih =>
    intro p t
    have ha : a ≠ ' ' := by intro h; exact hlit (by simp [h])
    cases p with
    | nil => simp [after, ha]
    | cons c p =>
      by_cases hac : a = c
      · subst hac
        rw [List.cons_append, after, after, if_pos rfl, if_pos rfl,
          ih (by intro h; exact hlit (by simp [h]))]
      · simp [after, hac]

theorem wordEnds_append (r t : List Char) : wordEnds (r ++ ' ' :: t) = wordEnds r := by
  cases r with
  | nil => simp only [List.nil_append, wordEnds]; decide
  | cons c r => rfl

theorem numeral_nospace (k : Nat) : ' ' ∉ (Numerals1to12.getD k "").data := by
  by_cases hk : k < 12
  · have : ∀ j ∈ List.range 12, ' ' ∉ (Numerals1to12.getD j "").data := by decide
    exact this k (List.mem_range.mpr hk)
  · rw [List.getD_eq_default _ _ (by simpa [Numerals1to12] using hk)]
    simp

theorem numeral_head (k : Nat) (a : Char) (lit : List Char)
    (h : (Numerals1to12.getD k "").data = a :: lit) : a.isDigit = false := by
  by_cases hk : k < 12
  · have : ∀ j ∈ List.range 12,
        ((Numerals1to12.getD j "").data.head?.all fun c => !c.isDigit) = true := by decide
    have := this k (List.mem_range.mpr hk)
    rw [h] at this
    simpa using this
  · rw [List.getD_eq_default _ _ (by simpa [Numerals1to12] using hk)] at h
    simp at h

theorem replaceNumeral_append (p t : List Char) (a : Nat) :
    replaceNumeral (p ++ ' ' :: t) a = replaceNumeral p a ++ ' ' :: t := by
  unfold replaceNumeral
  rw [after_append_tail _ (numeral_nospace (a - 1))]
  cases after (Numerals1to12.getD (a - 1) "").data p with
  | none => rfl
  | some r =>
    simp only [Option.map_some', wordEnds_append]
    split <;> simp

theorem foldl_replaceNumeral_append (t : List Char) :
    ∀ (l : List Nat) (p : List Char),
      l.foldl replaceNumeral (p ++ ' ' :: t) = l.foldl replaceNumeral p ++ ' ' :: t := by
  intro l
  induction l with
  | nil => intro p; rfl
  | cons a l ih => intro p; rw [List.foldl_cons, List.foldl_cons, replaceNumeral_append, ih]

theorem isWordChar_digit (d : Char) (hd : d.isDigit = true) : isWordChar d = true := by
  simp [isWordChar, Char.isAlphanum, hd]

theorem replaceNumeral_digit (d : Char) (ds : List Char) (hd : d.isDigit = true) (a : Nat) :
    replaceNumeral (d :: ds) a = d :: ds := by
  unfold replaceNumeral
  cases hN : (Numerals1to12.getD (a - 1) "").data with
  | nil => simp [after, wordEnds, isWordChar_digit d hd]
  | cons c lit =>
    have hc := numeral_head _ c lit hN
    have hcd : c ≠ d := by intro h; rw [h, hd] at hc; exact absurd hc (by simp)
    simp [after, hcd]

theorem foldl_replaceNumeral_digit (d : Char) (ds : List Char) (hd : d.isDigit = true) :
    ∀ l : List Nat, l.foldl replaceNumeral (d :: ds) = d :: ds := by
  intro l
  induction l with
  | nil => rfl
  | cons a l ih => rw [List.foldl_cons, replaceNumeral_digit d ds hd, ih]

theorem foldl_replaceNumeral_numeral :
    ∀ n ∈ List.range' 1 12,
      (List.range' 1 12).foldl replaceNumeral (Numerals1to12.getD (n - 1) "").data
        = (toString n).data := by
  decide

theorem takeDigits_append (t : List Char) :
    ∀ ds : List Char, (∀ c ∈ ds, c.isDigit = true) →
      takeDigits (ds ++ ' ' :: t) = (ds, ' ' :: t) := by
  intro ds
  induction ds with
  | nil =>
    intro _
    have : isDigitChar ' ' = false := by decide
    simp [takeDigits, this]
  | cons c ds ih =>
    intro h
    have hc : isDigitChar c = true := h c (by simp)
    rw [List.cons_append, takeDigits, if_pos hc, ih (fun x hx => h x (by simp [hx]))]

theorem dropSpaces_id (s : List Char) (hs : s.head? ≠ some ' ') : dropSpaces s = s := by
  cases s with
  | nil => rfl
  | cons c s =>
    have hc : c ≠ ' ' := by intro h; exact hs (by simp [h])
    simp [dropSpaces, hc]

theorem isLineEnd_digit (c : Char) (hc : c.isDigit = true) : isLineEnd c = false := by
  rw [Bool.eq_false_iff]
  intro h
  simp only [isLineEnd, Bool.or_eq_true, beq_iff_eq] at h
  rcases h with h | h <;> · subst h; exact absurd hc (by decide)

theorem afterWordSpaces_all_digit (d : Char) (s : List Char) (hd : d.isDigit = true) :
    afterWordSpaces "all".data (d :: s) = none := by
  have hne : 'a' ≠ d := by intro h; subst h; exact absurd hd (by decide)
  have : after "all".data (d :: s) = none := by
    show after ('a' :: "ll".data) (d :: s) = none
    rw [after, if_neg hne]
  unfold afterWordSpaces
  rw [this]

theorem splitCount_digits (d : Char) (ds t : List Char)
    (hdig : ∀ c ∈ d :: ds, c.isDigit = true) (hnl : t.any isLineEnd = false)
    (hsp : t.head? ≠ some ' ') :
    splitCount (d :: ds ++ ' ' :: t) = (d :: ds, t) := by
  have hany : (d :: ds ++ ' ' :: t).any isLineEnd = false := by
    rw [List.any_append]
    have h1 : (d :: ds).any isLineEnd = false := by
      rw [Bool.eq_false_iff]
      intro h
      obtain ⟨c, hc, hl⟩ := List.any_eq_true.mp h
      rw [isLineEnd_digit c (hdig c hc)] at hl
      exact absurd hl (by simp)
    have h2 : isLineEnd ' ' = false := by decide
    rw [h1, List.any_cons, h2, hnl]
    rfl
  unfold splitCount
  rw [hany]
  simp only [Bool.false_eq_true, if_false]
  rw [List.cons_append, afterWordSpaces_all_digit d _ (hdig d (by simp))]
  simp only []
  rw [← List.cons_append, takeDigits_append t (d :: ds) hdig]
  simp only [dropSpaces_id t hsp]

theorem stol_of_le (ds : List Char) (h : digitsValue ds ≤ 2 ^ 63 - 1) :
    stol ds = some (digitsValue ds : Int) := by
  unfold stol
  rw [if_pos h]

theorem ParseSingleReference_of_word (part : String) (d : Char) (ds t : List Char)
    (hword : (List.range' 1 12).foldl replaceNumeral part.data = d :: ds ++ ' ' :: t)
    (hdig : ∀ c ∈ d :: ds, c.isDigit = true) (hrange : digitsValue (d :: ds) ≤ 2 ^ 63 - 1)
    (hnl : t.any isLineEnd = false) (hsp : t.head? ≠ some ' ') :
    ParseSingleReference part
      = some { what := ⟨t⟩, amount := digitsValue (d :: ds), index := 1 } := by
  have hd : d.isDigit = true := hdig d (by simp)
  have hne : 'a' ≠ d := by intro h; subst h; exact absurd hd (by decide)
  have hall : ¬ (d :: ds = "all".data) := by
    show ¬ (d :: ds = 'a' :: "ll".data)
    intro h
    exact hne (List.cons.inj h).1.symm
  unfold ParseSingleReference
  simp only [hword, splitCount_digits d ds t hdig hnl hsp, if_neg hall]
  rw [if_pos (by simp), stol_of_le _ hrange]
  rfl

theorem ParseSingleReference_of_digits (part : String) (ds t : List Char) (hds : ds ≠ [])
    (hword : (List.range' 1 12).foldl replaceNumeral part.data = ds ++ ' ' :: t)
    (hdig : ∀ c ∈ ds, c.isDigit = true) (hrange : digitsValue ds ≤ 2 ^ 63 - 1)
    (hnl : t.any isLineEnd = false) (hsp : t.head? ≠ some ' ') :
    ParseSingleReference part = some { what := ⟨t⟩, amount := digitsValue ds, index := 1 } := by
  cases ds with
  | nil => exact absurd rfl hds
  | cons d ds => exact ParseSingleReference_of_word part d ds t hword hdig hrange hnl hsp

theorem numeral_digits :
    ∀ n ∈ List.range' 1 12,
      (toString n).data ≠ [] ∧ (toString n).data.all Char.isDigit = true
        ∧ digitsValue (toString n).data = n := by
  decide

/-- C16 (leading count): for a name without a line terminator that does not
start with a space, a part made of a count, a space and the name parses to
the name with that count as amount and index 1, whether the count is written
in decimal digits (of a value within the range of `long`) or as one of the
number words "one" to "twelve"; a number at the end of the name stays in the
phrase, as in "3 shirts 2". -/
theorem ParseSingleReference_count (name : String) (hnl : name.data.any isLineEnd = false)
    (hsp : name.data.head? ≠ some ' ') :
    (∀ ds : List Char, ds ≠ [] → (∀ c ∈ ds, c.isDigit = true) →
        digitsValue ds ≤ 2 ^ 63 - 1 →
        ParseSingleReference ⟨ds ++ ' ' :: name.data⟩
          = some { what := name, amount := digitsValue ds, index := 1 })
      ∧ (∀ n : Nat, 1 ≤ n → n ≤ 12 →
        ParseSingleReference (Numerals1to12.getD (n - 1) "" ++ " " ++ name)
          = some { what := name, amount := n, index := 1 })
      ∧ ParseSingleReference "3 shirts 2"
          = some { what := "shirts 2", amount := 3, index := 1 } := by
  refine ⟨?_, ?_, by decide⟩
  · intro ds hds hdig hrange
    refine ParseSingleReference_of_digits _ ds name.data hds ?_ hdig hrange hnl hsp
    cases ds with
    | nil => exact absurd rfl hds
    | cons d ds =>
      exact foldl_replaceNumeral_digit d (ds ++ ' ' :: name.data) (hdig d (by simp)) _
  · intro n h1 h12
    have hn : n ∈ List.range' 1 12 := by
      rw [List.mem_range']
      exact ⟨n - 1, by omega, by omega⟩
    obtain ⟨hne, hall, hval⟩ := numeral_digits n hn
    have hpart : (Numerals1to12.getD (n - 1) "" ++ " " ++ name).data
        = (Numerals1to12.getD (n - 1) "").data ++ ' ' :: name.data := by
      simp [String.data_append]
    have := ParseSingleReference_of_digits (Numerals1to12.getD (n - 1) "" ++ " " ++ name)
      (toString n).data name.data hne
      (by rw [hpart, foldl_replaceNumeral_append, foldl_replaceNumeral_numeral n hn])
      (fun c hc => List.all_eq_true.mp hall c hc) (by rw [hval]; omega) hnl hsp
    rw [this, hval]

/-! ## Parts without a count -/

theorem replaceNumeral_of_not_word (word : List Char) (a : Nat)
    (h : startsWithWord (Numerals1to12.getD (a - 1) "").data word = false) :
    replaceNumeral word a = word := by
  unfold replaceNumeral
  unfold startsWithWord at h
  cases hN : after (Numerals1to12.getD (a - 1) "").data word with
  | none => rfl
  | some r =>
    rw [hN] at h
    simp only at h
    simp [h]

theorem foldl_replaceNumeral_id (word : List Char) :
    ∀ l : List Nat,
      (l.any fun a => startsWithWord (Numerals1to12.getD (a - 1) "").data word) = false →
      l.foldl replaceNumeral word = word := by
  intro l
  induction l with
  | nil => intro _; rfl
  | cons a l ih =>
    intro h
    rw [List.any_cons, Bool.or_eq_false_iff] at h
    rw [List.foldl_cons, replaceNumeral_of_not_word word a h.1, ih h.2]

theorem takeDigits_nil_rest :
    ∀ (x a : List Char), takeDigits x = (a, []) → x = a ∧ ∀ c ∈ a, c.isDigit = true := by
  intro x
  induction x with
  | nil => intro a h; simp [takeDigits] at h; subst h; simp
  | cons c x ih =>
    intro a h
    by_cases hc : isDigitChar c = true
    · rw [takeDigits, if_pos hc] at h
      simp only [Prod.mk.injEq] at h
      obtain ⟨h1, h2⟩ := h
      have := ih (takeDigits x).1 (by rw [← h2])
      subst h1
      refine ⟨by rw [← this.1], ?_⟩
      intro y hy
      rcases List.mem_cons.mp hy with rfl | hy
      · exact hc
      · exact this.2 y hy
    · rw [takeDigits, if_neg hc] at h
      simp at h

theorem takeDigits_all (k : List Char) (hk : ∀ c ∈ k, c.isDigit = true) :
    takeDigits k = (k, []) := by
  induction k with
  | nil => rfl
  | cons c k ih =>
    have hc : isDigitChar c = true := hk c (by simp)
    rw [takeDigits, if_pos hc, ih (fun x hx => hk x (by simp [hx]))]

theorem dropSpaces_split :
    ∀ s : List Char, ∃ n, s = List.replicate n ' ' ++ dropSpaces s := by
  intro s
  induction s with
  | nil => exact ⟨0, rfl⟩
  | cons c s ih =>
    by_cases hc : c = ' '
    · obtain ⟨n, hn⟩ := ih
      refine ⟨n + 1, ?_⟩
      rw [dropSpaces, if_pos hc, hc, List.replicate_succ, List.cons_append, ← hn]
    · exact ⟨0, by rw [dropSpaces, if_neg hc]; rfl⟩

theorem replicate_append_cons (c : Char) (X : List Char) :
    ∀ n : Nat, List.replicate n c ++ c :: X = c :: (List.replicate n c ++ X) := by
  intro n
  induction n with
  | zero => rfl
  | succ n ih => rw [List.replicate_succ, List.cons_append, ih, List.cons_append]

theorem indexSuffix_some (s k : List Char) (h : indexSuffix s = some k) :
    ∃ n, s = List.replicate n ' ' ++ ' ' :: k ∧ k ≠ [] ∧ ∀ c ∈ k, c.isDigit = true := by
  unfold indexSuffix at h
  split at h
  · rename_i s1
    split at h
    · rename_i d ds hd
      simp only [Option.some.injEq] at h
      obtain ⟨hx, hdig⟩ := takeDigits_nil_rest _ _ hd
      obtain ⟨n, hn⟩ := dropSpaces_split s1
      refine ⟨n, ?_, by rw [← h]; simp, by rw [← h]; exact hdig⟩
      rw [← h, ← hx, replicate_append_cons, ← hn]
    · simp at h
  · simp at h

theorem splitIndex_plain :
    ∀ s : List Char,
      (∀ pre k : List Char, k ≠ [] → (∀ c ∈ k, c.isDigit = true) → s ≠ pre ++ ' ' :: k) →
      splitIndex s = (s, []) := by
  intro s
  induction s with
  | nil => intro _; rfl
  | cons c s ih =>
    intro h
    have hnone : indexSuffix (c :: s) = none := by
      cases hi : indexSuffix (c :: s) with
      | none => rfl
      | some k =>
        obtain ⟨n, hn, hk, hdig⟩ := indexSuffix_some _ _ hi
        exact absurd hn (h _ k hk hdig)
    rw [splitIndex, hnone]
    simp only []
    rw [ih (by
      intro pre k hk hdig heq
      exact h (c :: pre) k hk hdig (by rw [heq]; rfl))]

theorem dropSpaces_append :
    ∀ s t : List Char, dropSpaces s ≠ [] → dropSpaces (s ++ t) = dropSpaces s ++ t := by
  intro s
  induction s with
  | nil => intro t h; exact absurd rfl h
  | cons c s ih =>
    intro t h
    by_cases hc : c = ' '
    · rw [dropSpaces, if_pos hc] at h
      rw [List.cons_append, dropSpaces, if_pos hc, dropSpaces, if_pos hc, ih t h]
    · rw [List.cons_append, dropSpaces, if_neg hc, dropSpaces, if_neg hc]
      rfl

theorem dropSpaces_ne_nil (s : List Char) (x : Char) (hx : x ∈ s) (hne : x ≠ ' ') :
    dropSpaces s ≠ [] := by
  intro h
  obtain ⟨n, hn⟩ := dropSpaces_split s
  rw [h, List.append_nil] at hn
  rw [hn] at hx
  exact hne (List.eq_of_mem_replicate hx)

theorem indexSuffix_inside (c : Char) (s k : List Char)
    (hlast : (c :: s).getLast? ≠ some ' ') : indexSuffix (c :: s ++ ' ' :: k) = none := by
  by_cases hc : c = ' '
  · subst hc
    have hs : s ≠ [] := by
      intro h
      subst h
      exact hlast rfl
    obtain ⟨x, hx⟩ : ∃ x, s.getLast? = some x := by
      cases hl : s.getLast? with
      | none => exact absurd (List.getLast?_eq_none_iff.mp hl) hs
      | some x => exact ⟨x, rfl⟩
    have hxs : x ∈ s := List.mem_of_getLast?_eq_some hx
    have hxne : x ≠ ' ' := by
      intro h
      apply hlast
      cases s with
      | nil => exact absurd rfl hs
      | cons b s => rw [List.getLast?_cons_cons, hx, h]
    have hd := dropSpaces_append s (' ' :: k) (dropSpaces_ne_nil s x hxs hxne)
    rw [List.cons_append, indexSuffix, hd]
    cases ht : takeDigits (dropSpaces s ++ ' ' :: k) with
    | mk a b =>
      cases b with
      | cons _ _ => cases a <;> rfl
      | nil =>
        obtain ⟨h1, h2⟩ := takeDigits_nil_rest _ _ ht
        have : ' ' ∈ a := by rw [← h1]; simp
        exact absurd (h2 ' ' this) (by decide)
  · rw [List.cons_append]
    unfold indexSuffix
    split
    · rename_i heq
      exact absurd (List.cons.inj heq).1 hc
    · rfl

theorem splitIndex_suffix (k : List Char) (hk : k ≠ []) (hdig : ∀ c ∈ k, c.isDigit = true) :
    ∀ name : List Char, name.getLast? ≠ some ' ' →
      splitIndex (name ++ ' ' :: k) = (name, k) := by
  intro name
  induction name with
  | nil =>
    intro _
    obtain ⟨d, ds, rfl⟩ : ∃ d ds, k = d :: ds := by
      cases k with
      | nil => exact absurd rfl hk
      | cons d ds => exact ⟨d, ds, rfl⟩
    have hd : d ≠ ' ' := by
      intro h
      have := hdig d (by simp)
      rw [h] at this
      exact absurd this (by decide)
    have : indexSuffix (' ' :: d :: ds) = some (d :: ds) := by
      rw [indexSuffix, dropSpaces_id (d :: ds) (by simp [hd]), takeDigits_all _ hdig]
    rw [List.nil_append, splitIndex, this]
  | cons c s ih =>
    intro hlast
    have hs : s.getLast? ≠ some ' ' := by
      cases s with
      | nil => simp
      | cons b s => rw [List.getLast?_cons_cons] at hlast; exact hlast
    rw [List.cons_append, splitIndex, ← List.cons_append, indexSuffix_inside c s k hlast]
    simp only []
    rw [ih hs]

theorem afterWordSpaces_all_none (P : List Char) (h : ¬ "all ".data <+: P) :
    afterWordSpaces "all".data P = none := by
  unfold afterWordSpaces
  cases ha : after "all".data P with
  | none => rfl
  | some r =>
    cases r with
    | nil => rfl
    | cons c r =>
      by_cases hc : c = ' '
      · subst hc
        exfalso
        apply h
        exact ⟨r, by rw [after_eq_some _ _ _ ha]; rfl⟩
      · split
        · rename_i heq
          exact absurd (List.cons.inj (Option.some.inj heq)).1 hc
        · rfl

theorem after_self (lit X : List Char) : after lit (lit ++ X) = some X := by
  induction lit with
  | nil => rfl
  | cons a lit ih => rw [List.cons_append, after, if_pos rfl, ih]

theorem splitCount_plain (P : List Char) (hnl : P.any isLineEnd = false)
    (hall : ¬ "all ".data <+: P) (hcount : beginsWithCount P = false)
    (hsp : P.head? ≠ some ' ') : splitCount P = ([], P) := by
  unfold splitCount
  rw [hnl, afterWordSpaces_all_none P hall]
  simp only [Bool.false_eq_true, if_false]
  split
  · rename_i d ds r heq
    unfold beginsWithCount at hcount
    rw [heq] at hcount
    simp at hcount
  · rw [dropSpaces_id P hsp]

theorem ParseSingleReference_plain (part : String) (hnl : part.data.any isLineEnd = false)
    (hall : ¬ "all ".data <+: part.data) (hcount : beginsWithCount part.data = false)
    (hsp : part.data.head? ≠ some ' ') :
    ParseSingleReference part
      = if (splitIndex part.data).2 ≠ [] then
          (stol (splitIndex part.data).2).map
            (fun n => { what := ⟨(splitIndex part.data).1⟩, amount := 0, index := n })
        else some { what := ⟨(splitIndex part.data).1⟩, amount := 0, index := 1 } := by
  have hfold : (List.range' 1 12).foldl replaceNumeral part.data = part.data := by
    apply foldl_replaceNumeral_id
    unfold beginsWithCount at hcount
    rw [Bool.or_eq_false_iff] at hcount
    exact hcount.1
  have hne : ¬ (([] : List Char) = "all".data) := by decide
  unfold ParseSingleReference
  simp only [hfold, splitCount_plain part.data hnl hall hcount hsp, if_neg hne, ne_eq,
    not_true_eq_false, if_false]

theorem ParseSingleReference_all (name : String) (hnl : name.data.any isLineEnd = false)
    (hsp : name.data.head? ≠ some ' ') :
    ParseSingleReference ("all " ++ name) = some { what := name, amount := 0, index := 0 } := by
  have hdata : ("all " ++ name).data = "all".data ++ ' ' :: name.data := by
    rw [String.data_append]
    rfl
  have hfold : (List.range' 1 12).foldl replaceNumeral "all".data = "all".data := by decide
  have hany : ("all".data ++ ' ' :: name.data).any isLineEnd = false := by
    rw [List.any_append]
    have h1 : "all".data.any isLineEnd = false := by decide
    have h2 : isLineEnd ' ' = false := by decide
    rw [h1, List.any_cons, h2, hnl]
    rfl
  have hsplit : splitCount ("all".data ++ ' ' :: name.data) = ("all".data, name.data) := by
    unfold splitCount
    rw [hany]
    simp only [Bool.false_eq_true, if_false]
    unfold afterWordSpaces
    rw [after_self]
    simp only [dropSpaces_id name.data hsp]
  unfold ParseSingleReference
  simp only [hdata, foldl_replaceNumeral_append, hfold, hsplit, if_true]

/-- C17 fails as stated: "all shirts 2" is the name "all shirts" followed by
the number 2, and it parses as the all-prefix form, the number staying in the
phrase; and with two spaces before the index ("shirt " followed by " 2") the
name loses its final space. -/
theorem ParseSingleReference_index_fails :
    ParseSingleReference ("all shirts" ++ " " ++ "2")
        = some { what := "shirts 2", amount := 0, index := 0 }
      ∧ ParseSingleReference ("shirt " ++ " " ++ "2")
        = some { what := "shirt", amount := 0, index := 2 } := by
  decide

/-- C17, as amended: for a part without a line terminator that does not
begin with a space or with a count, the amount is 0 and (i) "all " followed
by a name gives the name and index 0; (ii) otherwise a non-empty name that
does not end in a space, followed by a space and decimal digits of a value
within the range of `long`, gives the name and that value as index; (iii) a
part of neither form gives the part itself and index 1. -/
theorem ParseSingleReference_forms :
    (∀ name : String, name.data.any isLineEnd = false → name.data.head? ≠ some ' ' →
        ParseSingleReference ("all " ++ name)
          = some { what := name, amount := 0, index := 0 })
      ∧ (∀ (name : String) (k : List Char),
          name.data ≠ [] → name.data.any isLineEnd = false →
          name.data.head? ≠ some ' ' → name.data.getLast? ≠ some ' ' →
          k ≠ [] → (∀ c ∈ k, c.isDigit = true) → digitsValue k ≤ 2 ^ 63 - 1 →
          ¬ "all ".data <+: name.data ++ ' ' :: k →
          beginsWithCount (name.data ++ ' ' :: k) = false →
          ParseSingleReference ⟨name.data ++ ' ' :: k⟩
            = some { what := name, amount := 0, index := digitsValue k })
      ∧ (∀ part : String,
          part.data.any isLineEnd = false → part.data.head? ≠ some ' ' →
          ¬ "all ".data <+: part.data → beginsWithCount part.data = false →
          (∀ pre k : List Char, k ≠ [] → (∀ c ∈ k, c.isDigit = true) →
            part.data ≠ pre ++ ' ' :: k) →
          ParseSingleReference part = some { what := part, amount := 0, index := 1 }) := by
  refine ⟨ParseSingleReference_all, ?_, ?_⟩
  · intro name k hne hnl hhead hlast hk hdig hrange hall hcount
    have hany : (name.data ++ ' ' :: k).any isLineEnd = false := by
      have hkl : k.any isLineEnd = false := by
        rw [Bool.eq_false_iff]
        intro h
        obtain ⟨c, hc, hl⟩ := List.any_eq_true.mp h
        rw [isLineEnd_digit c (hdig c hc)] at hl
        exact absurd hl (by simp)
      have h2 : isLineEnd ' ' = false := by decide
      rw [List.any_append, hnl, List.any_cons, h2, hkl]
      rfl
    have hsp : (name.data ++ ' ' :: k).head? ≠ some ' ' := by
      cases hn : name.data with
      | nil => exact absurd hn hne
      | cons c s => rw [hn] at hhead; exact hhead
    rw [ParseSingleReference_plain ⟨name.data ++ ' ' :: k⟩ hany hall hcount hsp]
    simp only [splitIndex_suffix k hk hdig name.data hlast]
    rw [if_pos hk, stol_of_le k hrange]
    rfl
  · intro part hnl hhead hall hcount hform
    rw [ParseSingleReference_plain part hnl hall hcount hhead]
    simp only [splitIndex_plain part.data hform]
    rfl

/-! ## The except clause -/

theorem after_except_overlap (L E r : List Char) (hL : L ≠ [])
    (h : after " except ".data (L ++ " except ".data ++ E) = some r) :
    " except ".data <:+: L ∨ " except".data <:+ L := by
  have hX : " except ".data = [' ', 'e', 'x', 'c', 'e', 'p', 't', ' '] := rfl
  have hY : " except".data = [' ', 'e', 'x', 'c', 'e', 'p', 't'] := rfl
  rw [hX] at h ⊢
  rw [hY]
  rcases L with _ | ⟨c1, _ | ⟨c2, _ | ⟨c3, _ | ⟨c4, _ | ⟨c5, _ | ⟨c6, _ | ⟨c7, _ | ⟨c8, L⟩⟩⟩⟩⟩⟩⟩⟩
  · exact absurd rfl hL
  all_goals simp only [List.cons_append, List.nil_append, after] at h
  all_goals try (simp at h; done)
  · right
    repeat (split at h <;> try (simp at h; done))
    subst_vars
    exact List.suffix_refl _
  · left
    repeat (split at h <;> try (simp at h; done))
    subst_vars
    exact ⟨[], L, rfl⟩

theorem splitExcept_clause (E : List Char) (hE : E ≠ []) (hEnl : E.any isLineEnd = false) :
    ∀ L : List Char, L.any isLineEnd = false → ¬ " except ".data <:+: L →
      ¬ " except".data <:+ L →
      splitExcept (L ++ " except ".data ++ E) = some (L, E) := by
  intro L
  induction L with
  | nil =>
    intro _ _ _
    obtain ⟨t, ts, rfl⟩ : ∃ t ts, E = t :: ts := by
      cases E with
      | nil => exact absurd rfl hE
      | cons t ts => exact ⟨t, ts, rfl⟩
    have ha := after_self " except ".data (t :: ts)
    rw [show " except ".data = ' ' :: "except ".data from rfl] at ha ⊢
    rw [List.nil_append, List.cons_append, splitExcept]
    rw [List.cons_append] at ha
    simp only [ha, hEnl, Bool.false_eq_true, if_false]
  | cons c L ih =>
    intro hnl hin hsuf
    rw [List.any_cons, Bool.or_eq_false_iff] at hnl
    have hnone : after " except ".data (c :: L ++ " except ".data ++ E) = none := by
      cases ha : after " except ".data (c :: L ++ " except ".data ++ E) with
      | none => rfl
      | some r =>
        rcases after_except_overlap (c :: L) E r (by simp) ha with h | h
        · exact absurd h hin
        · exact absurd h hsuf
    have ih' := ih hnl.2 (fun h => hin (h.trans (List.suffix_cons c L).isInfix))
      (fun h => hsuf (h.trans (List.suffix_cons c L)))
    rw [List.cons_append, List.cons_append] at hnone ⊢
    rw [splitExcept]
    simp only [hnone, hnl.1, Bool.false_eq_true, if_false, ih', Option.map_some']

theorem splitExcept_plain :
    ∀ s : List Char, s.any isLineEnd = false → ¬ " except ".data <:+: s →
      splitExcept s = some (s, []) := by
  intro s
  induction s with
  | nil => intro _ _; rfl
  | cons c s ih =>
    intro hnl hin
    rw [List.any_cons, Bool.or_eq_false_iff] at hnl
    have hnone : after " except ".data (c :: s) = none := by
      cases ha : after " except ".data (c :: s) with
      | none => rfl
      | some r =>
        exfalso
        apply hin
        exact ⟨[], r, by rw [after_eq_some _ _ _ ha]; rfl⟩
    rw [splitExcept]
    simp only [hnone, hnl.1, Bool.false_eq_true, if_false,
      ih hnl.2 (fun h => hin (h.trans (List.suffix_cons c s).isInfix)), Option.map_some']

theorem splitExcept_second :
    ∀ (s a b : List Char), splitExcept s = some (a, b) → b ≠ [] → " except ".data <:+: s := by
  intro s
  induction s with
  | nil =>
    intro a b h hb
    simp only [splitExcept, Option.some.injEq, Prod.mk.injEq] at h
    exact absurd h.2.symm hb
  | cons c s ih =>
    intro a b h hb
    cases ha : after " except ".data (c :: s) with
    | some r =>
      exact ⟨[], r, by rw [after_eq_some _ _ _ ha]; rfl⟩
    | none =>
      rw [splitExcept] at h
      simp only [ha] at h
      by_cases hc : isLineEnd c = true
      · simp [hc] at h
      · simp only [hc, Bool.false_eq_true, if_false] at h
        cases hs : splitExcept s with
        | none => rw [hs] at h; simp at h
        | some p =>
          rw [hs] at h
          simp only [Option.map_some', Option.some.injEq, Prod.mk.injEq] at h
          have := ih p.1 p.2 hs (by rw [h.2]; exact hb)
          exact this.trans (List.suffix_cons c s).isInfix

/-- C19 fails as stated: "all except" does not contain " except ", yet in
"all except except x" the clause starts at the first " except ", so the
original text is "all" and the exception is "except x". -/
theorem ofString_except_overlap :
    ¬ " except ".data <:+: "all except".data
      ∧ (ItemReference.ofString ("all except" ++ " except " ++ "x")).map
          (fun r => (r.original, r.everything, r.except))
        = some ("all", true, [{ what := "except x", amount := 0, index := 1 }])
      ∧ (ItemReference.ofString "all except").map (fun r => (r.original, r.everything))
        = some ("all except", false) := by
  decide

/-- C19, as amended: for a text `L` without line terminators that neither
contains " except " nor ends with " except", and a non-empty text `E` without
line terminators, parsing `L ++ " except " ++ E` gives what parsing `L` alone
gives (whose original text is `L` and whose except list is empty) with the
except list replaced by the references of `E`; "all except coins" is the
everything form with the exception "coins"; and a text without " except "
has an empty except list. -/
theorem ofString_except (L E : String) (hL : L.data.any isLineEnd = false)
    (hE : E.data.any isLineEnd = false) (hEne : E.data ≠ [])
    (hin : ¬ " except ".data <:+: L.data) (hsuf : ¬ " except".data <:+ L.data) :
    ItemReference.ofString (L ++ " except " ++ E)
        = (ItemReference.ofString L).bind (fun r =>
            (ParseReferences [] E).map (fun ex => { r with except := ex }))
      ∧ (∀ r, ItemReference.ofString L = some r → r.original = L ∧ r.except = [])
      ∧ ItemReference.ofString "all except coins"
        = some { everything := true, original := "all",
                 refs := [{ what := "", amount := 0, index := 0 }],
                 except := [{ what := "coins", amount := 0, index := 1 }] }
      ∧ (∀ T : String, ¬ " except ".data <:+: T.data →
          ∀ r, ItemReference.ofString T = some r → r.except = []) := by
  have hdata : (L ++ " except " ++ E).data = L.data ++ " except ".data ++ E.data := by
    simp [String.data_append]
  have h1 := splitExcept_clause E.data hEne hE L.data hL hin hsuf
  have h2 := splitExcept_plain L.data hL hin
  refine ⟨?_, ?_, by decide, ?_⟩
  · unfold ItemReference.ofString
    simp only [hdata, h1, h2, Option.getD_some, ne_eq, hEne, not_false_eq_true, if_true,
      not_true_eq_false, if_false]
    cases (if (decide ((⟨L.data⟩ : String) = "all") || decide ((⟨L.data⟩ : String) = "everything"))
        = true then some [({ what := "", amount := 0, index := 0 } : SingleReference)]
      else if ¬ (⟨L.data⟩ : String) = "" then ParseReferences [] ⟨L.data⟩ else some []) with
    | none => rfl
    | some refs =>
      cases ParseReferences [] E with
      | none => rfl
      | some ex => rfl
  · intro r hr
    unfold ItemReference.ofString at hr
    simp only [h2, Option.getD_some, ne_eq, not_true_eq_false, if_false] at hr
    split at hr
    · simp only [Option.some.injEq] at hr
      rw [← hr]
      rename_i hex
      simp only [Option.some.injEq] at hex
      exact ⟨rfl, hex.symm⟩
    · simp at hr
  · intro T hT r hr
    have hsecond : ((splitExcept T.data).getD ([], [])).2 = [] := by
      cases hs : splitExcept T.data with
      | none => rfl
      | some p =>
        by_contra hne
        exact hT (splitExcept_second T.data p.1 p.2 hs hne)
    unfold ItemReference.ofString at hr
    simp only [hsecond, ne_eq, not_true_eq_false, if_false] at hr
    split at hr
    · simp only [Option.some.injEq] at hr
      rw [← hr]
      rename_i hex
      simp only [Option.some.injEq] at hex
      exact hex.symm
    · simp at hr

/-! ## Splitting a list of references -/

theorem joinParts_eq (p : List Char) (rest : List (List Char × List Char)) :
    joinParts p rest = p ++ tailOf rest := by
  cases rest with
  | nil => simp [joinParts, tailOf]
  | cons sq rest =>
    obtain ⟨sep, q⟩ := sq
    simp [joinParts, tailOf]

theorem partBody_tail (c : Char) (s : List Char) (hs : s ≠ []) (h : partBody (c :: s)) :
    partBody s := by
  obtain ⟨h1, h2, h3, h4, h5⟩ := h
  refine ⟨fun h => h1 (by simp [h]), fun h => h2 (h.trans (List.suffix_cons c s).isInfix),
    ?_, fun h => h4 (h.trans (List.suffix_cons c s)), ?_⟩
  · cases s with
    | nil => exact absurd rfl hs
    | cons b s => rw [List.getLast?_cons_cons] at h3; exact h3
  · rw [List.any_cons, Bool.or_eq_false_iff] at h5
    exact h5.2

theorem partStops_tail (t : List Char) (ht : partTail t) (hne : t ≠ []) :
    partStops t = true := by
  rcases ht with h | ⟨r, h⟩ | ⟨r, h⟩
  · exact absurd h hne
  · subst h
    simp [partStops, dropSpaces, startsWith, after]
  · subst h
    have : startsWith " and ".data (" and ".data ++ r) = true := by
      unfold startsWith
      rw [after_self]
      rfl
    unfold partStops
    rw [this]
    simp

theorem takePart_tail (t : List Char) (ht : partTail t) : takePart t = ([], t) := by
  cases t with
  | nil => rfl
  | cons c t =>
    rw [takePart, partStops_tail (c :: t) ht (by simp)]
    simp

theorem after_and_overlap (S t r : List Char) (hS : S ≠ []) (ht : partTail t)
    (h : after " and ".data (S ++ t) = some r) :
    " and ".data <:+: S ∨ " and".data <:+ S ∨ S.getLast? = some ' ' := by
  have hX : " and ".data = [' ', 'a', 'n', 'd', ' '] := rfl
  have hY : " and".data = [' ', 'a', 'n', 'd'] := rfl
  rw [hX] at h ⊢
  rw [hY]
  rcases S with _ | ⟨c1, _ | ⟨c2, _ | ⟨c3, _ | ⟨c4, _ | ⟨c5, S⟩⟩⟩⟩⟩
  · exact absurd rfl hS
  · right; right
    simp only [List.cons_append, List.nil_append, after] at h
    split at h
    · subst_vars; rfl
    · simp at h
  · exfalso
    rcases ht with ht | ⟨r1, ht⟩ | ⟨r1, ht⟩ <;> subst ht <;>
      simp only [List.cons_append, List.nil_append, after, List.append_nil] at h <;>
      repeat (split at h <;> try simp at h)
  · exfalso
    rcases ht with ht | ⟨r1, ht⟩ | ⟨r1, ht⟩ <;> subst ht <;>
      simp only [List.cons_append, List.nil_append, after, List.append_nil] at h <;>
      repeat (split at h <;> try simp at h)
  · right; left
    simp only [List.cons_append, List.nil_append, after] at h
    repeat (split at h <;> try (simp at h; done))
    subst_vars
    exact List.suffix_refl _
  · left
    simp only [List.cons_append, List.nil_append, after] at h
    repeat (split at h <;> try (simp at h; done))
    subst_vars
    exact ⟨[], S, rfl⟩

theorem dropSpaces_suffix (s : List Char) : dropSpaces s <:+ s := by
  obtain ⟨n, hn⟩ := dropSpaces_split s
  exact ⟨List.replicate n ' ', hn.symm⟩

theorem partStops_body (c : Char) (s t : List Char) (hb : partBody (c :: s))
    (ht : partTail t) : partStops (c :: s ++ t) = false := by
  obtain ⟨h1, h2, h3, h4, h5⟩ := hb
  obtain ⟨x, hx⟩ : ∃ x, (c :: s).getLast? = some x := by
    cases hl : (c :: s).getLast? with
    | none => simp at hl
    | some x => exact ⟨x, rfl⟩
  have hxne : x ≠ ' ' := by intro h; rw [h] at hx; exact h3 hx
  have hdne := dropSpaces_ne_nil (c :: s) x (List.mem_of_getLast?_eq_some hx) hxne
  have hd := dropSpaces_append (c :: s) t hdne
  obtain ⟨y, ys, hy⟩ : ∃ y ys, dropSpaces (c :: s) = y :: ys := by
    cases hds : dropSpaces (c :: s) with
    | nil => exact absurd hds hdne
    | cons y ys => exact ⟨y, ys, rfl⟩
  have hymem : y ∈ c :: s := (dropSpaces_suffix (c :: s)).subset (by rw [hy]; simp)
  have hyne : ',' ≠ y := by intro h; rw [← h] at hymem; exact h1 hymem
  have hand : startsWith " and ".data (c :: s ++ t) = false := by
    unfold startsWith
    cases ha : after " and ".data (c :: s ++ t) with
    | none => rfl
    | some r =>
      rcases after_and_overlap (c :: s) t r (by simp) ht ha with h | h | h
      · exact absurd h h2
      · exact absurd h h4
      · exact absurd h h3
  unfold partStops
  rw [hand, hd, hy]
  simp [startsWith, after, hyne]

theorem takePart_body (t : List Char) (ht : partTail t) :
    ∀ s : List Char, s ≠ [] → partBody s → takePart (s ++ t) = (s, t) := by
  intro s
  induction s with
  | nil => intro h _; exact absurd rfl h
  | cons c s ih =>
    intro _ hb
    have hstop := partStops_body c s t hb ht
    have hc : isLineEnd c = false := by
      have := hb.2.2.2.2
      rw [List.any_cons, Bool.or_eq_false_iff] at this
      exact this.1
    rw [List.cons_append] at hstop ⊢
    rw [takePart, hstop, hc]
    simp only [Bool.or_self, Bool.false_eq_true, if_false]
    by_cases hs : s = []
    · subst hs
      rw [List.nil_append, takePart_tail t ht]
    · rw [ih hs (partBody_tail c s hs hb)]

theorem dropSeparators_stop (x : List Char) (h1 : x.head? ≠ some ' ')
    (h2 : x.head? ≠ some ',') (h3 : ¬ "and ".data <+: x) : dropSeparators x = x := by
  unfold dropSeparators
  split
  · exact absurd rfl h1
  · exact absurd rfl h2
  · rename_i s
    exact absurd ⟨s, rfl⟩ h3
  · rfl

theorem and_prefix_join (q t : List Char) (hq : goodPart q) (ht : partTail t) :
    ¬ "and ".data <+: q ++ t := by
  obtain ⟨hne, _, _, hpre, hand⟩ := hq
  have hX : "and ".data = ['a', 'n', 'd', ' '] := rfl
  have hY : "and".data = ['a', 'n', 'd'] := rfl
  have hZ : " and ".data = [' ', 'a', 'n', 'd', ' '] := rfl
  rw [hX] at hpre ⊢
  rw [hY] at hand
  rintro ⟨r, hr⟩
  rcases q with _ | ⟨c1, _ | ⟨c2, _ | ⟨c3, _ | ⟨c4, q⟩⟩⟩⟩
  · exact absurd rfl hne
  · rcases ht with ht | ⟨r1, ht⟩ | ⟨r1, ht⟩ <;> subst ht <;> simp [hZ] at hr
  · rcases ht with ht | ⟨r1, ht⟩ | ⟨r1, ht⟩ <;> subst ht <;> simp [hZ] at hr
  · rcases ht with ht | ⟨r1, ht⟩ | ⟨r1, ht⟩ <;> subst ht <;> simp [hZ] at hr
    obtain ⟨h1, h2, h3, _⟩ := hr
    exact hand (by rw [← h1, ← h2, ← h3])
  · simp only [List.cons_append, List.cons.injEq] at hr
    obtain ⟨rfl, rfl, rfl, rfl, _⟩ := hr
    exact hpre ⟨q, rfl⟩

theorem dropSeparators_join (sep q t : List Char)
    (hsep : sep = ", ".data ∨ sep = " and ".data) (hq : goodPart q) (ht : partTail t) :
    dropSeparators (sep ++ (q ++ t)) = q ++ t := by
  have hstop : dropSeparators (q ++ t) = q ++ t := by
    have hpre := and_prefix_join q t hq ht
    obtain ⟨hne, hb, hhead, _, _⟩ := hq
    cases q with
    | nil => exact absurd rfl hne
    | cons c s =>
      apply dropSeparators_stop
      · exact hhead
      · intro h
        have : c = ',' := by simpa using h
        exact hb.1 (by rw [this]; simp)
      · exact hpre
  rcases hsep with h | h <;> subst h
  · show dropSeparators (',' :: ' ' :: (q ++ t)) = q ++ t
    rw [dropSeparators, dropSeparators, hstop]
  · show dropSeparators (' ' :: 'a' :: 'n' :: 'd' :: ' ' :: (q ++ t)) = q ++ t
    rw [dropSeparators, dropSeparators, hstop]

theorem partsOf_step (q t : List Char) (hq : goodPart q) (ht : partTail t) (f : Nat) :
    partsOf (f + 1) (q ++ t) = q :: partsOf f (dropSeparators t) := by
  have htake := takePart_body t ht q hq.1 hq.2.1
  obtain ⟨hne, hb, hhead, _, _⟩ := hq
  cases q with
  | nil => exact absurd rfl hne
  | cons c r =>
    have hc1 : c ≠ ' ' := by intro h; exact hhead (by simp [h])
    have hc2 : c ≠ ',' := by intro h; exact hb.1 (by simp [h])
    have hc3 : isLineEnd c = false := by
      have := hb.2.2.2.2
      rw [List.any_cons, Bool.or_eq_false_iff] at this
      exact this.1
    rw [List.cons_append] at htake ⊢
    rw [partsOf, dropSpaces, if_neg hc1]
    simp only [hc2, hc3, htake, if_false, Bool.false_eq_true]

theorem partsOf_nil (f : Nat) : partsOf f [] = [] := by
  cases f <;> rfl

theorem partTail_tailOf (rest : List (List Char × List Char))
    (hrest : ∀ sq ∈ rest, (sq.1 = ", ".data ∨ sq.1 = " and ".data) ∧ goodPart sq.2) :
    partTail (tailOf rest) := by
  cases rest with
  | nil => exact Or.inl rfl
  | cons sq rest =>
    obtain ⟨sep, q⟩ := sq
    have hsep : sep = ", ".data ∨ sep = " and ".data := (hrest (sep, q) (by simp)).1
    rcases hsep with h | h
    · right; left
      exact ⟨' ' :: joinParts q rest, by rw [tailOf, h]; rfl⟩
    · right; right
      exact ⟨joinParts q rest, by rw [tailOf, h]⟩

theorem partsOf_join :
    ∀ (rest : List (List Char × List Char)) (p : List Char) (fuel : Nat),
      goodPart p →
      (∀ sq ∈ rest, (sq.1 = ", ".data ∨ sq.1 = " and ".data) ∧ goodPart sq.2) →
      rest.length + 1 ≤ fuel →
      partsOf fuel (joinParts p rest) = p :: rest.map Prod.snd := by
  intro rest
  induction rest with
  | nil =>
    intro p fuel hp _ hfuel
    obtain ⟨f, rfl⟩ : ∃ f, fuel = f + 1 := ⟨fuel - 1, by omega⟩
    rw [joinParts_eq, partsOf_step p (tailOf []) hp (Or.inl rfl)]
    simp only [tailOf, dropSeparators, partsOf_nil, List.map_nil]
  | cons sq rest ih =>
    intro p fuel hp hrest hfuel
    obtain ⟨f, rfl⟩ : ∃ f, fuel = f + 1 := ⟨fuel - 1, by omega⟩
    obtain ⟨sep, q⟩ := sq
    have hsq := hrest (sep, q) (by simp)
    have hrest' : ∀ sq ∈ rest, (sq.1 = ", ".data ∨ sq.1 = " and ".data) ∧ goodPart sq.2 :=
      fun sq h => hrest sq (by simp [h])
    rw [joinParts_eq, partsOf_step p _ hp (partTail_tailOf _ hrest)]
    simp only [tailOf]
    rw [joinParts_eq, dropSeparators_join sep q _ hsq.1 hsq.2 (partTail_tailOf _ hrest'),
      ← joinParts_eq, ih q f hsq.2 hrest' (by simp at hfuel; omega)]
    rfl

theorem joinParts_length (rest : List (List Char × List Char)) :
    ∀ p : List Char, (∀ sq ∈ rest, sq.1 ≠ []) → rest.length ≤ (joinParts p rest).length := by
  induction rest with
  | nil => intro p _; simp
  | cons sq rest ih =>
    intro p h
    obtain ⟨sep, q⟩ := sq
    have h1 : sep ≠ [] := h (sep, q) (by simp)
    have h2 := ih q (fun sq hsq => h sq (by simp [hsq]))
    have h3 : 1 ≤ sep.length := by
      cases sep with
      | nil => exact absurd rfl h1
      | cons _ _ => simp
    simp only [joinParts, List.length_append, List.length_cons]
    omega

/-- C18 fails as stated: the part "and" meets every condition of the claim,
yet in "x, and and y" it is taken for a separator, and two references are
parsed instead of three. -/
theorem ParseReferences_and_part :
    joinParts "x".data [(", ".data, "and".data), (" and ".data, "y".data)]
        = "x, and and y".data
      ∧ ParseReferences [] "x, and and y"
        = some [{ what := "x", amount := 0, index := 1 }, { what := "y", amount := 0, index := 1 }] := by
  decide

/-- C18, as amended: for non-empty parts without a comma, a line terminator
or the substring " and ", without spaces at either end, not beginning with
"and ", not ending with " and" and different from "and", `ParseReferences`
applied to the parts joined by any mix of ", " and " and " appends one
reference per part, in order, the reference `ParseSingleReference` gives for
that part (and throws when one of these throws); single spaces inside a part
do not split it. -/
theorem ParseReferences_join (list : List SingleReference) (p : List Char)
    (rest : List (List Char × List Char)) (hp : goodPart p)
    (hrest : ∀ sq ∈ rest, (sq.1 = ", ".data ∨ sq.1 = " and ".data) ∧ goodPart sq.2) :
    ParseReferences list ⟨joinParts p rest⟩
        = ((p :: rest.map Prod.snd).mapM (fun q => ParseSingleReference ⟨q⟩)).map
            (fun l => list ++ l)
      ∧ ParseReferences [] "awesome gold shirt"
        = some [{ what := "awesome gold shirt", amount := 0, index := 1 }] := by
  refine ⟨?_, by decide⟩
  have hlen := joinParts_length rest p (by
    intro sq hsq
    rcases (hrest sq hsq).1 with h | h <;> rw [h] <;> decide)
  unfold ParseReferences
  rw [partsOf_join rest p _ hp hrest (by simp only [String.length]; omega)]

/-! ## The plural of a name with a clause -/

theorem after_absent (m : Char) (p x : List Char) (hx : m ∉ x) :
    after (p ++ [m]) x = none := by
  cases h : after (p ++ [m]) x with
  | none => rfl
  | some r =>
    exfalso
    apply hx
    rw [after_eq_some _ _ _ h]
    simp

theorem after_marker_tail (m : Char) (post : List Char) (hpost : m ∉ post) :
    ∀ (p r : List Char), m ∉ r →
      after (p ++ [m]) (r ++ m :: post) = if p = r then some post else none := by
  intro p
  induction p with
  | nil =>
    intro r hr
    cases r with
    | nil => simp [after]
    | cons c r =>
      have hc : m ≠ c := by intro h; exact hr (by simp [h])
      simp [after, hc]
  | cons a p ih =>
    intro r hr
    cases r with
    | nil =>
      by_cases ham : a = m
      · subst ham
        rw [List.nil_append, List.cons_append, after, if_pos rfl, after_absent a p post hpost]
        simp
      · simp [after, ham]
    | cons c r =>
      have hr' : m ∉ r := by intro h; exact hr (by simp [h])
      by_cases hac : a = c
      · subst hac
        rw [List.cons_append, List.cons_append, after, if_pos rfl, ih r hr']
        simp only [List.cons.injEq, true_and]
      · simp [after, hac]

theorem occurs_absent (m : Char) (p : List Char) :
    ∀ x : List Char, m ∉ x → occurs (p ++ [m]) x = false := by
  intro x
  induction x with
  | nil =>
    intro _
    simp only [occurs, startsWith, after_absent m p [] (by simp)]
    rfl
  | cons c x ih =>
    intro hx
    simp only [occurs, startsWith, after_absent m p (c :: x) hx,
      ih (by intro h; exact hx (by simp [h]))]
    rfl

theorem occurs_marker_tail (m : Char) (p post : List Char) (hpost : m ∉ post) :
    ∀ d : List Char, m ∉ d → (occurs (p ++ [m]) (d ++ m :: post) = true ↔ p <:+ d) := by
  intro d
  induction d with
  | nil =>
    intro _
    have h := after_marker_tail m post hpost p [] (by simp)
    rw [List.nil_append] at h ⊢
    simp only [occurs, startsWith, h, occurs_absent m p post hpost, Bool.or_false]
    by_cases hp : p = []
    · simp [hp]
    · simp [hp]
  | cons c d ih =>
    intro hd
    have hd' : m ∉ d := by intro h; exact hd (by simp [h])
    have h := after_marker_tail m post hpost p (c :: d) hd
    rw [List.cons_append] at h ⊢
    simp only [occurs, startsWith, h, Bool.or_eq_true, ih hd', List.suffix_cons_iff]
    by_cases hp : p = c :: d <;> simp [hp]

theorem findSome_marker_tail (m : Char) (r post : List Char) (hr : m ∉ r)
    (hpost : m ∉ post) :
    ∀ lits : List (List Char),
      (lits.map (fun l => l ++ [m])).findSome? (fun l => after l (r ++ m :: post))
        = if r ∈ lits then some post else none := by
  intro lits
  induction lits with
  | nil => simp
  | cons l lits ih =>
    rw [List.map_cons, List.findSome?_cons, after_marker_tail m post hpost l r hr, ih]
    by_cases hl : l = r
    · simp [hl]
    · have hl' : ¬ r = l := fun h => hl h.symm
      simp [hl, hl']

theorem findSome_absent (m : Char) (x : List Char) (hx : m ∉ x) :
    ∀ lits : List (List Char),
      (lits.map (fun l => l ++ [m])).findSome? (fun l => after l x) = none := by
  intro lits
  induction lits with
  | nil => rfl
  | cons l lits ih => rw [List.map_cons, List.findSome?_cons, after_absent m l x hx, ih]

theorem replaceLits_absent (m : Char) (lits : List (List Char)) (by_ : List Char) :
    ∀ (fuel : Nat) (x : List Char), m ∉ x →
      replaceLits (lits.map (fun l => l ++ [m])) by_ fuel x = x := by
  intro fuel
  induction fuel with
  | zero => intro x _; rw [replaceLits]
  | succ fuel ih =>
    intro x hx
    cases x with
    | nil => rfl
    | cons c x =>
      rw [replaceLits, findSome_absent m (c :: x) hx lits]
      simp only []
      rw [ih x (by intro h; exact hx (by simp [h]))]

theorem replaceLits_marker_tail (m : Char) (lits : List (List Char)) (by_ p post : List Char)
    (hp : p ∈ lits) (hmp : m ∉ p) (hpost : m ∉ post) :
    ∀ (h : List Char) (fuel : Nat), m ∉ h →
      (∀ h1 r, h ++ p = h1 ++ r → r ∈ lits → r.length ≤ p.length) →
      h.length + p.length + 1 ≤ fuel →
      replaceLits (lits.map (fun l => l ++ [m])) by_ fuel (h ++ p ++ m :: post)
        = h ++ by_ ++ post := by
  intro h
  induction h with
  | nil =>
    intro fuel _ _ hfuel
    obtain ⟨f, rfl⟩ : ∃ f, fuel = f + 1 := ⟨fuel - 1, by omega⟩
    obtain ⟨c, s, hcs⟩ : ∃ c s, p ++ m :: post = c :: s := by
      cases p with
      | nil => exact ⟨m, post, rfl⟩
      | cons c p => exact ⟨c, p ++ m :: post, rfl⟩
    have hfind := findSome_marker_tail m p post hmp hpost lits
    rw [if_pos hp, hcs] at hfind
    rw [List.nil_append, hcs, replaceLits]
    simp only [hfind, replaceLits_absent m lits by_ f post hpost, List.nil_append]
  | cons c h ih =>
    intro fuel hmh hlong hfuel
    obtain ⟨f, rfl⟩ : ∃ f, fuel = f + 1 := ⟨fuel - 1, by omega⟩
    have hm' : m ∉ c :: (h ++ p) := by
      intro hin
      rcases List.mem_cons.mp hin with h1 | h1
      · exact hmh (by simp [h1])
      · rcases List.mem_append.mp h1 with h2 | h2
        · exact hmh (by simp [h2])
        · exact hmp h2
    have hnot : ¬ (c :: (h ++ p)) ∈ lits := by
      intro hin
      have := hlong [] (c :: (h ++ p)) (by simp) hin
      simp at this
      omega
    have hfind := findSome_marker_tail m (c :: (h ++ p)) post hm' hpost lits
    rw [if_neg hnot, List.cons_append] at hfind
    rw [List.cons_append, List.cons_append, replaceLits]
    simp only [hfind]
    rw [ih f (by intro hin; exact hmh (by simp [hin]))
      (by
        intro h1 r heq hr
        exact hlong (c :: h1) r (by simp [heq]) hr)
      (by simp at hfuel; omega)]
    rfl

theorem insertPlaceholder_split :
    ∀ s : List Char, ∃ pre post, s = pre ++ post
      ∧ insertPlaceholder s = pre ++ '\x01' :: post
      ∧ (post = [] ∨ clauseStarts post = true) := by
  intro s
  induction s with
  | nil => exact ⟨[], [], rfl, rfl, Or.inl rfl⟩
  | cons c s ih =>
    by_cases hc : clauseStarts (c :: s) = true
    · exact ⟨[], c :: s, rfl, by rw [insertPlaceholder, if_pos hc]; rfl, Or.inr hc⟩
    · obtain ⟨pre, post, h1, h2, h3⟩ := ih
      refine ⟨c :: pre, post, by rw [h1]; rfl, ?_, h3⟩
      rw [insertPlaceholder, if_neg hc, h2]
      rfl

theorem occurs_tail_decide (p pre post : List Char) (hm1 : '\x01' ∉ pre)
    (hm2 : '\x01' ∉ post) :
    occurs (p ++ ['\x01']) (pre ++ '\x01' :: post) = decide (p <:+ pre) := by
  rw [Bool.eq_iff_iff, occurs_marker_tail '\x01' p post hm2 pre hm1]
  simp

theorem Pluralize_split (pre post : List Char) (hnl : (pre ++ post).any isLineEnd = false)
    (hm1 : '\x01' ∉ pre) (hm2 : '\x01' ∉ post)
    (hins : insertPlaceholder (pre ++ post) = pre ++ '\x01' :: post) :
    Pluralize ⟨pre ++ post⟩ = ⟨pluralWord pre ++ post⟩ := by
  have os : occurs ['s', '\x01'] (pre ++ '\x01' :: post) = decide (['s'] <:+ pre) :=
    occurs_tail_decide ['s'] pre post hm1 hm2
  have oss : occurs ['s', 's', '\x01'] (pre ++ '\x01' :: post) = decide (['s', 's'] <:+ pre) :=
    occurs_tail_decide ['s', 's'] pre post hm1 hm2
  have oy : occurs ['y', '\x01'] (pre ++ '\x01' :: post) = decide (['y'] <:+ pre) :=
    occurs_tail_decide ['y'] pre post hm1 hm2
  have oo : occurs ['o', '\x01'] (pre ++ '\x01' :: post) = decide (['o'] <:+ pre) :=
    occurs_tail_decide ['o'] pre post hm1 hm2
  have osh : occurs ['s', 'h', '\x01'] (pre ++ '\x01' :: post) = decide (['s', 'h'] <:+ pre) :=
    occurs_tail_decide ['s', 'h'] pre post hm1 hm2
  have of_ : occurs ['f', '\x01'] (pre ++ '\x01' :: post) = decide (['f'] <:+ pre) :=
    occurs_tail_decide ['f'] pre post hm1 hm2
  have hlen : (pre ++ '\x01' :: post).length = pre.length + (post.length + 1) := by simp
  unfold Pluralize pluralWord pluralRule
  simp only [placeholderForm, hnl, hins, Bool.false_eq_true, if_false, os, oss, hlen, oy, oo,
    osh, of_]
  simp only [Bool.or_eq_true, decide_eq_true_eq]
  by_cases hs : ['s'] <:+ pre
  · rw [if_pos hs, if_pos hs]
    simp
  have hss : ¬ ['s', 's'] <:+ pre := by
    rintro ⟨t, ht⟩
    exact hs ⟨t ++ ['s'], by rw [← ht]; simp⟩
  rw [if_neg hs, if_neg hs]
  by_cases hy : ['y'] <:+ pre
  · rw [if_pos hy, if_pos hy]
    obtain ⟨h, rfl⟩ := hy
    have := replaceLits_marker_tail '\x01' [['y']] "ies".data ['y'] post (by simp) (by simp)
      hm2 h ((h ++ ['y']).length + (post.length + 1))
      (by intro hin; exact hm1 (by simp [hin]))
      (by intro h1 r _ hr; simp at hr; simp [hr]) (by simp)
    simp only [List.map_cons, List.map_nil, List.cons_append, List.nil_append] at this
    rw [this, List.dropLast_concat]
  rw [if_neg hy, if_neg hy]
  by_cases ho : (['o'] <:+ pre ∨ ['s', 'h'] <:+ pre) ∨ ['s', 's'] <:+ pre
  · have ho' : ['o'] <:+ pre ∨ ['s', 'h'] <:+ pre := by
      rcases ho with h | h
      · exact h
      · exact absurd h hss
    rw [if_pos ho, if_pos ho']
    have := replaceLits_marker_tail '\x01' [[]] "es".data [] post (by simp) (by simp) hm2 pre
      (pre.length + (post.length + 1)) hm1 (by intro h1 r _ hr; simp at hr; simp [hr])
      (by simp)
    simp only [List.map_cons, List.map_nil, List.append_nil, List.nil_append] at this
    rw [this]
  have ho' : ¬ (['o'] <:+ pre ∨ ['s', 'h'] <:+ pre) := fun h => ho (Or.inl h)
  rw [if_neg ho, if_neg ho']
  by_cases hff : ['f', 'f'] <:+ pre
  · have hf : ['f'] <:+ pre := by
      obtain ⟨t, ht⟩ := hff
      exact ⟨t ++ ['f'], by rw [← ht]; simp⟩
    rw [if_pos hf, if_pos hff]
    obtain ⟨h, rfl⟩ := hff
    have := replaceLits_marker_tail '\x01' [['f', 'f'], ['f']] "ves".data ['f', 'f'] post
      (by simp) (by simp) hm2 h ((h ++ ['f', 'f']).length + (post.length + 1))
      (by intro hin; exact hm1 (by simp [hin]))
      (by
        intro h1 r _ hr
        simp only [List.mem_cons, List.mem_singleton, List.not_mem_nil, or_false] at hr
        rcases hr with hr | hr <;> simp [hr]) (by simp)
    simp only [List.map_cons, List.map_nil, List.cons_append, List.nil_append] at this
    rw [this]
    have e : h ++ ['f', 'f'] = (h ++ ['f']) ++ ['f'] := by simp
    rw [e, List.dropLast_concat, List.dropLast_concat]
  rw [if_neg hff]
  by_cases hf : ['f'] <:+ pre
  · rw [if_pos hf, if_pos hf]
    obtain ⟨h, rfl⟩ := hf
    have := replaceLits_marker_tail '\x01' [['f', 'f'], ['f']] "ves".data ['f'] post
      (by simp) (by simp) hm2 h ((h ++ ['f']).length + (post.length + 1))
      (by intro hin; exact hm1 (by simp [hin]))
      (by
        intro h1 r heq hr
        simp only [List.mem_cons, List.mem_singleton, List.not_mem_nil, or_false] at hr
        rcases hr with hr | hr
        · exfalso
          apply hff
          exact ⟨h1, by rw [heq, hr]⟩
        · simp [hr]) (by simp)
    simp only [List.map_cons, List.map_nil, List.cons_append, List.nil_append] at this
    rw [this, List.dropLast_concat]
  rw [if_neg hf, if_neg hf]
  have := replaceLits_marker_tail '\x01' [[]] "s".data [] post (by simp) (by simp) hm2 pre
    (pre.length + (post.length + 1)) hm1 (by intro h1 r _ hr; simp at hr; simp [hr])
    (by simp)
  simp only [List.map_cons, List.map_nil, List.append_nil, List.nil_append] at this
  rw [this]

/-- The shape of a plural: the part of the name before its first clause is
put in the plural and the clause follows as it was. -/
theorem Pluralize_shape (s : List Char) (hs : ∀ c ∈ s, plainChar c = true) :
    ∃ pre post, s = pre ++ post ∧ (post = [] ∨ clauseStarts post = true)
      ∧ Pluralize ⟨s⟩ = ⟨pluralWord pre ++ post⟩ := by
  obtain ⟨pre, post, h1, h2, h3⟩ := insertPlaceholder_split s
  have hm : '\x01' ∉ s := by
    intro h
    have := hs _ h
    simp [plainChar] at this
  have hnl : s.any isLineEnd = false := by
    rw [Bool.eq_false_iff]
    intro h
    obtain ⟨c, hc, hl⟩ := List.any_eq_true.mp h
    have := hs c hc
    simp [plainChar, hl] at this
  refine ⟨pre, post, h1, h3, ?_⟩
  subst h1
  exact Pluralize_split pre post hnl (fun h => hm (by simp [h])) (fun h => hm (by simp [h])) h2

/-! ## The characters of a name -/

theorem digitChar_isDigit (k : Nat) (hk : k < 10) : (Nat.digitChar k).isDigit = true := by
  interval_cases k <;> decide

theorem toDigitsCore_isDigit :
    ∀ (fuel n : Nat) (ds : List Char), (∀ c ∈ ds, c.isDigit = true) →
      ∀ c ∈ Nat.toDigitsCore 10 fuel n ds, c.isDigit = true := by
  intro fuel
  induction fuel with
  | zero => intro n ds h c hc; exact h c (by simpa [Nat.toDigitsCore] using hc)
  | succ fuel ih =>
    intro n ds h c hc
    have hd : ∀ x ∈ Nat.digitChar (n % 10) :: ds, x.isDigit = true := by
      intro x hx
      rcases List.mem_cons.mp hx with rfl | hx
      · exact digitChar_isDigit _ (Nat.mod_lt _ (by decide))
      · exact h x hx
    rw [Nat.toDigitsCore] at hc
    by_cases hz : n / 10 = 0
    · simp only [hz, if_true] at hc
      exact hd c hc
    · simp only [hz, if_false] at hc
      exact ih _ _ hd c hc

theorem toString_nat_isDigit (n : Nat) : ∀ c ∈ (toString n).data, c.isDigit = true := by
  have : (toString n).data = Nat.toDigits 10 n := rfl
  rw [this]
  exact toDigitsCore_isDigit _ _ [] (by simp)

theorem toDigitsCore_ne_nil :
    ∀ (fuel n : Nat) (ds : List Char), ds ≠ [] → Nat.toDigitsCore 10 fuel n ds ≠ [] := by
  intro fuel
  induction fuel with
  | zero => intro n ds h; simpa [Nat.toDigitsCore] using h
  | succ fuel ih =>
    intro n ds _
    rw [Nat.toDigitsCore]
    by_cases hz : n / 10 = 0
    · simp [hz]
    · simp only [hz, if_false]
      exact ih _ _ (by simp)

theorem toString_nat_ne_nil (n : Nat) : (toString n).data ≠ [] := by
  have h1 : (toString n).data = Nat.toDigitsCore 10 (n + 1) n [] := rfl
  rw [h1, Nat.toDigitsCore]
  by_cases hz : n / 10 = 0
  · simp [hz]
  · simp only [hz, if_false]
    exact toDigitsCore_ne_nil _ _ _ (by simp)

theorem plainChar_digit (c : Char) (hc : c.isDigit = true) : plainChar c = true := by
  have h1 := isLineEnd_digit c hc
  have h2 : c ≠ '\x01' := by intro h; subst h; exact absurd hc (by decide)
  simp [plainChar, h1, h2]

theorem nameAt_mem (table : List GenericData) (k : Nat) :
    nameAt table k ∈ "" :: table.map (fun d => d.name) := by
  unfold nameAt
  by_cases hk : k < table.length
  · rw [List.getD_eq_getElem _ _ hk]
    exact List.mem_cons_of_mem _ (List.mem_map.mpr ⟨_, List.getElem_mem hk, rfl⟩)
  · rw [List.getD_eq_default _ _ (by omega)]
    exact List.mem_cons_self _ _

theorem GetType_mem (i : ItemType) : i.GetType ∈ typeWords := by
  unfold ItemTypeOf.GetType typeWords
  split
  · simp
  · split
    · simp
    · exact List.mem_cons_of_mem _ (List.mem_cons_of_mem _ (nameAt_mem ItemTypes i.type))

theorem plainString_append (a b : String) (ha : plainString a) (hb : plainString b) :
    plainString (a ++ b) := by
  intro c hc
  rw [String.data_append] at hc
  rcases List.mem_append.mp hc with h | h
  · exact ha c h
  · exact hb c h

theorem plainString_of_mem (l : List String) (hl : ∀ s ∈ l, ∀ c ∈ s.data, plainChar c = true)
    (s : String) (hs : s ∈ l) : plainString s := hl s hs

theorem plainString_type (i : ItemType) : plainString i.GetType :=
  plainString_of_mem typeWords (by decide) _ (GetType_mem i)

theorem plainString_nameAt_build (k : Nat) : plainString (nameAt BuildTypes k) :=
  plainString_of_mem ("" :: BuildTypes.map (fun d => d.name)) (by decide) _ (nameAt_mem _ k)

theorem plainString_nameAt_cond (k : Nat) : plainString (nameAt CondTypes k) :=
  plainString_of_mem ("" :: CondTypes.map (fun d => d.name)) (by decide) _ (nameAt_mem _ k)

theorem plainString_material (i : ItemType) : plainString i.GetMaterial := by
  unfold ItemTypeOf.GetMaterial
  split
  · intro c hc; simp at hc
  · split
    · intro c hc; simp at hc
    · exact plainString_nameAt_build _

theorem plainString_toString (n : Nat) : plainString (toString n) :=
  fun c hc => plainChar_digit c (toString_nat_isDigit n c hc)

theorem plainString_condition (i : ItemType) : plainString i.GetCondition := by
  unfold ItemTypeOf.GetCondition
  split
  · dsimp only
    split
    · decide
    · split
      · decide
      · exact plainString_append _ _ (plainString_toString _) (by decide)
  · split
    · decide
    · split
      · decide
      · split
        · decide
        · exact plainString_nameAt_cond _

theorem name_eq (i : ItemType) (c m : Nat) :
    i.name c m
      = composeName i.GetType i.GetMaterial i.GetCondition (shownCond i c) (shownMat i m) := rfl

theorem plainString_compose (T M C : String) (hT : plainString T) (hM : plainString M)
    (hC : plainString C) (cond mat : Nat) : plainString (composeName T M C cond mat) := by
  have hsp : plainString " " := by decide
  have hw : plainString "wooden" := by decide
  have hp1 : plainString " (" := by decide
  have hp2 : plainString ")" := by decide
  have hmo : plainString " made of " := by decide
  have hM' : plainString (if M = "wood" then "wooden" else M) := by
    split
    · exact hw
    · exact hM
  unfold composeName
  dsimp only
  have h1 : plainString
      (if mat = 1 then (if M = "wood" then "wooden" else M) ++ " " ++ T else T) := by
    split
    · exact plainString_append _ _ (plainString_append _ _ hM' hsp) hT
    · exact hT
  generalize (if mat = 1 then (if M = "wood" then "wooden" else M) ++ " " ++ T else T) = r1
    at h1 ⊢
  have h2 : plainString (if cond = 1 then C ++ " " ++ r1 else r1) := by
    split
    · exact plainString_append _ _ (plainString_append _ _ hC hsp) h1
    · exact h1
  generalize (if cond = 1 then C ++ " " ++ r1 else r1) = r2 at h2 ⊢
  have h3 : plainString (if cond = 2 then r2 ++ " (" ++ C ++ ")" else r2) := by
    split
    · exact plainString_append _ _
        (plainString_append _ _ (plainString_append _ _ h2 hp1) hC) hp2
    · exact h2
  generalize (if cond = 2 then r2 ++ " (" ++ C ++ ")" else r2) = r3 at h3 ⊢
  split
  · exact plainString_append _ _ (plainString_append _ _ h3 hmo) hM
  · exact h3

theorem plainString_name (i : ItemType) (c m : Nat) : plainString (i.name c m) := by
  rw [name_eq]
  exact plainString_compose _ _ _ (plainString_type i) (plainString_material i)
    (plainString_condition i) _ _

/-! ## The shape of a name -/

theorem composeName_cases (T M C : String) (cond mat : Nat) (hcm : cond = 2 → mat = 0) :
    composeName T M C cond mat = T
      ∨ (cond ≠ 1 ∧ (composeName T M C cond mat).data
          = (if M = "wood" then "wooden" else M).data ++ ' ' :: T.data)
      ∨ (∃ rest, (composeName T M C cond mat).data = T.data ++ ' ' :: rest)
      ∨ (cond = 1 ∧ ∃ rest, (composeName T M C cond mat).data = C.data ++ ' ' :: rest) := by
  unfold composeName
  dsimp only
  by_cases h1 : cond = 1
  · right; right; right
    refine ⟨h1, ?_⟩
    have h2 : ¬ cond = 2 := by omega
    simp only [h1, h2, if_true, if_false]
    split <;> simp [String.data_append]
  · by_cases h2 : cond = 2
    · have hm := hcm h2
      right; right; left
      simp [h1, h2, hm, String.data_append]
    · simp only [h1, h2, if_false]
      by_cases m1 : mat = 1
      · right; left
        have m2 : ¬ mat = 2 := by omega
        simp only [m1, m2, if_true, if_false]
        exact ⟨by omega, by simp [String.data_append]⟩
      · by_cases m2 : mat = 2
        · right; right; left
          simp [m1, m2, String.data_append]
        · left
          simp [m1, m2]

theorem shownCond_two (i : ItemType) (c m : Nat) (hc : c ≤ 1) (h : shownCond i c = 2) :
    shownMat i m = 0 := by
  unfold shownCond at h
  unfold shownMat
  by_cases hcart : i.cart.isSome = true
  · simp [hcart]
  · by_cases hchest : i.chest > 0
    · simp [hchest]
    · simp only [hcart, hchest, if_false, Bool.false_eq_true] at h
      omega

theorem shownCond_one (i : ItemType) (c : Nat) (h : shownCond i c = 1) :
    i.cart = none ∧ ¬ i.chest > 0 := by
  unfold shownCond at h
  by_cases hcart : i.cart.isSome = true
  · exfalso
    revert h
    simp only [hcart, if_true]
    split_ifs <;> simp
  · by_cases hchest : i.chest > 0
    · exfalso
      revert h
      simp only [hcart, hchest, if_true, if_false, Bool.false_eq_true]
      split_ifs <;> simp
    · exact ⟨by simpa using hcart, hchest⟩

theorem GetCondition_treasure (i : ItemType) (h1 : i.cart = none) (h2 : ¬ i.chest > 0) :
    i.GetCondition = nameAt CondTypes i.condition := by
  unfold ItemTypeOf.GetCondition
  rw [h1]
  simp [h2]

theorem material_mem (i : ItemType) :
    (if i.GetMaterial = "wood" then "wooden" else i.GetMaterial) ∈ materialWords := by
  unfold materialWords
  split
  · simp
  · apply List.mem_cons_of_mem
    unfold ItemTypeOf.GetMaterial
    split
    · simp
    · split
      · simp
      · exact nameAt_mem BuildTypes i.build

/-- The shapes of the name of an item, for the condition flags 0 and 1: the
type alone; a material and the type; the type followed by more; or a
condition followed by more. -/
theorem name_cases (i : ItemType) (c m : Nat) (hc : c ≤ 1) :
    i.name c m = i.GetType
      ∨ (∃ M ∈ materialWords, (i.name c m).data = M.data ++ ' ' :: i.GetType.data)
      ∨ (∃ rest, (i.name c m).data = i.GetType.data ++ ' ' :: rest)
      ∨ (∃ C ∈ conditionWords, ∃ rest, (i.name c m).data = C.data ++ ' ' :: rest) := by
  rw [name_eq]
  rcases composeName_cases i.GetType i.GetMaterial i.GetCondition (shownCond i c) (shownMat i m)
    (shownCond_two i c m hc) with h | ⟨_, h⟩ | h | ⟨h1, h⟩
  · exact Or.inl h
  · exact Or.inr (Or.inl ⟨_, material_mem i, h⟩)
  · exact Or.inr (Or.inr (Or.inl h))
  · right; right; right
    obtain ⟨hcart, hchest⟩ := shownCond_one i c h1
    obtain ⟨rest, h⟩ := h
    refine ⟨_, nameAt_mem CondTypes i.condition, rest, ?_⟩
    rw [h, GetCondition_treasure i hcart hchest]

/-! ## Phrases that address no item -/

theorem pluralRule_last (d : List Char) :
    ∃ X, pluralRule d = X ++ ['s']
      ∧ (X = d ∨ X.getLast? = some 'e') := by
  unfold pluralRule
  split_ifs
  · exact ⟨d.dropLast ++ ['i', 'e'], by simp [show "ies".data = ['i', 'e', 's'] from rfl],
      Or.inr (by simp [List.getLast?_append])⟩
  · exact ⟨d ++ ['e'], by simp [show "es".data = ['e', 's'] from rfl],
      Or.inr (by simp [List.getLast?_append])⟩
  · exact ⟨d.dropLast.dropLast ++ ['v', 'e'],
      by simp [show "ves".data = ['v', 'e', 's'] from rfl],
      Or.inr (by simp [List.getLast?_append])⟩
  · exact ⟨d.dropLast ++ ['v', 'e'], by simp [show "ves".data = ['v', 'e', 's'] from rfl],
      Or.inr (by simp [List.getLast?_append])⟩
  · exact ⟨d, rfl, Or.inl rfl⟩

theorem clauseStarts_space (t : List Char) (h : clauseStarts t = true) :
    ∃ r, t = ' ' :: r := by
  unfold clauseStarts at h
  split at h
  · exact ⟨_, rfl⟩
  · simp at h

theorem pluralRule_length (d : List Char) : d.length < (pluralRule d).length := by
  unfold pluralRule
  split_ifs with h1 h2 h3 h4
  · obtain ⟨t, rfl⟩ := h1
    simp [show "y".data = ['y'] from rfl, show "ies".data = ['i', 'e', 's'] from rfl]
  · simp [show "es".data = ['e', 's'] from rfl]
  · obtain ⟨t, rfl⟩ := h3
    have e : t ++ "ff".data = (t ++ ['f']) ++ ['f'] := by
      simp [show "ff".data = ['f', 'f'] from rfl]
    rw [e, List.dropLast_concat, List.dropLast_concat]
    simp [show "ves".data = ['v', 'e', 's'] from rfl]
  · obtain ⟨t, rfl⟩ := h4
    simp [show "f".data = ['f'] from rfl, show "ves".data = ['v', 'e', 's'] from rfl]
  · simp [show "s".data = ['s'] from rfl]

theorem pluralWord_length (d : List Char) : d.length < (pluralWord d).length := by
  unfold pluralWord
  split
  · simp
  · exact pluralRule_length d

theorem Pluralize_ne_self (s : String) (hs : plainString s) : Pluralize s ≠ s := by
  obtain ⟨pre, post, hsplit, _, hpl⟩ := Pluralize_shape s.data hs
  intro h
  have h1 : (Pluralize s).data = pluralWord pre ++ post := congrArg String.data hpl
  rw [h, hsplit] at h1
  have := congrArg List.length h1
  have := pluralWord_length pre
  simp only [List.length_append] at *
  omega

theorem RemoveArticle_suffix (s : String) : (RemoveArticle s).data <:+ s.data := by
  have hsuf : ∀ (lit : List Char) (r : List Char), afterWordSpaces lit s.data = some r →
      r <:+ s.data := by
    intro lit r h
    unfold afterWordSpaces at h
    split at h
    · rename_i r1 heq
      simp only [Option.some.injEq] at h
      rw [← h, after_eq_some _ _ _ heq]
      exact (dropSpaces_suffix r1).trans ⟨lit ++ [' '], by simp⟩
    · simp at h
  unfold RemoveArticle
  split
  · rename_i r h; exact hsuf _ r h
  · split
    · rename_i r h; exact hsuf _ r h
    · split
      · rename_i r h; exact hsuf _ r h
      · exact List.suffix_refl _

theorem plainString_RemoveArticle (s : String) (hs : plainString s) :
    plainString (RemoveArticle s) :=
  fun c hc => hs c ((RemoveArticle_suffix s).subset hc)

/-- The indefinite article of a name: "an " before a vowel and "a "
otherwise, in front of the name without its own article. -/
theorem AddArticle_plain (s : String) (hs : plainString s) :
    (AddArticle s false).data
      = (if startsWithVowel (RemoveArticle s).data then "an ".data else "a ".data)
          ++ (RemoveArticle s).data := by
  have hne : ¬ RemoveArticle s = Pluralize (RemoveArticle s) :=
    fun h => Pluralize_ne_self _ (plainString_RemoveArticle s hs) h.symm
  unfold AddArticle
  simp only [Bool.false_eq_true, if_false, if_neg hne]
  split <;> simp [String.data_append]

/-! ## The names under which `move` reports -/

theorem name_movable (j : ItemType) (h : j.immovable = false) :
    ∃ M ∈ materialWords, ∃ T : String, (j.name 0 1).data = M.data ++ ' ' :: T.data := by
  simp only [ItemTypeOf.immovable, Bool.or_eq_false_iff, decide_eq_false_iff_not] at h
  obtain ⟨hchest, hcart⟩ := h
  have hc : shownCond j 0 = 0 := by simp [shownCond, hchest, hcart]
  have hm : shownMat j 1 = 1 := by simp [shownMat, hchest, hcart]
  refine ⟨_, material_mem j, j.GetType, ?_⟩
  rw [name_eq, hc, hm]
  simp [composeName, String.data_append]

theorem GetType_immovable (i : ItemType) (h : i.immovable = true) :
    i.GetType = "cart" ∨ i.GetType = "chest" := by
  simp only [ItemTypeOf.immovable, Bool.or_eq_true, decide_eq_true_eq] at h
  unfold ItemTypeOf.GetType
  by_cases hcart : i.cart.isSome = true
  · left; simp [hcart]
  · right
    rcases h with h | h
    · simp [hcart, h]
    · exact absurd h hcart

theorem name_immovable (i : ItemType) (h : i.immovable = true) (c m : Nat) :
    i.name c m = i.GetType
      ∨ ∃ rest, (i.name c m).data = i.GetType.data ++ ' ' :: rest := by
  have himm := h
  simp only [ItemTypeOf.immovable, Bool.or_eq_true, decide_eq_true_eq] at h
  have hm : shownMat i m = 0 := by
    unfold shownMat
    rw [if_pos (by rcases h with h | h; exact Or.inr h; exact Or.inl h)]
  have hc : shownCond i c = 0 ∨ shownCond i c = 2 := by
    unfold shownCond
    dsimp only
    split_ifs with a1 a2 a3 a4 a5 a6 <;> first
      | exact Or.inl rfl
      | exact Or.inr rfl
      | (exfalso; rcases h with h | h <;> contradiction)
  rw [name_eq, hm]
  rcases hc with hc | hc
  · left; rw [hc]; simp [composeName]
  · right; rw [hc]
    exact ⟨'(' :: (i.GetCondition.data ++ [')']), by simp [composeName, String.data_append]⟩

theorem shownName_immovable (i : ItemType) (h : i.immovable = true) :
    ∃ rest, (shownName i).data = 'a' :: ' ' :: 'c' :: 'a' :: 'r' :: rest
      ∨ (shownName i).data = 'a' :: ' ' :: 'c' :: 'h' :: 'e' :: rest := by
  have hplain := plainString_name i 0 1
  have hG := GetType_immovable i h
  have hrem : RemoveArticle (i.name 0 1) = i.name 0 1 := by
    rcases name_immovable i h 0 1 with hn | ⟨rest, hn⟩
    · apply RemoveArticle_nospace
      rw [hn]
      rcases hG with hG | hG <;> rw [hG] <;> decide
    · have : i.name 0 1 = ⟨i.GetType.data ++ ' ' :: rest⟩ := String.ext hn
      rw [this]
      exact RemoveArticle_word i.GetType (by rcases hG with hG | hG <;> rw [hG] <;> decide) rest
  have hstart : ∃ rest, (i.name 0 1).data = 'c' :: 'a' :: 'r' :: rest
      ∨ (i.name 0 1).data = 'c' :: 'h' :: 'e' :: rest := by
    rcases name_immovable i h 0 1 with hn | ⟨rest, hn⟩
    · rw [hn]
      rcases hG with hG | hG <;> rw [hG]
      · exact ⟨['t'], Or.inl rfl⟩
      · exact ⟨['s', 't'], Or.inr rfl⟩
    · rw [hn]
      rcases hG with hG | hG <;> rw [hG]
      · exact ⟨'t' :: ' ' :: rest, Or.inl rfl⟩
      · exact ⟨'s' :: 't' :: ' ' :: rest, Or.inr rfl⟩
  obtain ⟨rest, hstart⟩ := hstart
  refine ⟨rest, ?_⟩
  unfold shownName
  rw [AddArticle_plain _ hplain, hrem]
  rcases hstart with hs | hs
  · left; rw [hs]; rfl
  · right; rw [hs]; rfl

theorem shownName_movable (j : ItemType) (h : j.immovable = false) :
    ∃ M ∈ materialWords, ∃ T : List Char,
      (shownName j).data = 'a' :: ' ' :: (M.data ++ ' ' :: T)
        ∨ (shownName j).data = 'a' :: 'n' :: ' ' :: (M.data ++ ' ' :: T) := by
  obtain ⟨M, hM, T, hn⟩ := name_movable j h
  have hplainM : ∀ M ∈ materialWords, plainWord M = true := by decide
  have hrem : RemoveArticle (j.name 0 1) = j.name 0 1 := by
    have : j.name 0 1 = ⟨M.data ++ ' ' :: T.data⟩ := String.ext hn
    rw [this]
    exact RemoveArticle_word M (hplainM M hM) T.data
  refine ⟨M, hM, T.data, ?_⟩
  unfold shownName
  rw [AddArticle_plain _ (plainString_name j 0 1), hrem, hn]
  split
  · right; rfl
  · left; rfl

theorem prefix_of_nospace (lit M T : List Char) (hlit : ' ' ∉ lit)
    (h : lit <+: M ++ ' ' :: T) : lit <+: M := by
  induction lit generalizing M with
  | nil => exact List.nil_prefix
  | cons a lit ih =>
    have ha : a ≠ ' ' := by intro h'; exact hlit (by simp [h'])
    cases M with
    | nil =>
      obtain ⟨r, hr⟩ := h
      simp only [List.nil_append, List.cons_append, List.cons.injEq] at hr
      exact absurd hr.1 ha
    | cons b M =>
      obtain ⟨r, hr⟩ := h
      simp only [List.cons_append, List.cons.injEq] at hr
      obtain ⟨rfl, hr⟩ := hr
      obtain ⟨r2, hr2⟩ := ih M (by intro h'; exact hlit (by simp [h'])) ⟨r, hr⟩
      exact ⟨r2, by rw [List.cons_append, hr2]⟩

/-- An immovable item and a movable item are never reported under the same
name. -/
theorem shownName_ne (i j : ItemType) (hi : i.immovable = true) (hj : j.immovable = false) :
    shownName i ≠ shownName j := by
  obtain ⟨rest, hi⟩ := shownName_immovable i hi
  obtain ⟨M, hM, T, hj⟩ := shownName_movable j hj
  have hcar : ∀ M ∈ materialWords, ¬ "car".data <+: M.data ∧ ¬ "che".data <+: M.data := by
    decide
  intro heq
  rw [heq] at hi
  rcases hj with hj | hj <;> rw [hj] at hi <;> rcases hi with hi | hi <;>
    simp only [List.cons.injEq, true_and] at hi
  · exact (hcar M hM).1 (prefix_of_nospace "car".data M.data T (by decide) ⟨rest, hi.symm⟩)
  · exact (hcar M hM).2 (prefix_of_nospace "che".data M.data T (by decide) ⟨rest, hi.symm⟩)
  · exact absurd hi.1 (by decide)
  · exact absurd hi.1 (by decide)

theorem shownMoney_pos (g : Int) (hg : 0 < g) (d : Fin 6) :
    ∃ digits : List Char, digits ≠ [] ∧ (∀ c ∈ digits, c.isDigit = true)
      ∧ ∃ rest : List Char,
          (shownMoney g d).data = digits ++ ' ' :: ((nameAt MoneyTypes d).data ++ ' ' :: rest) := by
  obtain ⟨n, rfl⟩ := Int.eq_ofNat_of_zero_le (le_of_lt hg)
  have e : toString ((n : Nat) : Int) = toString n := rfl
  refine ⟨(toString n).data, toString_nat_ne_nil n, toString_nat_isDigit n,
    (if ((n : Nat) : Int) = 1 then "coin" else "coins").data, ?_⟩
  unfold shownMoney
  rw [e]
  simp [String.data_append]

theorem shownName_head (i : ItemType) : ∃ rest, (shownName i).data = 'a' :: rest := by
  unfold shownName
  rw [AddArticle_plain _ (plainString_name i 0 1)]
  split
  · exact ⟨_, rfl⟩
  · exact ⟨_, rfl⟩

/-- An item is never reported under the name of a pile of coins. -/
theorem shownName_ne_shownMoney (i : ItemType) (g : Int) (hg : 0 < g) (d : Fin 6) :
    shownName i ≠ shownMoney g d := by
  obtain ⟨rest, h1⟩ := shownName_head i
  obtain ⟨digits, hne, hdig, rest2, h2⟩ := shownMoney_pos g hg d
  intro heq
  rw [heq, h2] at h1
  cases digits with
  | nil => exact hne rfl
  | cons c digits =>
    simp only [List.cons_append, List.cons.injEq] at h1
    have := hdig c (by simp)
    rw [h1.1] at this
    exact absurd this (by decide)

theorem reports_refl (st : MoveState) : Reports st st := ⟨fun _ h => h, fun h => h⟩

theorem reports_trans {a b c : MoveState} (h1 : Reports a b) (h2 : Reports b c) :
    Reports a c := ⟨fun s h => h2.1 s (h1.1 s h), fun h => h2.2 (h1.2 h)⟩

theorem takeItem_reports (st : MoveState) (n : Nat) : Reports st (takeItem st n).1 := by
  unfold takeItem
  by_cases h : (st.me.Items.getD n default).immovable = true
  · simp only [h, if_true]
    exact ⟨fun s hs => List.mem_append_left _ hs, fun hm => hm⟩
  · simp only [h, if_false, Bool.false_eq_true]
    simp only [Bool.not_eq_true] at h
    refine ⟨fun s hs => hs, ?_⟩
    intro hm s hs
    rcases List.mem_append.mp hs with hs | hs
    · exact hm s hs
    · rw [List.mem_singleton] at hs
      exact Or.inl ⟨_, h, hs⟩

theorem itemLoop_reports (w : SingleReference) (round : Nat) :
    ∀ (fuel : Nat) (st : MoveState) (item_id : Nat) (rem : Int) (found : Bool),
      Reports st (itemLoop w round fuel st item_id rem found).1 := by
  intro fuel
  induction fuel with
  | zero => intro st _ _ _; exact reports_refl st
  | succ fuel ih =>
    intro st item_id rem found
    rw [itemLoop]
    cases hfi : st.me.find_item w item_id with
    | negSucc _ => exact reports_refl st
    | ofNat n =>
      have hnext : Reports st (if round = 2 then takeItem st n else (st, n + 1)).1 := by
        by_cases hr : round = 2
        · simp only [hr, if_true]; exact takeItem_reports st n
        · simp only [hr, if_false]; exact reports_refl st
      simp only []
      by_cases h0 : w.index = 0
      · simp only [h0, if_true]
        exact reports_trans hnext (ih _ _ _ _)
      · simp only [h0, if_false]
        by_cases hr : rem - 1 ≤ 0
        · simp only [hr, if_true]; exact hnext
        · simp only [hr, if_false]
          exact reports_trans hnext (ih _ _ _ _)

theorem takeMoney_reports (st : MoveState) (m : Fin 6) (g : Int) (hg : 0 < g) :
    Reports st (takeMoney st m g) := by
  refine ⟨fun s hs => hs, ?_⟩
  intro hm s hs
  rcases List.mem_append.mp hs with hs | hs
  · exact hm s hs
  · rw [List.mem_singleton] at hs
    exact Or.inr ⟨g, m, hg, hs⟩

theorem moneyLoop_reports (w : SingleReference) (round : Nat) :
    ∀ (fuel : Nat) (st : MoveState) (money_id : Nat) (rem : Int) (found : Bool),
      Reports st (moneyLoop w round fuel st money_id rem found).1 := by
  intro fuel
  induction fuel with
  | zero => intro st _ _ _; exact reports_refl st
  | succ fuel ih =>
    intro st money_id rem found
    rw [moneyLoop]
    cases hfm : st.me.findMoney? w money_id with
    | none => exact reports_refl st
    | some m =>
      dsimp only
      by_cases hg : min rem (st.me.Money m) ≤ 0
      · rw [if_pos hg]; exact reports_refl st
      · rw [if_neg hg]
        have hst1 : Reports st
            (if round = 2 then takeMoney st m (min rem (st.me.Money m)) else st) := by
          by_cases hr : round = 2
          · rw [if_pos hr]; exact takeMoney_reports st m _ (by omega)
          · rw [if_neg hr]; exact reports_refl st
        split
        · exact hst1
        · exact reports_trans hst1 (ih _ _ _ _)

theorem moveItems_reports (w : SingleReference) (st : MoveState) :
    Reports st (moveItems w st).1 := by
  unfold moveItems
  dsimp only
  generalize (if w.amount ≠ 0 then w.amount else 1) = rem
  split
  · exact itemLoop_reports w 1 _ st 0 _ _
  · exact reports_trans (itemLoop_reports w 1 _ st 0 _ _) (itemLoop_reports w 2 _ _ 0 _ _)

theorem moveMoney_reports (w : SingleReference) (st : MoveState) :
    Reports st (moveMoney w st).1 := by
  unfold moveMoney
  dsimp only
  generalize (if w.amount ≠ 0 then w.amount else 0x7FFFFFFF) = rem
  split
  · exact moneyLoop_reports w 1 7 st 0 _ _
  · exact reports_trans (moneyLoop_reports w 1 7 st 0 _ _) (moneyLoop_reports w 2 7 _ 0 _ _)

theorem moveOne_reports (everything : Bool) (st : MoveState) (w : SingleReference) :
    Reports st (moveOne everything st w) := by
  have h := reports_trans (moveItems_reports w st) (moveMoney_reports w (moveItems w st).1)
  unfold moveOne
  dsimp only
  split
  · exact ⟨h.1, h.2⟩
  · exact h

theorem foldl_moveOne_reports (everything : Bool) (refs : List SingleReference) :
    ∀ st : MoveState, Reports st (refs.foldl (moveOne everything) st) := by
  induction refs with
  | nil => intro st; exact reports_refl st
  | cons w refs ih =>
    intro st
    exact reports_trans (moveOne_reports everything st w) (ih _)

theorem takeItem_immovable (st : MoveState) (p : Nat) (i : ItemType)
    (hi : st.me.Items.getD p default = i) (himm : i.immovable = true) :
    shownName i ∈ (takeItem st p).1.result.immovable := by
  unfold takeItem
  simp only [hi, himm, if_true]
  exact List.mem_append_right _ (List.mem_singleton_self _)

theorem countP_pos_of_find_item (w : SingleReference) (e : Eq) (first p : Nat)
    (h : e.find_item w first = (p : Int)) : 1 ≤ e.Items.countP (itemMatches w) := by
  by_contra hc
  have hz : e.Items.countP (itemMatches w) = 0 := by omega
  rw [List.countP_eq_zero] at hz
  have := find_item_from_none w first e.Items 0 0 (fun x hx => by simpa using hz x hx)
  unfold Eq.find_item at h
  rw [this] at h
  omega

/-- The item loop reports an immovable item that `find_item` returns for the
reference, unless the reference asks for more items than there are. -/
theorem moveItems_immovable_found (w : SingleReference) (st : MoveState) (p : Nat)
    (i : ItemType) (hfind : st.me.find_item w 0 = (p : Int))
    (hi : st.me.Items.getD p default = i) (himm : i.immovable = true)
    (hcount : w.index = 0 ∨ w.amount ≤ st.me.Items.countP (itemMatches w)) :
    shownName i ∈ (moveItems w st).1.result.immovable := by
  have hround2 : ∀ (rem : Int) (found : Bool),
      shownName i ∈ (itemLoop w 2 (st.me.Items.length + 1) st 0 rem found).1.result.immovable := by
    intro rem found
    have htake := takeItem_immovable st p i hi himm
    rw [itemLoop_found w 2 _ st 0 rem found p hfind]
    simp only [if_true]
    split
    · exact (itemLoop_reports w 2 _ _ _ _ _).1 _ htake
    · split
      · exact htake
      · exact (itemLoop_reports w 2 _ _ _ _ _).1 _ htake
  have hstate := itemLoop_round1_state w (st.me.Items.length + 1) st 0
  unfold moveItems
  dsimp only
  generalize hrem : (if w.amount ≠ 0 then w.amount else 1) = rem
  have hnot : ¬ ((itemLoop w 1 (st.me.Items.length + 1) st 0 rem false).2.2 = true ∧ w.index ≠ 0
      ∧ (itemLoop w 1 (st.me.Items.length + 1) st 0 rem false).2.1 > 0) := by
    rintro ⟨_, hidx, hpos⟩
    by_cases ha : w.amount = 0
    · rw [if_neg (by simp [ha])] at hrem
      subst hrem
      rw [itemLoop_found w 1 _ st 0 1 false p hfind, if_neg hidx, if_pos (by norm_num)] at hpos
      simp at hpos
    · rw [if_pos ha] at hrem
      subst hrem
      rw [itemLoop_round1 w (Or.inr ha)] at hpos
      have hc := countP_pos_of_find_item w st.me 0 p hfind
      have hle : w.amount ≤ st.me.Items.countP (itemMatches w) := by
        rcases hcount with h | h
        · exact absurd h hidx
        · exact h
      have := ((itemSweep_count w 1 hidx st.me.Items w.amount false).2.2 hc hle).1
      dsimp only at hpos
      omega
  rw [if_neg hnot]
  dsimp only
  rw [hstate]
  exact hround2 _ _

theorem moveOne_immovable_found (everything : Bool) (w : SingleReference) (st : MoveState)
    (p : Nat) (i : ItemType) (hfind : st.me.find_item w 0 = (p : Int))
    (hi : st.me.Items.getD p default = i) (himm : i.immovable = true)
    (hcount : w.index = 0 ∨ w.amount ≤ st.me.Items.countP (itemMatches w)) :
    shownName i ∈ (moveOne everything st w).result.immovable := by
  have h1 := moveItems_immovable_found w st p i hfind hi himm hcount
  have h2 := (moveMoney_reports w (moveItems w st).1).1 _ h1
  unfold moveOne
  dsimp only
  split
  · exact h2
  · exact h2

theorem not_movedEntry_immovable (i : ItemType) (himm : i.immovable = true) :
    ¬ MovedEntry (shownName i) := by
  rintro (⟨j, hj, h⟩ | ⟨g, d, hg, h⟩)
  · exact shownName_ne i j himm hj h
  · exact shownName_ne_shownMoney i g hg d h

/-- C4 fails as stated: "2 chests" is matched by the only chest of the
container, an immovable item, but the first pass finds one chest where two
are asked for, the second pass is skipped, and nothing is reported as
immovable. -/
theorem move_counted_chest_unreported :
    ItemReference.ofString "2 chests"
        = some { everything := false, original := "2 chests",
                 refs := [{ what := "chests", amount := 2, index := 1 }], except := [] }
      ∧ (Eq.mk [goodChest] (fun _ => 0)).find_item { what := "chests", amount := 2, index := 1 } 0
        = 0
      ∧ goodChest.immovable = true
      ∧ ((Eq.mk [goodChest] (fun _ => 0)).move (.mk [] (fun _ => 0))
          { everything := false, original := "2 chests",
            refs := [{ what := "chests", amount := 2, index := 1 }], except := [] }).1
        = { moved := [], notfound := ["chests"], immovable := [] } := by
  decide

/-- C4, as amended: for a request without an except clause, if a reference
`w` of the request is matched by an immovable item of the container as the
references before `w` left it (`find_item(w, 0)` returns the position of
that item), and `w` does not ask for more items than match it (its index is
0, or its amount is at most the number of items that its phrase fits), then
the name of the item is in `result.immovable` and not in `result.moved`. -/
theorem move_reports_immovable (me target : Eq) (what : ItemReference)
    (hexcept : what.except = []) (pre post : List SingleReference) (w : SingleReference)
    (hrefs : what.refs = pre ++ w :: post) (p : Nat) (i : ItemType)
    (hfind : (pre.foldl (moveOne what.everything) ⟨me, target, {}⟩).me.find_item w 0 = (p : Int))
    (hi : (pre.foldl (moveOne what.everything) ⟨me, target, {}⟩).me.Items[p]? = some i)
    (himm : i.immovable = true)
    (hcount : w.index = 0
      ∨ w.amount ≤ (((pre.foldl (moveOne what.everything) ⟨me, target, {}⟩).me.Items.filter
          (phraseFits w.what)).length : Int)) :
    shownName i ∈ (me.move target what).1.immovable
      ∧ shownName i ∉ (me.move target what).1.moved := by
  rw [← countP_itemMatches] at hcount
  have hget : (pre.foldl (moveOne what.everything) ⟨me, target, {}⟩).me.Items.getD p default
      = i := by
    rw [List.getD_eq_getElem?_getD, hi]
    rfl
  have hone := moveOne_immovable_found what.everything w _ p i hfind hget himm hcount
  have hpost := foldl_moveOne_reports what.everything post
    (moveOne what.everything (pre.foldl (moveOne what.everything) ⟨me, target, {}⟩) w)
  have hall := foldl_moveOne_reports what.everything what.refs ⟨me, target, {}⟩
  have hfold : what.refs.foldl (moveOne what.everything) ⟨me, target, {}⟩
      = post.foldl (moveOne what.everything)
          (moveOne what.everything (pre.foldl (moveOne what.everything) ⟨me, target, {}⟩) w) := by
    rw [hrefs, List.foldl_append, List.foldl_cons]
  rw [Eq.move, moveDepth_no_except 1 me target what hexcept]
  rw [← hfold] at hpost
  generalize what.refs.foldl (moveOne what.everything) ⟨me, target, {}⟩ = st at hpost hall
  have hin : shownName i ∈ st.result.immovable := hpost.1 _ hone
  have hmoved : ∀ s ∈ st.result.moved, MovedEntry s :=
    hall.2 (fun s hs => absurd hs (List.not_mem_nil _))
  have hnot : shownName i ∉ st.result.moved :=
    fun h => not_movedEntry_immovable i himm (hmoved _ h)
  unfold finishMove
  dsimp only
  by_cases hnf : st.result.notfound ≠ []
  · rw [if_pos hnf]
    dsimp only
    rw [if_pos rfl]
    exact ⟨hin, List.not_mem_nil _⟩
  · rw [if_neg hnf]
    split
    · exact ⟨hin, hnot⟩
    · exact ⟨hin, hnot⟩

/-! ## Names that are already plural -/

/-- C21, as the code behaves: for a word that ends in "s" the first rule of
`Pluralize` returns the intermediate text, which still carries the
placeholder character `\x01` behind the word.  The result is the word
followed by `\x01` and is never the word itself; "leggings" and "overalls"
come back as "leggings\x01" and "overalls\x01". -/
theorem Pluralize_keeps_placeholder (w : String)
    (hchars : ∀ c ∈ w.data, c ≠ ' ' ∧ c ≠ '\n' ∧ c ≠ '\r' ∧ c ≠ '\x01')
    (hs : "s".data <:+ w.data) :
    Pluralize w = w ++ "\x01" ∧ Pluralize w ≠ w
      ∧ Pluralize "leggings" = "leggings\x01" ∧ Pluralize "overalls" = "overalls\x01" := by
  have hnl : w.data.any isLineEnd = false := by
    rw [Bool.eq_false_iff]
    intro h
    obtain ⟨c, hc, hl⟩ := List.any_eq_true.mp h
    have := hchars c hc
    simp only [isLineEnd, Bool.or_eq_true, beq_iff_eq] at hl
    rcases hl with hl | hl
    · exact this.2.1 hl
    · exact this.2.2.1 hl
  have hm : '\x01' ∉ w.data := fun h => (hchars _ h).2.2.2 rfl
  have hsp : ' ' ∉ w.data := fun h => (hchars _ h).1 rfl
  have hins : insertPlaceholder (w.data ++ []) = w.data ++ '\x01' :: [] := by
    rw [List.append_nil]
    exact insertPlaceholder_nospace w.data hsp
  have hpl := Pluralize_split w.data [] (by rw [List.append_nil]; exact hnl) hm (by simp) hins
  have hw : pluralWord w.data = w.data ++ ['\x01'] := by
    unfold pluralWord
    rw [if_pos hs]
  rw [hw] at hpl
  simp only [List.append_nil] at hpl
  have e1 : Pluralize w = w ++ "\x01" := by
    have e0 : (⟨w.data⟩ : String) = w := rfl
    rw [e0] at hpl
    rw [hpl]
    apply String.ext
    simp [String.data_append]
  refine ⟨e1, ?_, by decide, by decide⟩
  rw [e1]
  intro h
  have := congrArg String.length h
  simp only [String.length_append] at this
  have e2 : "\x01".length = 1 := by decide
  omega

/-- C24, as the code behaves: a name that is already plural gets the
indefinite article like any other name, because `Pluralize` never returns its
argument unchanged: "leggings" becomes "a leggings", "overalls" becomes
"an overalls", and a pair of fur leggings is shown as "a fur leggings". -/
theorem AddArticle_plural_gets_article :
    RemoveArticle "leggings" = "leggings" ∧ RemoveArticle "overalls" = "overalls"
      ∧ AddArticle "leggings" false = "a leggings"
      ∧ AddArticle "overalls" false = "an overalls"
      ∧ furLeggings.name 0 1 = "fur leggings"
      ∧ shownName furLeggings = "a fur leggings" := by
  decide

/-! ## The place of the plural suffix -/

theorem insertPlaceholder_append :
    ∀ (h t : List Char),
      (∀ u v, h = u ++ v → v ≠ [] → clauseStarts (v ++ t) = false) →
      (t = [] ∨ clauseStarts t = true) →
      insertPlaceholder (h ++ t) = h ++ '\x01' :: t := by
  intro h
  induction h with
  | nil =>
    intro t _ ht
    rcases ht with ht | ht
    · subst ht; rfl
    · obtain ⟨r, hr⟩ := clauseStarts_space t ht
      subst hr
      rw [List.nil_append, insertPlaceholder, if_pos ht]
      rfl
  | cons c h ih =>
    intro t hno ht
    have h0 : clauseStarts (c :: h ++ t) = false := hno [] (c :: h) rfl (by simp)
    rw [List.cons_append, insertPlaceholder, ← List.cons_append, if_neg (by rw [h0]; simp),
      List.cons_append,
      ih t (fun u v huv hv => hno (c :: u) v (by rw [huv]; rfl) hv) ht]

theorem clauseStarts_begins (X : List Char) (h : clauseStarts (' ' :: X) = true) :
    ['('] <+: X ∨ ['o', 'f'] <+: X ∨ ['m', 'a', 'd', 'e', ' ', 'o', 'f'] <+: X := by
  unfold clauseStarts at h
  simp only [Bool.or_eq_true] at h
  have key : ∀ lit : List Char, startsWith lit X = true → lit <+: X := by
    intro lit hl
    unfold startsWith at hl
    cases ha : after lit X with
    | none => rw [ha] at hl; simp at hl
    | some r => exact ⟨r, (after_eq_some lit X r ha).symm⟩
  have keyw : ∀ lit : List Char, startsWithWord lit X = true → lit <+: X := by
    intro lit hl
    unfold startsWithWord at hl
    cases ha : after lit X with
    | none => rw [ha] at hl; simp at hl
    | some r => exact ⟨r, (after_eq_some lit X r ha).symm⟩
  rcases h with (h | h) | h
  · exact Or.inl (key _ h)
  · exact Or.inr (Or.inl (keyw _ h))
  · exact Or.inr (Or.inr (keyw _ h))

theorem prefix_straddle_paren (r t : List Char) (h : ['('] <+: r ++ ' ' :: t) : ['('] <+: r := by
  rcases r with _ | ⟨a, r⟩
  · simp at h
  · simp only [List.cons_append, List.cons_prefix_cons] at h
    exact ⟨r, by rw [h.1]; rfl⟩

theorem prefix_straddle_of (r t : List Char) (h : ['o', 'f'] <+: r ++ ' ' :: t) :
    ['o', 'f'] <+: r := by
  rcases r with _ | ⟨a, _ | ⟨b, r⟩⟩
  · simp at h
  · simp at h
  · simp only [List.cons_append, List.cons_prefix_cons] at h
    exact ⟨r, by rw [h.1, h.2.1]; rfl⟩

theorem prefix_straddle_made_of (r t : List Char)
    (h : ['m', 'a', 'd', 'e', ' ', 'o', 'f'] <+: r ++ ' ' :: t) :
    ['m', 'a', 'd', 'e', ' ', 'o', 'f'] <+: r ∨ (r = ['m', 'a', 'd', 'e'] ∧ ['o', 'f'] <+: t) := by
  rcases r with _ | ⟨c1, _ | ⟨c2, _ | ⟨c3, _ | ⟨c4, _ | ⟨c5, _ | ⟨c6, _ | ⟨c7, r⟩⟩⟩⟩⟩⟩⟩
  · simp at h
  · simp at h
  · simp at h
  · simp at h
  · right
    simp only [List.cons_append, List.nil_append, List.cons_prefix_cons] at h
    obtain ⟨h1, h2, h3, h4, -, h6⟩ := h
    subst_vars
    exact ⟨rfl, h6⟩
  · simp at h
  · simp at h
  · left
    simp only [List.cons_append, List.cons_prefix_cons] at h
    obtain ⟨h1, h2, h3, h4, h5, h6, h7, -⟩ := h
    subst_vars
    simp

theorem plain_chars (s : List Char) (hs : ∀ c ∈ s, plainChar c = true) :
    s.any isLineEnd = false ∧ '\x01' ∉ s := by
  constructor
  · rw [Bool.eq_false_iff]
    intro h
    obtain ⟨c, hc, hl⟩ := List.any_eq_true.mp h
    have := hs c hc
    simp [plainChar, hl] at this
  · intro h
    have := hs _ h
    simp [plainChar] at this

theorem clauseStarts_of_begin (t : List Char)
    (hbegin : " (".data <+: t ∨ " of ".data <+: t ∨ " made of ".data <+: t) :
    clauseStarts t = true := by
  rcases hbegin with ⟨x, hx⟩ | ⟨x, hx⟩ | ⟨x, hx⟩ <;> subst hx <;>
    simp [clauseStarts, startsWith, startsWithWord, after, wordEnds, isWordChar]

theorem no_clause_inside (h : List Char)
    (h1 : ¬ " (".data <:+: h) (h2 : ¬ " of".data <:+: h) (h3 : ¬ " made of".data <:+: h)
    (u v : List Char) (huv : h = u ++ v) (hv : v ≠ []) : clauseStarts (v ++ []) = false := by
  rw [List.append_nil, Bool.eq_false_iff]
  intro hc
  obtain ⟨X, hX⟩ := clauseStarts_space v hc
  subst hX
  rcases clauseStarts_begins X hc with ⟨y, hy⟩ | ⟨y, hy⟩ | ⟨y, hy⟩
  · exact h1 ⟨u, y, by rw [huv, ← hy]; simp⟩
  · exact h2 ⟨u, y, by rw [huv, ← hy]; simp⟩
  · exact h3 ⟨u, y, by rw [huv, ← hy]; simp⟩

theorem no_clause_across (h t : List Char)
    (h1 : ¬ " (".data <:+: h) (h2 : ¬ " of".data <:+: h) (h3 : ¬ " made of".data <:+: h)
    (hbegin : " (".data <+: t ∨ " of ".data <+: t ∨ " made of ".data <+: t)
    (hmade : " of ".data <+: t → ¬ " made".data <:+ h)
    (u v : List Char) (huv : h = u ++ v) (hv : v ≠ []) : clauseStarts (v ++ t) = false := by
  rw [Bool.eq_false_iff]
  intro hc
  obtain ⟨X, hX⟩ := clauseStarts_space (v ++ t) hc
  rcases v with _ | ⟨c, r⟩
  · exact hv rfl
  rw [List.cons_append, List.cons.injEq] at hX
  obtain ⟨hc1, hX⟩ := hX
  subst hc1
  have ht : ∃ t1, t = ' ' :: t1 := by
    rcases hbegin with ⟨x, hx⟩ | ⟨x, hx⟩ | ⟨x, hx⟩ <;> exact ⟨_, hx.symm⟩
  obtain ⟨t1, ht1⟩ := ht
  rw [List.cons_append, ht1] at hc
  rcases clauseStarts_begins _ hc with hp | hp | hp
  · obtain ⟨y, hy⟩ := prefix_straddle_paren r t1 hp
    exact h1 ⟨u, y, by rw [huv, ← hy]; simp⟩
  · obtain ⟨y, hy⟩ := prefix_straddle_of r t1 hp
    exact h2 ⟨u, y, by rw [huv, ← hy]; simp⟩
  · rcases prefix_straddle_made_of r t1 hp with ⟨y, hy⟩ | ⟨hr, ⟨y, hy⟩⟩
    · exact h3 ⟨u, y, by rw [huv, ← hy]; simp⟩
    · have hof : " of ".data <+: t := by
        rcases hbegin with ⟨x, hx⟩ | hx | ⟨x, hx⟩
        · rw [ht1, ← hy] at hx
          simp at hx
        · exact hx
        · rw [ht1, ← hy] at hx
          simp at hx
      exact hmade hof ⟨u, by rw [huv, hr]⟩

/-- C22, amended: for a head `h` that contains none of " (", " of" and
" made of", and a tail `t` that begins with " (", " of " or " made of ", both
free of line terminators and of the placeholder character, the plural of
`h ++ t` is the plural of `h` followed by `t`, provided that `h` does not end
in " made" when `t` begins with " of " (the clause " made of" would then
begin inside `h`). -/
theorem Pluralize_clause (h t : String) (hh : plainString h) (ht : plainString t)
    (h1 : ¬ " (".data <:+: h.data) (h2 : ¬ " of".data <:+: h.data)
    (h3 : ¬ " made of".data <:+: h.data)
    (hbegin : " (".data <+: t.data ∨ " of ".data <+: t.data ∨ " made of ".data <+: t.data)
    (hmade : " of ".data <+: t.data → ¬ " made".data <:+ h.data) :
    Pluralize (h ++ t) = Pluralize h ++ t
      ∧ Pluralize "shirt made of silk" = "shirts made of silk"
      ∧ Pluralize "chest (dented)" = "chests (dented)" := by
  refine ⟨?_, by decide, by decide⟩
  obtain ⟨hnl1, hm1⟩ := plain_chars h.data hh
  obtain ⟨hnl2, hm2⟩ := plain_chars t.data ht
  have hnl : (h.data ++ t.data).any isLineEnd = false := by
    rw [List.any_append, hnl1, hnl2]; rfl
  have e1 := Pluralize_split h.data t.data hnl hm1 hm2
    (insertPlaceholder_append h.data t.data
      (no_clause_across h.data t.data h1 h2 h3 hbegin hmade)
      (Or.inr (clauseStarts_of_begin t.data hbegin)))
  have e2 := Pluralize_split h.data [] (by rw [List.append_nil]; exact hnl1) hm1 (by simp)
    (insertPlaceholder_append h.data []
      (no_clause_inside h.data h1 h2 h3) (Or.inl rfl))
  have a1 : h ++ t = ⟨h.data ++ t.data⟩ := String.ext (by simp [String.data_append])
  have a2 : (⟨h.data ++ []⟩ : String) = h := String.ext (by simp)
  rw [a2] at e2
  rw [a1, e1, e2]
  exact String.ext (by simp [String.data_append])

/-- C22 fails as stated: the head "shirt made" contains none of " (", " of"
and " made of", and the tail " of silk" begins with " of ", but the clause
" made of" of the joined text begins inside the head, so the suffix goes
before it: the result is "shirts made of silk", not the plural of the head
followed by the tail, "shirt mades of silk". -/
theorem Pluralize_clause_inside_head :
    ¬ " (".data <:+: "shirt made".data ∧ ¬ " of".data <:+: "shirt made".data
      ∧ ¬ " made of".data <:+: "shirt made".data ∧ " of ".data <+: " of silk".data
      ∧ Pluralize ("shirt made" ++ " of silk") = "shirts made of silk"
      ∧ Pluralize "shirt made" ++ " of silk" = "shirt mades of silk"
      ∧ Pluralize ("shirt made" ++ " of silk") ≠ Pluralize "shirt made" ++ " of silk" := by
  decide

/-! ## Articles -/

theorem dropSpaces_replicate (r : List Char) (hr : r.head? ≠ some ' ') :
    ∀ k : Nat, dropSpaces (List.replicate k ' ' ++ r) = r := by
  intro k
  induction k with
  | zero => exact dropSpaces_id r hr
  | succ k ih => rw [List.replicate_succ, List.cons_append, dropSpaces, if_pos rfl, ih]

theorem afterWordSpaces_spaces (lit r : List Char) (hr : r.head? ≠ some ' ') (k : Nat) :
    afterWordSpaces lit (lit ++ List.replicate (k + 1) ' ' ++ r) = some r := by
  unfold afterWordSpaces
  rw [List.append_assoc, after_self, List.replicate_succ, List.cons_append]
  simp only [dropSpaces_replicate r hr k]

theorem afterWordSpaces_begins (lit d x : List Char) (h : afterWordSpaces lit d = some x) :
    (lit ++ [' ']) <+: d := by
  unfold afterWordSpaces at h
  split at h
  · rename_i r heq
    exact ⟨r, by rw [after_eq_some lit d _ heq]; simp⟩
  · simp at h

theorem startsWithVowel_iff (p : List Char) :
    startsWithVowel p = true ↔ ∃ c ∈ ['a', 'e', 'i', 'o', 'u'], p.head? = some c := by
  cases p with
  | nil => simp [startsWithVowel]
  | cons c p =>
    simp only [startsWithVowel, Bool.or_eq_true, beq_iff_eq, List.head?_cons, Option.some.injEq,
      List.mem_cons, List.mem_singleton, List.not_mem_nil, or_false, exists_eq_or_imp,
      exists_eq_left]
    tauto

/-- C23: `AddArticle` with the definite flag puts "the " before the name
without its article; without the flag it puts "an " before a name (without
its article) that begins with a, e, i, o or u and "a " before any other, for
every name free of line terminators and of the placeholder character (whether
it is singular or not).  `RemoveArticle` removes one leading "a", "an" or
"the" with all the spaces after it and returns what follows; a text that does
not begin with one of these words and a space is returned as it is. -/
theorem AddArticle_forms (s : String) :
    AddArticle s true = "the " ++ RemoveArticle s
      ∧ (plainString (RemoveArticle s) →
          ((∃ c ∈ ['a', 'e', 'i', 'o', 'u'], (RemoveArticle s).data.head? = some c) →
              AddArticle s false = "an " ++ RemoveArticle s)
            ∧ ((¬ ∃ c ∈ ['a', 'e', 'i', 'o', 'u'], (RemoveArticle s).data.head? = some c) →
              AddArticle s false = "a " ++ RemoveArticle s))
      ∧ (∀ art ∈ ["a", "an", "the"], ∀ (k : Nat) (r : List Char), r.head? ≠ some ' ' →
          s.data = art.data ++ List.replicate (k + 1) ' ' ++ r → RemoveArticle s = ⟨r⟩)
      ∧ ((∀ art ∈ ["a", "an", "the"], ¬ (art.data ++ [' ']) <+: s.data) →
          RemoveArticle s = s) := by
  refine ⟨by simp [AddArticle], ?_, ?_, ?_⟩
  · intro hp
    have hne : ¬ RemoveArticle s = Pluralize (RemoveArticle s) :=
      fun h => Pluralize_ne_self _ hp h.symm
    constructor
    · intro hv
      have hv1 := (startsWithVowel_iff _).mpr hv
      unfold AddArticle
      simp only [Bool.false_eq_true, if_false, if_neg hne, hv1, if_true]
    · intro hv
      have hv1 : ¬ startsWithVowel (RemoveArticle s).data = true :=
        fun h => hv ((startsWithVowel_iff _).mp h)
      unfold AddArticle
      simp only [Bool.false_eq_true, if_false, if_neg hne, hv1]
  · intro art hart k r hr hs
    obtain ⟨d⟩ := s
    simp only at hs
    subst hs
    simp only [List.mem_cons, List.mem_singleton, List.not_mem_nil, or_false] at hart
    rcases hart with rfl | rfl | rfl
    · unfold RemoveArticle
      simp only [afterWordSpaces_spaces "a".data r hr k]
    · have h1 : afterWordSpaces ['a'] ("an".data ++ List.replicate (k + 1) ' ' ++ r) = none := by
        simp [afterWordSpaces, after]
      unfold RemoveArticle
      simp only [h1, afterWordSpaces_spaces "an".data r hr k]
    · have h1 : afterWordSpaces ['a'] ("the".data ++ List.replicate (k + 1) ' ' ++ r) = none := by
        simp [afterWordSpaces, after]
      have h2 : afterWordSpaces ['a', 'n'] ("the".data ++ List.replicate (k + 1) ' ' ++ r)
          = none := by
        simp [afterWordSpaces, after]
      unfold RemoveArticle
      simp only [h1, h2, afterWordSpaces_spaces "the".data r hr k]
  · intro hno
    have key : ∀ lit : String, lit ∈ ["a", "an", "the"] →
        afterWordSpaces lit.data s.data = none := by
      intro lit hlit
      cases h : afterWordSpaces lit.data s.data with
      | none => rfl
      | some x => exact absurd (afterWordSpaces_begins _ _ _ h) (hno lit hlit)
    have k1 := key "a" (by simp)
    have k2 := key "an" (by simp)
    have k3 := key "the" (by simp)
    unfold RemoveArticle
    rw [show ['a'] = "a".data from rfl, show ['a', 'n'] = "an".data from rfl,
      show ['t', 'h', 'e'] = "the".data from rfl, k1, k2, k3]

/-! ## The names of treasures, chests and carts -/

theorem shownCond_treasure (i : ItemType) (hcart : i.cart = none) (hchest : ¬ i.chest > 0)
    (c : Nat) : shownCond i c = c := by
  simp [shownCond, hcart, hchest]

theorem shownMat_treasure (i : ItemType) (hcart : i.cart = none) (hchest : ¬ i.chest > 0)
    (m : Nat) : shownMat i m = m := by
  simp [shownMat, hcart, hchest]

theorem nameAt_build_ne_wood (b : Nat) : nameAt BuildTypes b ≠ "wood" := by
  have h := nameAt_mem BuildTypes b
  intro hw
  rw [hw] at h
  revert h
  decide

/-- C25: the name of a treasure (an item that is neither a chest nor a cart)
with the type name `t`, the material name `m` and the condition name `c`, for
the seven pairs of flags of the claim.  No material of the table is "wood",
so the material is always shown by its own name. -/
theorem name_treasure (i : ItemType) (hcart : i.cart = none) (hchest : ¬ i.chest > 0)
    (t m c : String) (ht : nameAt ItemTypes i.type = t) (hm : nameAt BuildTypes i.build = m)
    (hc : nameAt CondTypes i.condition = c) :
    i.GetType = t ∧ i.GetMaterial = m ∧ i.GetCondition = c
      ∧ i.name 0 0 = t
      ∧ i.name 0 1 = m ++ " " ++ t
      ∧ i.name 0 2 = t ++ " made of " ++ m
      ∧ i.name 1 0 = c ++ " " ++ t
      ∧ i.name 1 1 = c ++ " " ++ m ++ " " ++ t
      ∧ i.name 1 2 = c ++ " " ++ t ++ " made of " ++ m
      ∧ i.name 2 0 = t ++ " (" ++ c ++ ")" := by
  have hT : i.GetType = t := by
    rw [← ht]; simp [ItemTypeOf.GetType, hcart, hchest]
  have hM : i.GetMaterial = m := by
    rw [← hm]; simp [ItemTypeOf.GetMaterial, hcart, hchest]
  have hC : i.GetCondition = c := by
    rw [← hc]; exact GetCondition_treasure i hcart hchest
  have hw : ¬ m = "wood" := by rw [← hm]; exact nameAt_build_ne_wood _
  refine ⟨hT, hM, hC, ?_, ?_, ?_, ?_, ?_, ?_, ?_⟩ <;>
    rw [name_eq, shownCond_treasure i hcart hchest, shownMat_treasure i hcart hchest, hT, hM, hC] <;>
    simp [composeName, hw, String.append_assoc]

theorem GetCondition_chest (i : ItemType) (hchest : i.chest > 0) (hcart : i.cart = none) :
    i.GetCondition
      = if i.chest < f035 then "battered" else if i.chest < f075 then "dented" else "good" := by
  unfold ItemTypeOf.GetCondition
  rw [hcart]
  simp only [hchest, true_and, if_true]

theorem GetCondition_cart (i : ItemType) (e : Eq) (hcart : i.cart = some e) :
    i.GetCondition
      = if e.count_items = 0 then "empty"
        else if e.count_items = 1 then "1 item"
        else toString e.count_items ++ " items" := by
  unfold ItemTypeOf.GetCondition
  rw [hcart]

/-- C26, amended: a chest (integrity above zero, no cart) is in the condition
"battered", "dented" or "good"; with the condition flag 0 its name is
"chest (battered)" or "chest (dented)" when the condition is not "good", and
the bare "chest" when it is "good" (integrity 0.75 or more); with the flag 1
it is the bare "chest".  A cart is named "cart (empty)", "cart (1 item)" or
"cart (N items)" with the flag 0 and "cart" with the flag 1.  The material
flag changes nothing. -/
theorem name_chest_cart (i : ItemType) (mat : Nat) :
    (i.chest > 0 → i.cart = none →
        (i.GetCondition = "battered" ∨ i.GetCondition = "dented" ∨ i.GetCondition = "good")
          ∧ (i.GetCondition = "good" ↔ f075 ≤ i.chest)
          ∧ (i.GetCondition ≠ "good" → i.name 0 mat = "chest (" ++ i.GetCondition ++ ")")
          ∧ (i.GetCondition = "good" → i.name 0 mat = "chest")
          ∧ i.name 1 mat = "chest")
      ∧ (∀ e : Eq, i.cart = some e → ¬ i.chest > 0 →
          i.GetCondition
              = (if e.count_items = 0 then "empty"
                 else if e.count_items = 1 then "1 item"
                 else toString e.count_items ++ " items")
            ∧ i.name 0 mat = "cart (" ++ i.GetCondition ++ ")"
            ∧ i.name 1 mat = "cart") := by
  have e1 : "chest" ++ " (" = "chest (" := by decide
  have e2 : "cart" ++ " (" = "cart (" := by decide
  constructor
  · intro hchest hcart
    have hT : i.GetType = "chest" := by simp [ItemTypeOf.GetType, hcart, hchest]
    have hm : shownMat i mat = 0 := by simp [shownMat, hchest]
    have hG := GetCondition_chest i hchest hcart
    have h35 : f035 < f075 := by decide
    refine ⟨?_, ?_, ?_, ?_, ?_⟩
    · rw [hG]
      split_ifs <;> simp
    · rw [hG]
      have n1 : ¬ "battered" = "good" := by decide
      have n2 : ¬ "dented" = "good" := by decide
      split_ifs with a b
      · exact ⟨fun h => absurd h n1, fun h => absurd (lt_trans a h35) (not_lt.mpr h)⟩
      · exact ⟨fun h => absurd h n2, fun h => absurd b (not_lt.mpr h)⟩
      · exact ⟨fun _ => not_lt.mp b, fun _ => rfl⟩
    · intro hg
      have hc : shownCond i 0 = 2 := by simp [shownCond, hchest, hcart, hg]
      rw [name_eq, hc, hm, hT]
      simp [composeName, e1]
    · intro hg
      have hc : shownCond i 0 = 0 := by simp [shownCond, hchest, hcart, hg]
      rw [name_eq, hc, hm, hT]
      simp [composeName]
    · have hc : shownCond i 1 = 0 := by simp [shownCond, hchest, hcart]
      rw [name_eq, hc, hm, hT]
      simp [composeName]
  · intro e hcart hchest
    have hT : i.GetType = "cart" := by simp [ItemTypeOf.GetType, hcart]
    have hm : shownMat i mat = 0 := by simp [shownMat, hcart]
    refine ⟨GetCondition_cart i e hcart, ?_, ?_⟩
    · have hc : shownCond i 0 = 2 := by simp [shownCond, hchest, hcart]
      rw [name_eq, hc, hm, hT]
      simp [composeName, e2]
    · have hc : shownCond i 1 = 0 := by simp [shownCond, hchest, hcart]
      rw [name_eq, hc, hm, hT]
      simp [composeName]

/-- C26 fails as stated: a chest of integrity 1, as `GenerateRoom` makes it,
is in good condition, and its name with the condition flag 0 is the bare
"chest", not "chest (good)". -/
theorem name_good_chest_bare :
    goodChest.chest > 0 ∧ goodChest.cart = none ∧ goodChest.GetCondition = "good"
      ∧ goodChest.name 0 0 = "chest" ∧ goodChest.name 0 0 ≠ "chest (good)" :=
  ⟨by decide, rfl, by decide, by decide, by decide⟩

/-! ## Weight and value -/

theorem roundBits_zero (p : Nat) : roundBits p 0 = 0 := by
  unfold roundBits
  rw [if_pos rfl]

theorem floatLit_zero : floatLit 0 = 0 := by
  unfold floatLit toFloat toDouble
  rw [roundBits_zero, roundBits_zero]

theorem toFloat_zero : toFloat 0 = 0 := roundBits_zero 24

theorem getD_default_weight (table : List GenericData) (n : Nat) (h : table.length ≤ n) :
    (table.getD n default).weight = 0 ∧ (table.getD n default).worth = 0 := by
  rw [List.getD_eq_default _ _ h]
  exact ⟨rfl, rfl⟩

/-- The weights of all treasures, one by one: the `float` product is within
the part `2^-23` of the exact product. -/
theorem weight_table : ∀ b < 12, ∀ t < 13,
    |toFloat (floatLit (BuildTypes.getD b default).weight
        * floatLit (ItemTypes.getD t default).weight)
      - (BuildTypes.getD b default).weight * (ItemTypes.getD t default).weight|
      ≤ (BuildTypes.getD b default).weight * (ItemTypes.getD t default).weight / 2 ^ 23 := by
  set_option maxRecDepth 100000 in with_unfolding_all decide

set_option maxHeartbeats 4000000 in
/-- The values of all treasures, one by one: the `float` product is within
the part `2^-22` of the exact product. -/
theorem value_table : ∀ b < 12, ∀ t < 13, ∀ c < 7,
    |toFloat (toFloat (toFloat (300 * floatLit (BuildTypes.getD b default).worth)
        * floatLit (ItemTypes.getD t default).worth)
        * floatLit (CondTypes.getD c default).worth)
      - 300 * (BuildTypes.getD b default).worth * (ItemTypes.getD t default).worth
        * (CondTypes.getD c default).worth|
      ≤ 300 * (BuildTypes.getD b default).worth * (ItemTypes.getD t default).worth
        * (CondTypes.getD c default).worth / 2 ^ 22 := by
  set_option maxRecDepth 100000 in with_unfolding_all decide

theorem weight_close (b t : Nat) :
    |toFloat (floatLit (BuildTypes.getD b default).weight
        * floatLit (ItemTypes.getD t default).weight)
      - (BuildTypes.getD b default).weight * (ItemTypes.getD t default).weight|
      ≤ (BuildTypes.getD b default).weight * (ItemTypes.getD t default).weight / 2 ^ 23 := by
  by_cases hb : b < 12
  · by_cases ht : t < 13
    · exact weight_table b hb t ht
    · rw [(getD_default_weight ItemTypes t (by simpa [ItemTypes] using ht)).1]
      simp [floatLit_zero, toFloat_zero]
  · rw [(getD_default_weight BuildTypes b (by simpa [BuildTypes] using hb)).1]
    simp [floatLit_zero, toFloat_zero]

theorem value_close (b t c : Nat) :
    |toFloat (toFloat (toFloat (300 * floatLit (BuildTypes.getD b default).worth)
        * floatLit (ItemTypes.getD t default).worth)
        * floatLit (CondTypes.getD c default).worth)
      - 300 * (BuildTypes.getD b default).worth * (ItemTypes.getD t default).worth
        * (CondTypes.getD c default).worth|
      ≤ 300 * (BuildTypes.getD b default).worth * (ItemTypes.getD t default).worth
        * (CondTypes.getD c default).worth / 2 ^ 22 := by
  by_cases hb : b < 12
  · by_cases ht : t < 13
    · by_cases hc : c < 7
      · exact value_table b hb t ht c hc
      · rw [(getD_default_weight CondTypes c (by simpa [CondTypes] using hc)).2]
        simp [floatLit_zero, toFloat_zero]
    · rw [(getD_default_weight ItemTypes t (by simpa [ItemTypes] using ht)).2]
      simp [floatLit_zero, toFloat_zero]
  · rw [(getD_default_weight BuildTypes b (by simpa [BuildTypes] using hb)).2]
    simp [floatLit_zero, toFloat_zero]

/-- C27, amended: a chest of integrity above zero and a cart weigh 999 and
are worth 0, whatever else the item holds; a treasure weighs the `float`
product of the weights of its material and its type, and is worth the `float`
product of 300 and the worths of its material, its type and its condition,
taken from left to right, the table constants being the `float` numbers of
the decimal numbers written in the source.  The weight is within the part
`2^-23` and the value within the part `2^-22` of the product of the decimal
numbers themselves.  An awesome gold shirt is worth 360 and weighs 3.5. -/
theorem weight_value (i : ItemType) :
    ((i.chest > 0 ∨ i.cart.isSome = true) → i.weight = 999 ∧ i.value = 0)
      ∧ ((¬ i.chest > 0 ∧ i.cart = none) →
          i.weight = toFloat (floatLit (BuildTypes.getD i.build default).weight
              * floatLit (ItemTypes.getD i.type default).weight)
            ∧ i.value = toFloat (toFloat (toFloat
                (300 * floatLit (BuildTypes.getD i.build default).worth)
                * floatLit (ItemTypes.getD i.type default).worth)
                * floatLit (CondTypes.getD i.condition default).worth)
            ∧ |i.weight - exactWeight i| ≤ exactWeight i / 2 ^ 23
            ∧ |i.value - exactValue i| ≤ exactValue i / 2 ^ 22)
      ∧ goldShirt.GetCondition = "awesome" ∧ goldShirt.name 0 1 = "gold shirt"
      ∧ goldShirt.value = 360 ∧ goldShirt.weight = mkRat 7 2 := by
  refine ⟨?_, ?_, by decide, by decide, ?_, ?_⟩
  rotate_left 2
  · exact le_antisymm (by set_option maxRecDepth 100000 in with_unfolding_all decide)
      (by set_option maxRecDepth 100000 in with_unfolding_all decide)
  · exact le_antisymm (by set_option maxRecDepth 100000 in with_unfolding_all decide)
      (by set_option maxRecDepth 100000 in with_unfolding_all decide)
  · intro h
    unfold ItemTypeOf.weight ItemTypeOf.value
    rw [if_pos h, if_pos h]
    exact ⟨rfl, rfl⟩
  · rintro ⟨h1, h2⟩
    have h : ¬ (i.chest > 0 ∨ i.cart.isSome = true) := by
      rintro (h | h)
      · exact h1 h
      · rw [h2] at h; simp at h
    unfold ItemTypeOf.weight ItemTypeOf.value exactWeight exactValue
    rw [if_neg h, if_neg h]
    exact ⟨rfl, rfl, weight_close i.build i.type, value_close i.build i.type i.condition⟩

/-- C27 fails as stated: an awesome fur shirt weighs the `float` number of
0.2, which is 13421773/67108864 and above 1/5, the product of the decimal
numbers 0.2 and 1; and it is worth 15099495/4194304, above 18/5, the product
of 300 and the decimal numbers 0.01, 1 and 1.2. -/
theorem fur_shirt_not_exact :
    furShirt.chest = 0 ∧ furShirt.cart = none
      ∧ (BuildTypes.getD furShirt.build default).weight * (ItemTypes.getD furShirt.type default).weight
          = mkRat 1 5
      ∧ furShirt.weight.num = 13421773 ∧ furShirt.weight.den = 67108864
      ∧ mkRat 1 5 < furShirt.weight
      ∧ 300 * (BuildTypes.getD furShirt.build default).worth
          * (ItemTypes.getD furShirt.type default).worth
          * (CondTypes.getD furShirt.condition default).worth = mkRat 18 5
      ∧ furShirt.value.num = 15099495 ∧ furShirt.value.den = 4194304
      ∧ mkRat 18 5 < furShirt.value := by
  set_option maxRecDepth 100000 in
  refine ⟨rfl, rfl, ?_, ?_, ?_, ?_, ?_, ?_, ?_, ?_⟩ <;> with_unfolding_all decide

/-! ## Generating rooms -/

theorem GenerateRoom_some (G : RandomStream) (maze : Maze) (x y : Int) (room : Room)
    (h : maze.rooms x y = some room) (model : Room) (seed : Nat) (rnd : G.State) :
    maze.GenerateRoom G x y model seed rnd = (room, maze, G.seed (roomSeed x y)) := by
  unfold Maze.GenerateRoom
  simp only [h]

theorem GenerateRoom_none (G : RandomStream) (maze : Maze) (x y : Int)
    (h : maze.rooms x y = none) (model : Room) (seed : Nat) (rnd : G.State) :
    maze.GenerateRoom G x y model seed rnd
      = ((fillRoom G model seed (G.seed (roomSeed x y))).1,
         ⟨fun a b => if a = x ∧ b = y
            then some (fillRoom G model seed (G.seed (roomSeed x y))).1 else maze.rooms a b⟩,
         (fillRoom G model seed (G.seed (roomSeed x y))).2) := by
  unfold Maze.GenerateRoom
  simp only [h]

/-- C28: where the maze has a room already, `GenerateRoom` returns that room
and leaves the maze as it was, every room of it, whatever the model, the seed
and the state of the stream are. -/
theorem GenerateRoom_existing (G : RandomStream) (maze : Maze) (x y : Int) (room : Room)
    (h : maze.rooms x y = some room) (model : Room) (seed : Nat) (rnd : G.State) :
    (maze.GenerateRoom G x y model seed rnd).1 = room
      ∧ (maze.GenerateRoom G x y model seed rnd).2.1 = maze := by
  rw [GenerateRoom_some G maze x y room h]
  exact ⟨rfl, rfl⟩

/-- C29: where the maze has no room yet, the room that `GenerateRoom` makes
(wall, environment, seed and items) and stores is the same whatever state the
stream was in and whatever other rooms the maze holds: it is what `fillRoom`
makes of the model with the stream seeded from `y*0xc70f6907 + x*2166136261`.
The stream is left in the same state as well. -/
theorem GenerateRoom_deterministic (G : RandomStream) (maze1 maze2 : Maze)
    (rnd1 rnd2 : G.State) (x y : Int) (model : Room) (seed : Nat)
    (h1 : maze1.rooms x y = none) (h2 : maze2.rooms x y = none) :
    (maze1.GenerateRoom G x y model seed rnd1).1 = (maze2.GenerateRoom G x y model seed rnd2).1
      ∧ (maze1.GenerateRoom G x y model seed rnd1).2.2
        = (maze2.GenerateRoom G x y model seed rnd2).2.2
      ∧ (maze1.GenerateRoom G x y model seed rnd1).1
        = (fillRoom G model seed (G.seed (roomSeed x y))).1
      ∧ (maze1.GenerateRoom G x y model seed rnd1).2.1.rooms x y
        = some (maze1.GenerateRoom G x y model seed rnd1).1
      ∧ roomSeed x y = ((y * 0xc70f6907 + x * 2166136261) % 2 ^ 64).toNat := by
  rw [GenerateRoom_none G maze1 x y h1, GenerateRoom_none G maze2 x y h2]
  exact ⟨rfl, rfl, rfl, by simp, rfl⟩

/-! ## The model of the rooms that `SpawnRooms` makes -/

theorem keepsRooms_refl (m : Maze) : KeepsRooms m m := fun _ _ _ h => h

theorem keepsRooms_trans (m1 m2 m3 : Maze) (h12 : KeepsRooms m1 m2) (h23 : KeepsRooms m2 m3) :
    KeepsRooms m1 m3 := fun a b r h => h23 a b r (h12 a b r h)

theorem GenerateRoom_keepsRooms (G : RandomStream) (maze : Maze) (x y : Int) (model : Room)
    (seed : Nat) (rnd : G.State) :
    KeepsRooms maze (maze.GenerateRoom G x y model seed rnd).2.1 := by
  intro a b r h
  cases hxy : maze.rooms x y with
  | some room => rw [GenerateRoom_some G maze x y room hxy]; exact h
  | none =>
    rw [GenerateRoom_none G maze x y hxy]
    have hne : ¬ (a = x ∧ b = y) := by
      rintro ⟨rfl, rfl⟩
      rw [hxy] at h
      exact absurd h (by simp)
    simp only [if_neg hne]
    exact h

theorem GenerateRoom_filled (G : RandomStream) (room : Room) (x y : Int) (m cur : Maze)
    (h : FilledFrom G room x y m cur) (a b : Int) (k : Nat) (hk : k ≤ 4) (rnd : G.State) :
    FilledFrom G room x y m (cur.GenerateRoom G a b room k rnd).2.1 := by
  intro a1 b1 hnone hne r hr
  cases hab : cur.rooms a b with
  | some old =>
    rw [GenerateRoom_some G cur a b old hab] at hr
    exact h a1 b1 hnone hne r hr
  | none =>
    rw [GenerateRoom_none G cur a b hab] at hr
    by_cases hc : a1 = a ∧ b1 = b
    · simp only [if_pos hc, Option.some.injEq] at hr
      obtain ⟨rfl, rfl⟩ := hc
      exact ⟨k, hk, hr.symm⟩
    · simp only [if_neg hc] at hr
      exact h a1 b1 hnone hne r hr

theorem Spawn4rooms_keepsRooms (G : RandomStream) (room : Room) (x y : Int)
    (st : Maze × G.State) : KeepsRooms st.1 (Spawn4rooms G room x y st).1 := by
  unfold Spawn4rooms
  simp only [List.foldl]
  exact keepsRooms_trans _ _ _
    (keepsRooms_trans _ _ _
      (keepsRooms_trans _ _ _ (GenerateRoom_keepsRooms G _ _ _ _ _ _)
        (GenerateRoom_keepsRooms G _ _ _ _ _ _))
      (GenerateRoom_keepsRooms G _ _ _ _ _ _))
    (GenerateRoom_keepsRooms G _ _ _ _ _ _)

theorem Spawn4rooms_filled (G : RandomStream) (room : Room) (x y : Int) (m : Maze)
    (a b : Int) (st : Maze × G.State) (h : FilledFrom G room x y m st.1) :
    FilledFrom G room x y m (Spawn4rooms G room a b st).1 := by
  unfold Spawn4rooms
  simp only [List.foldl]
  exact GenerateRoom_filled G room x y m _
    (GenerateRoom_filled G room x y m _
      (GenerateRoom_filled G room x y m _
        (GenerateRoom_filled G room x y m _ h _ _ _ (by decide) _)
        _ _ _ (by decide) _)
      _ _ _ (by decide) _)
    _ _ _ (by decide) _

theorem spawnArm_keepsRooms (G : RandomStream) (room : Room) (x y dx dy : Int) :
    ∀ (steps : Nat) (o : Int) (st : Maze × G.State),
      KeepsRooms st.1 (spawnArm G room x y dx dy steps o st).1 := by
  intro steps
  induction steps with
  | zero => intro o st; exact keepsRooms_refl _
  | succ n ih =>
    intro o st
    rw [spawnArm]
    simp only [CanMoveTo]
    split
    · exact keepsRooms_trans _ _ _
        (keepsRooms_trans _ _ _ (GenerateRoom_keepsRooms G st.1 _ _ room 0 st.2)
          (Spawn4rooms_keepsRooms G room _ _ _))
        (ih _ _)
    · exact GenerateRoom_keepsRooms G st.1 _ _ room 0 st.2

theorem spawnArm_filled (G : RandomStream) (room : Room) (x y : Int) (m : Maze)
    (dx dy : Int) :
    ∀ (steps : Nat) (o : Int) (st : Maze × G.State), FilledFrom G room x y m st.1 →
      FilledFrom G room x y m (spawnArm G room x y dx dy steps o st).1 := by
  intro steps
  induction steps with
  | zero => intro o st h; exact h
  | succ n ih =>
    intro o st h
    rw [spawnArm]
    simp only [CanMoveTo]
    have h1 := GenerateRoom_filled G room x y m st.1 h (x + o * dx) (y + o * dy) 0
      (by decide) st.2
    split
    · exact ih _ _ (Spawn4rooms_filled G room x y m _ _ _ h1)
    · exact h1

/-- C30, amended: every room that `SpawnRooms(x, y)` makes, other than the
room at `(x, y)` itself, is generated with the room at `(x, y)` as its model,
at every step of every arm: it is what `fillRoom` makes of that room for one
of the comparison seeds 0 to 4.  (The room at `(x, y)` is the room before the
arm room only at the first step of an arm.) -/
theorem SpawnRooms_models (G : RandomStream) (maze : Maze) (x y : Int) (model : Room)
    (rnd : G.State) (a b : Int) (r : Room) (hnew : maze.rooms a b = none)
    (hab : (a, b) ≠ (x, y))
    (hr : (SpawnRooms G maze x y model rnd).2.1.rooms a b = some r) :
    (SpawnRooms G maze x y model rnd).2.1.rooms x y = some (SpawnRooms G maze x y model rnd).1
      ∧ ∃ k, k ≤ 4
        ∧ r = (fillRoom G (SpawnRooms G maze x y model rnd).1 k (G.seed (roomSeed a b))).1 := by
  have h0 : FilledFrom G (maze.GenerateRoom G x y model 0 rnd).1 x y maze
      (maze.GenerateRoom G x y model 0 rnd).2.1 := by
    intro a1 b1 hnone hne r1 hr1
    exfalso
    cases hxy : maze.rooms x y with
    | some room =>
      rw [GenerateRoom_some G maze x y room hxy] at hr1
      rw [hnone] at hr1
      exact absurd hr1 (by simp)
    | none =>
      rw [GenerateRoom_none G maze x y hxy] at hr1
      have hc : ¬ (a1 = x ∧ b1 = y) := by
        rintro ⟨rfl, rfl⟩
        exact hne rfl
      simp only [if_neg hc] at hr1
      rw [hnone] at hr1
      exact absurd hr1 (by simp)
  have hcentre : (maze.GenerateRoom G x y model 0 rnd).2.1.rooms x y
      = some (maze.GenerateRoom G x y model 0 rnd).1 := by
    cases hxy : maze.rooms x y with
    | some room => rw [GenerateRoom_some G maze x y room hxy]; exact hxy
    | none => rw [GenerateRoom_none G maze x y hxy]; simp
  constructor
  · unfold SpawnRooms
    exact spawnArm_keepsRooms G _ x y _ _ _ _ _ _ _ _
      (spawnArm_keepsRooms G _ x y _ _ _ _ _ _ _ _
        (spawnArm_keepsRooms G _ x y _ _ _ _ _ _ _ _
          (spawnArm_keepsRooms G _ x y _ _ _ _ _ _ _ _
            (Spawn4rooms_keepsRooms G _ x y _ _ _ _ hcentre))))
  · unfold SpawnRooms at hr ⊢
    exact spawnArm_filled G _ x y maze _ _ _ _ _
      (spawnArm_filled G _ x y maze _ _ _ _ _
        (spawnArm_filled G _ x y maze _ _ _ _ _
          (spawnArm_filled G _ x y maze _ _ _ _ _
            (Spawn4rooms_filled G _ x y maze _ _ _ h0))))
      a b hnew hab r hr

/-- C30 fails as stated: with the room at (0, 0) of environment 1 and the
room at (0, 1) of environment 3 in the maze, and every draw zero (a new room
then keeps the wall and the environment of its model), `SpawnRooms(0, 0)`
goes along the arm to (0, 2) and makes the room at (1, 2), next to the arm
room at distance 2.  The new room has the environment 1 of the room at
(0, 0); generated from the room before it on the arm, the room at (0, 1), it
would have the environment 3. -/
theorem SpawnRooms_arm_model :
    (twoRooms.rooms 0 0).map Room.Env = some 1
      ∧ (twoRooms.rooms 0 1).map Room.Env = some 3
      ∧ (twoRooms.rooms 0 1).map Room.Wall = some 0
      ∧ (twoRooms.rooms 0 2).isNone = true ∧ (twoRooms.rooms 1 2).isNone = true
      ∧ ((SpawnRooms quietStream twoRooms 0 0 defaultroom ()).2.1.rooms 0 2).map Room.Wall
        = some 0
      ∧ ((SpawnRooms quietStream twoRooms 0 0 defaultroom ()).2.1.rooms 0 2).map Room.Env
        = some 1
      ∧ ((SpawnRooms quietStream twoRooms 0 0 defaultroom ()).2.1.rooms 1 2).map Room.Env
        = some 1
      ∧ ∀ k ∈ [0, 1, 2, 3, 4],
          (fillRoom quietStream { Env := 3 } k (quietStream.seed (roomSeed 1 2))).1.Env = 3 := by
  with_unfolding_all decide

/-! ## What a move conserves -/

theorem transfer_refl (st : MoveState) : Transfer st st :=
  ⟨List.Sublist.refl _, List.suffix_refl _, List.Perm.refl _, fun _ => le_refl _,
    fun _ => le_refl _, fun _ => rfl, fun _ h => h⟩

theorem transfer_trans {a b c : MoveState} (h1 : Transfer a b) (h2 : Transfer b c) :
    Transfer a c :=
  ⟨h2.1.trans h1.1, h1.2.1.trans h2.2.1, h2.2.2.1.trans h1.2.2.1,
    fun d => le_trans (h2.2.2.2.1 d) (h1.2.2.2.1 d),
    fun d => le_trans (h1.2.2.2.2.1 d) (h2.2.2.2.2.1 d),
    fun d => (h2.2.2.2.2.2.1 d).trans (h1.2.2.2.2.2.1 d),
    fun d h => h2.2.2.2.2.2.2 d (h1.2.2.2.2.2.2 d h)⟩

theorem eraseIdx_perm (l : List ItemType) (n : Nat) (hn : n < l.length) :
    (l.getD n default :: l.eraseIdx n).Perm l := by
  induction l generalizing n with
  | nil => simp at hn
  | cons a l ih =>
    cases n with
    | zero => simp
    | succ n =>
      simp only [List.length_cons, Nat.succ_lt_succ_iff] at hn
      simp only [List.getD_cons_succ, List.eraseIdx_cons_succ]
      exact (List.Perm.swap _ _ _).trans ((ih n hn).cons a)

theorem takeItem_transfer (st : MoveState) (n : Nat) (hn : n < st.me.Items.length) :
    Transfer st (takeItem st n).1 := by
  unfold takeItem
  by_cases h : (st.me.Items.getD n default).immovable = true
  · simp only [h, if_true]
    exact transfer_refl st
  · simp only [h, if_false, Bool.false_eq_true]
    refine ⟨?_, ?_, ?_, fun _ => le_refl _, fun _ => le_refl _, fun _ => rfl, fun _ h => h⟩
    · exact List.eraseIdx_sublist _ _
    · exact ⟨[_], rfl⟩
    · show (st.me.Items.eraseIdx n ++ st.me.Items.getD n default :: st.target.Items).Perm _
      exact List.perm_middle.trans ((eraseIdx_perm _ n hn).append_right _)

theorem find_item_lt (e : Eq) (w : SingleReference) (first n : Nat)
    (h : e.find_item w first = (n : Int)) : first ≤ n ∧ n < e.Items.length := by
  unfold Eq.find_item at h
  rcases find_item_from_cases w first e.Items 0 0 with h1 | ⟨k, hk, _, hf, i, hi, _⟩
  · rw [h1] at h; omega
  · rw [hk] at h
    have hkn : k = n := by exact_mod_cast h
    subst hkn
    refine ⟨hf, ?_⟩
    have := List.get?_eq_some.mp hi
    obtain ⟨hlt, _⟩ := this
    simpa using hlt

theorem itemLoop_transfer (w : SingleReference) (round : Nat) :
    ∀ (fuel : Nat) (st : MoveState) (item_id : Nat) (rem : Int) (found : Bool),
      Transfer st (itemLoop w round fuel st item_id rem found).1 := by
  intro fuel
  induction fuel with
  | zero => intro st _ _ _; exact transfer_refl st
  | succ fuel ih =>
    intro st item_id rem found
    rw [itemLoop]
    cases hfi : st.me.find_item w item_id with
    | negSucc _ => exact transfer_refl st
    | ofNat n =>
      have hn := (find_item_lt st.me w item_id n hfi).2
      have hnext : Transfer st (if round = 2 then takeItem st n else (st, n + 1)).1 := by
        by_cases hr : round = 2
        · simp only [hr, if_true]; exact takeItem_transfer st n hn
        · simp only [hr, if_false]; exact transfer_refl st
      simp only []
      by_cases h0 : w.index = 0
      · simp only [h0, if_true]
        exact transfer_trans hnext (ih _ _ _ _)
      · simp only [h0, if_false]
        by_cases hr : rem - 1 ≤ 0
        · simp only [hr, if_true]; exact hnext
        · simp only [hr, if_false]
          exact transfer_trans hnext (ih _ _ _ _)

theorem takeMoney_transfer (st : MoveState) (m : Fin 6) (g : Int) (hg : 0 < g)
    (hle : g ≤ st.me.Money m) : Transfer st (takeMoney st m g) := by
  refine ⟨List.Sublist.refl _, List.suffix_refl _, List.Perm.refl _, ?_, ?_, ?_, ?_⟩
  · intro d
    show Function.update st.me.Money m (st.me.Money m - g) d ≤ st.me.Money d
    by_cases hd : d = m
    · subst hd; simp; omega
    · simp [Function.update_noteq hd]
  · intro d
    show st.target.Money d ≤ Function.update st.target.Money m (st.target.Money m + g) d
    by_cases hd : d = m
    · subst hd; simp; omega
    · simp [Function.update_noteq hd]
  · intro d
    show Function.update st.me.Money m (st.me.Money m - g) d
        + Function.update st.target.Money m (st.target.Money m + g) d = _
    by_cases hd : d = m
    · subst hd; simp
    · simp [Function.update_noteq hd]
  · intro d h0
    show 0 ≤ Function.update st.me.Money m (st.me.Money m - g) d
    by_cases hd : d = m
    · subst hd; simp; omega
    · simpa [Function.update_noteq hd] using h0

theorem moneyLoop_transfer (w : SingleReference) (round : Nat) :
    ∀ (fuel : Nat) (st : MoveState) (money_id : Nat) (rem : Int) (found : Bool),
      Transfer st (moneyLoop w round fuel st money_id rem found).1 := by
  intro fuel
  induction fuel with
  | zero => intro st _ _ _; exact transfer_refl st
  | succ fuel ih =>
    intro st money_id rem found
    rw [moneyLoop]
    cases hfm : st.me.findMoney? w money_id with
    | none => exact transfer_refl st
    | some m =>
      dsimp only
      by_cases hg : min rem (st.me.Money m) ≤ 0
      · rw [if_pos hg]; exact transfer_refl st
      · rw [if_neg hg]
        have hst1 : Transfer st
            (if round = 2 then takeMoney st m (min rem (st.me.Money m)) else st) := by
          by_cases hr : round = 2
          · rw [if_pos hr]
            exact takeMoney_transfer st m _ (by omega) (min_le_right _ _)
          · rw [if_neg hr]; exact transfer_refl st
        split
        · exact hst1
        · exact transfer_trans hst1 (ih _ _ _ _)

theorem moveItems_transfer (w : SingleReference) (st : MoveState) :
    Transfer st (moveItems w st).1 := by
  unfold moveItems
  dsimp only
  generalize (if w.amount ≠ 0 then w.amount else 1) = rem
  split
  · exact itemLoop_transfer w 1 _ st 0 _ _
  · exact transfer_trans (itemLoop_transfer w 1 _ st 0 _ _) (itemLoop_transfer w 2 _ _ 0 _ _)

theorem moveMoney_transfer (w : SingleReference) (st : MoveState) :
    Transfer st (moveMoney w st).1 := by
  unfold moveMoney
  dsimp only
  generalize (if w.amount ≠ 0 then w.amount else 0x7FFFFFFF) = rem
  split
  · exact moneyLoop_transfer w 1 7 st 0 _ _
  · exact transfer_trans (moneyLoop_transfer w 1 7 st 0 _ _) (moneyLoop_transfer w 2 7 _ 0 _ _)

theorem moveOne_transfer (everything : Bool) (st : MoveState) (w : SingleReference) :
    Transfer st (moveOne everything st w) := by
  have h := transfer_trans (moveItems_transfer w st) (moveMoney_transfer w (moveItems w st).1)
  unfold moveOne
  dsimp only
  split
  · exact h
  · exact h

theorem foldl_moveOne_transfer (everything : Bool) (refs : List SingleReference) :
    ∀ st : MoveState, Transfer st (refs.foldl (moveOne everything) st) := by
  induction refs with
  | nil => intro st; exact transfer_refl st
  | cons w refs ih =>
    intro st
    exact transfer_trans (moveOne_transfer everything st w) (ih _)

theorem conserved_refl (me target : Eq) : Conserved me target me target :=
  ⟨List.Perm.refl _, fun _ => rfl, fun _ h1 h2 => ⟨h1, h2⟩⟩

theorem conserved_trans {a b a1 b1 a2 b2 : Eq} (h1 : Conserved a b a1 b1)
    (h2 : Conserved a1 b1 a2 b2) : Conserved a b a2 b2 :=
  ⟨h2.1.trans h1.1, fun d => (h2.2.1 d).trans (h1.2.1 d),
    fun d ha hb => h2.2.2 d (h1.2.2 d ha hb).1 (h1.2.2 d ha hb).2⟩

theorem conserved_swap {a b a1 b1 : Eq} (h : Conserved a b a1 b1) : Conserved b a b1 a1 :=
  ⟨(List.perm_append_comm.trans h.1).trans List.perm_append_comm,
    fun d => by have := h.2.1 d; omega,
    fun d hb ha => ⟨(h.2.2 d ha hb).2, (h.2.2 d ha hb).1⟩⟩

theorem conserved_of_transfer {st st' : MoveState} (h : Transfer st st') :
    Conserved st.me st.target st'.me st'.target :=
  ⟨h.2.2.1, h.2.2.2.2.2.1,
    fun d ha hb => ⟨h.2.2.2.2.2.2 d ha, le_trans hb (h.2.2.2.2.1 d)⟩⟩

theorem moveDepth_conserved :
    ∀ (depth : Nat) (me target : Eq) (what : ItemReference),
      Conserved me target (moveDepth depth me target what).2.1
        (moveDepth depth me target what).2.2 := by
  intro depth
  induction depth with
  | zero =>
    intro me target what
    rw [moveDepth]
    have hfold := conserved_of_transfer
      (foldl_moveOne_transfer what.everything what.refs ⟨me, target, {}⟩)
    rcases finishMove_cases me target
        (if what.except ≠ [] then what.refs.foldl (moveOne what.everything) ⟨me, target, {}⟩
          else what.refs.foldl (moveOne what.everything) ⟨me, target, {}⟩) with h | h
    · rw [h.1, h.2]; exact conserved_refl me target
    · rw [h.1, h.2]
      split <;> exact hfold
  | succ depth ih =>
    intro me target what
    rw [moveDepth]
    have hfold := conserved_of_transfer
      (foldl_moveOne_transfer what.everything what.refs ⟨me, target, {}⟩)
    by_cases hex : what.except ≠ []
    · rw [if_pos hex]
      have hback := conserved_swap
        (ih (what.refs.foldl (moveOne what.everything) ⟨me, target, {}⟩).target
          (what.refs.foldl (moveOne what.everything) ⟨me, target, {}⟩).me (takeback what))
      rcases finishMove_cases me target _ with h | h
      · rw [h.1, h.2]; exact conserved_refl me target
      · rw [h.1, h.2]
        exact conserved_trans hfold hback
    · rw [if_neg hex]
      rcases finishMove_cases me target _ with h | h
      · rw [h.1, h.2]; exact conserved_refl me target
      · rw [h.1, h.2]
        exact hfold

/-! ## The money counts in the arithmetic of `long` -/

theorem wrapLong_eq (n : Int) (h1 : -2 ^ 63 ≤ n) (h2 : n ≤ 2 ^ 63 - 1) : wrapLong n = n := by
  unfold wrapLong
  rw [Int.emod_eq_of_lt (by omega) (by omega)]
  omega

theorem takeMoneyLong_eq (st : MoveState) (h : FitsLong st.me st.target) (m : Fin 6) (g : Int)
    (hg : 0 < g) (hle : g ≤ st.me.Money m) : takeMoneyLong st m g = takeMoney st m g := by
  have hme := h.1 m
  have htarget := h.2.1 m
  have hsum := h.2.2 m
  unfold takeMoneyLong takeMoney
  rw [wrapLong_eq _ (by omega) (by omega), wrapLong_eq _ (by omega) (by omega)]

theorem takeMoney_fits (st : MoveState) (h : FitsLong st.me st.target) (m : Fin 6) (g : Int)
    (hg : 0 < g) (hle : g ≤ st.me.Money m) :
    FitsLong (takeMoney st m g).me (takeMoney st m g).target := by
  refine ⟨fun d => ?_, fun d => ?_, fun d => ?_⟩
  · rw [takeMoney_me_Money]
    have hme := h.1 d
    have hm := h.1 m
    split <;> omega
  · rw [takeMoney_target_Money]
    have htarget := h.2.1 d
    have ht := h.2.1 m
    have hsum := h.2.2 m
    split <;> omega
  · rw [takeMoney_me_Money, takeMoney_target_Money]
    have hsum := h.2.2 d
    have hsm := h.2.2 m
    split <;> omega

theorem moneyLoopLong_eq (w : SingleReference) (round : Nat) :
    ∀ (fuel : Nat) (st : MoveState) (money_id : Nat) (rem : Int) (found : Bool),
      FitsLong st.me st.target →
      moneyLoopLong w round fuel st money_id rem found = moneyLoop w round fuel st money_id rem found
        ∧ FitsLong (moneyLoop w round fuel st money_id rem found).1.me
            (moneyLoop w round fuel st money_id rem found).1.target := by
  intro fuel
  induction fuel with
  | zero => intro st _ _ _ h; exact ⟨rfl, h⟩
  | succ fuel ih =>
    intro st money_id rem found h
    rw [moneyLoopLong, moneyLoop]
    cases st.me.findMoney? w money_id with
    | none => exact ⟨rfl, h⟩
    | some m =>
      dsimp only
      by_cases hg : min rem (st.me.Money m) ≤ 0
      · rw [if_pos hg, if_pos hg]; exact ⟨rfl, h⟩
      · rw [if_neg hg, if_neg hg]
        have hpos : 0 < min rem (st.me.Money m) := not_le.mp hg
        have hle : min rem (st.me.Money m) ≤ st.me.Money m := min_le_right _ _
        rw [takeMoneyLong_eq st h m _ hpos hle]
        have hst1 : FitsLong
            (if round = 2 then takeMoney st m (min rem (st.me.Money m)) else st).me
            (if round = 2 then takeMoney st m (min rem (st.me.Money m)) else st).target := by
          split
          · exact takeMoney_fits st h m _ hpos hle
          · exact h
        split
        · exact ⟨rfl, hst1⟩
        · exact ih _ _ _ _ hst1

theorem moveMoneyLong_eq (w : SingleReference) (st : MoveState) (h : FitsLong st.me st.target) :
    moveMoneyLong w st = moveMoney w st
      ∧ FitsLong (moveMoney w st).1.me (moveMoney w st).1.target := by
  unfold moveMoneyLong moveMoney
  dsimp only
  generalize (if w.amount ≠ 0 then w.amount else 0x7FFFFFFF) = rem
  obtain ⟨e1, f1⟩ := moneyLoopLong_eq w 1 7 st 0 rem false h
  rw [e1]
  split
  · exact ⟨rfl, f1⟩
  · obtain ⟨e2, f2⟩ := moneyLoopLong_eq w 2 7 (moneyLoop w 1 7 st 0 rem false).1 0 rem
      (moneyLoop w 1 7 st 0 rem false).2.2 f1
    rw [e2]
    exact ⟨rfl, f2⟩

theorem moveItems_money (w : SingleReference) (st : MoveState) :
    (moveItems w st).1.me.Money = st.me.Money
      ∧ (moveItems w st).1.target.Money = st.target.Money := by
  obtain ⟨s, _, hs⟩ := moveItems_interleave w st
  rw [hs]
  exact ⟨rfl, rfl⟩

theorem moveOneLong_eq (everything : Bool) (st : MoveState) (w : SingleReference)
    (h : FitsLong st.me st.target) :
    moveOneLong everything st w = moveOne everything st w
      ∧ FitsLong (moveOne everything st w).me (moveOne everything st w).target := by
  have hitems : FitsLong (moveItems w st).1.me (moveItems w st).1.target := by
    unfold FitsLong Eq.InLong
    rw [(moveItems_money w st).1, (moveItems_money w st).2]
    exact h
  obtain ⟨e, f⟩ := moveMoneyLong_eq w (moveItems w st).1 hitems
  unfold moveOneLong moveOne
  dsimp only
  rw [e]
  split
  · exact ⟨rfl, f⟩
  · exact ⟨rfl, f⟩

theorem foldl_moveOneLong_eq (everything : Bool) :
    ∀ (refs : List SingleReference) (st : MoveState), FitsLong st.me st.target →
      refs.foldl (moveOneLong everything) st = refs.foldl (moveOne everything) st
        ∧ FitsLong (refs.foldl (moveOne everything) st).me
            (refs.foldl (moveOne everything) st).target := by
  intro refs
  induction refs with
  | nil =>
    intro st h
    rw [List.foldl_nil, List.foldl_nil]
    exact ⟨rfl, h⟩
  | cons w refs ih =>
    intro st h
    obtain ⟨e, f⟩ := moveOneLong_eq everything st w h
    rw [List.foldl_cons, List.foldl_cons, e]
    exact ih _ f

theorem fitsLong_swap {me target : Eq} (h : FitsLong me target) : FitsLong target me :=
  ⟨h.2.1, h.1, fun d => by have := h.2.2 d; omega⟩

theorem finishMove_fits (me target : Eq) (st : MoveState) (h : FitsLong me target)
    (hst : FitsLong st.me st.target) :
    FitsLong (finishMove me target st).2.1 (finishMove me target st).2.2 := by
  rcases finishMove_cases me target st with h1 | h1
  · rw [h1.1, h1.2]; exact h
  · rw [h1.1, h1.2]; exact hst

/-- As long as, for every denomination, the counts of the container and the
target together fit a `long`, `move` with the counts in the arithmetic of
`long` is `move` with the counts as integers, and the counts fit afterwards
too. -/
theorem moveDepthLong_eq :
    ∀ (depth : Nat) (me target : Eq) (what : ItemReference), FitsLong me target →
      moveDepthLong depth me target what = moveDepth depth me target what
        ∧ FitsLong (moveDepth depth me target what).2.1 (moveDepth depth me target what).2.2 := by
  intro depth
  induction depth with
  | zero =>
    intro me target what h
    obtain ⟨e, f⟩ := foldl_moveOneLong_eq what.everything what.refs ⟨me, target, {}⟩ h
    rw [moveDepthLong, moveDepth, e]
    refine ⟨rfl, finishMove_fits me target _ h ?_⟩
    split <;> exact f
  | succ depth ih =>
    intro me target what h
    obtain ⟨e, f⟩ := foldl_moveOneLong_eq what.everything what.refs ⟨me, target, {}⟩ h
    rw [moveDepthLong, moveDepth, e]
    by_cases hex : what.except ≠ []
    · rw [if_pos hex, if_pos hex]
      obtain ⟨eb, fb⟩ := ih (what.refs.foldl (moveOne what.everything) ⟨me, target, {}⟩).target
        (what.refs.foldl (moveOne what.everything) ⟨me, target, {}⟩).me (takeback what)
        (fitsLong_swap f)
      dsimp only
      rw [eb]
      exact ⟨rfl, finishMove_fits me target _ h (fitsLong_swap fb)⟩
    · rw [if_neg hex, if_neg hex]
      exact ⟨rfl, finishMove_fits me target _ h f⟩

theorem moveLong_eq (me target : Eq) (what : ItemReference) (h : FitsLong me target) :
    me.moveLong target what = me.move target what :=
  (moveDepthLong_eq 1 me target what h).1

/-- C37, amended: for a container and a target whose money counts are
numbers of the type `long` and, for every denomination, together at most
`2^63 - 1`, and for every request, with an except clause or without,
committed or rolled back, `move` loses nothing and makes nothing: the items
of the container and the target together are the same up to order as before
the call, for every denomination the two counts have the same sum as before,
and where both counts were not negative before, both are not negative after.
The counts are again numbers of the type `long` with sums of at most
`2^63 - 1`. -/
theorem move_conserves (me target : Eq) (what : ItemReference) (hfit : FitsLong me target) :
    ((me.moveLong target what).2.1.Items ++ (me.moveLong target what).2.2.Items).Perm
        (me.Items ++ target.Items)
      ∧ (∀ d, (me.moveLong target what).2.1.Money d + (me.moveLong target what).2.2.Money d
          = me.Money d + target.Money d)
      ∧ (∀ d, 0 ≤ me.Money d → 0 ≤ target.Money d →
          0 ≤ (me.moveLong target what).2.1.Money d
            ∧ 0 ≤ (me.moveLong target what).2.2.Money d)
      ∧ FitsLong (me.moveLong target what).2.1 (me.moveLong target what).2.2 := by
  rw [moveLong_eq me target what hfit]
  exact ⟨(moveDepth_conserved 1 me target what).1, (moveDepth_conserved 1 me target what).2.1,
    (moveDepth_conserved 1 me target what).2.2, (moveDepthLong_eq 1 me target what hfit).2⟩

/-- C37 fails as stated: the container holds `2^63 - 1` gold coins, the
target one gold coin, and the request is for `2^63 - 1` gold coins.  All
counts are numbers of the type `long` and none is negative.  The addition to
the count of the target leaves the range of `long`: afterwards the container
holds no gold coin and the count of the target is `-2^63`, so the sum of the
two counts has changed from `2^63` to `-2^63`, and a count is negative. -/
theorem move_overflow_unbalanced :
    ItemReference.ofString "9223372036854775807 gold coins"
        = some { everything := false, original := "9223372036854775807 gold coins",
                 refs := [{ what := "gold coins", amount := 9223372036854775807, index := 1 }],
                 except := [] }
      ∧ ((Eq.mk [] (fun d => if d = 1 then 2 ^ 63 - 1 else 0)).moveLong
          (.mk [] (fun d => if d = 1 then 1 else 0))
          { everything := false, original := "9223372036854775807 gold coins",
            refs := [{ what := "gold coins", amount := 9223372036854775807, index := 1 }],
            except := [] }).2.1.Money 1 = 0
      ∧ ((Eq.mk [] (fun d => if d = 1 then 2 ^ 63 - 1 else 0)).moveLong
          (.mk [] (fun d => if d = 1 then 1 else 0))
          { everything := false, original := "9223372036854775807 gold coins",
            refs := [{ what := "gold coins", amount := 9223372036854775807, index := 1 }],
            except := [] }).2.2.Money 1 = -2 ^ 63 := by
  decide

/-- C38, amended: for a container and a target whose money counts are
numbers of the type `long` and, for every denomination, together at most
`2^63 - 1`, and for a request without an except clause, the items of the
target end with the items it had, no money count of the target is below what
it was, the items left in the container are a subsequence of the items it
had, and no money count of the container is above what it was. -/
theorem move_one_way (me target : Eq) (what : ItemReference) (hexcept : what.except = [])
    (hfit : FitsLong me target) :
    target.Items <:+ (me.moveLong target what).2.2.Items
      ∧ (∀ d, target.Money d ≤ (me.moveLong target what).2.2.Money d)
      ∧ (me.moveLong target what).2.1.Items.Sublist me.Items
      ∧ (∀ d, (me.moveLong target what).2.1.Money d ≤ me.Money d) := by
  have hfold := foldl_moveOne_transfer what.everything what.refs ⟨me, target, {}⟩
  rw [moveLong_eq me target what hfit]
  unfold Eq.move
  rw [moveDepth_no_except 1 me target what hexcept]
  rcases finishMove_cases me target
      (what.refs.foldl (moveOne what.everything) ⟨me, target, {}⟩) with h | h
  · rw [h.1, h.2]
    exact ⟨List.suffix_refl _, fun _ => le_refl _, List.Sublist.refl _, fun _ => le_refl _⟩
  · rw [h.1, h.2]
    exact ⟨hfold.2.1, hfold.2.2.2.2.1, hfold.1, hfold.2.2.2.1⟩

/-- C38 fails as stated: the container holds one silver coin, the target
`2^63 - 1` silver coins, and the request "silver coins" has no except clause.
The addition to the count of the target leaves the range of `long`: the
count of the target falls from `2^63 - 1` to `-2^63`. -/
theorem move_overflow_lowers_target :
    ItemReference.ofString "silver coins"
        = some { everything := false, original := "silver coins",
                 refs := [{ what := "silver coins", amount := 0, index := 1 }], except := [] }
      ∧ ((Eq.mk [] (fun d => if d = 2 then 1 else 0)).moveLong
          (.mk [] (fun d => if d = 2 then 2 ^ 63 - 1 else 0))
          { everything := false, original := "silver coins",
            refs := [{ what := "silver coins", amount := 0, index := 1 }],
            except := [] }).2.2.Money 2 = -2 ^ 63
      ∧ ((Eq.mk [] (fun d => if d = 2 then 1 else 0)).moveLong
          (.mk [] (fun d => if d = 2 then 2 ^ 63 - 1 else 0))
          { everything := false, original := "silver coins",
            refs := [{ what := "silver coins", amount := 0, index := 1 }],
            except := [] }).2.1.Money 2 = 0 := by
  decide

/-! ## Every loop of `move` comes to its end -/

theorem takeItem_measure (st : MoveState) (item_id n : Nat) (h1 : item_id ≤ n)
    (h2 : n < st.me.Items.length) :
    (takeItem st n).1.me.Items.length - (takeItem st n).2 < st.me.Items.length - item_id
      ∧ ((item_id < (takeItem st n).2 ∧ (takeItem st n).1.me.Items = st.me.Items)
        ∨ (takeItem st n).1.me.Items.length < st.me.Items.length) := by
  unfold takeItem
  by_cases h : (st.me.Items.getD n default).immovable = true
  · simp only [h, if_true]
    exact ⟨by omega, Or.inl ⟨by omega, trivial⟩⟩
  · simp only [h, if_false, Bool.false_eq_true]
    have hl : (st.me.Items.eraseIdx n).length = st.me.Items.length - 1 :=
      List.length_eraseIdx_of_lt h2
    show (st.me.Items.eraseIdx n).length - n < _
      ∧ (_ ∨ (st.me.Items.eraseIdx n).length < st.me.Items.length)
    rw [hl]
    exact ⟨by omega, Or.inr (by omega)⟩

theorem itemLoopRun_eq (w : SingleReference) (round : Nat) :
    ∀ (fuel fuel' : Nat) (st : MoveState) (item_id : Nat) (rem : Int) (found : Bool),
      st.me.Items.length - item_id < fuel → st.me.Items.length - item_id < fuel' →
      itemLoopRun w round fuel st item_id rem found
        = some (itemLoop w round fuel' st item_id rem found) := by
  intro fuel
  induction fuel with
  | zero => intro fuel' st item_id rem found h; omega
  | succ fuel ih =>
    intro fuel' st item_id rem found h h'
    obtain ⟨f', rfl⟩ : ∃ f, fuel' = f + 1 := ⟨fuel' - 1, by omega⟩
    rw [itemLoopRun, itemLoop]
    cases hfi : st.me.find_item w item_id with
    | negSucc _ => rfl
    | ofNat n =>
      obtain ⟨hge, hlt⟩ := find_item_lt st.me w item_id n hfi
      have hmeasure : (if round = 2 then takeItem st n else (st, n + 1)).1.me.Items.length
          - (if round = 2 then takeItem st n else (st, n + 1)).2
            < st.me.Items.length - item_id := by
        by_cases hr : round = 2
        · simp only [hr, if_true]
          exact (takeItem_measure st item_id n hge hlt).1
        · simp only [hr, if_false]
          omega
      simp only []
      by_cases h0 : w.index = 0
      · simp only [h0, if_true]
        exact ih f' _ _ _ _ (by omega) (by omega)
      · simp only [h0, if_false]
        by_cases hr : rem - 1 ≤ 0
        · simp only [hr, if_true]
        · simp only [hr, if_false]
          exact ih f' _ _ _ _ (by omega) (by omega)

theorem moneyLoopRun_skip (w : SingleReference) (round fuel : Nat) (st : MoveState) (m : Fin 6)
    (rem : Int) (found : Bool) (hm : moneyMatches st.me w m = false) :
    moneyLoopRun w round fuel st m.val rem found
      = moneyLoopRun w round fuel st (m.val + 1) rem found := by
  cases fuel with
  | zero => rfl
  | succ fuel => rw [moneyLoopRun, moneyLoopRun, findMoney_skip st.me w m hm]

theorem moneyLoopRun_eq_scan (w : SingleReference) (round : Nat) :
    ∀ (n k : Nat), k + n = 6 → ∀ (fuel : Nat), n < fuel →
      ∀ (st : MoveState) (rem : Int) (found : Bool),
        moneyLoopRun w round fuel st k rem found
          = some (moneyScan w round (denomsFrom k) st rem found) := by
  intro n
  induction n with
  | zero =>
    intro k hk fuel hf st rem found
    obtain ⟨fuel, rfl⟩ : ∃ f, fuel = f + 1 := ⟨fuel - 1, by omega⟩
    rw [denomsFrom_six k (by omega), moneyLoopRun, findMoney_end st.me w k (by omega)]
    rfl
  | succ n ih =>
    intro k hk fuel hf st rem found
    have hk6 : k < 6 := by omega
    obtain ⟨m, rfl⟩ : ∃ m : Fin 6, k = m.val := ⟨⟨k, hk6⟩, rfl⟩
    rw [denomsFrom_succ m, moneyScan]
    by_cases hm : moneyMatches st.me w m = true
    · obtain ⟨fuel, rfl⟩ : ∃ f, fuel = f + 1 := ⟨fuel - 1, by omega⟩
      rw [if_pos hm, moneyLoopRun, findMoney_hit st.me w m hm]
      dsimp only
      by_cases hg : min rem (st.me.Money m) ≤ 0
      · rw [if_pos hg, if_pos hg]
      · rw [if_neg hg, if_neg hg]
        by_cases hb : w.index ≠ 0 ∧ (w.amount = 0 ∨ rem - min rem (st.me.Money m) ≤ 0)
        · rw [if_pos hb, if_pos hb]
        · rw [if_neg hb, if_neg hb]
          by_cases hr : round = 2
          · subst hr
            simp only [if_true]
            by_cases hall : st.me.Money m ≤ rem
            · have hget : min rem (st.me.Money m) = st.me.Money m := min_eq_right hall
              have hno : moneyMatches (takeMoney st m (st.me.Money m)).me w m = false := by
                simp [moneyMatches, takeMoney]
              rw [hget, moneyLoopRun_skip w 2 fuel _ m _ _ hno]
              exact ih (m.val + 1) (by omega) fuel (by omega) _ _ _
            · have hget : min rem (st.me.Money m) = rem := min_eq_left (by omega)
              have hyes : moneyMatches (takeMoney st m rem).me w m = true := by
                simp only [moneyMatches, Bool.and_eq_true, decide_eq_true_eq] at hm ⊢
                refine ⟨?_, hm.2⟩
                simp [takeMoney]; omega
              obtain ⟨fuel, rfl⟩ : ∃ f, fuel = f + 1 := ⟨fuel - 1, by omega⟩
              rw [hget, moneyScan_spent w 2 _ _ _ _ (by omega), moneyLoopRun,
                findMoney_hit _ w m hyes]
              dsimp only
              rw [if_pos (by rw [sub_self]; exact min_le_left _ _)]
          · simp only [hr, if_false]
            exact ih (m.val + 1) (by omega) fuel (by omega) _ _ _
    · simp only [Bool.not_eq_true] at hm
      rw [if_neg (by simp [hm]), moneyLoopRun_skip w round fuel st m rem found hm]
      exact ih (m.val + 1) (by omega) fuel (by omega) _ _ _

theorem moneyLoopRun_eq (w : SingleReference) (round fuel : Nat) (hfuel : 7 ≤ fuel)
    (st : MoveState) (rem : Int) (found : Bool) :
    moneyLoopRun w round fuel st 0 rem found = some (moneyLoop w round 7 st 0 rem found) := by
  rw [moneyLoopRun_eq_scan w round 6 0 rfl fuel (by omega),
    moneyLoop_eq_scan w round 6 0 rfl 7 (by omega)]

theorem moveItemsRun_eq (fuel : Nat) (w : SingleReference) (st : MoveState)
    (hfuel : st.me.Items.length < fuel) : moveItemsRun fuel w st = some (moveItems w st) := by
  unfold moveItemsRun moveItems
  dsimp only
  generalize (if w.amount ≠ 0 then w.amount else 1) = rem
  rw [itemLoopRun_eq w 1 fuel (st.me.Items.length + 1) st 0 rem false (by omega) (by omega)]
  dsimp only
  split
  · rfl
  · have hst := itemLoop_round1_state w (st.me.Items.length + 1) st 0 rem false
    rw [itemLoopRun_eq w 2 fuel (st.me.Items.length + 1) _ 0 rem _ (by rw [hst]; omega)
      (by rw [hst]; omega)]

theorem moveMoneyRun_eq (fuel : Nat) (w : SingleReference) (st : MoveState)
    (hfuel : 7 ≤ fuel) : moveMoneyRun fuel w st = some (moveMoney w st) := by
  unfold moveMoneyRun moveMoney
  dsimp only
  generalize (if w.amount ≠ 0 then w.amount else 0x7FFFFFFF) = rem
  rw [moneyLoopRun_eq w 1 fuel hfuel]
  dsimp only
  split
  · rfl
  · rw [moneyLoopRun_eq w 2 fuel hfuel]

theorem moveOneRun_eq (fuel : Nat) (everything : Bool) (st : MoveState) (w : SingleReference)
    (h1 : st.me.Items.length < fuel) (h2 : 7 ≤ fuel) :
    moveOneRun fuel everything st w = some (moveOne everything st w) := by
  unfold moveOneRun moveOne
  rw [moveItemsRun_eq fuel w st h1]
  dsimp only
  rw [moveMoneyRun_eq fuel w _ h2]

theorem moveAllRun_eq (fuel : Nat) (everything : Bool) (h2 : 7 ≤ fuel) :
    ∀ (refs : List SingleReference) (st : MoveState), st.me.Items.length < fuel →
      moveAllRun fuel everything refs st = some (refs.foldl (moveOne everything) st) := by
  intro refs
  induction refs with
  | nil => intro st _; rfl
  | cons w refs ih =>
    intro st h1
    rw [moveAllRun, moveOneRun_eq fuel everything st w h1 h2]
    dsimp only
    rw [List.foldl_cons]
    exact ih _ (lt_of_le_of_lt (moveOne_transfer everything st w).1.length_le h1)

theorem moveRun_no_except (fuel depth : Nat) (me target : Eq) (what : ItemReference)
    (hex : what.except = []) (h1 : me.Items.length < fuel) (h2 : 7 ≤ fuel) :
    moveRun fuel me target what = some (moveDepth depth me target what) := by
  obtain ⟨f, rfl⟩ : ∃ f, fuel = f + 1 := ⟨fuel - 1, by omega⟩
  rw [moveRun, moveAllRun_eq (f + 1) what.everything h2 what.refs ⟨me, target, {}⟩ h1,
    moveDepth_no_except depth me target what hex]
  dsimp only
  rw [if_neg (by simp [hex])]

theorem moveRun_eq (fuel : Nat) (me target : Eq) (what : ItemReference)
    (hfuel : me.Items.length + target.Items.length + 8 ≤ fuel) :
    moveRun fuel me target what = some (me.move target what) := by
  by_cases hex : what.except = []
  · exact moveRun_no_except fuel 1 me target what hex (by omega) (by omega)
  · obtain ⟨f, rfl⟩ : ∃ f, fuel = f + 1 := ⟨fuel - 1, by omega⟩
    have hfold := foldl_moveOne_transfer what.everything what.refs ⟨me, target, {}⟩
    have hlen : (what.refs.foldl (moveOne what.everything) ⟨me, target, {}⟩).target.Items.length
        ≤ me.Items.length + target.Items.length := by
      have := hfold.2.2.1.length_eq
      simp only [List.length_append] at this
      omega
    rw [moveRun, moveAllRun_eq (f + 1) what.everything (by omega) what.refs ⟨me, target, {}⟩
      (by show me.Items.length < f + 1; omega)]
    dsimp only
    rw [if_pos hex, moveRun_no_except f 0 _ _ (takeback what) rfl (by omega) (by omega)]
    dsimp only
    unfold Eq.move
    conv_rhs => rw [moveDepth, if_pos hex]

theorem find_item_result (e : Eq) (w : SingleReference) (first : Nat) :
    e.find_item w first = -1
      ∨ ∃ n : Nat, e.find_item w first = (n : Int) ∧ first ≤ n ∧ n < e.Items.length := by
  cases h : e.find_item w first with
  | negSucc k =>
    left
    unfold Eq.find_item at h
    rcases find_item_from_cases w first e.Items 0 0 with h1 | ⟨k1, hk, _⟩
    · rw [← h, h1]
    · rw [hk] at h; exact absurd h (by simp)
  | ofNat n =>
    right
    exact ⟨n, rfl, find_item_lt e w first n h⟩

theorem find_money_result (e : Eq) (w : SingleReference) (first : Nat) :
    e.find_money w first = -1
      ∨ ∃ m : Fin 6, e.find_money w first = (m.val : Int) ∧ first ≤ m.val ∧ 0 < e.Money m := by
  unfold Eq.find_money
  cases h : e.findMoney? w first with
  | none => left; rfl
  | some m =>
    right
    refine ⟨m, rfl, ?_⟩
    unfold Eq.findMoney? at h
    have := List.find?_some h
    simp only [moneyMatches, Bool.and_eq_true, decide_eq_true_eq] at this
    exact ⟨this.1, this.2.1⟩

/-- C34: `move` comes to its end, for every container, target and request,
with an except clause or without: run with every loop and the nesting of
the recursive call bounded by `fuel`, it returns the result of `move` as soon
as `fuel` is the number of items of both containers plus 8.  Each iteration
of the item loop moves the start index forward or makes the item list of the
container shorter; each iteration of the money loop moves the start index
forward (first round) or lowers the remaining amount (second round).
`find_item` and `find_money` are loops over the items and over the six
denominations: they return -1 or a position from the start index on. -/
theorem move_terminates (me target : Eq) (what : ItemReference) (fuel : Nat)
    (hfuel : me.Items.length + target.Items.length + 8 ≤ fuel) :
    moveRun fuel me target what = some (me.move target what)
      ∧ (∀ (w : SingleReference) (st : MoveState) (item_id n round : Nat),
          st.me.find_item w item_id = (n : Int) →
            (item_id < (if round = 2 then takeItem st n else (st, n + 1)).2
              ∧ (if round = 2 then takeItem st n else (st, n + 1)).1.me.Items = st.me.Items)
            ∨ (if round = 2 then takeItem st n else (st, n + 1)).1.me.Items.length
                < st.me.Items.length)
      ∧ (∀ (w : SingleReference) (st : MoveState) (money_id : Nat) (m : Fin 6) (rem : Int),
          st.me.findMoney? w money_id = some m → ¬ min rem (st.me.Money m) ≤ 0 →
            money_id < m.val + 1 ∧ rem - min rem (st.me.Money m) < rem)
      ∧ (∀ (e : Eq) (w : SingleReference) (first : Nat),
          (e.find_item w first = -1
            ∨ ∃ n : Nat, e.find_item w first = (n : Int) ∧ first ≤ n ∧ n < e.Items.length)
          ∧ (e.find_money w first = -1
            ∨ ∃ m : Fin 6, e.find_money w first = (m.val : Int) ∧ first ≤ m.val
                ∧ 0 < e.Money m)) := by
  refine ⟨moveRun_eq fuel me target what hfuel, ?_, ?_, ?_⟩
  · intro w st item_id n round hfi
    obtain ⟨hge, hlt⟩ := find_item_lt st.me w item_id n hfi
    by_cases hr : round = 2
    · simp only [hr, if_true]
      exact (takeItem_measure st item_id n hge hlt).2
    · simp only [hr, if_false]
      exact Or.inl ⟨by omega, trivial⟩
  · intro w st money_id m rem hfm hg
    unfold Eq.findMoney? at hfm
    have := List.find?_some hfm
    simp only [Bool.and_eq_true, decide_eq_true_eq] at this
    exact ⟨by omega, by omega⟩
  · intro e w first
    exact ⟨find_item_result e w first, find_money_result e w first⟩

/-! ## A pile of coins and a single coin -/

theorem GetType_ne_cart (i : ItemType) (h : i.cart = none) : i.GetType ≠ "cart" := by
  unfold ItemTypeOf.GetType
  rw [h]
  simp only [Option.isSome_none, Bool.false_eq_true, if_false]
  split
  · decide
  · have := nameAt_mem ItemTypes i.type
    intro hc
    rw [hc] at this
    revert this
    decide

theorem name_ne_cart (i : ItemType) (h : i.cart = none) (c m : Nat) (hc : c ≤ 1) :
    i.name c m ≠ "cart" := by
  have hsp : ' ' ∉ "cart".data := by decide
  intro heq
  rcases name_cases i c m hc with h1 | ⟨M, _, h1⟩ | ⟨rest, h1⟩ | ⟨C, _, rest, h1⟩
  · exact GetType_ne_cart i h (by rw [← h1, heq])
  · rw [heq] at h1; exact hsp (by rw [h1]; simp)
  · rw [heq] at h1; exact hsp (by rw [h1]; simp)
  · rw [heq] at h1; exact hsp (by rw [h1]; simp)

theorem AddArticle_ne_cart (s : String) (hs : plainString s) (definite : Bool) :
    AddArticle s definite ≠ "cart" := by
  intro heq
  cases definite with
  | true =>
    have := AddArticle_true_data s
    rw [heq] at this
    exact absurd this (by simp)
  | false =>
    have := AddArticle_plain s hs
    rw [heq] at this
    split at this <;> exact absurd this (by simp)

theorem Pluralize_ne_cart (s : String) (hs : plainString s) : Pluralize s ≠ "cart" := by
  intro heq
  obtain ⟨pre, post, _, hpost, hpl⟩ := Pluralize_shape s.data hs
  have hdata : "cart".data = pluralWord pre ++ post := by
    rw [← heq]
    exact congrArg String.data hpl
  rcases hpost with hpost | hpost
  · subst hpost
    rw [List.append_nil] at hdata
    have hlast : "cart".data.getLast? = some 't' := by decide
    unfold pluralWord at hdata
    split at hdata
    · rw [hdata] at hlast
      simp at hlast
    · obtain ⟨X, hX, _⟩ := pluralRule_last pre
      rw [hdata, hX] at hlast
      simp at hlast
  · obtain ⟨r, hr⟩ := clauseStarts_space post hpost
    have hsp : ' ' ∉ "cart".data := by decide
    exact hsp (by rw [hdata, hr]; simp)

theorem renderings_cart_none (i : ItemType) (h : i.cart = none) : "cart" ∉ renderings i := by
  intro hmem
  unfold renderings at hmem
  simp only [List.mem_flatMap, List.mem_cons, List.mem_singleton, List.not_mem_nil,
    or_false] at hmem
  obtain ⟨c, hc, m, _, hx⟩ := hmem
  have hc' : c ≤ 1 := by rcases hc with rfl | rfl <;> omega
  rcases hx with hx | hx | hx | hx
  · exact name_ne_cart i h c m hc' hx.symm
  · exact AddArticle_ne_cart _ (plainString_name i c m) _ hx.symm
  · exact AddArticle_ne_cart _ (plainString_name i c m) _ hx.symm
  · exact Pluralize_ne_cart _ (plainString_name i c m) hx.symm

theorem GetCondition_cart_ne_good (i : ItemType) (e : Eq) (h : i.cart = some e) :
    i.GetCondition ≠ "good" := by
  rw [GetCondition_cart i e h]
  split
  · decide
  · split
    · decide
    · intro heq
      have h1 := congrArg String.length heq
      have h2 := toString_nat_ne_nil e.count_items
      have h3 : 0 < (toString e.count_items).length := by
        show 0 < (toString e.count_items).data.length
        exact List.length_pos.mpr h2
      have e1 : " items".length = 6 := by decide
      have e2 : "good".length = 4 := by decide
      rw [String.length_append, e1, e2] at h1
      omega

theorem renderings_cart_some (i : ItemType) (h : i.cart.isSome = true) :
    "cart" ∈ renderings i := by
  obtain ⟨e, he⟩ := Option.isSome_iff_exists.mp h
  have hT : i.GetType = "cart" := by simp [ItemTypeOf.GetType, h]
  have hm : ∀ m, shownMat i m = 0 := by intro m; simp [shownMat, h]
  by_cases hchest : i.chest > 0
  · have hname : i.name 0 0 = "cart" := by
      have hg := GetCondition_cart_ne_good i e he
      have hc : shownCond i 0 = 0 := by simp [shownCond, hchest, h, hg]
      rw [name_eq, hc, hm, hT]
      simp [composeName]
    unfold renderings
    simp only [List.mem_flatMap, List.mem_cons, List.mem_singleton, List.not_mem_nil, or_false]
    exact ⟨0, Or.inl rfl, 0, Or.inl rfl, Or.inl hname.symm⟩
  · have hname : i.name 1 0 = "cart" := by
      have hc : shownCond i 1 = 0 := by simp [shownCond, hchest, h]
      rw [name_eq, hc, hm, hT]
      simp [composeName]
    unfold renderings
    simp only [List.mem_flatMap, List.mem_cons, List.mem_singleton, List.not_mem_nil, or_false]
    exact ⟨1, Or.inr rfl, 0, Or.inl rfl, Or.inl hname.symm⟩

theorem phraseFits_cart (i : ItemType) : phraseFits "cart" i = i.cart.isSome := by
  rw [Bool.eq_iff_iff]
  unfold phraseFits
  have hne : ("cart" == "") = false := by decide
  rw [hne, Bool.false_or, List.contains_iff_exists_mem_beq]
  constructor
  · rintro ⟨x, hx, hb⟩
    rw [beq_iff_eq] at hb
    subst hb
    by_contra hn
    have : i.cart = none := by
      cases hc : i.cart with
      | none => rfl
      | some c => rw [hc] at hn; simp at hn
    exact renderings_cart_none i this hx
  · intro h
    exact ⟨"cart", renderings_cart_some i h, by simp⟩

/-- C39: the request "all cart" is the reference with the phrase "cart" and
the index 0.  A position that `find_item` returns for it, from any start
index, holds a cart: none of the 24 renderings of an item without a cart is
"cart".  Every cart is matched: called with the position of a cart as the
start index, `find_item` returns that position. -/
theorem find_item_cart (e : Eq) (first : Nat) :
    ItemReference.ofString "all cart"
        = some { everything := false, original := "all cart",
                 refs := [{ what := "cart", amount := 0, index := 0 }], except := [] }
      ∧ (∀ n : Nat, e.find_item { what := "cart", amount := 0, index := 0 } first = (n : Int) →
          ∃ i c, e.Items[n]? = some i ∧ i.cart = some c)
      ∧ (∀ i : ItemType, i.cart = none → (renderings i).length = 24 ∧ "cart" ∉ renderings i)
      ∧ (∀ (p : Nat) (i : ItemType), e.Items[p]? = some i → i.cart.isSome = true →
          e.find_item { what := "cart", amount := 0, index := 0 } p = (p : Int)) := by
  refine ⟨by decide, ?_, ?_, ?_⟩
  · intro n hn
    unfold Eq.find_item at hn
    rcases find_item_from_cases { what := "cart", amount := 0, index := 0 } first e.Items 0 0
      with h1 | ⟨k, hk, _, _, i, hi, hm⟩
    · rw [h1] at hn; omega
    · rw [hk] at hn
      have hkn : k = n := by exact_mod_cast hn
      subst hkn
      rw [itemMatches_eq_phraseFits, phraseFits_cart] at hm
      obtain ⟨c, hc⟩ := Option.isSome_iff_exists.mp hm
      refine ⟨i, c, ?_, hc⟩
      simpa [List.get?_eq_getElem?] using hi
  · intro i hi
    refine ⟨?_, renderings_cart_none i hi⟩
    simp [renderings, List.flatMap]
  · intro p i hp hcart
    have hlt : p < e.Items.length := by
      rcases Nat.lt_or_ge p e.Items.length with h | h
      · exact h
      · rw [List.getElem?_eq_none h] at hp; simp at hp
    have hsplit : e.Items = e.Items.take p ++ i :: e.Items.drop (p + 1) := by
      have hgi : e.Items[p] = i := by
        rw [List.getElem?_eq_getElem hlt] at hp
        exact Option.some.inj hp
      rw [← hgi]
      exact (List.take_append_drop p e.Items).symm.trans
        (by rw [List.drop_eq_getElem_cons hlt])
    have hlen : (e.Items.take p).length = p := by
      rw [List.length_take]; omega
    have := find_item_greedy_hit { what := "cart", amount := 0, index := 0 } (Or.inl rfl) e
      (e.Items.take p) i (e.Items.drop (p + 1)) hsplit
      (by rw [itemMatches_eq_phraseFits, phraseFits_cart]; exact hcart)
    rw [hlen] at this
    exact this

/-! ## The seeds of the rooms -/

theorem clear_zero_stream (G : RandomStream) (e : Eq) (rnd : G.State) :
    (e.clear G 0 rnd).2 = rnd := by
  simp [Eq.clear, newItems]

theorem fillRoom_seed (G : RandomStream) (model : Room) (seed : Nat) (rnd : G.State) :
    (fillRoom G model seed rnd).1.seed < 4 := by
  simp only [fillRoom]
  exact Nat.mod_lt _ (by norm_num)

theorem fillRoom_wall (G : RandomStream) (model : Room) (seed : Nat) (rnd : G.State) :
    (fillRoom G model seed rnd).1.Wall
      = if (G.frand (wallStream G rnd)).1 > (if seed = model.seed then d095 else d01) then
          (if (G.frand (G.frand (wallStream G rnd)).2).1 < d04 then 2 else 0)
        else model.Wall := by
  simp only [fillRoom, wallStream, clear_zero_stream]
  split_ifs <;> rfl

theorem GenerateRoom_seedsTwoBit (G : RandomStream) (maze : Maze) (h : SeedsTwoBit maze)
    (x y : Int) (model : Room) (seed : Nat) (rnd : G.State) :
    SeedsTwoBit (maze.GenerateRoom G x y model seed rnd).2.1
      ∧ (maze.GenerateRoom G x y model seed rnd).1.seed < 4 := by
  cases hxy : maze.rooms x y with
  | some room =>
    rw [GenerateRoom_some G maze x y room hxy]
    exact ⟨h, h x y room hxy⟩
  | none =>
    rw [GenerateRoom_none G maze x y hxy]
    refine ⟨?_, fillRoom_seed G model seed _⟩
    intro a b r hr
    simp only at hr
    split_ifs at hr with hab
    · cases hr
      exact fillRoom_seed G model seed _
    · exact h a b r hr

theorem Spawn4rooms_unfold (G : RandomStream) (room : Room) (x y : Int) (st : Maze × G.State) :
    Spawn4rooms G room x y st
      = ([((x, y - 1), 1), ((x - 1, y), 2), ((x + 1, y), 3), ((x, y + 1), 4)] :
            List ((Int × Int) × Nat)).foldl
          (fun st c => (st.1.GenerateRoom G c.1.1 c.1.2 room c.2 st.2).2) st := by
  have e1 : x + 1 % 3 - 1 = x := by norm_num
  have e2 : y + 1 / 3 - 1 = y - 1 := by norm_num
  have e3 : x + 3 % 3 - 1 = x - 1 := by norm_num
  have e4 : y + 3 / 3 - 1 = y := by norm_num
  have e5 : x + 5 % 3 - 1 = x + 1 := by norm_num; ring
  have e6 : y + 5 / 3 - 1 = y := by norm_num
  have e7 : x + 7 % 3 - 1 = x := by norm_num
  have e8 : y + 7 / 3 - 1 = y + 1 := by norm_num; ring
  have s1 : (((1 : Int) + 1) / 2).toNat = 1 := by decide
  have s2 : (((3 : Int) + 1) / 2).toNat = 2 := by decide
  have s3 : (((5 : Int) + 1) / 2).toNat = 3 := by decide
  have s4 : (((7 : Int) + 1) / 2).toNat = 4 := by decide
  simp only [Spawn4rooms, List.foldl, e1, e2, e3, e4, e5, e6, e7, e8, s1, s2, s3, s4]

theorem Spawn4rooms_seedsTwoBit (G : RandomStream) (room : Room) (x y : Int)
    (st : Maze × G.State) (h : SeedsTwoBit st.1) :
    SeedsTwoBit (Spawn4rooms G room x y st).1 := by
  rw [Spawn4rooms_unfold]
  simp only [List.foldl]
  exact (GenerateRoom_seedsTwoBit G _
    (GenerateRoom_seedsTwoBit G _
      (GenerateRoom_seedsTwoBit G _
        (GenerateRoom_seedsTwoBit G _ h _ _ _ _ _).1 _ _ _ _ _).1 _ _ _ _ _).1 _ _ _ _ _).1

theorem spawnArm_seedsTwoBit (G : RandomStream) (room : Room) (x y dx dy : Int) :
    ∀ (steps : Nat) (o : Int) (st : Maze × G.State), SeedsTwoBit st.1 →
      SeedsTwoBit (spawnArm G room x y dx dy steps o st).1 := by
  intro steps
  induction steps with
  | zero => intro o st h; exact h
  | succ n ih =>
    intro o st h
    have h1 : SeedsTwoBit (CanMoveTo G st.1 (x + o * dx) (y + o * dy) room st.2).2.1 :=
      (GenerateRoom_seedsTwoBit G st.1 h _ _ room 0 st.2).1
    simp only [spawnArm]
    split_ifs
    · exact ih _ _ (Spawn4rooms_seedsTwoBit G room _ _ _ h1)
    · exact h1

theorem SpawnRooms_seedsTwoBit (G : RandomStream) (maze : Maze) (h : SeedsTwoBit maze)
    (x y : Int) (model : Room) (rnd : G.State) :
    SeedsTwoBit (SpawnRooms G maze x y model rnd).2.1
      ∧ (SpawnRooms G maze x y model rnd).1.seed < 4 := by
  have h0 := GenerateRoom_seedsTwoBit G maze h x y model 0 rnd
  refine ⟨?_, h0.2⟩
  simp only [SpawnRooms]
  exact spawnArm_seedsTwoBit G _ _ _ _ _ _ _ _
    (spawnArm_seedsTwoBit G _ _ _ _ _ _ _ _
      (spawnArm_seedsTwoBit G _ _ _ _ _ _ _ _
        (spawnArm_seedsTwoBit G _ _ _ _ _ _ _ _
          (Spawn4rooms_seedsTwoBit G _ _ _ _ h0.1))))

/-- C40: the stored seeds are two-bit and the comparison seed of the
neighbour to the south never matches.  A room that `GenerateRoom` fills has a
seed below 4; a maze all of whose rooms have a seed below 4 is again such a
maze after `GenerateRoom` and after `SpawnRooms`, and the room that
`SpawnRooms` uses as the model then has a seed below 4.  `Spawn4rooms` calls
`GenerateRoom` for the places `(x, y - 1)`, `(x - 1, y)`, `(x + 1, y)`,
`(x, y + 1)` with the comparison seeds 1, 2, 3, 4 in this order.  For a model
with a seed below 4 the comparison seed 4 gives the wall flag of the branch
that does not match: it is drawn again exactly when the draw is above 0.1,
and is the flag of the model otherwise. -/
theorem south_seed_never_matches (G : RandomStream) (maze : Maze) (hmaze : SeedsTwoBit maze)
    (x y : Int) (model : Room) (seed : Nat) (rnd : G.State) :
    (fillRoom G model seed rnd).1.seed < 4
      ∧ SeedsTwoBit (maze.GenerateRoom G x y model seed rnd).2.1
      ∧ SeedsTwoBit (SpawnRooms G maze x y model rnd).2.1
      ∧ (SpawnRooms G maze x y model rnd).1.seed < 4
      ∧ (∀ (room : Room) (st : Maze × G.State),
          Spawn4rooms G room x y st
            = ([((x, y - 1), 1), ((x - 1, y), 2), ((x + 1, y), 3), ((x, y + 1), 4)] :
                  List ((Int × Int) × Nat)).foldl
                (fun st c => (st.1.GenerateRoom G c.1.1 c.1.2 room c.2 st.2).2) st)
      ∧ (∀ room : Room, room.seed < 4 →
          (4 = room.seed) = False
            ∧ (fillRoom G room 4 rnd).1.Wall
                = if (G.frand (wallStream G rnd)).1 > d01 then
                    (if (G.frand (G.frand (wallStream G rnd)).2).1 < d04 then 2 else 0)
                  else room.Wall) := by
  refine ⟨fillRoom_seed G model seed rnd,
    (GenerateRoom_seedsTwoBit G maze hmaze x y model seed rnd).1,
    (SpawnRooms_seedsTwoBit G maze hmaze x y model rnd).1,
    (SpawnRooms_seedsTwoBit G maze hmaze x y model rnd).2,
    fun room st => Spawn4rooms_unfold G room x y st, ?_⟩
  intro room hroom
  have hne : ¬ (4 = room.seed) := by omega
  refine ⟨eq_false hne, ?_⟩
  rw [fillRoom_wall, if_neg hne]

/-! ## Where `SpawnRooms` makes rooms -/

theorem GenerateRoom_exists (G : RandomStream) (maze : Maze) (x y : Int) (model : Room)
    (seed : Nat) (rnd : G.State) :
    (maze.GenerateRoom G x y model seed rnd).2.1.rooms x y
      = some (maze.GenerateRoom G x y model seed rnd).1 := by
  cases hxy : maze.rooms x y with
  | some room => rw [GenerateRoom_some G maze x y room hxy]; exact hxy
  | none => rw [GenerateRoom_none G maze x y hxy]; simp

theorem GenerateRoom_new (G : RandomStream) (maze : Maze) (x y : Int) (model : Room)
    (seed : Nat) (rnd : G.State) (a b : Int) (h : maze.rooms a b = none)
    (hnew : (maze.GenerateRoom G x y model seed rnd).2.1.rooms a b ≠ none) :
    a = x ∧ b = y := by
  cases hxy : maze.rooms x y with
  | some room =>
    rw [GenerateRoom_some G maze x y room hxy] at hnew
    exact absurd h hnew
  | none =>
    rw [GenerateRoom_none G maze x y hxy] at hnew
    simp only at hnew
    by_contra hab
    rw [if_neg hab] at hnew
    exact hnew h

theorem Spawn4rooms_new (G : RandomStream) (room : Room) (x y : Int) (st : Maze × G.State)
    (a b : Int) (h : st.1.rooms a b = none)
    (hnew : (Spawn4rooms G room x y st).1.rooms a b ≠ none) : NextTo x y a b := by
  rw [Spawn4rooms_unfold] at hnew
  simp only [List.foldl] at hnew
  unfold NextTo
  by_cases h1 : (st.1.GenerateRoom G x (y - 1) room 1 st.2).2.1.rooms a b = none
  · by_cases h2 : ((st.1.GenerateRoom G x (y - 1) room 1 st.2).2.1.GenerateRoom G (x - 1) y
        room 2 (st.1.GenerateRoom G x (y - 1) room 1 st.2).2.2).2.1.rooms a b = none
    · by_cases h3 : (((st.1.GenerateRoom G x (y - 1) room 1 st.2).2.1.GenerateRoom G (x - 1) y
          room 2 (st.1.GenerateRoom G x (y - 1) room 1 st.2).2.2).2.1.GenerateRoom G (x + 1) y
          room 3 ((st.1.GenerateRoom G x (y - 1) room 1 st.2).2.1.GenerateRoom G (x - 1) y
          room 2 (st.1.GenerateRoom G x (y - 1) room 1 st.2).2.2).2.2).2.1.rooms a b = none
      · exact Or.inr (Or.inr (Or.inr (GenerateRoom_new G _ _ _ _ _ _ a b h3 hnew)))
      · exact Or.inr (Or.inr (Or.inl (GenerateRoom_new G _ _ _ _ _ _ a b h2 h3)))
    · exact Or.inr (Or.inl (GenerateRoom_new G _ _ _ _ _ _ a b h1 h2))
  · exact Or.inl (GenerateRoom_new G _ _ _ _ _ _ a b h h1)

theorem isSome_of_keepsRooms (m m' : Maze) (h : KeepsRooms m m') (a b : Int)
    (hab : (m.rooms a b).isSome) : (m'.rooms a b).isSome := by
  obtain ⟨r, hr⟩ := Option.isSome_iff_exists.mp hab
  rw [h a b r hr]
  rfl

theorem Spawn4rooms_exists (G : RandomStream) (room : Room) (x y : Int) (st : Maze × G.State)
    (a b : Int) (h : NextTo x y a b) : ((Spawn4rooms G room x y st).1.rooms a b).isSome := by
  rw [Spawn4rooms_unfold]
  simp only [List.foldl]
  rcases h with ⟨rfl, rfl⟩ | ⟨rfl, rfl⟩ | ⟨rfl, rfl⟩ | ⟨rfl, rfl⟩
  · refine isSome_of_keepsRooms _ _ (GenerateRoom_keepsRooms G _ _ _ _ _ _) _ _ ?_
    refine isSome_of_keepsRooms _ _ (GenerateRoom_keepsRooms G _ _ _ _ _ _) _ _ ?_
    refine isSome_of_keepsRooms _ _ (GenerateRoom_keepsRooms G _ _ _ _ _ _) _ _ ?_
    rw [GenerateRoom_exists]; rfl
  · refine isSome_of_keepsRooms _ _ (GenerateRoom_keepsRooms G _ _ _ _ _ _) _ _ ?_
    refine isSome_of_keepsRooms _ _ (GenerateRoom_keepsRooms G _ _ _ _ _ _) _ _ ?_
    rw [GenerateRoom_exists]; rfl
  · refine isSome_of_keepsRooms _ _ (GenerateRoom_keepsRooms G _ _ _ _ _ _) _ _ ?_
    rw [GenerateRoom_exists]; rfl
  · rw [GenerateRoom_exists]; rfl

theorem spawnArm_succ_true (G : RandomStream) (room : Room) (x y dx dy : Int) (steps : Nat)
    (o : Int) (st : Maze × G.State)
    (h : (st.1.GenerateRoom G (x + o * dx) (y + o * dy) room 0 st.2).1.Wall = 0) :
    spawnArm G room x y dx dy (steps + 1) o st
      = spawnArm G room x y dx dy steps (o + 1)
          (Spawn4rooms G room (x + o * dx) (y + o * dy)
            (st.1.GenerateRoom G (x + o * dx) (y + o * dy) room 0 st.2).2) := by
  simp only [spawnArm, CanMoveTo, h, beq_self_eq_true, if_true]

theorem spawnArm_succ_false (G : RandomStream) (room : Room) (x y dx dy : Int) (steps : Nat)
    (o : Int) (st : Maze × G.State)
    (h : (st.1.GenerateRoom G (x + o * dx) (y + o * dy) room 0 st.2).1.Wall ≠ 0) :
    spawnArm G room x y dx dy (steps + 1) o st
      = (st.1.GenerateRoom G (x + o * dx) (y + o * dy) room 0 st.2).2 := by
  have hb : ((st.1.GenerateRoom G (x + o * dx) (y + o * dy) room 0 st.2).1.Wall == 0) = false :=
    beq_eq_false_iff_ne.mpr h
  simp only [spawnArm, CanMoveTo, hb]
  rfl

/-- A room that an arm makes is a room of the arm or a room next to a free
room of the arm, and the rooms of the arm before it are free. -/
theorem spawnArm_new (G : RandomStream) (room : Room) (x y dx dy : Int) :
    ∀ (steps : Nat) (o : Int) (st : Maze × G.State) (mf : Maze),
      KeepsRooms (spawnArm G room x y dx dy steps o st).1 mf →
      ∀ a b, st.1.rooms a b = none →
        (spawnArm G room x y dx dy steps o st).1.rooms a b ≠ none →
        ∃ k : Int, o ≤ k ∧ k < o + steps
          ∧ (∀ j, o ≤ j → j < k → FreeAt mf (x + j * dx) (y + j * dy))
          ∧ ((a = x + k * dx ∧ b = y + k * dy)
              ∨ (FreeAt mf (x + k * dx) (y + k * dy)
                  ∧ NextTo (x + k * dx) (y + k * dy) a b)) := by
  intro steps
  induction steps with
  | zero =>
    intro o st mf _ a b h hnew
    exact absurd h hnew
  | succ n ih =>
    intro o st mf hkeep a b h hnew
    have hex := GenerateRoom_exists G st.1 (x + o * dx) (y + o * dy) room 0 st.2
    by_cases hw : (st.1.GenerateRoom G (x + o * dx) (y + o * dy) room 0 st.2).1.Wall = 0
    · rw [spawnArm_succ_true G room x y dx dy n o st hw] at hkeep hnew
      have hk1 : KeepsRooms (st.1.GenerateRoom G (x + o * dx) (y + o * dy) room 0 st.2).2.1 mf :=
        keepsRooms_trans _ _ _
          (keepsRooms_trans _ _ _ (Spawn4rooms_keepsRooms G room _ _ _)
            (spawnArm_keepsRooms G room x y dx dy n (o + 1) _)) hkeep
      have hfree : FreeAt mf (x + o * dx) (y + o * dy) := ⟨_, hk1 _ _ _ hex, hw⟩
      by_cases h1 : (st.1.GenerateRoom G (x + o * dx) (y + o * dy) room 0 st.2).2.1.rooms a b
          = none
      · by_cases h2 : (Spawn4rooms G room (x + o * dx) (y + o * dy)
            (st.1.GenerateRoom G (x + o * dx) (y + o * dy) room 0 st.2).2).1.rooms a b = none
        · obtain ⟨k, hk, hlt, hfr, hor⟩ := ih (o + 1) _ mf hkeep a b h2 hnew
          refine ⟨k, by omega, by push_cast; omega, ?_, hor⟩
          intro j hj hjk
          by_cases hjo : j = o
          · subst hjo; exact hfree
          · exact hfr j (by omega) hjk
        · exact ⟨o, le_refl _, by push_cast; omega, fun j hj hjo => absurd hj (by omega),
            Or.inr ⟨hfree, Spawn4rooms_new G room _ _ _ a b h1 h2⟩⟩
      · exact ⟨o, le_refl _, by push_cast; omega, fun j hj hjo => absurd hj (by omega),
          Or.inl (GenerateRoom_new G _ _ _ _ _ _ a b h h1)⟩
    · rw [spawnArm_succ_false G room x y dx dy n o st hw] at hnew
      exact ⟨o, le_refl _, by push_cast; omega, fun j hj hjo => absurd hj (by omega),
        Or.inl (GenerateRoom_new G _ _ _ _ _ _ a b h hnew)⟩

/-- While the rooms of an arm are free, the arm goes on: the four rooms next
to each of them are made. -/
theorem spawnArm_progress (G : RandomStream) (room : Room) (x y dx dy : Int) :
    ∀ (steps : Nat) (o : Int) (st : Maze × G.State) (mf : Maze),
      KeepsRooms (spawnArm G room x y dx dy steps o st).1 mf →
      ∀ k : Int, o ≤ k → k < o + steps →
        (∀ j, o ≤ j → j ≤ k → FreeAt mf (x + j * dx) (y + j * dy)) →
        ∀ a b, NextTo (x + k * dx) (y + k * dy) a b → (mf.rooms a b).isSome := by
  intro steps
  induction steps with
  | zero =>
    intro o st mf _ k hk hlt
    exact absurd hlt (by push_cast; omega)
  | succ n ih =>
    intro o st mf hkeep k hk hlt hfree a b hab
    have hex := GenerateRoom_exists G st.1 (x + o * dx) (y + o * dy) room 0 st.2
    obtain ⟨r, hr, hr0⟩ := hfree o (le_refl _) hk
    by_cases hw : (st.1.GenerateRoom G (x + o * dx) (y + o * dy) room 0 st.2).1.Wall = 0
    · rw [spawnArm_succ_true G room x y dx dy n o st hw] at hkeep
      by_cases hko : k = o
      · subst hko
        exact isSome_of_keepsRooms _ _
          (keepsRooms_trans _ _ _ (spawnArm_keepsRooms G room x y dx dy n (k + 1) _) hkeep) _ _
          (Spawn4rooms_exists G room _ _ _ a b hab)
      · exact ih (o + 1) _ mf hkeep k (by omega) (by push_cast at hlt; omega)
          (fun j hj hjk => hfree j (by omega) hjk) a b hab
    · rw [spawnArm_succ_false G room x y dx dy n o st hw] at hkeep
      have := hkeep _ _ _ hex
      rw [hr] at this
      cases this
      exact absurd hr0 hw

/-! ## The rooms after `SpawnRooms` -/

theorem free_not_wall (m : Maze) (a b : Int) (hf : FreeAt m a b) (hw : WallAt m a b) : False := by
  obtain ⟨r, hr, h0⟩ := hf
  obtain ⟨r', hr', h1⟩ := hw
  rw [hr] at hr'
  cases hr'
  exact h1 h0

theorem arms_cases (arm : Int × Int × Nat) (h : arm ∈ arms) :
    arm = (0, 1, 4) ∨ arm = (0, -1, 4) ∨ arm = (-1, 0, 5) ∨ arm = (1, 0, 5) := by
  simpa [arms] using h

/-- The four arms, one after the other: each keeps the rooms that were there,
and the maze at the end keeps the rooms that each arm leaves. -/
theorem arms_stage (G : RandomStream) (room : Room) (x y : Int) (st0 : Maze × G.State)
    (arm : Int × Int × Nat) (harm : arm ∈ arms) :
    ∃ st : Maze × G.State, KeepsRooms st0.1 st.1
      ∧ KeepsRooms (spawnArm G room x y arm.1 arm.2.1 arm.2.2 1 st).1
          (spawnArm G room x y 1 0 5 1
            (spawnArm G room x y (-1) 0 5 1
              (spawnArm G room x y 0 (-1) 4 1
                (spawnArm G room x y 0 1 4 1 st0)))).1 := by
  rcases arms_cases arm harm with rfl | rfl | rfl | rfl
  · exact ⟨st0, keepsRooms_refl _,
      keepsRooms_trans _ _ _ (spawnArm_keepsRooms G room x y _ _ _ _ _)
        (keepsRooms_trans _ _ _ (spawnArm_keepsRooms G room x y _ _ _ _ _)
          (spawnArm_keepsRooms G room x y _ _ _ _ _))⟩
  · exact ⟨_, spawnArm_keepsRooms G room x y 0 1 4 1 st0,
      keepsRooms_trans _ _ _ (spawnArm_keepsRooms G room x y _ _ _ _ _)
        (spawnArm_keepsRooms G room x y _ _ _ _ _)⟩
  · exact ⟨_, keepsRooms_trans _ _ _ (spawnArm_keepsRooms G room x y 0 1 4 1 st0)
        (spawnArm_keepsRooms G room x y 0 (-1) 4 1 _),
      spawnArm_keepsRooms G room x y _ _ _ _ _⟩
  · exact ⟨_, keepsRooms_trans _ _ _ (spawnArm_keepsRooms G room x y 0 1 4 1 st0)
        (keepsRooms_trans _ _ _ (spawnArm_keepsRooms G room x y 0 (-1) 4 1 _)
          (spawnArm_keepsRooms G room x y (-1) 0 5 1 _)),
      keepsRooms_refl _⟩

theorem arms_new (G : RandomStream) (room : Room) (x y : Int) (st0 : Maze × G.State)
    (a b : Int) (h : st0.1.rooms a b = none)
    (hnew : (spawnArm G room x y 1 0 5 1
            (spawnArm G room x y (-1) 0 5 1
              (spawnArm G room x y 0 (-1) 4 1
                (spawnArm G room x y 0 1 4 1 st0)))).1.rooms a b ≠ none) :
    ∃ arm ∈ arms, ∃ k : Int, 1 ≤ k ∧ k < 1 + arm.2.2
      ∧ (∀ j, 1 ≤ j → j < k →
          FreeAt (spawnArm G room x y 1 0 5 1
            (spawnArm G room x y (-1) 0 5 1
              (spawnArm G room x y 0 (-1) 4 1
                (spawnArm G room x y 0 1 4 1 st0)))).1 (x + j * arm.1) (y + j * arm.2.1))
      ∧ ((a = x + k * arm.1 ∧ b = y + k * arm.2.1)
          ∨ (FreeAt (spawnArm G room x y 1 0 5 1
              (spawnArm G room x y (-1) 0 5 1
                (spawnArm G room x y 0 (-1) 4 1
                  (spawnArm G room x y 0 1 4 1 st0)))).1 (x + k * arm.1) (y + k * arm.2.1)
              ∧ NextTo (x + k * arm.1) (y + k * arm.2.1) a b)) := by
  have k4 := spawnArm_keepsRooms G room x y 1 0 5 1
    (spawnArm G room x y (-1) 0 5 1
      (spawnArm G room x y 0 (-1) 4 1 (spawnArm G room x y 0 1 4 1 st0)))
  have k3 := spawnArm_keepsRooms G room x y (-1) 0 5 1
    (spawnArm G room x y 0 (-1) 4 1 (spawnArm G room x y 0 1 4 1 st0))
  have k2 := spawnArm_keepsRooms G room x y 0 (-1) 4 1 (spawnArm G room x y 0 1 4 1 st0)
  by_cases h1 : (spawnArm G room x y 0 1 4 1 st0).1.rooms a b = none
  · by_cases h2 : (spawnArm G room x y 0 (-1) 4 1
        (spawnArm G room x y 0 1 4 1 st0)).1.rooms a b = none
    · by_cases h3 : (spawnArm G room x y (-1) 0 5 1 (spawnArm G room x y 0 (-1) 4 1
          (spawnArm G room x y 0 1 4 1 st0))).1.rooms a b = none
      · exact ⟨(1, 0, 5), by simp [arms],
          spawnArm_new G room x y 1 0 5 1 _ _ (keepsRooms_refl _) a b h3 hnew⟩
      · exact ⟨(-1, 0, 5), by simp [arms],
          spawnArm_new G room x y (-1) 0 5 1 _ _ k4 a b h2 h3⟩
    · exact ⟨(0, -1, 4), by simp [arms],
        spawnArm_new G room x y 0 (-1) 4 1 _ _ (keepsRooms_trans _ _ _ k3 k4) a b h1 h2⟩
  · exact ⟨(0, 1, 4), by simp [arms],
      spawnArm_new G room x y 0 1 4 1 _ _
        (keepsRooms_trans _ _ _ k2 (keepsRooms_trans _ _ _ k3 k4)) a b h h1⟩

theorem SpawnRooms_maze (G : RandomStream) (maze : Maze) (x y : Int) (model : Room)
    (rnd : G.State) :
    (SpawnRooms G maze x y model rnd).2.1
      = (spawnArm G (maze.GenerateRoom G x y model 0 rnd).1 x y 1 0 5 1
          (spawnArm G (maze.GenerateRoom G x y model 0 rnd).1 x y (-1) 0 5 1
            (spawnArm G (maze.GenerateRoom G x y model 0 rnd).1 x y 0 (-1) 4 1
              (spawnArm G (maze.GenerateRoom G x y model 0 rnd).1 x y 0 1 4 1
                (Spawn4rooms G (maze.GenerateRoom G x y model 0 rnd).1 x y
                  (maze.GenerateRoom G x y model 0 rnd).2))))).1 := rfl

theorem SpawnRooms_keeps_centre (G : RandomStream) (maze : Maze) (x y : Int) (model : Room)
    (rnd : G.State) :
    KeepsRooms (Spawn4rooms G (maze.GenerateRoom G x y model 0 rnd).1 x y
        (maze.GenerateRoom G x y model 0 rnd).2).1 (SpawnRooms G maze x y model rnd).2.1 := by
  rw [SpawnRooms_maze]
  exact keepsRooms_trans _ _ _ (spawnArm_keepsRooms G _ x y _ _ _ _ _)
    (keepsRooms_trans _ _ _ (spawnArm_keepsRooms G _ x y _ _ _ _ _)
      (keepsRooms_trans _ _ _ (spawnArm_keepsRooms G _ x y _ _ _ _ _)
        (spawnArm_keepsRooms G _ x y _ _ _ _ _)))

/-- The room at the place of `SpawnRooms` and the four rooms next to it are
there afterwards. -/
theorem SpawnRooms_centre (G : RandomStream) (maze : Maze) (x y : Int) (model : Room)
    (rnd : G.State) (a b : Int) (h : (a = x ∧ b = y) ∨ NextTo x y a b) :
    ((SpawnRooms G maze x y model rnd).2.1.rooms a b).isSome := by
  refine isSome_of_keepsRooms _ _ (SpawnRooms_keeps_centre G maze x y model rnd) a b ?_
  rcases h with ⟨rfl, rfl⟩ | h
  · refine isSome_of_keepsRooms _ _ (Spawn4rooms_keepsRooms G _ _ _ _) _ _ ?_
    rw [GenerateRoom_exists]; rfl
  · exact Spawn4rooms_exists G _ x y _ a b h

/-- A room that `SpawnRooms` makes is at the place itself, next to it, on an
arm behind free rooms only, or next to a free room of an arm behind free
rooms only. -/
theorem SpawnRooms_new (G : RandomStream) (maze : Maze) (x y : Int) (model : Room)
    (rnd : G.State) (a b : Int) (h : maze.rooms a b = none)
    (hnew : (SpawnRooms G maze x y model rnd).2.1.rooms a b ≠ none) :
    (a = x ∧ b = y) ∨ NextTo x y a b
      ∨ ∃ arm ∈ arms, ∃ k : Int, 1 ≤ k ∧ k < 1 + arm.2.2
          ∧ (∀ j, 1 ≤ j → j < k →
              FreeAt (SpawnRooms G maze x y model rnd).2.1 (x + j * arm.1) (y + j * arm.2.1))
          ∧ ((a = x + k * arm.1 ∧ b = y + k * arm.2.1)
              ∨ (FreeAt (SpawnRooms G maze x y model rnd).2.1 (x + k * arm.1) (y + k * arm.2.1)
                  ∧ NextTo (x + k * arm.1) (y + k * arm.2.1) a b)) := by
  by_cases h0 : (maze.GenerateRoom G x y model 0 rnd).2.1.rooms a b = none
  · by_cases h1 : (Spawn4rooms G (maze.GenerateRoom G x y model 0 rnd).1 x y
        (maze.GenerateRoom G x y model 0 rnd).2).1.rooms a b = none
    · rw [SpawnRooms_maze] at hnew ⊢
      exact Or.inr (Or.inr (arms_new G _ x y _ a b h1 hnew))
    · exact Or.inr (Or.inl (Spawn4rooms_new G _ x y _ a b h0 h1))
  · exact Or.inl (GenerateRoom_new G maze x y model 0 rnd a b h h0)

/-- While the rooms of an arm of `SpawnRooms` are free, the four rooms next
to each of them are there afterwards. -/
theorem SpawnRooms_progress (G : RandomStream) (maze : Maze) (x y : Int) (model : Room)
    (rnd : G.State) (arm : Int × Int × Nat) (harm : arm ∈ arms) (k : Int) (hk : 1 ≤ k)
    (hlt : k < 1 + arm.2.2)
    (hfree : ∀ j, 1 ≤ j → j ≤ k →
      FreeAt (SpawnRooms G maze x y model rnd).2.1 (x + j * arm.1) (y + j * arm.2.1))
    (a b : Int) (hab : NextTo (x + k * arm.1) (y + k * arm.2.1) a b) :
    ((SpawnRooms G maze x y model rnd).2.1.rooms a b).isSome := by
  obtain ⟨st, _, hkeep⟩ := arms_stage G (maze.GenerateRoom G x y model 0 rnd).1 x y
    (Spawn4rooms G (maze.GenerateRoom G x y model 0 rnd).1 x y
      (maze.GenerateRoom G x y model 0 rnd).2) arm harm
  rw [SpawnRooms_maze] at hfree ⊢
  exact spawnArm_progress G _ x y arm.1 arm.2.1 arm.2.2 1 st _ hkeep k hk hlt hfree a b hab

/-- C32: the rooms that one call of `SpawnRooms` makes are near.  For every
maze, place `(x, y)`, model and stream, a place `(a, b)` without a room before
the call and with a room after it has `|a - x| ≤ 1` and `|b - y| ≤ 5`, or
`|b - y| ≤ 1` and `|a - x| ≤ 6`; and after the call there are rooms at
`(x, y)`, `(x, y - 1)`, `(x - 1, y)`, `(x + 1, y)` and `(x, y + 1)`. -/
theorem SpawnRooms_viewport (G : RandomStream) (maze : Maze) (x y : Int) (model : Room)
    (rnd : G.State) :
    (∀ a b, maze.rooms a b = none → (SpawnRooms G maze x y model rnd).2.1.rooms a b ≠ none →
        (|a - x| ≤ 1 ∧ |b - y| ≤ 5) ∨ (|b - y| ≤ 1 ∧ |a - x| ≤ 6))
      ∧ ((SpawnRooms G maze x y model rnd).2.1.rooms x y).isSome
      ∧ ((SpawnRooms G maze x y model rnd).2.1.rooms x (y - 1)).isSome
      ∧ ((SpawnRooms G maze x y model rnd).2.1.rooms (x - 1) y).isSome
      ∧ ((SpawnRooms G maze x y model rnd).2.1.rooms (x + 1) y).isSome
      ∧ ((SpawnRooms G maze x y model rnd).2.1.rooms x (y + 1)).isSome := by
  refine ⟨?_, SpawnRooms_centre G maze x y model rnd _ _ (Or.inl ⟨rfl, rfl⟩),
    SpawnRooms_centre G maze x y model rnd _ _ (Or.inr (Or.inl ⟨rfl, rfl⟩)),
    SpawnRooms_centre G maze x y model rnd _ _ (Or.inr (Or.inr (Or.inl ⟨rfl, rfl⟩))),
    SpawnRooms_centre G maze x y model rnd _ _ (Or.inr (Or.inr (Or.inr (Or.inl ⟨rfl, rfl⟩)))),
    SpawnRooms_centre G maze x y model rnd _ _ (Or.inr (Or.inr (Or.inr (Or.inr ⟨rfl, rfl⟩))))⟩
  intro a b h hnew
  simp only [abs_le]
  rcases SpawnRooms_new G maze x y model rnd a b h hnew with hc | hn | ⟨arm, harm, k, hk, hlt, _, hor⟩
  · omega
  · unfold NextTo at hn
    omega
  · unfold NextTo at hor
    rcases arms_cases arm harm with rfl | rfl | rfl | rfl <;> simp only at hlt hor <;>
      push_cast at hlt <;> omega

/-! ## An arm stops at the first wall -/

theorem arm_step_nextTo (x y : Int) (arm : Int × Int × Nat) (harm : arm ∈ arms) (k : Int) :
    NextTo (x + (k - 1) * arm.1) (y + (k - 1) * arm.2.1) (x + k * arm.1) (y + k * arm.2.1) := by
  unfold NextTo
  rcases arms_cases arm harm with rfl | rfl | rfl | rfl <;> simp only <;> omega

theorem arm_rooms_free (G : RandomStream) (maze : Maze) (x y : Int) (model : Room)
    (rnd : G.State) (arm : Int × Int × Nat) (harm : arm ∈ arms) (o : Int) (hoL : o ≤ arm.2.2)
    (hfirst : ∀ k : Int, 1 ≤ k → k < o →
      ¬ WallAt (SpawnRooms G maze x y model rnd).2.1 (x + k * arm.1) (y + k * arm.2.1)) :
    ∀ (n : Nat) (k : Int), 1 ≤ k → k ≤ n → k < o →
      FreeAt (SpawnRooms G maze x y model rnd).2.1 (x + k * arm.1) (y + k * arm.2.1) := by
  intro n
  induction n with
  | zero => intro k h1 h0; exact absurd h1 (by push_cast at h0; omega)
  | succ n ih =>
    intro k h1 hn hko
    by_cases hkn : k ≤ n
    · exact ih k h1 hkn hko
    · have hex : ((SpawnRooms G maze x y model rnd).2.1.rooms
          (x + k * arm.1) (y + k * arm.2.1)).isSome := by
        by_cases hk1 : k = 1
        · subst hk1
          refine SpawnRooms_centre G maze x y model rnd _ _ (Or.inr ?_)
          have := arm_step_nextTo x y arm harm 1
          simpa using this
        · exact SpawnRooms_progress G maze x y model rnd arm harm (k - 1) (by omega) (by omega)
            (fun j hj hjk => ih j hj (by push_cast at hn; omega) (by omega)) _ _
            (arm_step_nextTo x y arm harm k)
      obtain ⟨r, hr⟩ := Option.isSome_iff_exists.mp hex
      by_cases hw : r.Wall = 0
      · exact ⟨r, hr, hw⟩
      · exact absurd ⟨r, hr, hw⟩ (hfirst k h1 hko)

/-- C31: an arm stops at the first wall.  `SpawnRooms` is called for the
place `(x, y)` in a maze without rooms; `arm` is one of the four arms, with the
steps `(0, 1)` and `(0, -1)` and at most 4 rooms, or `(-1, 0)` and `(1, 0)`
and at most 5 rooms.  If afterwards the place at the distance `o` on the arm
holds a wall, `1 ≤ o` and `o` at most the number of the arm, and no place of
the arm at a distance from 1 below `o` holds a wall, then no place of the arm
at a distance above `o` holds a room, the places of the arm at the distances
from 1 below `o` hold free rooms, and the four places next to every place of
the arm at a distance below `o`, the place `(x, y)` among them, hold rooms. -/
theorem arm_stops_at_wall (G : RandomStream) (x y : Int) (model : Room) (rnd : G.State)
    (arm : Int × Int × Nat) (harm : arm ∈ arms) (o : Int) (ho1 : 1 ≤ o) (hoL : o ≤ arm.2.2)
    (hfirst : ∀ k : Int, 1 ≤ k → k < o →
      ¬ WallAt (SpawnRooms G emptyMaze x y model rnd).2.1 (x + k * arm.1) (y + k * arm.2.1))
    (hwall : WallAt (SpawnRooms G emptyMaze x y model rnd).2.1
      (x + o * arm.1) (y + o * arm.2.1)) :
    (∀ k : Int, o < k →
        (SpawnRooms G emptyMaze x y model rnd).2.1.rooms (x + k * arm.1) (y + k * arm.2.1)
          = none)
      ∧ (∀ k : Int, 1 ≤ k → k < o →
          FreeAt (SpawnRooms G emptyMaze x y model rnd).2.1 (x + k * arm.1) (y + k * arm.2.1))
      ∧ (∀ k : Int, 0 ≤ k → k < o → ∀ a b : Int,
          NextTo (x + k * arm.1) (y + k * arm.2.1) a b →
          ((SpawnRooms G emptyMaze x y model rnd).2.1.rooms a b).isSome) := by
  have hfree : ∀ k : Int, 1 ≤ k → k < o →
      FreeAt (SpawnRooms G emptyMaze x y model rnd).2.1 (x + k * arm.1) (y + k * arm.2.1) :=
    fun k h1 hko =>
      arm_rooms_free G emptyMaze x y model rnd arm harm o hoL hfirst k.toNat k h1
        (by omega) hko
  refine ⟨?_, hfree, ?_⟩
  · intro k hk
    by_contra hnew
    rcases SpawnRooms_new G emptyMaze x y model rnd _ _ rfl hnew with
      hc | hn | ⟨arm', harm', k', hk', hlt', hfr', hor'⟩
    · rcases arms_cases arm harm with rfl | rfl | rfl | rfl <;> simp only at hc <;> omega
    · unfold NextTo at hn
      rcases arms_cases arm harm with rfl | rfl | rfl | rfl <;> simp only at hn <;> omega
    · by_cases hsame : arm' = arm
      · subst hsame
        have hko : k' ≤ o := by
          by_contra hlt
          exact free_not_wall _ _ _ (hfr' o ho1 (by omega)) hwall
        rcases hor' with he | ⟨hf, hn⟩
        · rcases arms_cases arm' harm with rfl | rfl | rfl | rfl <;> simp only at he <;> omega
        · have hne : k' ≠ o := by
            intro e
            rw [e] at hf
            exact free_not_wall _ _ _ hf hwall
          unfold NextTo at hn
          rcases arms_cases arm' harm with rfl | rfl | rfl | rfl <;> simp only at hn <;> omega
      · have hcoord : (x + k * arm.1 = x + k' * arm'.1 ∧ y + k * arm.2.1 = y + k' * arm'.2.1)
            ∨ NextTo (x + k' * arm'.1) (y + k' * arm'.2.1) (x + k * arm.1) (y + k * arm.2.1) := by
          rcases hor' with he | ⟨_, hn⟩
          · exact Or.inl he
          · exact Or.inr hn
        unfold NextTo at hcoord
        rcases arms_cases arm harm with rfl | rfl | rfl | rfl <;>
          rcases arms_cases arm' harm' with rfl | rfl | rfl | rfl <;>
          first
            | exact absurd rfl hsame
            | (simp only at hcoord; omega)
  · intro k hk0 hko a b hab
    by_cases hk : k = 0
    · subst hk
      refine SpawnRooms_centre G emptyMaze x y model rnd a b (Or.inr ?_)
      simpa using hab
    · exact SpawnRooms_progress G emptyMaze x y model rnd arm harm k (by omega) (by omega)
        (fun j hj hjk => hfree j hj (by omega)) a b hab

/-! ## The indices of the items stay in the tables -/

theorem newItem_bounds (G : RandomStream) (hrand : ∀ n s, 0 < n → (G.rand n s).1 < n)
    (rnd : G.State) :
    (newItem G rnd).1.type < 13 ∧ (newItem G rnd).1.build < 12
      ∧ (newItem G rnd).1.condition < 7
      ∧ ((biasDraws G rnd).1 ≤ d04 → (newItem G rnd).1.type < 4)
      ∧ ((biasDraws G rnd).2.1 ≤ d04 → (newItem G rnd).1.build < 2)
      ∧ ((biasDraws G rnd).2.2 ≤ d08 → (newItem G rnd).1.condition < 3) := by
  have l1 : ItemTypes.length = 13 := rfl
  have l2 : BuildTypes.length = 12 := rfl
  have l3 : CondTypes.length = 7 := rfl
  simp only [newItem, biasDraws, l1, l2, l3]
  refine ⟨?_, ?_, ?_, ?_, ?_, ?_⟩
  · split_ifs
    · exact hrand 13 _ (by norm_num)
    · exact lt_trans (hrand 4 _ (by norm_num)) (by norm_num)
  · split_ifs
    all_goals first
      | exact hrand 12 _ (by norm_num)
      | exact lt_trans (hrand 2 _ (by norm_num)) (by norm_num)
  · split_ifs
    all_goals first
      | exact hrand 7 _ (by norm_num)
      | exact lt_trans (hrand 3 _ (by norm_num)) (by norm_num)
  · intro h
    rw [if_neg (not_lt.mpr h)]
    exact hrand 4 _ (by norm_num)
  · intro h
    rw [if_neg (not_lt.mpr h)]
    exact hrand 2 _ (by norm_num)
  · intro h
    rw [if_neg (not_lt.mpr h)]
    exact hrand 3 _ (by norm_num)

theorem newItem_inBounds (G : RandomStream) (hrand : ∀ n s, 0 < n → (G.rand n s).1 < n)
    (rnd : G.State) : (newItem G rnd).1.InBounds :=
  ⟨(newItem_bounds G hrand rnd).1, (newItem_bounds G hrand rnd).2.1,
    (newItem_bounds G hrand rnd).2.2.1⟩

theorem newItems_inBounds (G : RandomStream) (hrand : ∀ n s, 0 < n → (G.rand n s).1 < n) :
    ∀ (n : Nat) (rnd : G.State), ∀ i ∈ (newItems G n rnd).1, i.InBounds := by
  intro n
  induction n with
  | zero => intro rnd i hi; simp [newItems] at hi
  | succ n ih =>
    intro rnd i hi
    simp only [newItems, List.mem_cons] at hi
    rcases hi with rfl | hi
    · exact newItem_inBounds G hrand rnd
    · exact ih _ i hi

theorem clear_allInBounds (G : RandomStream) (hrand : ∀ n s, 0 < n → (G.rand n s).1 < n)
    (e : Eq) (h : e.AllInBounds) (n : Nat) (rnd : G.State) : (e.clear G n rnd).1.AllInBounds := by
  intro i hi
  simp only [Eq.clear, Eq.Items, List.mem_append] at hi
  rcases hi with hi | hi
  · exact h i (List.mem_of_mem_take hi)
  · exact newItems_inBounds G hrand _ _ i hi

theorem clear_zero_items (G : RandomStream) (e : Eq) (rnd : G.State) :
    (e.clear G 0 rnd).1.Items = [] := by
  simp [Eq.clear, Eq.Items, newItems]

theorem cons_allInBounds (e : Eq) (h : e.AllInBounds) (i : ItemType) (hi : i.InBounds) :
    (Eq.mk (i :: e.Items) e.Money).AllInBounds := by
  intro j hj
  simp only [Eq.Items, List.mem_cons] at hj
  rcases hj with rfl | hj
  · exact hi
  · exact h j hj

theorem ite_allInBounds {S : Type} (c : Prop) [Decidable c] (a b : Eq × S)
    (ha : a.1.AllInBounds) (hb : b.1.AllInBounds) : (if c then a else b).1.AllInBounds := by
  split_ifs
  · exact ha
  · exact hb

theorem fillRoom_allInBounds (G : RandomStream)
    (hrand : ∀ n s, 0 < n → (G.rand n s).1 < n) (model : Room) (seed : Nat) (rnd : G.State) :
    (fillRoom G model seed rnd).1.items.AllInBounds := by
  have h0 : (model.items.clear G 0 rnd).1.AllInBounds := by
    intro i hi
    rw [clear_zero_items] at hi
    exact absurd hi (List.not_mem_nil i)
  unfold fillRoom
  dsimp only
  refine ite_allInBounds _ _ _ (cons_allInBounds _ ?_ _ (newItem_inBounds G hrand _)) ?_
  all_goals
    refine ite_allInBounds _ _ _
      (cons_allInBounds _ (clear_allInBounds G hrand _ h0 _ _) _ (newItem_inBounds G hrand _))
      (clear_allInBounds G hrand _ h0 _ _)

theorem burstStep_allInBounds (G : RandomStream)
    (hrand : ∀ n s, 0 < n → (G.rand n s).1 < n) (items : Eq) (h : items.AllInBounds)
    (rnd : G.State) : (burstStep G items rnd).1.AllInBounds := by
  unfold burstStep
  dsimp only
  refine ite_allInBounds _ _ _ ?_ (cons_allInBounds _ h _ (newItem_inBounds G hrand _))
  dsimp only
  split_ifs
  · exact h
  · exact h

theorem burstLoop_allInBounds (G : RandomStream)
    (hrand : ∀ n s, 0 < n → (G.rand n s).1 < n) :
    ∀ (fuel : Nat) (items : Eq) (rnd : G.State) (r : Eq × G.State), items.AllInBounds →
      burstLoop G fuel items rnd = some r → r.1.AllInBounds := by
  intro fuel
  induction fuel with
  | zero => intro items rnd r _ hr; simp [burstLoop] at hr
  | succ n ih =>
    intro items rnd r h hr
    simp only [burstLoop] at hr
    split_ifs at hr
    · exact ih _ _ r (burstStep_allInBounds G hrand items h rnd) hr
    · cases hr
      exact burstStep_allInBounds G hrand items h rnd

theorem burst_allInBounds (G : RandomStream) (hrand : ∀ n s, 0 < n → (G.rand n s).1 < n)
    (fuel : Nat) (items : Eq) (chest_no : Nat) (rnd : G.State) (r : Eq × G.State)
    (h : items.AllInBounds) (hr : burst G fuel items chest_no rnd = some r) :
    r.1.AllInBounds :=
  burstLoop_allInBounds G hrand fuel (.mk (items.Items.eraseIdx chest_no) items.Money) rnd r
    (fun i (hi : i ∈ items.Items.eraseIdx chest_no) =>
      h i ((List.eraseIdx_sublist _ _).subset hi)) hr

theorem damageItem_erases (eq : Eq) (item_no : Nat) (item : ItemType)
    (h : eq.Items[item_no]? = some item) (hc : item.condition + 1 = 7) :
    damageItem eq item_no = .mk (eq.Items.eraseIdx item_no) eq.Money := by
  have l3 : CondTypes.length = 7 := rfl
  simp only [damageItem, h, hc, l3]
  rfl

theorem damageItem_keeps (eq : Eq) (item_no : Nat) (item : ItemType)
    (h : eq.Items[item_no]? = some item) (hc : item.condition + 1 < 7) :
    damageItem eq item_no
      = .mk (eq.Items.set item_no { item with condition := item.condition + 1 }) eq.Money := by
  have l3 : CondTypes.length = 7 := rfl
  have hmod : (item.condition + 1) % 2 ^ 64 = item.condition + 1 :=
    Nat.mod_eq_of_lt (by omega)
  simp only [damageItem, h, hmod, l3]
  rw [if_neg (by omega)]

theorem damageItem_allInBounds (eq : Eq) (h : eq.AllInBounds) (item_no : Nat) :
    (damageItem eq item_no).AllInBounds := by
  cases hi : eq.Items[item_no]? with
  | none =>
    simp only [damageItem, hi]
    exact h
  | some item =>
    have hb := h item (List.getElem?_mem hi)
    have hlt : item.condition < 7 := hb.2.2
    by_cases hc : item.condition + 1 = 7
    · rw [damageItem_erases eq item_no item hi hc]
      exact fun i (hi : i ∈ eq.Items.eraseIdx item_no) =>
        h i ((List.eraseIdx_sublist _ _).subset hi)
    · rw [damageItem_keeps eq item_no item hi (by omega)]
      intro i hi
      have hi : i ∈ eq.Items.set item_no { item with condition := item.condition + 1 } := hi
      rcases List.mem_or_eq_of_mem_set hi with hi | rfl
      · exact h i hi
      · exact ⟨hb.1, hb.2.1, by show item.condition + 1 < 7; omega⟩

theorem move_allInBounds (me target : Eq) (what : ItemReference) (hme : me.AllInBounds)
    (htarget : target.AllInBounds) :
    (me.move target what).2.1.AllInBounds ∧ (me.move target what).2.2.AllInBounds := by
  have hperm := (moveDepth_conserved 1 me target what).1
  have hall : ∀ i ∈ (me.move target what).2.1.Items ++ (me.move target what).2.2.Items,
      i.InBounds := by
    intro i hi
    have := hperm.subset hi
    rcases List.mem_append.mp this with h | h
    · exact hme i h
    · exact htarget i h
  exact ⟨fun i hi => hall i (List.mem_append_left _ hi),
    fun i hi => hall i (List.mem_append_right _ hi)⟩

/-- C36: the indices of the items stay in the tables, for a stream whose
`rand n` gives a number below `n`.  The tables have 13, 12 and 7 entries.  A
new item has a type below 13, a build below 12 and a condition below 7; the
type is below 4 when the first of its three deciding draws is at most 0.4,
the build below 2 when the second is at most 0.4, the condition below 3 when
the third is at most 0.8.  Every item of a room that `GenerateRoom` fills has
its indices in the tables.  The damage step of `Open` erases the implement
when the condition plus one is 7 and stores the condition plus one otherwise,
so the list gets shorter exactly when the condition plus one is 7.  The
damage step, the bursting of a chest and `move` take containers whose items
have their indices in the tables to such containers, and for an item with its
indices in the tables the three lookups find an entry. -/
theorem indices_in_bounds (G : RandomStream) (hrand : ∀ n s, 0 < n → (G.rand n s).1 < n) :
    (ItemTypes.length = 13 ∧ BuildTypes.length = 12 ∧ CondTypes.length = 7)
      ∧ (∀ rnd : G.State,
          (newItem G rnd).1.type < 13 ∧ (newItem G rnd).1.build < 12
            ∧ (newItem G rnd).1.condition < 7
            ∧ ((biasDraws G rnd).1 ≤ d04 → (newItem G rnd).1.type < 4)
            ∧ ((biasDraws G rnd).2.1 ≤ d04 → (newItem G rnd).1.build < 2)
            ∧ ((biasDraws G rnd).2.2 ≤ d08 → (newItem G rnd).1.condition < 3))
      ∧ (∀ (model : Room) (seed : Nat) (rnd : G.State),
          (fillRoom G model seed rnd).1.items.AllInBounds)
      ∧ (∀ (eq : Eq) (item_no : Nat) (item : ItemType), eq.AllInBounds →
          eq.Items[item_no]? = some item →
          (item.condition + 1 = 7 →
              damageItem eq item_no = .mk (eq.Items.eraseIdx item_no) eq.Money)
            ∧ (item.condition + 1 ≠ 7 →
              item.condition + 1 < 7
                ∧ damageItem eq item_no
                  = .mk (eq.Items.set item_no { item with condition := item.condition + 1 })
                      eq.Money)
            ∧ ((damageItem eq item_no).Items.length < eq.Items.length
                ↔ item.condition + 1 = 7)
            ∧ (damageItem eq item_no).AllInBounds)
      ∧ (∀ (fuel : Nat) (items : Eq) (chest_no : Nat) (rnd : G.State) (r : Eq × G.State),
          items.AllInBounds → burst G fuel items chest_no rnd = some r → r.1.AllInBounds)
      ∧ (∀ (me target : Eq) (what : ItemReference), me.AllInBounds → target.AllInBounds →
          (me.move target what).2.1.AllInBounds ∧ (me.move target what).2.2.AllInBounds)
      ∧ (∀ i : ItemType, i.InBounds →
          (ItemTypes[i.type]?).isSome ∧ (BuildTypes[i.build]?).isSome
            ∧ (CondTypes[i.condition]?).isSome) := by
  refine ⟨⟨rfl, rfl, rfl⟩, newItem_bounds G hrand, fillRoom_allInBounds G hrand, ?_,
    fun fuel items chest_no rnd r h hr => burst_allInBounds G hrand fuel items chest_no rnd r h hr,
    fun me target what => move_allInBounds me target what, ?_⟩
  · intro eq item_no item hall hi
    have hlt : item.condition < 7 := (hall item (List.getElem?_mem hi)).2.2
    have hlen : item_no < eq.Items.length := by
      by_contra hge
      rw [List.getElem?_eq_none (by omega)] at hi
      cases hi
    refine ⟨damageItem_erases eq item_no item hi, ?_, ?_, damageItem_allInBounds eq hall item_no⟩
    · intro hne
      exact ⟨by omega, damageItem_keeps eq item_no item hi (by omega)⟩
    · constructor
      · intro hshort
        by_contra hne
        rw [damageItem_keeps eq item_no item hi (by omega)] at hshort
        have hshort :
            (eq.Items.set item_no { item with condition := item.condition + 1 }).length
              < eq.Items.length := hshort
        rw [List.length_set] at hshort
        exact lt_irrefl _ hshort
      · intro hc
        rw [damageItem_erases eq item_no item hi hc]
        show (eq.Items.eraseIdx item_no).length < eq.Items.length
        have := List.length_eraseIdx_add_one hlen
        omega
  · intro i hi
    exact ⟨by rw [List.getElem?_eq_getElem hi.1]; rfl,
      by rw [List.getElem?_eq_getElem hi.2.1]; rfl,
      by rw [List.getElem?_eq_getElem hi.2.2]; rfl⟩

/-! ## The chest that bursts -/

/-- C33: a chest that bursts can hold nothing.  The chest is erased from the
items of the room; when the first draw is above 0.96, so that coins are
chosen, the number of coins drawn is 0 and the draw that ends the loop is at
most 0.3, the room has after `Open` the items it had without the chest and
the money it had: no item and no coin is gained, where the source says of the
loop that there is at least one item inside. -/
theorem burst_without_contents (G : RandomStream) (items : Eq) (chest_no fuel : Nat)
    (rnd : G.State) (u v w : ℚ × G.State) (n : Nat × G.State)
    (hu : G.frand rnd = u) (hcoins : d096 < u.1) (hv : G.frand u.2 = v)
    (hn : G.rand (burstSize (burstMoneyType v.1)) v.2 = n) (hzero : n.1 = 0)
    (hw : G.frand n.2 = w) (hstop : w.1 ≤ d03) :
    burst G (fuel + 1) items chest_no rnd
      = some (.mk (items.Items.eraseIdx chest_no) items.Money, w.2) := by
  have hstep : burstStep G (.mk (items.Items.eraseIdx chest_no) items.Money) rnd
      = (.mk (items.Items.eraseIdx chest_no) items.Money, n.2) := by
    unfold burstStep
    simp only [hu, hv, hn, hzero, if_pos hcoins, Nat.cast_zero, add_zero,
      Function.update_eq_self, Eq.Items, Eq.Money, dite_eq_ite, ite_self]
  unfold burst
  rw [burstLoop]
  simp only [hstep, hw, if_neg (not_lt.mpr hstop)]

/-! ## Moved items go to the front of the target: which items -/

theorem Sweep.push_moved (round : Nat) (w : SingleReference) (i : ItemType) (s : Sweep)
    (hi : itemMatches w i = true)
    (h : ∀ j ∈ s.moved, j.immovable = false ∧ itemMatches w j = true) :
    ∀ j ∈ (s.push round i).moved, j.immovable = false ∧ itemMatches w j = true := by
  unfold Sweep.push
  by_cases hr : round = 2
  · by_cases him : i.immovable = true
    · simp only [hr, him, if_true]; exact h
    · simp only [hr, him, if_true, if_false, Bool.false_eq_true]
      intro j hj
      rcases List.mem_cons.mp hj with rfl | hj
      · exact ⟨by simpa using him, hi⟩
      · exact h j hj
  · simp only [hr, if_false]; exact h

/-- The items that the item loop moves are movable items that the reference
fits. -/
theorem itemLoop_taken (w : SingleReference) (round : Nat) :
    ∀ (fuel : Nat) (st : MoveState) (pre rest : List ItemType) (rem : Int) (found : Bool),
      st.me.Items = pre ++ rest →
      ∃ s : Sweep, Interleave rest s.kept s.moved
        ∧ (∀ j ∈ s.moved, j.immovable = false ∧ itemMatches w j = true)
        ∧ (itemLoop w round fuel st pre.length rem found).1 = applySweep st pre s := by
  intro fuel
  induction fuel with
  | zero =>
    intro st pre rest rem found h
    exact ⟨⟨rest, [], [], rem, found⟩, Interleave.all_kept rest, fun j hj => absurd hj (by simp),
      (applySweep_rest st pre rest rem found h).symm⟩
  | succ fuel ih =>
    intro st pre rest rem found h
    rcases find_item_from_cases w pre.length st.me.Items 0 0 with
      hnone | ⟨n, hn, _, hge, i, hi, hfit⟩
    · rw [itemLoop_notfound w round fuel st pre.length rem found hnone]
      exact ⟨⟨rest, [], [], rem, found⟩, Interleave.all_kept rest,
        fun j hj => absurd hj (by simp), (applySweep_rest st pre rest rem found h).symm⟩
    · have hi' : rest[n - pre.length]? = some i := by
        have : st.me.Items[n]? = some i := by simpa using hi
        rw [h, List.getElem?_append_right hge] at this
        exact this
      obtain ⟨r1, r2, hrest, hlen⟩ := split_at_index rest (n - pre.length) i hi'
      have hitems : st.me.Items = (pre ++ r1) ++ i :: r2 := by rw [h, hrest]; simp
      have hn' : n = (pre ++ r1).length := by simp [hlen]; omega
      rw [itemLoop_found w round fuel st pre.length rem found n hn, hn']
      obtain ⟨pre', hnx, hpos, hpush⟩ := next_state round st (pre ++ r1) i r2 hitems
      generalize (if round = 2 then takeItem st (pre ++ r1).length
        else (st, (pre ++ r1).length + 1)) = nx at hnx hpos hpush ⊢
      have wrap : ∀ s' : Sweep, Interleave r2 s'.kept s'.moved →
          (∀ j ∈ s'.moved, j.immovable = false ∧ itemMatches w j = true) →
          ∃ s : Sweep, Interleave rest s.kept s.moved
            ∧ (∀ j ∈ s.moved, j.immovable = false ∧ itemMatches w j = true)
            ∧ applySweep nx.1 pre' s' = applySweep st pre s := by
        intro s' hs' hm'
        refine ⟨{ (s'.push round i) with kept := r1 ++ (s'.push round i).kept }, ?_, ?_, ?_⟩
        · rw [hrest]
          exact Interleave.keep_front r1 (Sweep.push_interleave round i s' hs')
        · exact Sweep.push_moved round w i s' hfit hm'
        · rw [← hpush s', applySweep_front]
      by_cases h0 : w.index = 0
      · rw [if_pos h0, hpos]
        obtain ⟨s', hs', hm', heq⟩ := ih nx.1 pre' r2 rem true hnx
        rw [heq]
        exact wrap s' hs' hm'
      · rw [if_neg h0]
        by_cases hr : rem - 1 ≤ 0
        · rw [if_pos hr]
          have := wrap ⟨r2, [], [], rem, found⟩ (Interleave.all_kept r2)
            (fun j hj => absurd hj (by simp))
          rw [applySweep_rest nx.1 pre' r2 rem found hnx] at this
          exact this
        · rw [if_neg hr, hpos]
          obtain ⟨s', hs', hm', heq⟩ := ih nx.1 pre' r2 (rem - 1) true hnx
          rw [heq]
          exact wrap s' hs' hm'

theorem moveItems_taken (w : SingleReference) (st : MoveState) :
    ∃ s : Sweep, Interleave st.me.Items s.kept s.moved
      ∧ (∀ j ∈ s.moved, j.immovable = false ∧ itemMatches w j = true)
      ∧ (moveItems w st).1 = applySweep st [] s := by
  unfold moveItems
  dsimp only
  generalize (if w.amount ≠ 0 then w.amount else 1) = rem
  have h1 := itemLoop_round1_state w (st.me.Items.length + 1) st 0 rem false
  by_cases hc : (itemLoop w 1 (st.me.Items.length + 1) st 0 rem false).2.2 = true ∧ w.index ≠ 0
      ∧ (itemLoop w 1 (st.me.Items.length + 1) st 0 rem false).2.1 > 0
  · rw [if_pos hc]
    exact ⟨⟨st.me.Items, [], [], rem, false⟩, Interleave.all_kept _,
      fun j hj => absurd hj (by simp),
      by rw [h1]; exact (applySweep_rest st [] st.me.Items rem false (by simp)).symm⟩
  · rw [if_neg hc]
    dsimp only
    rw [h1]
    exact itemLoop_taken w 2 (st.me.Items.length + 1) st [] st.me.Items rem _ (by simp)

/-- What the money loop adds to the list `moved` are reports of piles of
coins, each of a positive number of coins. -/
theorem moneyLoop_coins (w : SingleReference) (round : Nat) :
    ∀ (fuel : Nat) (st : MoveState) (money_id : Nat) (rem : Int) (found : Bool),
      ∃ coins, (moneyLoop w round fuel st money_id rem found).1.result.moved
          = st.result.moved ++ coins
        ∧ ∀ c ∈ coins, ∃ (g : Int) (d : Fin 6), 0 < g ∧ c = shownMoney g d := by
  intro fuel
  induction fuel with
  | zero => intro st _ _ _; exact ⟨[], by simp [moneyLoop], fun c hc => absurd hc (by simp)⟩
  | succ fuel ih =>
    intro st money_id rem found
    rw [moneyLoop]
    cases st.me.findMoney? w money_id with
    | none => exact ⟨[], by simp, fun c hc => absurd hc (by simp)⟩
    | some m =>
      dsimp only
      by_cases hg : min rem (st.me.Money m) ≤ 0
      · rw [if_pos hg]; exact ⟨[], by simp, fun c hc => absurd hc (by simp)⟩
      · rw [if_neg hg]
        have hst1 : ∃ coins, (if round = 2 then takeMoney st m (min rem (st.me.Money m))
              else st).result.moved = st.result.moved ++ coins
            ∧ ∀ c ∈ coins, ∃ (g : Int) (d : Fin 6), 0 < g ∧ c = shownMoney g d := by
          by_cases hr : round = 2
          · rw [if_pos hr]
            refine ⟨[shownMoney (min rem (st.me.Money m)) m], rfl, ?_⟩
            intro c hc
            rw [List.mem_singleton] at hc
            exact ⟨_, m, not_le.mp hg, hc⟩
          · rw [if_neg hr]; exact ⟨[], by simp, fun c hc => absurd hc (by simp)⟩
        split
        · exact hst1
        · obtain ⟨c1, hc1, hp1⟩ := hst1
          obtain ⟨c2, hc2, hp2⟩ := ih
            (if round = 2 then takeMoney st m (min rem (st.me.Money m)) else st)
            (if round = 2 then m.val else m.val + 1) (rem - min rem (st.me.Money m)) true
          refine ⟨c1 ++ c2, by rw [hc2, hc1, List.append_assoc], ?_⟩
          intro c hc
          rcases List.mem_append.mp hc with h | h
          · exact hp1 c h
          · exact hp2 c h

theorem moveMoney_coins (w : SingleReference) (st : MoveState) :
    ∃ coins, (moveMoney w st).1.result.moved = st.result.moved ++ coins
      ∧ ∀ c ∈ coins, ∃ (g : Int) (d : Fin 6), 0 < g ∧ c = shownMoney g d := by
  unfold moveMoney
  dsimp only
  generalize (if w.amount ≠ 0 then w.amount else 0x7FFFFFFF) = rem
  have h1 := moneyLoop_coins w 1 7 st 0 rem false
  split
  · exact h1
  · obtain ⟨c1, hc1, hp1⟩ := h1
    obtain ⟨c2, hc2, hp2⟩ := moneyLoop_coins w 2 7 (moneyLoop w 1 7 st 0 rem false).1 0
      rem (moneyLoop w 1 7 st 0 rem false).2.2
    refine ⟨c1 ++ c2, by rw [hc2, hc1, List.append_assoc], ?_⟩
    intro c hc
    rcases List.mem_append.mp hc with h | h
    · exact hp1 c h
    · exact hp2 c h

theorem interleave_length {l kept taken : List ItemType} (h : Interleave l kept taken) :
    l.length = kept.length + taken.length := by
  induction h with
  | nil => rfl
  | keep x _ ih => simp only [List.length_cons, ih]; omega
  | take x _ ih => simp only [List.length_cons, ih]; omega

/-- C8 (moved items go to the front of the target): for a request of one
reference and no except clause that is committed (nothing is reported as not
found and something is reported as moved), there are the list `taken` of the
items moved and the list `coins` of the piles of coins reported, such that:
the container afterwards is its previous sequence with exactly the items
`taken` deleted and the order of the rest unchanged, `taken` being in the
order of the positions; the target afterwards is `taken` in reverse order
followed by its previous items; the list `moved` is the names of `taken`
followed by `coins`; every entry of `coins` is the report of a positive
number of coins, which is the name of no item; every item of `taken` is
movable and fits the reference; `taken` is not empty as soon as `moved` holds
the name of an item; and the container has lost as many items as `taken`
holds. -/
theorem move_to_front (me target : Eq) (w : SingleReference) (everything : Bool)
    (original : String)
    (hnf : (me.move target
      { everything := everything, original := original, refs := [w], except := [] }).1.notfound
        = [])
    (hmoved : (me.move target
      { everything := everything, original := original, refs := [w], except := [] }).1.moved
        ≠ []) :
    ∃ taken coins,
      Interleave me.Items (me.move target
        { everything := everything, original := original, refs := [w], except := [] }).2.1.Items
        taken
      ∧ (me.move target
        { everything := everything, original := original, refs := [w], except := [] }).2.2.Items
          = taken.reverse ++ target.Items
      ∧ (me.move target
        { everything := everything, original := original, refs := [w], except := [] }).1.moved
          = taken.map shownName ++ coins
      ∧ (∀ c ∈ coins, (∃ (g : Int) (d : Fin 6), 0 < g ∧ c = shownMoney g d)
          ∧ ∀ i : ItemType, c ≠ shownName i)
      ∧ (∀ i ∈ taken, i.immovable = false ∧ itemMatches w i = true)
      ∧ ((∃ i : ItemType, shownName i ∈ (me.move target
          { everything := everything, original := original, refs := [w], except := [] }).1.moved)
          → 1 ≤ taken.length)
      ∧ me.Items.length = (me.move target
          { everything := everything, original := original, refs := [w],
            except := [] }).2.1.Items.length + taken.length := by
  rw [Eq.move, moveDepth_no_except 1 me target _ rfl] at hnf hmoved ⊢
  simp only [List.foldl_cons, List.foldl_nil] at hnf hmoved ⊢
  obtain ⟨s, hs, htaken, hitems⟩ := moveItems_taken w ⟨me, target, {}⟩
  obtain ⟨coins, hcoins, hpile⟩ := moveMoney_coins w (moveItems w ⟨me, target, {}⟩).1
  obtain ⟨hmi, hti⟩ := moveMoney_items w (moveItems w ⟨me, target, {}⟩).1
  have hone : (moveOne everything ⟨me, target, {}⟩ w).me
        = (moveMoney w (moveItems w ⟨me, target, {}⟩).1).1.me
      ∧ (moveOne everything ⟨me, target, {}⟩ w).target
        = (moveMoney w (moveItems w ⟨me, target, {}⟩).1).1.target
      ∧ (moveOne everything ⟨me, target, {}⟩ w).result.moved
        = (moveMoney w (moveItems w ⟨me, target, {}⟩).1).1.result.moved := by
    unfold moveOne
    dsimp only
    split <;> exact ⟨rfl, rfl, rfl⟩
  generalize moveOne everything ⟨me, target, {}⟩ w = fin at hnf hmoved hone ⊢
  have hfin_nf : fin.result.notfound = [] := by
    by_contra hc
    rw [finishMove_notfound me target fin hc] at hnf
    exact hc hnf
  have hfinish : finishMove me target fin = (fin.result, fin.me, fin.target) := by
    unfold finishMove at hmoved ⊢
    dsimp only at hmoved ⊢
    rw [if_neg (show ¬ fin.result.notfound ≠ [] by simp [hfin_nf])] at hmoved ⊢
    by_cases hm : fin.result.moved = []
    · rw [if_pos hm] at hmoved; exact absurd hm hmoved
    · rw [if_neg hm]
  rw [hfinish]
  have hkept : Interleave me.Items fin.me.Items s.moved := by
    rw [hone.1, hmi, hitems]
    simpa [applySweep] using hs
  have hlist : fin.result.moved = s.moved.map shownName ++ coins := by
    rw [hone.2.2, hcoins, hitems]
    simp [applySweep]
  have hnoname : ∀ c ∈ coins, ∀ i : ItemType, c ≠ shownName i := by
    intro c hc i heq
    obtain ⟨g, d, hg, hcg⟩ := hpile c hc
    exact shownName_ne_shownMoney i g hg d (heq.symm.trans hcg)
  refine ⟨s.moved, coins, hkept, ?_, hlist, fun c hc => ⟨hpile c hc, hnoname c hc⟩, htaken, ?_,
    interleave_length hkept⟩
  · show fin.target.Items = _
    rw [hone.2.1, hti, hitems]
    simp [applySweep]
  · rintro ⟨i, hi⟩
    have hi : shownName i ∈ fin.result.moved := hi
    rw [hlist] at hi
    rcases List.mem_append.mp hi with h | h
    · cases hsm : s.moved with
      | nil => rw [hsm] at h; simp at h
      | cons a l => simp
    · exact absurd rfl (hnoname _ h i)

/-! ## Instances on the sample containers -/

theorem move_atomic_witness :
    (sampleFloor.move samplePocket { refs := [{ what := "shirts", amount := 4 }] }).1.notfound ≠ []
      ∧ ((sampleFloor.move samplePocket { refs := [{ what := "shirts", amount := 4 }] }).2.1
            = sampleFloor
          ∧ (sampleFloor.move samplePocket { refs := [{ what := "shirts", amount := 4 }] }).2.2
            = samplePocket
          ∧ (sampleFloor.move samplePocket { refs := [{ what := "shirts", amount := 4 }] }).1.moved
            = []) :=
  ⟨by decide, move_atomic sampleFloor samplePocket _ (by decide)⟩

theorem move_insufficient_witness :
    sampleFloor.move samplePocket
        { everything := false, original := "4 shirts",
          refs := [{ what := "shirts", amount := 4, index := 1 }], except := [] }
      = ({ moved := [], notfound := ["shirts"], immovable := [] }, sampleFloor, samplePocket) :=
  move_insufficient sampleFloor samplePocket { what := "shirts", amount := 4, index := 1 }
    "4 shirts" (by decide) (by decide) (by decide) (by decide) (by decide)

theorem find_item_positional_witness :
    1 ≤ 2 ∧ sampleFloor.find_item { what := "shirt", amount := 0, index := 2 } 0 = 3 :=
  ⟨by decide, (find_item_positional sampleFloor "shirt" 0 2 (by decide)).trans (by decide)⟩

theorem find_item_greedy_witness :
    sampleFloor.find_item { what := "shirts", amount := 2, index := 1 } 1 = 3
      ∧ findAll sampleFloor { what := "shirts", amount := 2, index := 1 } 6 0 = [0, 3, 4] :=
  ⟨by
    rcases (find_item_greedy sampleFloor { what := "shirts", amount := 2, index := 1 } 1
      (Or.inr (by decide))).1 with ⟨h, _⟩ | ⟨a, i, h, _⟩
    · exact absurd h (by decide)
    · exact (by decide : sampleFloor.find_item { what := "shirts", amount := 2, index := 1 } 1 = 3),
   (find_item_greedy sampleFloor { what := "shirts", amount := 2, index := 1 } 1
      (Or.inr (by decide))).2.2.2.trans (by decide)⟩

theorem move_to_front_witness :
    ∃ taken coins,
      Interleave sampleFloor.Items (sampleFloor.move samplePocket
        { everything := false, original := "2 shirts",
          refs := [{ what := "shirts", amount := 2, index := 1 }], except := [] }).2.1.Items taken
      ∧ (sampleFloor.move samplePocket
        { everything := false, original := "2 shirts",
          refs := [{ what := "shirts", amount := 2, index := 1 }], except := [] }).2.2.Items
          = taken.reverse ++ samplePocket.Items
      ∧ (sampleFloor.move samplePocket
        { everything := false, original := "2 shirts",
          refs := [{ what := "shirts", amount := 2, index := 1 }], except := [] }).1.moved
          = taken.map shownName ++ coins
      ∧ (∀ c ∈ coins, (∃ (g : Int) (d : Fin 6), 0 < g ∧ c = shownMoney g d)
          ∧ ∀ i : ItemType, c ≠ shownName i)
      ∧ (∀ i ∈ taken, i.immovable = false
          ∧ itemMatches { what := "shirts", amount := 2, index := 1 } i = true)
      ∧ ((∃ i : ItemType, shownName i ∈ (sampleFloor.move samplePocket
          { everything := false, original := "2 shirts",
            refs := [{ what := "shirts", amount := 2, index := 1 }], except := [] }).1.moved)
          → 1 ≤ taken.length)
      ∧ sampleFloor.Items.length = (sampleFloor.move samplePocket
          { everything := false, original := "2 shirts",
            refs := [{ what := "shirts", amount := 2, index := 1 }],
            except := [] }).2.1.Items.length + taken.length :=
  move_to_front sampleFloor samplePocket { what := "shirts", amount := 2, index := 1 } false
    "2 shirts" (by decide) (by decide)

/-! ## Instances of the parser theorems -/

theorem ofString_article_kept_witness :
    ItemReference.ofString ("the" ++ " " ++ "everything")
      = some { everything := false, original := "the" ++ " " ++ "everything",
               refs := [{ what := "the" ++ " " ++ "everything", amount := 0, index := 1 }],
               except := [] } :=
  ofString_article_kept "the" (by decide) "everything" (by decide)

theorem ParseSingleReference_count_witness :
    ParseSingleReference ⟨"3".data ++ ' ' :: "shirts".data⟩
        = some { what := "shirts", amount := digitsValue "3".data, index := 1 }
      ∧ ParseSingleReference (Numerals1to12.getD (2 - 1) "" ++ " " ++ "shirts")
        = some { what := "shirts", amount := ((2 : Nat) : Int), index := 1 } :=
  ⟨(ParseSingleReference_count "shirts" (by decide) (by decide)).1 "3".data (by decide)
      (by decide) (by decide),
    (ParseSingleReference_count "shirts" (by decide) (by decide)).2.1 2 (by decide)
      (by decide)⟩

theorem gold_shirt_no_index (pre k : List Char) (hk : k ≠ [])
    (hdig : ∀ c ∈ k, c.isDigit = true) : "gold shirt".data ≠ pre ++ ' ' :: k := by
  intro heq
  have hlast : "gold shirt".data.getLast? = some 't' := by decide
  rw [heq] at hlast
  cases k with
  | nil => exact absurd rfl hk
  | cons d ds =>
    cases hx : (d :: ds).getLast? with
    | none => simp at hx
    | some x =>
      rw [List.getLast?_append, List.getLast?_cons_cons, hx] at hlast
      simp only [Option.or_some, Option.some.injEq] at hlast
      have hmem : x ∈ d :: ds := List.mem_of_getLast?_eq_some hx
      rw [hlast] at hmem
      exact absurd (hdig 't' hmem) (by decide)

theorem ParseSingleReference_forms_witness :
    ParseSingleReference ("all " ++ "shirts")
        = some { what := "shirts", amount := 0, index := 0 }
      ∧ ParseSingleReference ⟨"shirt".data ++ ' ' :: "2".data⟩
        = some { what := "shirt", amount := 0, index := digitsValue "2".data }
      ∧ ParseSingleReference "gold shirt"
        = some { what := "gold shirt", amount := 0, index := 1 } :=
  ⟨ParseSingleReference_forms.1 "shirts" (by decide) (by decide),
    ParseSingleReference_forms.2.1 "shirt" "2".data (by decide) (by decide) (by decide)
      (by decide) (by decide) (by decide) (by decide) (by decide) (by decide),
    ParseSingleReference_forms.2.2 "gold shirt" (by decide) (by decide) (by decide)
      (by decide) gold_shirt_no_index⟩

theorem ParseReferences_join_witness :
    ParseReferences []
        ⟨joinParts "awesome gold shirt".data
          [(", ".data, "2 chests".data), (" and ".data, "sword 2".data)]⟩
      = (("awesome gold shirt".data
            :: [(", ".data, "2 chests".data), (" and ".data, "sword 2".data)].map Prod.snd).mapM
          (fun q => ParseSingleReference ⟨q⟩)).map (fun l => [] ++ l) :=
  (ParseReferences_join [] "awesome gold shirt".data
    [(", ".data, "2 chests".data), (" and ".data, "sword 2".data)] (by decide)
    (by decide)).1

theorem ofString_except_witness :
    ItemReference.ofString ("sword, 2 shirts" ++ " except " ++ "gold shirt")
      = (ItemReference.ofString "sword, 2 shirts").bind (fun r =>
          (ParseReferences [] "gold shirt").map (fun ex => { r with except := ex })) :=
  (ofString_except "sword, 2 shirts" "gold shirt" (by decide) (by decide) (by decide)
    (by decide) (by decide)).1

theorem Pluralize_rules_witness : Pluralize "wolf" = ⟨pluralRule "wolf".data⟩ :=
  (Pluralize_rules "wolf" (by decide) (by decide)).1

/-! ## Instances of the theorems on moving coins and immovable items -/

theorem move_reports_immovable_witness :
    shownName goodChest ∈ (sampleFloor.move samplePocket
        { everything := false, original := "chest",
          refs := [{ what := "chest", amount := 0, index := 1 }], except := [] }).1.immovable
      ∧ shownName goodChest ∉ (sampleFloor.move samplePocket
        { everything := false, original := "chest",
          refs := [{ what := "chest", amount := 0, index := 1 }], except := [] }).1.moved :=
  move_reports_immovable sampleFloor samplePocket
    { everything := false, original := "chest",
      refs := [{ what := "chest", amount := 0, index := 1 }], except := [] }
    rfl [] [] { what := "chest", amount := 0, index := 1 } rfl 1 goodChest (by decide) rfl
    (by decide) (Or.inr (by decide))

/-! ## Instances of the theorems on names, articles and rooms -/

theorem Pluralize_keeps_placeholder_witness : Pluralize "glass" = "glass" ++ "\x01" :=
  (Pluralize_keeps_placeholder "glass" (by decide) (by decide)).1

theorem Pluralize_clause_witness :
    Pluralize ("potato" ++ " of gold") = Pluralize "potato" ++ " of gold" :=
  (Pluralize_clause "potato" " of gold" (by decide) (by decide) (by decide) (by decide)
    (by decide) (by decide) (by decide)).1

theorem AddArticle_forms_witness :
    AddArticle "an  apple" false = "an " ++ RemoveArticle "an  apple"
      ∧ AddArticle "the shirt" false = "a " ++ RemoveArticle "the shirt"
      ∧ RemoveArticle "an  apple" = ⟨"apple".data⟩
      ∧ RemoveArticle "another shirt" = "another shirt" :=
  ⟨((AddArticle_forms "an  apple").2.1 (by decide)).1 (by decide),
    ((AddArticle_forms "the shirt").2.1 (by decide)).2 (by decide),
    (AddArticle_forms "an  apple").2.2.1 "an" (by decide) 1 "apple".data (by decide)
      (by decide),
    (AddArticle_forms "another shirt").2.2.2 (by decide)⟩

theorem name_treasure_witness :
    goldShirt.name 1 2 = "awesome" ++ " " ++ "shirt" ++ " made of " ++ "gold" :=
  (name_treasure goldShirt rfl (by decide) "shirt" "gold" "awesome" (by decide) (by decide)
    (by decide)).2.2.2.2.2.2.2.2.1

theorem name_chest_cart_witness :
    dentedChest.name 0 2 = "chest (" ++ dentedChest.GetCondition ++ ")"
      ∧ emptyCart.name 0 1 = "cart (" ++ emptyCart.GetCondition ++ ")" :=
  ⟨((name_chest_cart dentedChest 2).1 (by decide) rfl).2.2.1 (by decide),
    ((name_chest_cart emptyCart 1).2 _ rfl (by decide)).2.1⟩

theorem weight_value_witness :
    (goodChest.weight = 999 ∧ goodChest.value = 0)
      ∧ |furLeggings.weight - exactWeight furLeggings| ≤ exactWeight furLeggings / 2 ^ 23
      ∧ |furLeggings.value - exactValue furLeggings| ≤ exactValue furLeggings / 2 ^ 22 :=
  ⟨(weight_value goodChest).1 (Or.inl (by decide)),
    ((weight_value furLeggings).2.1 ⟨by decide, rfl⟩).2.2.1,
    ((weight_value furLeggings).2.1 ⟨by decide, rfl⟩).2.2.2⟩

theorem GenerateRoom_existing_witness :
    (twoRooms.GenerateRoom quietStream 0 1 defaultroom 2 ()).1 = { Env := 3 }
      ∧ (twoRooms.GenerateRoom quietStream 0 1 defaultroom 2 ()).2.1 = twoRooms :=
  GenerateRoom_existing quietStream twoRooms 0 1 { Env := 3 } rfl defaultroom 2 ()

theorem GenerateRoom_deterministic_witness :
    (twoRooms.GenerateRoom quietStream 1 2 defaultroom 3 ()).1
      = (emptyMaze.GenerateRoom quietStream 1 2 defaultroom 3 ()).1 :=
  (GenerateRoom_deterministic quietStream twoRooms emptyMaze () () 1 2 defaultroom 3 rfl rfl).1

theorem SpawnRooms_models_witness :
    ∃ k, k ≤ 4
      ∧ ({ Wall := 0, Env := 1, seed := 3,
           items := .mk [emptyCart, goodChest] (fun _ => 0) } : Room)
        = (fillRoom quietStream (SpawnRooms quietStream twoRooms 0 0 defaultroom ()).1 k
            (quietStream.seed (roomSeed 1 2))).1 :=
  (SpawnRooms_models quietStream twoRooms 0 0 defaultroom () 1 2 _ rfl (by decide)
    (by with_unfolding_all rfl)).2

/-! ## Instances of the theorems on rooms, chests and `move` -/

theorem arm_stops_at_wall_witness :
    WallAt (SpawnRooms (scriptStream wallAtTwo) emptyMaze 0 0 defaultroom []).2.1 0 2
      ∧ (SpawnRooms (scriptStream wallAtTwo) emptyMaze 0 0 defaultroom []).2.1.rooms 0 3 = none
      ∧ FreeAt (SpawnRooms (scriptStream wallAtTwo) emptyMaze 0 0 defaultroom []).2.1 0 1
      ∧ ((SpawnRooms (scriptStream wallAtTwo) emptyMaze 0 0 defaultroom []).2.1.rooms
          1 1).isSome := by
  set_option maxRecDepth 100000 in
  have hwall : WallAt (SpawnRooms (scriptStream wallAtTwo) emptyMaze 0 0 defaultroom []).2.1
      0 2 := ⟨_, by with_unfolding_all rfl, by with_unfolding_all decide⟩
  have hfirst : ∀ k : Int, 1 ≤ k → k < 2 →
      ¬ WallAt (SpawnRooms (scriptStream wallAtTwo) emptyMaze 0 0 defaultroom []).2.1
        (0 + k * (0, 1, 4).1) (0 + k * (0, 1, 4).2.1) := by
    intro k h1 h2
    have hk : k = 1 := by omega
    subst hk
    rintro ⟨r, hr, hw⟩
    have e : ((SpawnRooms (scriptStream wallAtTwo) emptyMaze 0 0 defaultroom []).2.1.rooms
        (0 + 1 * (0, 1, 4).1) (0 + 1 * (0, 1, 4).2.1)).map Room.Wall = some 0 := by
      with_unfolding_all decide
    rw [hr] at e
    exact hw (Option.some.inj e)
  exact ⟨hwall,
    (arm_stops_at_wall (scriptStream wallAtTwo) 0 0 defaultroom [] (0, 1, 4) (by decide) 2
      (by decide) (by decide) hfirst hwall).1 3 (by decide),
    (arm_stops_at_wall (scriptStream wallAtTwo) 0 0 defaultroom [] (0, 1, 4) (by decide) 2
      (by decide) (by decide) hfirst hwall).2.1 1 (by decide) (by decide),
    (arm_stops_at_wall (scriptStream wallAtTwo) 0 0 defaultroom [] (0, 1, 4) (by decide) 2
      (by decide) (by decide) hfirst hwall).2.2 1 (by decide) (by decide) 1 1
      (Or.inr (Or.inr (Or.inl ⟨by decide, by decide⟩)))⟩

theorem SpawnRooms_viewport_witness :
    ((SpawnRooms quietStream twoRooms 0 0 defaultroom ()).2.1.rooms 0 0).isSome
      ∧ ((SpawnRooms quietStream twoRooms 0 0 defaultroom ()).2.1.rooms 0 (0 - 1)).isSome :=
  ⟨(SpawnRooms_viewport quietStream twoRooms 0 0 defaultroom ()).2.1,
    (SpawnRooms_viewport quietStream twoRooms 0 0 defaultroom ()).2.2.1⟩

theorem burst_without_contents_witness :
    burst (scriptStream (fun _ => [])) (0 + 1) (.mk [goodChest] (fun _ => 0)) 0 emptyBurst
      = some (.mk ([goodChest].eraseIdx 0) (fun _ => 0), []) :=
  burst_without_contents (scriptStream (fun _ => [])) (.mk [goodChest] (fun _ => 0)) 0 0
    emptyBurst (mkRat 97 100, [mkRat 1 2, 0]) (mkRat 1 2, [0]) (0, []) (0, [0]) rfl
    (by with_unfolding_all decide) rfl rfl rfl rfl (by with_unfolding_all decide)

theorem move_terminates_witness :
    moveRun 13 sampleFloor samplePocket
        { everything := true, original := "all",
          refs := [{ what := "", amount := 0, index := 0 }], except := [] }
      = some (sampleFloor.move samplePocket
          { everything := true, original := "all",
            refs := [{ what := "", amount := 0, index := 0 }], except := [] }) :=
  (move_terminates sampleFloor samplePocket
    { everything := true, original := "all",
      refs := [{ what := "", amount := 0, index := 0 }], except := [] } 13 (by decide)).1

theorem indices_in_bounds_witness :
    (newItem quietStream ()).1.type < 13 ∧ (newItem quietStream ()).1.build < 12
      ∧ (newItem quietStream ()).1.condition < 7 :=
  ⟨((indices_in_bounds quietStream (fun _ _ h => h)).2.1 ()).1,
    ((indices_in_bounds quietStream (fun _ _ h => h)).2.1 ()).2.1,
    ((indices_in_bounds quietStream (fun _ _ h => h)).2.1 ()).2.2.1⟩

theorem move_conserves_witness :
    ((sampleFloor.moveLong samplePocket
        { everything := true, original := "all",
          refs := [{ what := "", amount := 0, index := 0 }], except := [] }).2.1.Items
      ++ (sampleFloor.moveLong samplePocket
        { everything := true, original := "all",
          refs := [{ what := "", amount := 0, index := 0 }], except := [] }).2.2.Items).Perm
        (sampleFloor.Items ++ samplePocket.Items)
      ∧ ∀ d, (sampleFloor.moveLong samplePocket
          { everything := true, original := "all",
            refs := [{ what := "", amount := 0, index := 0 }], except := [] }).2.1.Money d
        + (sampleFloor.moveLong samplePocket
          { everything := true, original := "all",
            refs := [{ what := "", amount := 0, index := 0 }], except := [] }).2.2.Money d
        = sampleFloor.Money d + samplePocket.Money d :=
  ⟨(move_conserves sampleFloor samplePocket
    { everything := true, original := "all",
      refs := [{ what := "", amount := 0, index := 0 }], except := [] }
    (by unfold FitsLong Eq.InLong; decide)).1,
   (move_conserves sampleFloor samplePocket
    { everything := true, original := "all",
      refs := [{ what := "", amount := 0, index := 0 }], except := [] }
    (by unfold FitsLong Eq.InLong; decide)).2.1⟩

theorem move_one_way_witness :
    samplePocket.Items <:+ (sampleFloor.moveLong samplePocket
        { everything := true, original := "all",
          refs := [{ what := "", amount := 0, index := 0 }], except := [] }).2.2.Items
      ∧ ∀ d, samplePocket.Money d ≤ (sampleFloor.moveLong samplePocket
        { everything := true, original := "all",
          refs := [{ what := "", amount := 0, index := 0 }], except := [] }).2.2.Money d :=
  ⟨(move_one_way sampleFloor samplePocket
    { everything := true, original := "all",
      refs := [{ what := "", amount := 0, index := 0 }], except := [] } rfl
    (by unfold FitsLong Eq.InLong; decide)).1,
   (move_one_way sampleFloor samplePocket
    { everything := true, original := "all",
      refs := [{ what := "", amount := 0, index := 0 }], except := [] } rfl
    (by unfold FitsLong Eq.InLong; decide)).2.1⟩

theorem find_item_cart_witness :
    (Eq.mk [goldShirt, emptyCart] (fun _ => 0)).find_item
        { what := "cart", amount := 0, index := 0 } 1 = ((1 : Nat) : Int) :=
  (find_item_cart (.mk [goldShirt, emptyCart] (fun _ => 0)) 1).2.2.2 1 emptyCart rfl rfl

theorem south_seed_never_matches_witness :
    (fillRoom quietStream defaultroom 4 ()).1.seed < 4
      ∧ SeedsTwoBit (SpawnRooms quietStream emptyMaze 0 0 defaultroom ()).2.1 :=
  ⟨(south_seed_never_matches quietStream emptyMaze (fun _ _ _ h => nomatch h) 0 0
      defaultroom 4 ()).1,
    (south_seed_never_matches quietStream emptyMaze (fun _ _ _ h => nomatch h) 0 0
      defaultroom 4 ()).2.2.1⟩

end Dungeon
